import Mathlib

/-!
# MaximalCliques: clique enumeration and clique percolation

A shallow embedding of `cliques.cpp` (Bron–Kerbosch enumeration with the
fewest-disconnections pivot) and of `cp5.cpp` (bloom-indexed clique percolation),
followed by the properties proved about them.

Conventions of the embedding
* `int32_t` vertex ids (the type `V` of `cliques.cpp`) and component ids are `Int`;
  sizes, clique ids and branch ids (all used as indices by the code) are `Nat`.
* A failing `assert` aborts the run: it is the error `Err.assertion file line`,
  `line` being the line of the `assert` in the source file.
* `vector::at` is `getD`: in the theorems that state a result the index is in range.
  The exceptions of `at` in `write_all_communities_for_this_k` and of `resize` in the
  constructor of `assigned_branches_t` are errors of their own.
* Recursion that the code does on the native stack is given a fuel argument; running
  out of fuel is the separate error `Err.fuel`, and the lemmas show that the fuel the
  callers pass is never exhausted. The one exception is the loop on `power_up`, which
  for more than `2^30` cliques does not end in the code either.
-/

namespace MaximalCliques

/-! ## Errors -/

/-- The source files that contain assertions. -/
inductive Src where
  | cliques_cpp
  | cp5_cpp
  | components_hpp
  deriving DecidableEq, Repr

/-- The ways in which a run can stop early. -/
inductive Err where
  /-- An `assert` of the given file and line failed. -/
  | assertion (file : Src) (line : Nat)
  /-- The exception `std::invalid_argument` thrown by `findCliques`. -/
  | invalid_argument
  /-- The exception `SelfLoopsNotSupportedException` thrown by `findCliques`. -/
  | SelfLoopsNotSupportedException
  /-- The exception `too_many_cliques_exception`. -/
  | too_many_cliques_exception
  /-- The exception `std::out_of_range` thrown by `vector::at`. -/
  | out_of_range
  /-- The exception `std::length_error` thrown by `vector::resize`. -/
  | length_error
  /-- The embedding ran out of recursion fuel (no counterpart in the code). -/
  | fuel
  deriving DecidableEq, Repr

/-! ## Sorted sequences -/

/-- Inner loop of `set_intersection`: the head `a` of the first range is compared
with the elements of the second range. -/
def set_intersection_aux (a : Int) (k : List Int → List Int) : List Int → List Int
  | [] => []
  | b :: bs =>
    if a < b then k (b :: bs)
    else if b < a then set_intersection_aux a k bs
    else a :: k bs

/-- The algorithm `std::set_intersection` on two ranges: a merge that keeps the
elements of the first range that it meets in the second. -/
def set_intersection : List Int → List Int → List Int
  | [], _ => []
  | a :: as, bs => set_intersection_aux a (set_intersection as) bs

/-- The call `Not.insert(lower_bound(Not.begin(), Not.end(), v), v)`: on an ascending
list `lower_bound` is the position of the first element that is not less than `v`. -/
def insert_at_lower_bound (v : Int) : List Int → List Int
  | [] => [v]
  | b :: l => if b < v then b :: insert_at_lower_bound v l else v :: b :: l

/-- The contents of a `std::set<int32_t>` built from a range, in iteration order:
ascending and without repetition. -/
def std_set (l : List Int) : List Int :=
  (l.insertionSort (· ≤ ·)).dedup

/-! ## The graph interface -/

/-- Modelled from the spec: `graph::VerySimpleGraphInterface` (`graph/network.hpp` is
not among the sources). The spec gives the graph as an immutable adjacency with
`neighbors(v)` a sorted sequence, a degree and a vertex count; the code also reads
the relationships `EndPoints(r)` for `r < numRels()`. -/
structure VerySimpleGraphInterface where
  /-- The neighbour list of every vertex `0 .. numNodes - 1`. -/
  neighbours : List (List Int)
  /-- The end points of every relationship `0 .. numRels - 1`. -/
  rels : List (Int × Int)

/-- The type `SimpleIntGraph` of `cliques.hpp`. -/
abbrev SimpleIntGraph := VerySimpleGraphInterface

/-- Modelled from the spec: `numNodes()`, the vertex count. -/
def numNodes (g : SimpleIntGraph) : Nat := g.neighbours.length

/-- Modelled from the spec: `numRels()`, the edge count. -/
def numRels (g : SimpleIntGraph) : Nat := g.rels.length

/-- Modelled from the spec: `EndPoints(r)`, the pair stored for relationship `r`. -/
def EndPoints (g : SimpleIntGraph) (r : Nat) : Int × Int := g.rels.getD r (0, 0)

/-- Modelled from the spec: `neighbouring_nodes_in_order(v)`, the sorted neighbour
sequence of `v`; a vertex outside `[0, numNodes)` has no neighbour. -/
def neighbouring_nodes_in_order (g : SimpleIntGraph) (v : Int) : List Int :=
  if 0 ≤ v then g.neighbours.getD v.toNat [] else []

/-- Modelled from the spec: `degree(v)`, the number of neighbours of `v`. -/
def degree (g : SimpleIntGraph) (v : Int) : Nat := (neighbouring_nodes_in_order g v).length

/-- Modelled from the spec: `are_connected(u, v)`, a search for `v` within the
neighbours of `u` (the spec has it as a binary search, which on the sorted
neighbour sequence is membership). -/
def are_connected (g : SimpleIntGraph) (u v : Int) : Bool :=
  (neighbouring_nodes_in_order g u).contains v

/-! ## `cliques.cpp` -/

/-- The function `count_disconnections`: the size of `cands` minus the size of its
intersection with the neighbours of `v`. -/
def count_disconnections (cands : List Int) (v : Int) (g : SimpleIntGraph) : Int :=
  let v_neighs := neighbouring_nodes_in_order g v
  let intersection := set_intersection cands v_neighs
  let num_connections := intersection.length
  ((cands.length - num_connections : Nat) : Int)

/-- The three reference parameters of `find_node_with_fewest_discs`. -/
structure Fewest where
  fewestDisc : Int
  fewestDiscVertex : Int
  fewestIsInCands : Bool
  deriving DecidableEq, Repr

/-- The first loop of `find_node_with_fewest_discs`, over `Not`. The Boolean of the
result tells whether the function returned from inside the loop. -/
def fewest_over_Not (cands : List Int) (g : SimpleIntGraph) : List Int → Fewest → Fewest × Bool
  | [], s => (s, false)
  | v :: rest, s =>
    let currentDiscs := count_disconnections cands v g
    if currentDiscs < s.fewestDisc then
      let s' : Fewest := ⟨currentDiscs, v, false⟩
      if !s'.fewestIsInCands && s'.fewestDisc == 0 then (s', true)
      else fewest_over_Not cands g rest s'
    else fewest_over_Not cands g rest s

/-- The second loop of `find_node_with_fewest_discs`, over `Candidates`. -/
def fewest_over_Candidates (cands : List Int) (g : SimpleIntGraph) :
    List Int → Fewest → Fewest × Bool
  | [], s => (s, false)
  | v :: rest, s =>
    let currentDiscs := count_disconnections cands v g
    if currentDiscs < s.fewestDisc then
      let s' : Fewest := ⟨currentDiscs, v, true⟩
      if !s'.fewestIsInCands && s'.fewestDisc == 0 then (s', true)
      else fewest_over_Candidates cands g rest s'
    else fewest_over_Candidates cands g rest s

/-- The function `find_node_with_fewest_discs`; the result holds the new values of
its three reference parameters. -/
def find_node_with_fewest_discs (s : Fewest) (Not Candidates : List Int)
    (g : SimpleIntGraph) : Except Err Fewest :=
  let cands := std_set Candidates
  if Candidates.isEmpty then .error (.assertion .cliques_cpp 298) else
  match fewest_over_Not cands g Not s with
  | (s1, true) => .ok s1
  | (s1, false) =>
    match fewest_over_Candidates cands g Candidates s1 with
    | (s2, true) => .ok s2
    | (s2, false) =>
      if ¬ (s2.fewestDisc ≤ (Candidates.length : Int)) then
        .error (.assertion .cliques_cpp 322)
      else if ¬ (s2.fewestDiscVertex ≥ 0) then .error (.assertion .cliques_cpp 323)
      else .ok s2

/-- The function `tryCandidate`. `worker` is the recursive call of `cliquesWorker`;
the result is the sequence of cliques handed to the receiver during the call.
`Compsub` is passed by value here, which is what the final `pop_back` restores. -/
def tryCandidate (worker : List Int → List Int → List Int → Except Err (List (List Int)))
    (g : SimpleIntGraph) (Compsub Not Candidates : List Int) (selected : Int) :
    Except Err (List (List Int)) :=
  if Compsub.isEmpty then .error (.assertion .cliques_cpp 117) else
  let Compsub' := Compsub ++ [selected]
  let neighs_of_selected := neighbouring_nodes_in_order g selected
  let CandidatesNew_ := set_intersection Candidates neighs_of_selected
  let NotNew_ := set_intersection Not neighs_of_selected
  worker Compsub' NotNew_ CandidatesNew_

/-- The `for` loop of `cliquesWorker` over `Candidates`. The iterator `i` splits
`Candidates` into the part `before` it and the part `rest` from it on.
The result holds the cliques handed to the receiver, and `some (Candidates, Not)`
when the loop ran to its end, `none` when the function returned from inside it. -/
def cliquesWorker_loop (worker : List Int → List Int → List Int → Except Err (List (List Int)))
    (g : SimpleIntGraph) (minimumSize : Nat) (Compsub : List Int) (fewestDiscVertex : Int) :
    List Int → List Int → List Int → Int →
      Except Err (List (List Int) × Option (List Int × List Int))
  | before, [], Not, _ => .ok ([], some (before, Not))
  | before, v :: rest, Not, fewestDisc =>
    if ¬ ((before ++ v :: rest).length + Compsub.length ≥ minimumSize) then .ok ([], none)
    else if fewestDisc > 0 ∧ v ≠ fewestDiscVertex ∧ ¬ are_connected g v fewestDiscVertex then
      if ¬ ((before ++ v :: rest).length + Compsub.length ≥ minimumSize) then .ok ([], none)
      else
        match tryCandidate worker g Compsub Not (before ++ rest) v with
        | .error e => .error e
        | .ok out1 =>
          match cliquesWorker_loop worker g minimumSize Compsub fewestDiscVertex
              before rest (insert_at_lower_bound v Not) (fewestDisc - 1) with
          | .error e => .error e
          | .ok (out2, fin) => .ok (out1 ++ out2, fin)
    else
      cliquesWorker_loop worker g minimumSize Compsub fewestDiscVertex
        (before ++ [v]) rest Not fewestDisc

/-- The function `cliquesWorker`. The result is the sequence of vectors handed to
`receive_unsorted_clique` during the call, in order. -/
def cliquesWorker : Nat → SimpleIntGraph → Nat → List Int → List Int → List Int →
    Except Err (List (List Int))
  | 0, _, _, _, _, _ => .error .fuel
  | fuel + 1, g, minimumSize, Compsub, Not, Candidates =>
    if ¬ (Candidates.length + Compsub.length ≥ minimumSize) then .ok []
    else if Candidates.isEmpty then
      if Not.isEmpty ∧ Compsub.length ≥ minimumSize then .ok [Compsub] else .ok []
    else
      match find_node_with_fewest_discs ⟨2147483647, -1, false⟩ Not Candidates g with
      | .error e => .error e
      | .ok f =>
        if !f.fewestIsInCands && f.fewestDisc == 0 then .ok []
        else
          match cliquesWorker_loop (cliquesWorker fuel g minimumSize) g minimumSize Compsub
              f.fewestDiscVertex [] Candidates Not f.fewestDisc with
          | .error e => .error e
          | .ok (out, none) => .ok out
          | .ok (out, some (Candidates', Not')) =>
            if f.fewestIsInCands then
              if ¬ (Candidates'.length + Compsub.length ≥ minimumSize) then .ok out
              else
                match tryCandidate (cliquesWorker fuel g minimumSize) g Compsub Not'
                    Candidates' f.fewestDiscVertex with
                | .error e => .error e
                | .ok out2 => .ok (out ++ out2)
            else .ok out

/-- The loop of `cliquesForOneNode` over the neighbours of `v`: the ones below `v`
go to `Not`, the ones above to `Candidates`, and the neighbours must ascend. -/
def split_neighbours (v : Int) : List Int → Int → List Int → List Int →
    Except Err (List Int × List Int)
  | [], _, Not, Candidates => .ok (Not, Candidates)
  | neighbour_id :: rest, last_neighbour_id, Not, Candidates =>
    let Not' := if neighbour_id < v then Not ++ [neighbour_id] else Not
    let Candidates' := if neighbour_id > v then Candidates ++ [neighbour_id] else Candidates
    if ¬ (last_neighbour_id < neighbour_id) then .error (.assertion .cliques_cpp 105)
    else split_neighbours v rest neighbour_id Not' Candidates'

/-- The function `cliquesForOneNode`. The recursion of `cliquesWorker` is given the
fuel `Candidates.size() + 1`. -/
def cliquesForOneNode (g : SimpleIntGraph) (minimumSize : Nat) (v : Int) :
    Except Err (List (List Int)) :=
  let d := degree g v
  if d + 1 < minimumSize then .ok []
  else
    let Compsub := [v]
    match split_neighbours v (neighbouring_nodes_in_order g v) (-1) [] [] with
    | .error e => .error e
    | .ok (Not, Candidates) =>
      if ¬ (d = Not.length + Candidates.length) then .error (.assertion .cliques_cpp 110)
      else cliquesWorker (Candidates.length + 1) g minimumSize Compsub Not Candidates

/-- The receiver `CliquesToStdoutFunctor`: the clique is sorted and appended to the
output vector. -/
def receive_unsorted_clique (output_vector : List (List Int)) (new_clique : List Int) :
    List (List Int) :=
  output_vector ++ [new_clique.insertionSort (· ≤ ·)]

/-- The loop of `findCliques` over the relationships: every pair of end points must
have its first component below the second. -/
def check_end_points (g : SimpleIntGraph) : List Nat → Except Err Unit
  | [] => .ok ()
  | r :: rs =>
    let eps := EndPoints g r
    if ¬ (eps.1 < eps.2) then .error .SelfLoopsNotSupportedException
    else check_end_points g rs

/-- The loop of `findCliques` over the vertices, with the receiver
`CliquesToStdoutFunctor` whose vector is `output_vector`. The result is the vector
and, when the run stopped early, the reason. -/
def findCliques_loop (g : SimpleIntGraph) (minimumSize : Nat) :
    List Nat → List (List Int) → List (List Int) × Option Err
  | [], output_vector => (output_vector, none)
  | v :: vs, output_vector =>
    match cliquesForOneNode g minimumSize (v : Int) with
    | .error e => (output_vector, some e)
    | .ok found =>
      findCliques_loop g minimumSize vs (found.foldl receive_unsorted_clique output_vector)

/-- The function `findCliques` with the receiver `CliquesToStdoutFunctor`. -/
def findCliques (g : SimpleIntGraph) (output_vector : List (List Int)) (minimumSize : Nat) :
    List (List Int) × Option Err :=
  if ¬ (minimumSize ≥ 3) then (output_vector, some .invalid_argument)
  else
    match check_end_points g (List.range (numRels g)) with
    | .error e => (output_vector, some e)
    | .ok _ => findCliques_loop g minimumSize (List.range (numNodes g)) output_vector

/-- The function `cliquesToVector`: the vector filled by the run and, when the run
stopped early, the reason. -/
def cliquesToVector (g : SimpleIntGraph) (minimumSize : Nat) (output_vector : List (List Int)) :
    List (List Int) × Option Err :=
  if ¬ (minimumSize ≥ 3) then (output_vector, some (.assertion .cliques_cpp 266))
  else findCliques g output_vector minimumSize

/-! ## `clustering/components.hpp` -/

/-- The class `clustering::components`. The iterators `my_iterator` only serve the
constant-time removal and are left out. -/
structure components where
  /-- The number of atoms. -/
  N : Nat
  /-- The member list of every component id allocated so far. -/
  members : List (List Nat)
  /-- For every atom the id of its component, `-1` while it is in none. -/
  my_component : List Int
  deriving DecidableEq, Repr

/-- The constructor `components()`. -/
def components.empty : components := ⟨0, [], []⟩

/-- Modelled from the spec: `components::setN` (`components.cpp` is not among the
sources). The spec has a Components instance of `N` atoms whose component ids `[0, K)`
grow as empty components are minted; the comment at `cp5.cpp:369` calls the component
that the first `top_empty_component()` returns "component 0", so after `setN` no
component is allocated and no atom is in one. -/
def components.setN (_c : components) (N : Nat) : components :=
  ⟨N, [], List.replicate N (-1)⟩

/-- The first index of an empty list, the length when there is none. -/
def first_empty : List (List Nat) → Nat
  | [] => 0
  | l :: ls => if l.isEmpty then 0 else first_empty ls + 1

/-- Modelled from the spec: `components::top_empty_component`, "returns the smallest
id with an empty member list, allocating if needed". An id beyond the allocated ones
has an empty member list; `move_node` allocates it. -/
def components.top_empty_component (c : components) : Int :=
  (first_empty c.members : Nat)

/-- The list `ls` with `f` applied to entry `i`, after `ls` has been extended by empty
lists up to entry `i`. -/
def modify_allocating (f : List Nat → List Nat) : List (List Nat) → Nat → List (List Nat)
  | [], 0 => [f []]
  | [], i + 1 => [] :: modify_allocating f [] i
  | l :: ls, 0 => f l :: ls
  | l :: ls, i + 1 => l :: modify_allocating f ls i

/-- Modelled from the spec: `components::move_node(a, c)`, "removal from current list
and append to `members[c]`". -/
def components.move_node (c : components) (node_id : Nat) (destination : Int) : components :=
  let src := c.my_component.getD node_id (-1)
  let removed :=
    if 0 ≤ src then modify_allocating (fun l => l.erase node_id) c.members src.toNat
    else c.members
  { c with
    members := modify_allocating (fun l => l ++ [node_id]) removed destination.toNat
    my_component := c.my_component.set node_id destination }

/-- The function `components::my_component_id`. -/
def components.my_component_id (c : components) (n : Nat) : Except Err Int :=
  if ¬ ((0 : Int) ≤ (n : Int) ∧ n < c.N) then .error (.assertion .components_hpp 21)
  else .ok (c.my_component.getD n (-1))

/-- The function `components::get_members`. -/
def components.get_members (c : components) (component_id : Int) : Except Err (List Nat) :=
  if ¬ (component_id ≥ 0 ∧ component_id < (c.N : Int)) then
    .error (.assertion .components_hpp 25)
  else .ok (c.members.getD component_id.toNat [])

/-! ## `cp5.cpp`: the bloom filter -/

/-- The type `clique` of `cp5.cpp`: the nodes in increasing numerical order. -/
abbrev clique := List Int

/-- The class `bloom`. The length `l` of the bit array (the constant `bloom::l`) and
the hash function `h` (`std::tr1::hash<int64_t>`) are parameters. The bit array
`vector<bool> data` of `l` bits is held as the list of the positions of its set bits. -/
structure bloom where
  l : Nat
  h : Int → Nat
  data : List Nat
  occupied : Nat
  calls_to_set : Nat

/-- The constructor `bloom()`: `l` bits, all clear. -/
def bloom.create (l : Nat) (h : Int → Nat) : bloom :=
  ⟨l, h, [], 0, 0⟩

/-- The function `bloom::test`. The position `b` is below `l` whenever `l` is not
zero, so `data.at(b)` is within the array. -/
def bloom.test (bl : bloom) (a : Int) : Bool :=
  let b := bl.h a % bl.l
  bl.data.contains b

/-- The function `bloom::set`. -/
def bloom.set (bl : bloom) (a : Int) : bloom :=
  let b := bl.h a % bl.l
  let pre := bl.data.contains b
  { bl with
    calls_to_set := bl.calls_to_set + 1
    data := if pre then bl.data else b :: bl.data
    occupied := if !pre then bl.occupied + 1 else bl.occupied }

/-- The class `intersecting_clique_finder`. -/
structure intersecting_clique_finder where
  bl : bloom
  power_up : Nat

/-- The constructor `intersecting_clique_finder(p)`. -/
def intersecting_clique_finder.create (l : Nat) (h : Int → Nat) (p : Nat) :
    intersecting_clique_finder :=
  ⟨bloom.create l h, p⟩

/-- The key `(int64_t(branch_identifier) << 32) + node_id`. -/
def bloom_key (branch_identifier : Nat) (node_id : Int) : Int :=
  (branch_identifier : Int) * 4294967296 + node_id

/-- The function `intersecting_clique_finder::overlap_estimate`. -/
def intersecting_clique_finder.overlap_estimate (isf : intersecting_clique_finder)
    (new_clique : clique) (branch_identifier : Nat) : Nat :=
  new_clique.foldl
    (fun potential_overlap node_id =>
      potential_overlap + (if isf.bl.test (bloom_key branch_identifier node_id) then 1 else 0))
    0

/-- The inner loop of `add_clique_to_bloom`: the bits of one branch are set. -/
def set_branch (isf : intersecting_clique_finder) (new_clique : clique)
    (branch_identifier : Nat) : intersecting_clique_finder :=
  new_clique.foldl
    (fun s node_id => { s with bl := s.bl.set (bloom_key branch_identifier node_id) }) isf

/-- The `while` loop of `add_clique_to_bloom`, with fuel. -/
def add_clique_to_bloom_loop : Nat → intersecting_clique_finder → clique → Nat →
    intersecting_clique_finder
  | 0, isf, _, _ => isf
  | fuel + 1, isf, new_clique, branch_identifier =>
    if branch_identifier ≠ 0 then
      add_clique_to_bloom_loop fuel (set_branch isf new_clique branch_identifier) new_clique
        (branch_identifier >>> 1)
    else isf

/-- The function `intersecting_clique_finder::add_clique_to_bloom`. The loop halves a
non-negative `branch_identifier` until it is zero, which takes no more than
`branch_identifier` rounds. -/
def intersecting_clique_finder.add_clique_to_bloom (isf : intersecting_clique_finder)
    (new_clique : clique) (branch_identifier : Nat) : intersecting_clique_finder :=
  add_clique_to_bloom_loop branch_identifier isf new_clique branch_identifier

/-- The function `actual_overlap`. -/
def actual_overlap (old_clique new_clique : clique) : Nat :=
  (set_intersection old_clique new_clique).length

/-! ## `cp5.cpp`: the assigned branches -/

/-- The struct `assigned_branches_t`. -/
structure assigned_branches_t where
  power_up : Nat
  number_of_cliques : Nat
  assigned_branches : List Bool
  deriving DecidableEq, Repr

/-- The function `assigned_branches_t::mark_as_done`, with fuel for its recursion. The
result holds `marked_this_time` and the new state. -/
def mark_as_done_rec : Nat → assigned_branches_t → Nat → Except Err (Nat × assigned_branches_t)
  | 0, _, _ => .error .fuel
  | fuel + 1, ab, branch_id =>
    if ¬ ((0 : Int) ≤ (branch_id : Int) ∧ branch_id < ab.assigned_branches.length) then
      .error (.assertion .cp5_cpp 182)
    else if ab.assigned_branches.getD branch_id false = false then
      let ab1 := { ab with assigned_branches := ab.assigned_branches.set branch_id true }
      if branch_id > 1 then
        if ab1.assigned_branches.getD (branch_id ^^^ 1) false = true then
          match mark_as_done_rec fuel ab1 (branch_id >>> 1) with
          | .error e => .error e
          | .ok (marked, ab2) => .ok (1 + marked, ab2)
        else .ok (1, ab1)
      else .ok (1, ab1)
    else .ok (0, ab)

/-- The function `assigned_branches_t::mark_as_done`. Every recursive call halves
`branch_id`, so `branch_id + 1` calls are never exceeded. -/
def assigned_branches_t.mark_as_done (ab : assigned_branches_t) (branch_id : Nat) :
    Except Err (Nat × assigned_branches_t) :=
  mark_as_done_rec (branch_id + 1) ab branch_id

/-- The loop of the constructor of `assigned_branches_t` over the invalid leaves. -/
def premark_invalid : List Nat → assigned_branches_t → Nat → Except Err (Nat × assigned_branches_t)
  | [], ab, total_premarked_as_invalid => .ok (total_premarked_as_invalid, ab)
  | invalid_leaf :: rest, ab, total_premarked_as_invalid =>
    match ab.mark_as_done invalid_leaf with
    | .error e => .error e
    | .ok (marked_this_time, ab1) =>
      premark_invalid rest ab1 (total_premarked_as_invalid + marked_this_time)

/-- The constructor `assigned_branches_t(p, C)`, for `int32_t` values `p` and `C` that
are not negative. The product `2*power_up` is an `int`: when it does not fit 32 bits
it wraps to a negative value, and `resize`, which takes it as an unsigned size, throws
`std::length_error`. A sum `power_up + C` that does not fit wraps to a negative value
and stops the first call of `mark_as_done` at its assertion. -/
def assigned_branches_t.create (p C : Nat) : Except Err assigned_branches_t :=
  if 2 * p > 2147483647 then .error .length_error
  else if p + C > 2147483647 then .error (.assertion .cp5_cpp 182)
  else
    let ab : assigned_branches_t := ⟨p, C, List.replicate (2 * p) false⟩
    match premark_invalid (List.range' (p + C) (2 * p - (p + C))) ab 0 with
    | .error e => .error e
    | .ok (_, ab1) => .ok ab1

/-! ## `cp5.cpp`: the search for the neighbours of one clique -/

/-- The variables that `recursive_search` changes through its reference parameters. -/
structure SearchState where
  searches_performed : Nat
  cliques_found : List Nat
  assigned_branches : assigned_branches_t
  deriving DecidableEq, Repr

/-- The function `recursive_search`, with fuel for its recursion. The static counter
`calls_to_recursive_search` is left out. -/
def recursive_search : Nat → intersecting_clique_finder → Nat → Nat → Nat → List clique →
    components → Int → SearchState → Except Err SearchState
  | 0, _, _, _, _, _, _, _, _ => .error .fuel
  | fuel + 1, search_tree, branch_identifier, current_clique_id, t, the_cliques,
      current_percolation_level, component_to_skip, s =>
    if ¬ (s.assigned_branches.assigned_branches.getD branch_identifier false = false) then
      .error (.assertion .cp5_cpp 228)
    else
      let current_clique := the_cliques.getD current_clique_id []
      if branch_identifier ≥ search_tree.power_up then
        let leaf_clique_id := branch_identifier - search_tree.power_up
        if leaf_clique_id ≥ the_cliques.length then .ok s
        else
          match current_percolation_level.my_component_id leaf_clique_id with
          | .error e => .error e
          | .ok component_id_of_leaf =>
            if component_id_of_leaf = component_to_skip then .error (.assertion .cp5_cpp 241)
            else
              let actual := actual_overlap (the_cliques.getD leaf_clique_id []) current_clique
              if ¬ (leaf_clique_id ≠ current_clique_id) then .error (.assertion .cp5_cpp 247)
              else if ¬ (actual < current_clique.length) then .error (.assertion .cp5_cpp 248)
              else if actual ≥ t then
                match s.assigned_branches.mark_as_done branch_identifier with
                | .error e => .error e
                | .ok (_, ab) =>
                  .ok { s with
                    cliques_found := s.cliques_found ++ [leaf_clique_id]
                    assigned_branches := ab }
              else .ok s
      else
        let left_subnode_id := branch_identifier <<< 1
        if ¬ (left_subnode_id < 2147483648) then .error (.assertion .cp5_cpp 258)
        else
          let right_subnode_id := left_subnode_id + 1
          let potential_overlap_left :=
            if s.assigned_branches.assigned_branches.getD left_subnode_id false then 0
            else search_tree.overlap_estimate current_clique left_subnode_id
          let potential_overlap_right :=
            if s.assigned_branches.assigned_branches.getD right_subnode_id false then 0
            else search_tree.overlap_estimate current_clique right_subnode_id
          let s1 := { s with searches_performed := s.searches_performed + 2 }
          let after_left :=
            if potential_overlap_left ≥ t then
              recursive_search fuel search_tree left_subnode_id current_clique_id t the_cliques
                current_percolation_level component_to_skip s1
            else .ok s1
          match after_left with
          | .error e => .error e
          | .ok s2 =>
            if potential_overlap_right ≥ t then
              recursive_search fuel search_tree right_subnode_id current_clique_id t the_cliques
                current_percolation_level component_to_skip s2
            else .ok s2

/-- The function `neighbours_of_one_clique`. From the root the search descends one
level of the tree per call, so `power_up` nested calls are never exceeded. -/
def neighbours_of_one_clique (the_cliques : List clique) (current_clique_id : Nat)
    (components : components) (t : Nat) (current_component_id : Int)
    (search_tree : intersecting_clique_finder) (s : SearchState) : Except Err SearchState :=
  match components.my_component_id current_clique_id with
  | .error e => .error e
  | .ok id =>
    if ¬ (current_component_id = id) then .error (.assertion .cp5_cpp 299)
    else
      let root_node := 1
      if s.assigned_branches.assigned_branches.getD root_node false = false then
        recursive_search search_tree.power_up search_tree root_node current_clique_id t
          the_cliques components current_component_id s
      else .ok s

/-! ## `cp5.cpp`: one percolation level -/

/-- The loop of `one_k` that marks as done the leaf of every clique of at most `t`
vertices. -/
def premark_small (the_cliques : List clique) (t power_up : Nat) :
    List Nat → assigned_branches_t → Except Err assigned_branches_t
  | [], ab => .ok ab
  | c :: rest, ab =>
    let clique_size := (the_cliques.getD c []).length
    if clique_size ≤ t then
      match ab.mark_as_done (power_up + c) with
      | .error e => .error e
      | .ok (_, ab1) => premark_small the_cliques t power_up rest ab1
    else premark_small the_cliques t power_up rest ab

/-- The loop of `one_k` over `fresh_frontier_cliques_found`: every clique found is
pushed on the frontier (the head of the list is the top of the stack) and moved into
the growing component. -/
def move_in (source_component component_to_grow_into : Int) :
    List Nat → List Nat → components → Except Err (List Nat × components)
  | [], frontier_cliques, current_percolation_level =>
    .ok (frontier_cliques, current_percolation_level)
  | frontier_clique_to_be_moved_in :: rest, frontier_cliques, current_percolation_level =>
    match current_percolation_level.my_component_id frontier_clique_to_be_moved_in with
    | .error e => .error e
    | .ok id =>
      if ¬ (source_component = id) then .error (.assertion .cp5_cpp 507)
      else
        move_in source_component component_to_grow_into rest
          (frontier_clique_to_be_moved_in :: frontier_cliques)
          (current_percolation_level.move_node frontier_clique_to_be_moved_in
            component_to_grow_into)

/-- The loop `while(!frontier_cliques.empty())` of `one_k`, with fuel. -/
def grow_community (t : Nat) (the_cliques : List clique) (power_up : Nat)
    (isf : intersecting_clique_finder) (source_component component_to_grow_into : Int) :
    Nat → List Nat → components → assigned_branches_t →
      Except Err (components × assigned_branches_t)
  | 0, _, _, _ => .error .fuel
  | _ + 1, [], current_percolation_level, assigned_branches =>
    .ok (current_percolation_level, assigned_branches)
  | fuel + 1, popped_clique :: frontier_cliques, current_percolation_level,
      assigned_branches =>
    match assigned_branches.mark_as_done (power_up + popped_clique) with
    | .error e => .error e
    | .ok (_, ab1) =>
      match current_percolation_level.my_component_id popped_clique with
      | .error e => .error e
      | .ok current_component_id =>
        if ¬ (current_component_id = component_to_grow_into) then
          .error (.assertion .cp5_cpp 500)
        else
          match neighbours_of_one_clique the_cliques popped_clique current_percolation_level
              t component_to_grow_into isf ⟨0, [], ab1⟩ with
          | .error e => .error e
          | .ok s =>
            match move_in source_component component_to_grow_into s.cliques_found
                frontier_cliques current_percolation_level with
            | .error e => .error e
            | .ok (frontier2, level2) =>
              if ¬ (frontier2.length < the_cliques.length) then
                .error (.assertion .cp5_cpp 511)
              else
                grow_community t the_cliques power_up isf source_component
                  component_to_grow_into fuel frontier2 level2 s.assigned_branches

/-- The loop of `one_k` that pulls communities out of one source component, with
fuel. The assertion at line 477 repeats the loop condition. A community holds at
most `C` cliques, which bounds the rounds of the frontier loop. -/
def drain_source (t : Nat) (the_cliques : List clique) (power_up : Nat)
    (isf : intersecting_clique_finder) (source_component : Int) :
    Nat → List Int → components → assigned_branches_t →
      Except Err (List Int × components × assigned_branches_t)
  | 0, _, _, _ => .error .fuel
  | fuel + 1, found_communities, current_percolation_level, assigned_branches =>
    match current_percolation_level.get_members source_component with
    | .error e => .error e
    | .ok members =>
      match members with
      | [] => .ok (found_communities, current_percolation_level, assigned_branches)
      | seed_clique :: _ =>
        if ¬ (assigned_branches.assigned_branches.getD (power_up + seed_clique) false = false)
        then .error (.assertion .cp5_cpp 480)
        else if ¬ ((the_cliques.getD seed_clique []).length > t) then
          .error (.assertion .cp5_cpp 481)
        else
          let component_to_grow_into := current_percolation_level.top_empty_component
          match current_percolation_level.get_members component_to_grow_into with
          | .error e => .error e
          | .ok grown =>
            if ¬ (0 = grown.length) then .error (.assertion .cp5_cpp 486)
            else
              let level1 := current_percolation_level.move_node seed_clique component_to_grow_into
              match grow_community t the_cliques power_up isf source_component
                  component_to_grow_into (the_cliques.length + 1) [seed_clique] level1
                  assigned_branches with
              | .error e => .error e
              | .ok (level2, ab2) =>
                match level2.get_members component_to_grow_into with
                | .error e => .error e
                | .ok _ =>
                  drain_source t the_cliques power_up isf source_component fuel
                    (found_communities ++ [component_to_grow_into]) level2 ab2

/-- The loop of `one_k` over the source components; the list holds them in the order
in which `back()` and `pop_back()` take them. A source component holds at most `C`
cliques and every round takes one out, which bounds the rounds of `drain_source`. -/
def one_k_sources (t : Nat) (the_cliques : List clique) (power_up : Nat)
    (isf : intersecting_clique_finder) :
    List Int → List Int → components → assigned_branches_t →
      Except Err (List Int × components × assigned_branches_t)
  | [], found_communities, current_percolation_level, assigned_branches =>
    .ok (found_communities, current_percolation_level, assigned_branches)
  | source_component :: rest, found_communities, current_percolation_level,
      assigned_branches =>
    match drain_source t the_cliques power_up isf source_component (the_cliques.length + 1)
        found_communities current_percolation_level assigned_branches with
    | .error e => .error e
    | .ok (found1, level1, ab1) =>
      one_k_sources t the_cliques power_up isf rest found1 level1 ab1

/-- The function `one_k`. The result holds `found_communities` and
`current_percolation_level`, the two reference parameters. -/
def one_k (found_communities : List Int) (candidate_components : List Int)
    (current_percolation_level : components) (t : Nat) (the_cliques : List clique)
    (power_up C : Nat) (isf : intersecting_clique_finder) :
    Except Err (List Int × components) :=
  if ¬ found_communities.isEmpty then .error (.assertion .cp5_cpp 453)
  else
    match assigned_branches_t.create power_up C with
    | .error e => .error e
    | .ok ab0 =>
      match premark_small the_cliques t power_up (List.range C) ab0 with
      | .error e => .error e
      | .ok assigned_branches =>
        match one_k_sources t the_cliques power_up isf candidate_components.reverse
            found_communities current_percolation_level assigned_branches with
        | .error e => .error e
        | .ok (found, level, _) => .ok (found, level)

/-! ## `cp5.cpp`: the levels -/

/-- The node ids of a community in the order of their first insertion into the
`unordered_set` (the order in which the set is traversed is not specified). -/
def insert_nodes (node_ids_in_this_community : List Int) (one_clique : clique) : List Int :=
  one_clique.foldl (fun s node_id => if node_id ∈ s then s else s ++ [node_id])
    node_ids_in_this_community

/-- The function `write_all_communities_for_this_k`: the lines written to the file
`comm<k>`, every line as the list of its node ids. A member that is no index of
`the_cliques` makes `the_cliques.at(clique_id)` throw. -/
def write_all_communities_for_this_k (current_percolation_level : components)
    (the_cliques : List clique) : List Int → Except Err (List (List Int))
  | [] => .ok []
  | f :: rest =>
    match current_percolation_level.get_members f with
    | .error e => .error e
    | .ok members_of_this_found_community =>
      if ¬ (∀ clique_id ∈ members_of_this_found_community, clique_id < the_cliques.length) then
        .error .out_of_range
      else
        let node_ids_in_this_community :=
          members_of_this_found_community.foldl
            (fun s clique_id => insert_nodes s (the_cliques.getD clique_id [])) []
        match write_all_communities_for_this_k current_percolation_level the_cliques rest with
        | .error e => .error e
        | .ok lines => .ok (node_ids_in_this_community :: lines)

/-- A 32-bit signed value after an overflowing operation. -/
def int32_wrap (x : Int) : Int := (x + 2147483648) % 4294967296 - 2147483648

/-- The loop `while(power_up < C) power_up <<= 1` on `int32_t`, with fuel. -/
def power_up_loop : Nat → Int → Int → Except Err Int
  | 0, _, _ => .error .fuel
  | fuel + 1, power_up, C =>
    if power_up < C then power_up_loop fuel (int32_wrap (power_up * 2)) C
    else .ok power_up

/-- The loop that fills the bloom index of one level. -/
def populate (the_cliques : List clique) (t power_up : Nat) :
    List Nat → intersecting_clique_finder → intersecting_clique_finder
  | [], isf => isf
  | c :: rest, isf =>
    if (the_cliques.getD c []).length ≥ t then
      populate the_cliques t power_up rest
        (isf.add_clique_to_bloom (the_cliques.getD c []) (c + power_up))
    else populate the_cliques t power_up rest isf

/-- The loop over the members of one found community that moves the cliques of at least
`new_k` vertices into the component `new_cand` of the next level. -/
def move_big_enough (the_cliques : List clique) (new_k : Nat) (new_cand : Int) :
    List Nat → components → components
  | [], new_percolation_level => new_percolation_level
  | clique_id :: rest, new_percolation_level =>
    if (the_cliques.getD clique_id []).length ≥ new_k then
      move_big_enough the_cliques new_k new_cand rest
        (new_percolation_level.move_node clique_id new_cand)
    else move_big_enough the_cliques new_k new_cand rest new_percolation_level

/-- The loop over `found_communities` that builds the source components of the next
level. -/
def next_sources (the_cliques : List clique) (new_k : Nat)
    (current_percolation_level : components) :
    List Int → List Int → components → Except Err (List Int × components)
  | [], source_components, new_percolation_level =>
    .ok (source_components, new_percolation_level)
  | f :: rest, source_components, new_percolation_level =>
    let new_cand := new_percolation_level.top_empty_component
    match current_percolation_level.get_members f with
    | .error e => .error e
    | .ok members_of_this_found_community =>
      let new_level1 :=
        move_big_enough the_cliques new_k new_cand members_of_this_found_community
          new_percolation_level
      if new_cand = new_level1.top_empty_component then
        next_sources the_cliques new_k current_percolation_level rest source_components
          new_level1
      else
        next_sources the_cliques new_k current_percolation_level rest
          (source_components ++ [new_cand]) new_level1

/-- What one round of the loop over `k` leaves behind: the communities found, the
Components of the level, and the lines written to `comm<k>`. -/
structure Level where
  k : Nat
  found_communities : List Int
  current_percolation_level : components
  written : List (List Int)
  deriving DecidableEq, Repr

/-- The loop of `do_clique_percolation_variant_5b` over `k`; the list holds the values
of `k` that are still to come. The result holds the levels completed and, when the
run stopped early, the reason. -/
def percolation_levels (l : Nat) (h : Int → Nat) (the_cliques : List clique)
    (power_up C max_k : Nat) :
    List Nat → List Int → components → List Level → List Level × Option Err
  | [], _, _, completed => (completed, none)
  | k :: ks, source_components, current_percolation_level, completed =>
    let t := k - 1
    let isf := populate the_cliques t power_up (List.range C)
      (intersecting_clique_finder.create l h power_up)
    match one_k [] source_components current_percolation_level t the_cliques power_up C isf with
    | .error e => (completed, some e)
    | .ok (found_communities, level1) =>
      match write_all_communities_for_this_k level1 the_cliques found_communities with
      | .error e => (completed, some e)
      | .ok lines =>
        let completed1 := completed ++ [⟨k, found_communities, level1, lines⟩]
        let new_k := k + 1
        if new_k > max_k then (completed1, none)
        else
          let new_percolation_level := components.empty.setN C
          match next_sources the_cliques new_k level1 found_communities []
              new_percolation_level with
          | .error e => (completed1, some e)
          | .ok (source_components1, new_level1) =>
            percolation_levels l h the_cliques power_up C max_k ks source_components1
              new_level1 completed1

/-- The function `do_clique_percolation_variant_5b`, for a bloom filter of `l` bits
with the hash function `h`. Creating the output directory is left out. The 64 rounds
given to the loop on `power_up` are more than a 32-bit value can be doubled before the
loop either ends or repeats itself for ever. -/
def do_clique_percolation_variant_5b (l : Nat) (h : Int → Nat) (min_k max_k : Nat)
    (the_cliques : List clique) : List Level × Option Err :=
  if the_cliques.length > 2147483647 then ([], some .too_many_cliques_exception)
  else
    let C := the_cliques.length
    if C = 1 then ([], none)
    else if ¬ (min_k > 0 ∧ min_k ≤ max_k ∧ C > 1) then ([], some (.assertion .cp5_cpp 344))
    else
      match power_up_loop 64 1 (C : Int) with
      | .error e => ([], some e)
      | .ok power_up =>
        if ¬ (power_up > 0) then ([], some (.assertion .cp5_cpp 349))
        else
          let lowest_percolation_level := components.empty.setN C
          let first_candidate_community := lowest_percolation_level.top_empty_component
          let lowest1 := (List.range C).foldl
            (fun level c => level.move_node c first_candidate_community)
            lowest_percolation_level
          percolation_levels l h the_cliques power_up.toNat C max_k
            (List.range' min_k (max_k + 1 - min_k)) [first_candidate_community] lowest1 []

/-! ## `cp5.cpp`: `main` -/

/-- The ways in which the process ends. -/
inductive Exit where
  /-- The call `exit(status)`, or the return from `main` with the status `0`. -/
  | code (status : Nat)
  /-- An uncaught exception or a failed assertion. -/
  | terminated (e : Err)
  deriving DecidableEq, Repr

/-- What a run of `main` leaves behind: how the process ended, and the result of
`do_clique_percolation_variant_5b`, `none` when the function was never called. -/
structure Run where
  exit : Exit
  percolation : Option (List Level × Option Err)
  deriving DecidableEq, Repr

/-- The loop of `main` that stores the size of the biggest clique. -/
def max_clique_size (the_cliques : List clique) : Nat :=
  the_cliques.foldl (fun m c => if m < c.length then c.length else m) 0

/-- The function `main`. The command line parser (`cmdline.h`) and the loader
(`graph/loading.hpp`) are not among the sources: the value that `cmdline_parser`
returns, the number of inputs, the option `k` and the loaded network are parameters.
The count `C` is the size of the vector as an `int32_t`. -/
def main (l : Nat) (h : Int → Nat) (parser_result : Int) (inputs_num : Nat) (k_arg : Int)
    (network : SimpleIntGraph) : Run :=
  if parser_result ≠ 0 then ⟨.code 1, none⟩
  else if inputs_num ≠ 2 ∨ k_arg < 3 then ⟨.code 1, none⟩
  else
    let min_k := k_arg.toNat
    match cliquesToVector network min_k [] with
    | (_, some e) => ⟨.terminated e, none⟩
    | (the_cliques, none) =>
      let C := int32_wrap (the_cliques.length : Int)
      if C = 0 then ⟨.code 1, none⟩
      else
        let biggest := max_clique_size the_cliques
        if ¬ (biggest > 0) then ⟨.terminated (.assertion .cp5_cpp 108), none⟩
        else
          match do_clique_percolation_variant_5b l h min_k biggest the_cliques with
          | (levels, some e) => ⟨.terminated e, some (levels, some e)⟩
          | (levels, none) => ⟨.code 0, some (levels, none)⟩

/-! ## Notions used to state the properties of the enumeration -/

/-- Vertex `v` is in the neighbour sequence of `u`. -/
def adjacent (g : SimpleIntGraph) (u v : Int) : Prop :=
  v ∈ neighbouring_nodes_in_order g u

instance (g : SimpleIntGraph) (u v : Int) : Decidable (adjacent g u v) := by
  unfold adjacent; infer_instance

/-- The Graph invariants: the vertex ids fit `int32_t`, every neighbour list is
strictly ascending, adjacency is symmetric and without self-loop, and every
relationship is stored with its first end point below the second. -/
def GraphInvariants (g : SimpleIntGraph) : Prop :=
  numNodes g ≤ 2147483647 ∧
  (∀ i, i < numNodes g → (neighbouring_nodes_in_order g (i : Int)).Sorted (· < ·)) ∧
  (∀ i, i < numNodes g → ∀ u ∈ neighbouring_nodes_in_order g (i : Int),
    (i : Int) ∈ neighbouring_nodes_in_order g u ∧ u ≠ (i : Int)) ∧
  (∀ r, r < numRels g → (EndPoints g r).1 < (EndPoints g r).2)

instance (g : SimpleIntGraph) : Decidable (GraphInvariants g) := by
  unfold GraphInvariants; infer_instance

/-- The vertices of `K` are pairwise adjacent. -/
def IsClique (g : SimpleIntGraph) (K : List Int) : Prop :=
  ∀ u ∈ K, ∀ v ∈ K, u ≠ v → adjacent g u v

/-- The list `K` holds vertices of `g` that are pairwise adjacent, and no vertex of
`g` outside `K` is adjacent to all of them. -/
def IsMaximalClique (g : SimpleIntGraph) (K : List Int) : Prop :=
  (∀ v ∈ K, 0 ≤ v ∧ v < (numNodes g : Int)) ∧ IsClique g K ∧
  ∀ w : Nat, w < numNodes g → (w : Int) ∉ K → ¬ ∀ u ∈ K, adjacent g (w : Int) u

instance (g : SimpleIntGraph) (K : List Int) : Decidable (IsClique g K) := by
  unfold IsClique; infer_instance

instance (g : SimpleIntGraph) (K : List Int) : Decidable (IsMaximalClique g K) := by
  unfold IsMaximalClique; infer_instance

/-- Two lists hold the same vertex set. -/
def SameVertexSet (a b : List Int) : Prop := ∀ x, x ∈ a ↔ x ∈ b

/-- No vertex of `U` is adjacent to every vertex of `S`: within `U` the clique `S`
cannot be extended. -/
def NotExtendable (g : SimpleIntGraph) (U S : List Int) : Prop :=
  ∀ w ∈ U, ¬ ∀ s ∈ S, adjacent g w s

/-- What the loop of `findCliques` over the vertices `vs` appends to the vector of the
receiver when no call fails: the sorted cliques of every call, in order. -/
def deliveries (g : SimpleIntGraph) (minimumSize : Nat) : List Nat → List (List Int)
  | [] => []
  | v :: vs =>
    (match cliquesForOneNode g minimumSize (v : Int) with
      | .ok found => found.map (fun K => K.insertionSort (· ≤ ·))
      | .error _ => [])
    ++ deliveries g minimumSize vs

/-- The bow-tie graph on the vertices `0 .. 4`: the triangles `0 1 2` and `2 3 4`. -/
def bow_tie : SimpleIntGraph :=
  ⟨[[1, 2], [0, 2], [0, 1, 3, 4], [2, 4], [2, 3]],
   [(0, 1), (0, 2), (1, 2), (2, 3), (2, 4), (3, 4)]⟩

/-- The facts about adjacency that follow from the Graph invariants. -/
structure GoodAdjacency (g : SimpleIntGraph) : Prop where
  sorted : ∀ v : Int, (neighbouring_nodes_in_order g v).Sorted (· < ·)
  symm : ∀ u v : Int, adjacent g u v → adjacent g v u
  irrefl : ∀ v : Int, ¬ adjacent g v v
  nonneg : ∀ u v : Int, adjacent g u v → 0 ≤ v

/-- The candidate `v` is one that the loop of `cliquesWorker` branches on: it is not
the pivot `p` and is not connected to it. -/
def branches_on (g : SimpleIntGraph) (p v : Int) : Bool :=
  decide (v ≠ p) && !are_connected g v p

/-- The state in which `cliquesWorker` is entered: `R` is `Compsub`, `X` is `Not`
and `P` is `Candidates`. -/
structure WorkerPre (R X P : List Int) : Prop where
  compsub_ne : R ≠ []
  sortedP : P.Sorted (· < ·)
  sortedX : X.Sorted (· < ·)
  nonnegP : ∀ x ∈ P, (0 : Int) ≤ x
  nonnegX : ∀ x ∈ X, (0 : Int) ≤ x
  disjPX : ∀ x ∈ P, x ∉ X
  disjRP : ∀ x ∈ R, x ∉ P
  disjRX : ∀ x ∈ R, x ∉ X
  small : P.length < 2147483647

/-- The list `S` is a set of candidates that extends `Compsub` to a clique which no
vertex of `Candidates` or `Not` extends further. -/
structure Extension (g : SimpleIntGraph) (X P S : List Int) : Prop where
  nodup : S.Nodup
  sub : ∀ s ∈ S, s ∈ P
  clique : IsClique g S
  maximal : NotExtendable g (P ++ X) S

/-- What a call of `cliquesWorker` hands to the receiver. -/
structure WorkerPost (g : SimpleIntGraph) (m : Nat) (R X P : List Int)
    (out : List (List Int)) : Prop where
  sound : ∀ K ∈ out, ∃ S, K = R ++ S ∧ Extension g X P S ∧ m ≤ K.length
  complete : ∀ S, Extension g X P S → m ≤ R.length + S.length →
    ∃ K ∈ out, ∀ x, x ∈ K ↔ x ∈ R ∨ x ∈ S
  unique : out.Pairwise (fun a b => ¬ SameVertexSet a b)

/-- The recursive call `worker` behaves as `cliquesWorker` should on every state
with fewer than `n` candidates. -/
def WorkerSpec (g : SimpleIntGraph) (m : Nat)
    (worker : List Int → List Int → List Int → Except Err (List (List Int))) (n : Nat) : Prop :=
  ∀ R X P, WorkerPre R X P → P.length < n →
    ∃ out, worker R X P = .ok out ∧ WorkerPost g m R X P out

/-- The state of the loop of `cliquesWorker` when the iterator stands between
`before` and `rest`. -/
structure LoopPre (g : SimpleIntGraph) (p : Int) (R X before rest : List Int) (fd : Int)
    (n : Nat) : Prop where
  pre : WorkerPre R X (before ++ rest)
  fuel : (before ++ rest).length ≤ n
  skipped : ∀ b ∈ before, branches_on g p b = false
  counter : ((rest.filter (branches_on g p)).length : Int) ≤ fd

/-- What the loop of `cliquesWorker` hands to the receiver from the state
`before`, `rest`, and the state in which it ends. -/
structure LoopPost (g : SimpleIntGraph) (m : Nat) (p : Int) (R X before rest : List Int)
    (out : List (List Int)) (fin : Option (List Int × List Int)) : Prop where
  sound : ∀ K ∈ out, ∃ S, K = R ++ S ∧ Extension g X (before ++ rest) S ∧ m ≤ K.length ∧
    ∃ v ∈ S, branches_on g p v = true
  complete : ∀ S, Extension g X (before ++ rest) S → m ≤ R.length + S.length →
    (fin.isSome → ∃ v ∈ S, branches_on g p v = true) →
    ∃ K ∈ out, ∀ x, x ∈ K ↔ x ∈ R ∨ x ∈ S
  unique : out.Pairwise (fun a b => ¬ SameVertexSet a b)
  final : ∀ C N, fin = some (C, N) →
    C = before ++ rest.filter (fun v => !branches_on g p v) ∧ N.Sorted (· < ·) ∧
    ∀ x, x ∈ N ↔ x ∈ X ∨ (x ∈ rest ∧ branches_on g p x = true)

/-! ## Notions used to state the properties of the percolation -/

/-- The bit array of the filter is not empty, and the set bits are bits of the array. -/
def bloom.WellFormed (bl : bloom) : Prop := 0 < bl.l ∧ ∀ b ∈ bl.data, b < bl.l

instance (bl : bloom) : Decidable bl.WellFormed := by
  unfold bloom.WellFormed; infer_instance

/-- The state of the bloom index after the calls `add_clique_to_bloom(clique, leaf)`
for the pairs of `calls`, in order. -/
def add_all (isf : intersecting_clique_finder) (calls : List (clique × Nat)) :
    intersecting_clique_finder :=
  calls.foldl (fun s call => s.add_clique_to_bloom call.1 call.2) isf

/-- The hash function that takes a non-negative key to itself. -/
def identity_hash (a : Int) : Nat := a.toNat

/-- The branch `b` is marked as done. -/
def assigned_branches_t.done (ab : assigned_branches_t) (b : Nat) : Bool :=
  ab.assigned_branches.getD b false

/-- The node `y` of the tree is `x` or lies below `x`: halving `y` some number of times
gives `x`. -/
def below (x y : Nat) : Prop := ∃ j, y >>> j = x

/-- The state of the assigned branches over a tree with the leaves
`power_up .. 2 * power_up - 1`: one entry per node, and an internal node is marked
done only if all leaves below it are. -/
def TreeInvariant (power_up : Nat) (ab : assigned_branches_t) : Prop :=
  ab.assigned_branches.length = 2 * power_up ∧
  ∀ x, 1 ≤ x → x < power_up → ab.done x = true →
    ∀ y, power_up ≤ y → y < 2 * power_up → below x y → ab.done y = true

/-- The bloom index contains the clique `c` at the leaf `leaf`: the bit of every
vertex of `c` is set in every branch from the leaf up to the root. -/
def Contains (isf : intersecting_clique_finder) (c : clique) (leaf : Nat) : Prop :=
  ∀ x, 1 ≤ x → below x leaf → ∀ v ∈ c, isf.bl.test (bloom_key x v) = true

/-- What the search for the neighbours of the clique `q` needs of every clique `l`
whose leaf is not done: the bloom index contains it, it is not in the component to
skip, it is not `q`, and its overlap with `q` is smaller than `q`. -/
def Searchable (isf : intersecting_clique_finder) (the_cliques : List clique)
    (current_percolation_level : components) (component_to_skip : Int) (q P : Nat)
    (ab : assigned_branches_t) : Prop :=
  ∀ l, l < the_cliques.length → ab.done (P + l) = false →
    Contains isf (the_cliques.getD l []) (P + l) ∧
    current_percolation_level.my_component.getD l (-1) ≠ component_to_skip ∧
    actual_overlap (the_cliques.getD l []) (the_cliques.getD q [])
      < (the_cliques.getD q []).length ∧
    l ≠ q

/-- What a search below the branch `b` does to the state `s`: it appends the list `F`
of the cliques below `b` whose leaf was not done and whose overlap with `q` is at
least `t`, each once, marks their leaves, and keeps the tree invariant. -/
structure SearchPost (the_cliques : List clique) (q t P b : Nat) (s s' : SearchState)
    (F : List Nat) : Prop where
  found : s'.cliques_found = s.cliques_found ++ F
  nodup : F.Nodup
  mem : ∀ l, l ∈ F ↔ l < the_cliques.length ∧ below b (P + l) ∧
    s.assigned_branches.done (P + l) = false ∧
    t ≤ actual_overlap (the_cliques.getD l []) (the_cliques.getD q [])
  inv : TreeInvariant P s'.assigned_branches
  mono : ∀ x, s.assigned_branches.done x = true → s'.assigned_branches.done x = true
  marked : ∀ l ∈ F, s'.assigned_branches.done (P + l) = true
  frame : ∀ x, s'.assigned_branches.done x = true →
    s.assigned_branches.done x = true ∨ ∃ l ∈ F, below x (P + l)

/-- The component id of the atom `a`, `-1` while it is in none. -/
def components.component_of (c : components) (a : Nat) : Int :=
  c.my_component.getD a (-1)

/-- The member list of the component `id`. -/
def components.members_of (c : components) (id : Int) : List Nat :=
  c.members.getD id.toNat []

/-- The invariants of Components: `members[c]` holds exactly the atoms whose
`component_of` is `c`, each once. -/
structure components.WellFormed (c : components) : Prop where
  size : c.my_component.length = c.N
  mem_iff : ∀ (id : Int) (a : Nat), 0 ≤ id → (a ∈ c.members_of id ↔ a < c.N ∧ c.component_of a = id)
  nodup : ∀ id : Int, (c.members_of id).Nodup

/-- The overlap of the cliques `a` and `b` of the list, as `recursive_search` computes
it for the leaf `a` and the query `b`. -/
def overlap_of (the_cliques : List clique) (a b : Nat) : Nat :=
  actual_overlap (the_cliques.getD a []) (the_cliques.getD b [])

/-- The clique list holds distinct maximal cliques: every clique is strictly ascending
and no clique contains all vertices of another. -/
def DistinctMaximal (the_cliques : List clique) : Prop :=
  (∀ l, l < the_cliques.length → (the_cliques.getD l []).Sorted (· < ·)) ∧
  ∀ i, i < the_cliques.length → ∀ j, j < the_cliques.length → i ≠ j →
    ¬ ∀ v ∈ the_cliques.getD j [], v ∈ the_cliques.getD i []

instance (the_cliques : List clique) : Decidable (DistinctMaximal the_cliques) := by
  unfold DistinctMaximal; infer_instance

/-- What does not change during one level: the cliques, the threshold `t`, the tree of
`2P` branches, whose size fits 32 bits, and the bloom index, which contains every
clique of at least `t` vertices. -/
structure LevelSetting (the_cliques : List clique) (t P : Nat)
    (isf : intersecting_clique_finder) : Prop where
  cliques : DistinctMaximal the_cliques
  t_pos : 1 ≤ t
  P_pos : 1 ≤ P
  P_le : 2 * P ≤ 2147483647
  C_le : the_cliques.length ≤ P
  isf_P : isf.power_up = P
  contains : ∀ l, l < the_cliques.length → t ≤ (the_cliques.getD l []).length →
    Contains isf (the_cliques.getD l []) (P + l)

/-- The state of `one_k` between two communities. `orig` is the component of every
clique on entry, `S0` the source components on entry, `srcs` the source components
that are still to be emptied (the head is the current one), `found` the communities
found so far. -/
structure OneKInv (the_cliques : List clique) (t P : Nat) (orig : Nat → Int)
    (S0 srcs found : List Int) (level : components) (ab : assigned_branches_t) : Prop where
  wf : level.WellFormed
  N_eq : level.N = the_cliques.length
  tree : TreeInvariant P ab
  free : ∀ l, l < the_cliques.length → ab.done (P + l) = false →
    level.component_of l ∈ srcs
  src_free : ∀ l, l < the_cliques.length → level.component_of l ∈ srcs →
    ab.done (P + l) = false ∨ (the_cliques.getD l []).length ≤ t
  big : ∀ l, l < the_cliques.length → ab.done (P + l) = false →
    t < (the_cliques.getD l []).length
  src_orig : ∀ l, l < the_cliques.length → level.component_of l ∈ srcs →
    level.component_of l = orig l
  src_sub : ∀ s ∈ srcs, s ∈ S0 ∧ 0 ≤ s
  src_nodup : srcs.Nodup
  src_nonempty : ∀ s ∈ srcs.tail, level.members_of s ≠ []
  found_disj : ∀ f ∈ found, f ∉ srcs ∧ 0 ≤ f ∧ level.members_of f ≠ []
  found_nodup : found.Nodup
  found_orig : ∀ f ∈ found, ∃ s ∈ S0, ∀ l, l < the_cliques.length →
    level.component_of l = f → orig l = s
  placed : ∀ l, l < the_cliques.length → orig l ∈ S0 →
    level.component_of l ∈ srcs ∨ level.component_of l ∈ found
  closed_free : ∀ a, a < the_cliques.length → ∀ b, b < the_cliques.length →
    level.component_of a ∈ found → level.component_of b ∈ srcs →
    overlap_of the_cliques b a < t
  closed_found : ∀ a, a < the_cliques.length → ∀ b, b < the_cliques.length →
    level.component_of a ∈ found → level.component_of b ∈ found →
    level.component_of a ≠ level.component_of b → overlap_of the_cliques a b < t
  sep : ∀ a, a < the_cliques.length → ∀ b, b < the_cliques.length →
    orig a ∈ S0 → orig b ∈ S0 → orig a ≠ orig b → overlap_of the_cliques a b < t
  frame : ∀ l, l < the_cliques.length →
    level.component_of l = orig l ∨ level.component_of l ∈ found

/-- The state of `one_k` while the community `d` grows out of the source component
`cur` from the clique `seed`; `level0` and `ab0` are the state in which the growth
started, `F` is the frontier. -/
structure GrowInv (the_cliques : List clique) (t P : Nat) (cur : Int) (rest : List Int)
    (d : Int) (seed : Nat) (level0 : components) (ab0 : assigned_branches_t) (F : List Nat)
    (level : components) (ab : assigned_branches_t) : Prop where
  wf : level.WellFormed
  N_eq : level.N = the_cliques.length
  tree : TreeInvariant P ab
  F_nodup : F.Nodup
  F_mem : ∀ l ∈ F, l < the_cliques.length ∧ level.component_of l = d
  seeded : seed < the_cliques.length ∧ level.component_of seed = d
  d_done : ∀ l, l < the_cliques.length → level.component_of l = d →
    ab.done (P + l) = false → F = [l]
  free : ∀ l, l < the_cliques.length → ab.done (P + l) = false →
    level.component_of l ∈ cur :: rest ∨ level.component_of l = d
  src_free : ∀ l, l < the_cliques.length → level.component_of l ∈ cur :: rest →
    ab.done (P + l) = false ∨ (the_cliques.getD l []).length ≤ t
  big : ∀ l, l < the_cliques.length → ab.done (P + l) = false →
    t < (the_cliques.getD l []).length
  frame : ∀ l, l < the_cliques.length →
    level.component_of l = level0.component_of l ∨
      (level0.component_of l = cur ∧ level.component_of l = d)
  searched : ∀ a, a < the_cliques.length → ∀ b, b < the_cliques.length →
    level.component_of a = d → a ∉ F → level.component_of b ∈ cur :: rest →
    overlap_of the_cliques b a < t
  mono : ∀ x, ab0.done x = true → ab.done x = true


/-- The state in which `one_k` is entered at the threshold `t`: the source components
are distinct and not empty, they hold every clique of more than `t` vertices, and two
cliques of different source components overlap in fewer than `t` vertices. -/
structure OneKEntry (the_cliques : List clique) (t : Nat) (candidate_components : List Int)
    (level : components) : Prop where
  wf : level.WellFormed
  N_eq : level.N = the_cliques.length
  src_nodup : candidate_components.Nodup
  src_nonempty : ∀ s ∈ candidate_components, 0 ≤ s ∧ level.members_of s ≠ []
  src_big : ∀ l, l < the_cliques.length → t < (the_cliques.getD l []).length →
    level.component_of l ∈ candidate_components
  sep : ∀ a, a < the_cliques.length → ∀ b, b < the_cliques.length →
    level.component_of a ∈ candidate_components →
    level.component_of b ∈ candidate_components →
    level.component_of a ≠ level.component_of b → overlap_of the_cliques a b < t

/-- What `one_k` returns, in terms of the Components `level0` and the source components
with which it was entered: the found communities are distinct and not empty, every
one holds cliques of a single source component, every clique of a source component
is in one of them, two cliques of different communities overlap in fewer than `t`
vertices, and a source component whose id has not become the id of a community is
empty. -/
structure OneKPost (the_cliques : List clique) (t : Nat) (candidate_components : List Int)
    (level0 : components) (found : List Int) (level : components) : Prop where
  wf : level.WellFormed
  N_eq : level.N = the_cliques.length
  found_nodup : found.Nodup
  found_nonempty : ∀ f ∈ found, 0 ≤ f ∧ level.members_of f ≠ []
  found_orig : ∀ f ∈ found, ∃ s ∈ candidate_components, ∀ l, l < the_cliques.length →
    level.component_of l = f → level0.component_of l = s
  placed : ∀ l, l < the_cliques.length → level0.component_of l ∈ candidate_components →
    level.component_of l ∈ found
  closed : ∀ a, a < the_cliques.length → ∀ b, b < the_cliques.length →
    level.component_of a ∈ found → level.component_of b ∈ found →
    level.component_of a ≠ level.component_of b → overlap_of the_cliques a b < t
  drained : ∀ s ∈ candidate_components, s ∉ found → level.members_of s = []


/-- The community `f` of the Components `level` holds a clique of at least `new_k`
vertices. -/
def has_big_enough (the_cliques : List clique) (new_k : Nat) (level : components) (f : Int) :
    Bool :=
  decide (∃ c ∈ level.members_of f, new_k ≤ (the_cliques.getD c []).length)

/-- The state of the loop that builds the Components `new_level` of the level `new_k`
out of the communities of the level before, whose Components are `level`; `seen` are
the communities already treated, `srcs` the source components collected from them,
one for every community that holds a clique of at least `new_k` vertices, in the same
order. -/
structure NextInv (the_cliques : List clique) (new_k : Nat) (level : components)
    (seen srcs : List Int) (new_level : components) : Prop where
  wf : new_level.WellFormed
  N_eq : new_level.N = the_cliques.length
  src_nodup : srcs.Nodup
  src_nonempty : ∀ s ∈ srcs, 0 ≤ s ∧ new_level.members_of s ≠ []
  in_src : ∀ l, l < the_cliques.length → 0 ≤ new_level.component_of l →
    new_level.component_of l ∈ srcs
  moved_iff : ∀ l, l < the_cliques.length →
    (0 ≤ new_level.component_of l ↔
      level.component_of l ∈ seen ∧ new_k ≤ (the_cliques.getD l []).length)
  same : ∀ a, a < the_cliques.length → ∀ b, b < the_cliques.length →
    0 ≤ new_level.component_of a → 0 ≤ new_level.component_of b →
    (new_level.component_of a = new_level.component_of b ↔
      level.component_of a = level.component_of b)
  corr : List.Forall₂
    (fun s f => ∀ c, c < the_cliques.length →
      (new_level.component_of c = s ↔
        level.component_of c = f ∧ new_k ≤ (the_cliques.getD c []).length))
    srcs (seen.filter (has_big_enough the_cliques new_k level))

/-- The communities of the level `L2` refine those of the level `L1`: the set of
cliques of each community found at `L2` is a subset of the set of cliques of one
community found at `L1`. -/
def Refines (L1 L2 : Level) : Prop :=
  ∀ f2 ∈ L2.found_communities, ∃ f1 ∈ L1.found_communities,
    ∀ c ∈ L2.current_percolation_level.members_of f2,
      c ∈ L1.current_percolation_level.members_of f1

instance (L1 L2 : Level) : Decidable (Refines L1 L2) := by
  unfold Refines; infer_instance

/-- A sequence of calls of `mark_as_done`, one for every entry of the list. -/
def mark_all : List Nat → assigned_branches_t → Except Err assigned_branches_t
  | [], ab => .ok ab
  | b :: rest, ab =>
    match ab.mark_as_done b with
    | .error e => .error e
    | .ok (_, ab1) => mark_all rest ab1

/-- The state of the assigned branches over a tree with the leaves
`power_up .. 2 * power_up - 1`: one entry per node, and an internal node is marked
done exactly when both of its children are. -/
def ChildrenInvariant (power_up : Nat) (ab : assigned_branches_t) : Prop :=
  ab.assigned_branches.length = 2 * power_up ∧
  ∀ b, 1 ≤ b → b < power_up →
    (ab.done b = true ↔ ab.done (2 * b) = true ∧ ab.done (2 * b + 1) = true)

/-! ## Example data -/

/-- The cliques of two triangles that share an edge (scenario S3 of the spec). -/
def cliques_sharing_edge : List clique := [[1, 2, 3], [2, 3, 4]]

/-- The cliques of the bow-tie (scenario S4 of the spec): two triangles that share one
vertex. -/
def cliques_bow_tie : List clique := [[1, 2, 3], [3, 4, 5]]

/-- Two cliques of four vertices, a third that overlaps the second in three vertices,
and a triangle apart. -/
def cliques_two_levels : List clique := [[0, 1, 2, 3], [1, 2, 3, 4], [7, 8, 9]]

/-- The bloom index of `cliques_sharing_edge` over a tree with the leaves 2 and 3. -/
def index_sharing_edge : intersecting_clique_finder :=
  add_all (intersecting_clique_finder.create 10000000000 identity_hash 2)
    [([1, 2, 3], 2), ([2, 3, 4], 3)]

/-- The assigned branches over the leaves 2 and 3 in which only leaf 2 is done. -/
def first_leaf_done : assigned_branches_t := ⟨2, 2, [false, false, true, false]⟩

/-- Two atoms in the one component 0. -/
def both_in_component_0 : components := ⟨2, [[0, 1]], [0, 0]⟩

/-- Two atoms: atom 0 in component 1, atom 1 in component 0. -/
def in_two_components : components := ⟨2, [[1], [0]], [1, 0]⟩


/-- The Components of `cliques_two_levels` after level 3: the cliques 0 and 1 in the
community 1, the clique 2 in the community 2. -/
def level_3_done : components := ⟨3, [[], [0, 1], [2]], [1, 1, 2]⟩

/-- The assigned branches that the constructor builds for three cliques over the
leaves 4 to 7: only the invalid leaf 7 is done. -/
def three_of_four : assigned_branches_t :=
  ⟨4, 3, [false, false, false, false, false, false, false, true]⟩

/-- Two vertices and one relationship whose end points are in the wrong order. -/
def reversed_edge : SimpleIntGraph := ⟨[[1], [0]], [(1, 0)]⟩

/-- Two vertices joined by an edge: a graph without a triangle. -/
def single_edge : SimpleIntGraph := ⟨[[1], [0]], [(0, 1)]⟩

/-- Two pairs of cliques of four vertices; the cliques of a pair share three vertices,
the pairs share none. -/
def cliques_two_pairs : List clique :=
  [[0, 1, 2, 3], [1, 2, 3, 4], [10, 11, 12, 13], [11, 12, 13, 14]]

/-- The Components of `cliques_two_pairs` after level 3, and again after level 4: the
first pair in the community 1, the second in the community 2. -/
def two_communities : components := ⟨4, [[], [0, 1], [2, 3]], [1, 1, 2, 2]⟩

/-- The Components of `cliques_two_pairs` with which level 4 starts: the first pair in
the source component 0, the second in the source component 1. -/
def two_sources : components := ⟨4, [[0, 1], [2, 3]], [0, 0, 1, 1]⟩

/-- The bloom index of `cliques_two_pairs` at the threshold 3. -/
def index_two_pairs : intersecting_clique_finder :=
  populate cliques_two_pairs 3 4 (List.range 4)
    (intersecting_clique_finder.create 10000000000 identity_hash 4)

/-! ## A graph without edges -/

/-- The graph of `n` vertices none of which has a neighbour. -/
def edgeless (n : Nat) : SimpleIntGraph := ⟨List.replicate n [], []⟩

/-- The vertices `0 .. n - 1` in ascending order. -/
def vertices_below (n : Nat) : List Int := List.map Int.ofNat (List.range n)

/-! ## The calls of `cliquesWorker`

The functions of this section are the functions of `cliques.cpp` once more, with a
record of what happens during the run added to the result: every entry to
`cliquesWorker` and every insertion into `Not`. The record is kept also when the run
stops early. -/

/-- What is recorded of the enumeration. -/
inductive WorkerEvent where
  /-- An entry to `cliquesWorker`: the number `depth` of calls of `cliquesWorker` that
  are active, the number `held` of candidates that the calling `cliquesWorker` held when
  it selected the vertex to try (`none` for the call by `cliquesForOneNode`), and the
  three working sets. -/
  | entry (depth : Nat) (held : Option Nat) (Compsub Not Candidates : List Int)
  /-- The call `Not.insert(insertHere, v)`, with `Not` as it is after the call. -/
  | inserted (v : Int) (Not : List Int)
  deriving DecidableEq, Repr

/-- The function `tryCandidate` with the record of the run; `held` is the number of
candidates that the caller held when it selected the vertex. -/
def tryCandidate_traced
    (worker : Option Nat → List Int → List Int → List Int →
      List WorkerEvent × Except Err (List (List Int)))
    (g : SimpleIntGraph) (Compsub Not Candidates : List Int) (selected : Int) (held : Nat) :
    List WorkerEvent × Except Err (List (List Int)) :=
  if Compsub.isEmpty then ([], .error (.assertion .cliques_cpp 117)) else
  let Compsub' := Compsub ++ [selected]
  let neighs_of_selected := neighbouring_nodes_in_order g selected
  let CandidatesNew_ := set_intersection Candidates neighs_of_selected
  let NotNew_ := set_intersection Not neighs_of_selected
  worker (some held) Compsub' NotNew_ CandidatesNew_

/-- The `for` loop of `cliquesWorker` with the record of the run. -/
def cliquesWorker_loop_traced
    (worker : Option Nat → List Int → List Int → List Int →
      List WorkerEvent × Except Err (List (List Int)))
    (g : SimpleIntGraph) (minimumSize : Nat) (Compsub : List Int) (fewestDiscVertex : Int) :
    List Int → List Int → List Int → Int →
      List WorkerEvent × Except Err (List (List Int) × Option (List Int × List Int))
  | before, [], Not, _ => ([], .ok ([], some (before, Not)))
  | before, v :: rest, Not, fewestDisc =>
    if ¬ ((before ++ v :: rest).length + Compsub.length ≥ minimumSize) then ([], .ok ([], none))
    else if fewestDisc > 0 ∧ v ≠ fewestDiscVertex ∧ ¬ are_connected g v fewestDiscVertex then
      if ¬ ((before ++ v :: rest).length + Compsub.length ≥ minimumSize) then
        ([], .ok ([], none))
      else
        match tryCandidate_traced worker g Compsub Not (before ++ rest) v
            (before ++ v :: rest).length with
        | (ev1, .error e) => (ev1, .error e)
        | (ev1, .ok out1) =>
          match cliquesWorker_loop_traced worker g minimumSize Compsub fewestDiscVertex
              before rest (insert_at_lower_bound v Not) (fewestDisc - 1) with
          | (ev2, .error e) =>
            (ev1 ++ .inserted v (insert_at_lower_bound v Not) :: ev2, .error e)
          | (ev2, .ok (out2, fin)) =>
            (ev1 ++ .inserted v (insert_at_lower_bound v Not) :: ev2, .ok (out1 ++ out2, fin))
    else
      cliquesWorker_loop_traced worker g minimumSize Compsub fewestDiscVertex
        (before ++ [v]) rest Not fewestDisc

/-- The function `cliquesWorker` with the record of the run; `depth` counts the calls
of `cliquesWorker` that are active, this one included. -/
def cliquesWorker_traced : Nat → SimpleIntGraph → Nat → Nat → Option Nat →
    List Int → List Int → List Int → List WorkerEvent × Except Err (List (List Int))
  | 0, _, _, depth, held, Compsub, Not, Candidates =>
    ([.entry depth held Compsub Not Candidates], .error .fuel)
  | fuel + 1, g, minimumSize, depth, held, Compsub, Not, Candidates =>
    let here := WorkerEvent.entry depth held Compsub Not Candidates
    if ¬ (Candidates.length + Compsub.length ≥ minimumSize) then ([here], .ok [])
    else if Candidates.isEmpty then
      if Not.isEmpty ∧ Compsub.length ≥ minimumSize then ([here], .ok [Compsub])
      else ([here], .ok [])
    else
      match find_node_with_fewest_discs ⟨2147483647, -1, false⟩ Not Candidates g with
      | .error e => ([here], .error e)
      | .ok f =>
        if !f.fewestIsInCands && f.fewestDisc == 0 then ([here], .ok [])
        else
          match cliquesWorker_loop_traced (cliquesWorker_traced fuel g minimumSize (depth + 1))
              g minimumSize Compsub f.fewestDiscVertex [] Candidates Not f.fewestDisc with
          | (ev, .error e) => (here :: ev, .error e)
          | (ev, .ok (out, none)) => (here :: ev, .ok out)
          | (ev, .ok (out, some (Candidates', Not'))) =>
            if f.fewestIsInCands then
              if ¬ (Candidates'.length + Compsub.length ≥ minimumSize) then
                (here :: ev, .ok out)
              else
                match tryCandidate_traced (cliquesWorker_traced fuel g minimumSize (depth + 1))
                    g Compsub Not' Candidates' f.fewestDiscVertex Candidates'.length with
                | (ev2, .error e) => (here :: ev ++ ev2, .error e)
                | (ev2, .ok out2) => (here :: ev ++ ev2, .ok (out ++ out2))
            else (here :: ev, .ok out)

/-- The function `cliquesForOneNode` with the record of the run. -/
def cliquesForOneNode_traced (g : SimpleIntGraph) (minimumSize : Nat) (v : Int) :
    List WorkerEvent × Except Err (List (List Int)) :=
  let d := degree g v
  if d + 1 < minimumSize then ([], .ok [])
  else
    let Compsub := [v]
    match split_neighbours v (neighbouring_nodes_in_order g v) (-1) [] [] with
    | .error e => ([], .error e)
    | .ok (Not, Candidates) =>
      if ¬ (d = Not.length + Candidates.length) then ([], .error (.assertion .cliques_cpp 110))
      else cliquesWorker_traced (Candidates.length + 1) g minimumSize 1 none Compsub Not
        Candidates

/-- The loop of `findCliques` over the vertices with the record of the run. -/
def findCliques_loop_traced (g : SimpleIntGraph) (minimumSize : Nat) :
    List Nat → List (List Int) → List WorkerEvent × (List (List Int) × Option Err)
  | [], output_vector => ([], (output_vector, none))
  | v :: vs, output_vector =>
    match cliquesForOneNode_traced g minimumSize (v : Int) with
    | (ev, .error e) => (ev, (output_vector, some e))
    | (ev, .ok found) =>
      match findCliques_loop_traced g minimumSize vs
          (found.foldl receive_unsorted_clique output_vector) with
      | (ev2, r) => (ev ++ ev2, r)

/-- The function `findCliques` with the record of the run. -/
def findCliques_traced (g : SimpleIntGraph) (output_vector : List (List Int))
    (minimumSize : Nat) : List WorkerEvent × (List (List Int) × Option Err) :=
  if ¬ (minimumSize ≥ 3) then ([], (output_vector, some .invalid_argument))
  else
    match check_end_points g (List.range (numRels g)) with
    | .error e => ([], (output_vector, some e))
    | .ok _ => findCliques_loop_traced g minimumSize (List.range (numNodes g)) output_vector

/-- The working-set invariant of the recursion: `Compsub` is a non-empty clique of
distinct vertices of the graph, `Not` and `Candidates` ascend strictly, the three
sets are pairwise disjoint, and every vertex of `Not` and of `Candidates` is adjacent
to every vertex of `Compsub`. -/
structure WorkingSets (g : SimpleIntGraph) (Compsub Not Candidates : List Int) : Prop where
  compsub_ne : Compsub ≠ []
  nodup : Compsub.Nodup
  clique : IsClique g Compsub
  vertices : ∀ r ∈ Compsub, 0 ≤ r ∧ r < (numNodes g : Int)
  sortedNot : Not.Sorted (· < ·)
  sortedCandidates : Candidates.Sorted (· < ·)
  disjoint_Candidates_Not : ∀ x ∈ Candidates, x ∉ Not
  disjoint_Compsub_Candidates : ∀ x ∈ Compsub, x ∉ Candidates
  disjoint_Compsub_Not : ∀ x ∈ Compsub, x ∉ Not
  adjacent_Not : ∀ x ∈ Not, ∀ r ∈ Compsub, adjacent g x r
  adjacent_Candidates : ∀ x ∈ Candidates, ∀ r ∈ Compsub, adjacent g x r

/-- What holds of a recorded event: at an entry the working-set invariant, a depth
that is the size of `Compsub`, and fewer candidates than the caller held; after an
insertion a strictly ascending `Not` that holds the inserted vertex. -/
def WorkerEvent.Good (g : SimpleIntGraph) : WorkerEvent → Prop
  | .entry depth held Compsub Not Candidates =>
    WorkingSets g Compsub Not Candidates ∧ depth = Compsub.length ∧
      ∀ n, held = some n → Candidates.length < n
  | .inserted v Not => v ∈ Not ∧ Not.Sorted (· < ·)

/-- The triangle `0 1 2` with the edge from `0` to `3`. -/
def triangle_with_tail : SimpleIntGraph :=
  ⟨[[1, 2, 3], [0, 2], [0, 1], [0]], [(0, 1), (0, 2), (0, 3), (1, 2)]⟩

/-! ## The events of a percolation level

The functions of this section are the functions of `cp5.cpp` from the frontier loop of
`one_k` upwards once more, with a record of what happens during the run added to the
result. The record is kept also when the run stops early. -/

/-- What is recorded of a percolation level. -/
inductive LevelEvent where
  /-- The call `frontier_cliques.push(clique_id)`. -/
  | pushed (clique_id : Nat)
  /-- The test of the loop `while(!get_members(source_component).empty())` of `one_k` at
  the threshold `t`, which stands between two constructions of a community, with the
  communities found so far, the Components and the assigned branches. -/
  | between (t : Nat) (source_component : Int) (found_communities : List Int)
      (current_percolation_level : components) (assigned_branches : assigned_branches_t)
  /-- A call `get_members(component_id)` by `one_k` on Components of `N` atoms. -/
  | members (component_id : Int) (N : Nat)
  deriving DecidableEq, Repr

/-- The loop of `one_k` over `fresh_frontier_cliques_found` with the record of the
run. -/
def move_in_traced (source_component component_to_grow_into : Int) :
    List Nat → List Nat → components → List LevelEvent × Except Err (List Nat × components)
  | [], frontier_cliques, current_percolation_level =>
    ([], .ok (frontier_cliques, current_percolation_level))
  | frontier_clique_to_be_moved_in :: rest, frontier_cliques, current_percolation_level =>
    match current_percolation_level.my_component_id frontier_clique_to_be_moved_in with
    | .error e => ([.pushed frontier_clique_to_be_moved_in], .error e)
    | .ok id =>
      if ¬ (source_component = id) then
        ([.pushed frontier_clique_to_be_moved_in], .error (.assertion .cp5_cpp 507))
      else
        match move_in_traced source_component component_to_grow_into rest
            (frontier_clique_to_be_moved_in :: frontier_cliques)
            (current_percolation_level.move_node frontier_clique_to_be_moved_in
              component_to_grow_into) with
        | (ev, r) => (.pushed frontier_clique_to_be_moved_in :: ev, r)

/-- The loop `while(!frontier_cliques.empty())` of `one_k` with the record of the
run. -/
def grow_community_traced (t : Nat) (the_cliques : List clique) (power_up : Nat)
    (isf : intersecting_clique_finder) (source_component component_to_grow_into : Int) :
    Nat → List Nat → components → assigned_branches_t →
      List LevelEvent × Except Err (components × assigned_branches_t)
  | 0, _, _, _ => ([], .error .fuel)
  | _ + 1, [], current_percolation_level, assigned_branches =>
    ([], .ok (current_percolation_level, assigned_branches))
  | fuel + 1, popped_clique :: frontier_cliques, current_percolation_level,
      assigned_branches =>
    match assigned_branches.mark_as_done (power_up + popped_clique) with
    | .error e => ([], .error e)
    | .ok (_, ab1) =>
      match current_percolation_level.my_component_id popped_clique with
      | .error e => ([], .error e)
      | .ok current_component_id =>
        if ¬ (current_component_id = component_to_grow_into) then
          ([], .error (.assertion .cp5_cpp 500))
        else
          match neighbours_of_one_clique the_cliques popped_clique current_percolation_level
              t component_to_grow_into isf ⟨0, [], ab1⟩ with
          | .error e => ([], .error e)
          | .ok s =>
            match move_in_traced source_component component_to_grow_into s.cliques_found
                frontier_cliques current_percolation_level with
            | (ev1, .error e) => (ev1, .error e)
            | (ev1, .ok (frontier2, level2)) =>
              if ¬ (frontier2.length < the_cliques.length) then
                (ev1, .error (.assertion .cp5_cpp 511))
              else
                match grow_community_traced t the_cliques power_up isf source_component
                    component_to_grow_into fuel frontier2 level2 s.assigned_branches with
                | (ev2, r) => (ev1 ++ ev2, r)

/-- The loop of `one_k` that pulls communities out of one source component, with the
record of the run. The assertion at line 477 and the read of the seed repeat the call
of `get_members` of the loop test, which is recorded once. -/
def drain_source_traced (t : Nat) (the_cliques : List clique) (power_up : Nat)
    (isf : intersecting_clique_finder) (source_component : Int) :
    Nat → List Int → components → assigned_branches_t →
      List LevelEvent × Except Err (List Int × components × assigned_branches_t)
  | 0, _, _, _ => ([], .error .fuel)
  | fuel + 1, found_communities, current_percolation_level, assigned_branches =>
    let ev0 : List LevelEvent :=
      [.between t source_component found_communities current_percolation_level
          assigned_branches,
        .members source_component current_percolation_level.N]
    match current_percolation_level.get_members source_component with
    | .error e => (ev0, .error e)
    | .ok members =>
      match members with
      | [] => (ev0, .ok (found_communities, current_percolation_level, assigned_branches))
      | seed_clique :: _ =>
        if ¬ (assigned_branches.assigned_branches.getD (power_up + seed_clique) false = false)
        then (ev0, .error (.assertion .cp5_cpp 480))
        else if ¬ ((the_cliques.getD seed_clique []).length > t) then
          (ev0, .error (.assertion .cp5_cpp 481))
        else
          let component_to_grow_into := current_percolation_level.top_empty_component
          let ev1 : List LevelEvent :=
            ev0 ++ [.pushed seed_clique,
              .members component_to_grow_into current_percolation_level.N]
          match current_percolation_level.get_members component_to_grow_into with
          | .error e => (ev1, .error e)
          | .ok grown =>
            if ¬ (0 = grown.length) then (ev1, .error (.assertion .cp5_cpp 486))
            else
              let level1 := current_percolation_level.move_node seed_clique component_to_grow_into
              match grow_community_traced t the_cliques power_up isf source_component
                  component_to_grow_into (the_cliques.length + 1) [seed_clique] level1
                  assigned_branches with
              | (ev2, .error e) => (ev1 ++ ev2, .error e)
              | (ev2, .ok (level2, ab2)) =>
                match level2.get_members component_to_grow_into with
                | .error e =>
                  (ev1 ++ ev2 ++ [.members component_to_grow_into level2.N], .error e)
                | .ok _ =>
                  match drain_source_traced t the_cliques power_up isf source_component fuel
                      (found_communities ++ [component_to_grow_into]) level2 ab2 with
                  | (ev3, r) =>
                    (ev1 ++ ev2 ++ .members component_to_grow_into level2.N :: ev3, r)

/-- The loop of `one_k` over the source components with the record of the run. -/
def one_k_sources_traced (t : Nat) (the_cliques : List clique) (power_up : Nat)
    (isf : intersecting_clique_finder) :
    List Int → List Int → components → assigned_branches_t →
      List LevelEvent × Except Err (List Int × components × assigned_branches_t)
  | [], found_communities, current_percolation_level, assigned_branches =>
    ([], .ok (found_communities, current_percolation_level, assigned_branches))
  | source_component :: rest, found_communities, current_percolation_level,
      assigned_branches =>
    match drain_source_traced t the_cliques power_up isf source_component
        (the_cliques.length + 1) found_communities current_percolation_level
        assigned_branches with
    | (ev1, .error e) => (ev1, .error e)
    | (ev1, .ok (found1, level1, ab1)) =>
      match one_k_sources_traced t the_cliques power_up isf rest found1 level1 ab1 with
      | (ev2, r) => (ev1 ++ ev2, r)

/-- The function `one_k` with the record of the run. -/
def one_k_traced (found_communities : List Int) (candidate_components : List Int)
    (current_percolation_level : components) (t : Nat) (the_cliques : List clique)
    (power_up C : Nat) (isf : intersecting_clique_finder) :
    List LevelEvent × Except Err (List Int × components) :=
  if ¬ found_communities.isEmpty then ([], .error (.assertion .cp5_cpp 453))
  else
    match assigned_branches_t.create power_up C with
    | .error e => ([], .error e)
    | .ok ab0 =>
      match premark_small the_cliques t power_up (List.range C) ab0 with
      | .error e => ([], .error e)
      | .ok assigned_branches =>
        match one_k_sources_traced t the_cliques power_up isf candidate_components.reverse
            found_communities current_percolation_level assigned_branches with
        | (ev, .error e) => (ev, .error e)
        | (ev, .ok (found, level, _)) => (ev, .ok (found, level))

/-- The loop of `do_clique_percolation_variant_5b` over `k` with the record of the
calls of `one_k`. -/
def percolation_levels_traced (l : Nat) (h : Int → Nat) (the_cliques : List clique)
    (power_up C max_k : Nat) :
    List Nat → List Int → components → List Level →
      List LevelEvent × (List Level × Option Err)
  | [], _, _, completed => ([], (completed, none))
  | k :: ks, source_components, current_percolation_level, completed =>
    let t := k - 1
    let isf := populate the_cliques t power_up (List.range C)
      (intersecting_clique_finder.create l h power_up)
    match one_k_traced [] source_components current_percolation_level t the_cliques power_up
        C isf with
    | (ev, .error e) => (ev, (completed, some e))
    | (ev, .ok (found_communities, level1)) =>
      match write_all_communities_for_this_k level1 the_cliques found_communities with
      | .error e => (ev, (completed, some e))
      | .ok lines =>
        let completed1 := completed ++ [⟨k, found_communities, level1, lines⟩]
        let new_k := k + 1
        if new_k > max_k then (ev, (completed1, none))
        else
          let new_percolation_level := components.empty.setN C
          match next_sources the_cliques new_k level1 found_communities []
              new_percolation_level with
          | .error e => (ev, (completed1, some e))
          | .ok (source_components1, new_level1) =>
            match percolation_levels_traced l h the_cliques power_up C max_k ks
                source_components1 new_level1 completed1 with
            | (ev2, r) => (ev ++ ev2, r)

/-- The function `do_clique_percolation_variant_5b` with the record of the calls of
`one_k`. -/
def do_clique_percolation_variant_5b_traced (l : Nat) (h : Int → Nat) (min_k max_k : Nat)
    (the_cliques : List clique) : List LevelEvent × (List Level × Option Err) :=
  if the_cliques.length > 2147483647 then ([], ([], some .too_many_cliques_exception))
  else
    let C := the_cliques.length
    if C = 1 then ([], ([], none))
    else if ¬ (min_k > 0 ∧ min_k ≤ max_k ∧ C > 1) then
      ([], ([], some (.assertion .cp5_cpp 344)))
    else
      match power_up_loop 64 1 (C : Int) with
      | .error e => ([], ([], some e))
      | .ok power_up =>
        if ¬ (power_up > 0) then ([], ([], some (.assertion .cp5_cpp 349)))
        else
          let lowest_percolation_level := components.empty.setN C
          let first_candidate_community := lowest_percolation_level.top_empty_component
          let lowest1 := (List.range C).foldl
            (fun level c => level.move_node c first_candidate_community)
            lowest_percolation_level
          percolation_levels_traced l h the_cliques power_up.toNat C max_k
            (List.range' min_k (max_k + 1 - min_k)) [first_candidate_community] lowest1 []

/-! ## The search without the branch cut -/

/-- The search that the claim on the pruning sets against `recursive_search`: the
same function, except that it descends into every child that is not marked done,
whatever the estimate of the bloom index. The tree has the leaves
`power_up .. 2 * power_up - 1`. -/
def search_without_branch_cut : Nat → Nat → Nat → Nat → Nat → List clique →
    components → Int → SearchState → Except Err SearchState
  | 0, _, _, _, _, _, _, _, _ => .error .fuel
  | fuel + 1, power_up, branch_identifier, current_clique_id, t, the_cliques,
      current_percolation_level, component_to_skip, s =>
    if ¬ (s.assigned_branches.assigned_branches.getD branch_identifier false = false) then
      .error (.assertion .cp5_cpp 228)
    else
      let current_clique := the_cliques.getD current_clique_id []
      if branch_identifier ≥ power_up then
        let leaf_clique_id := branch_identifier - power_up
        if leaf_clique_id ≥ the_cliques.length then .ok s
        else
          match current_percolation_level.my_component_id leaf_clique_id with
          | .error e => .error e
          | .ok component_id_of_leaf =>
            if component_id_of_leaf = component_to_skip then .error (.assertion .cp5_cpp 241)
            else
              let actual := actual_overlap (the_cliques.getD leaf_clique_id []) current_clique
              if ¬ (leaf_clique_id ≠ current_clique_id) then .error (.assertion .cp5_cpp 247)
              else if ¬ (actual < current_clique.length) then .error (.assertion .cp5_cpp 248)
              else if actual ≥ t then
                match s.assigned_branches.mark_as_done branch_identifier with
                | .error e => .error e
                | .ok (_, ab) =>
                  .ok { s with
                    cliques_found := s.cliques_found ++ [leaf_clique_id]
                    assigned_branches := ab }
              else .ok s
      else
        let left_subnode_id := branch_identifier <<< 1
        if ¬ (left_subnode_id < 2147483648) then .error (.assertion .cp5_cpp 258)
        else
          let right_subnode_id := left_subnode_id + 1
          let visit_left := s.assigned_branches.assigned_branches.getD left_subnode_id false = false
          let visit_right :=
            s.assigned_branches.assigned_branches.getD right_subnode_id false = false
          let s1 := { s with searches_performed := s.searches_performed + 2 }
          let after_left :=
            if visit_left then
              search_without_branch_cut fuel power_up left_subnode_id current_clique_id t
                the_cliques current_percolation_level component_to_skip s1
            else .ok s1
          match after_left with
          | .error e => .error e
          | .ok s2 =>
            if visit_right then
              search_without_branch_cut fuel power_up right_subnode_id current_clique_id t
                the_cliques current_percolation_level component_to_skip s2
            else .ok s2

/-- The cliques of two disjoint triangles (scenario S5 of the spec). -/
def cliques_two_triangles : List clique := [[0, 1, 2], [3, 4, 5]]

/-- A triangle, and an edge that is a maximal clique of two vertices. -/
def cliques_with_an_edge : List clique := [[1, 2], [2, 3, 4], [3, 4, 5]]

/-- The cliques pushed on the frontier according to a record, in order. -/
def pushed_cliques : List LevelEvent → List Nat
  | [] => []
  | .pushed c :: ev => c :: pushed_cliques ev
  | _ :: ev => pushed_cliques ev

/-- The errors at which a search can stop. -/
def search_errors : List Err :=
  [.fuel, .assertion .cp5_cpp 228, .assertion .components_hpp 21, .assertion .cp5_cpp 241,
    .assertion .cp5_cpp 247, .assertion .cp5_cpp 248, .assertion .cp5_cpp 182,
    .assertion .cp5_cpp 258, .assertion .cp5_cpp 299]

/-- What holds between two constructions of a community: the leaf of a clique of the
list is marked done if and only if the clique has at most `t` vertices or is in a
community found at this level. `P` is the number of leaves of the tree. -/
def LevelEvent.SeedInvariant (the_cliques : List clique) (P : Nat) : LevelEvent → Prop
  | .between t _ found level ab =>
    ∀ c, c < the_cliques.length →
      (ab.done (P + c) = true ↔
        (the_cliques.getD c []).length ≤ t ∨ level.component_of c ∈ found)
  | _ => True

/-! ## Notions used to state the properties of a level for every clique list -/

/-- The state of `one_k` between two communities for any clique list and any bloom
index, in terms of the Components `level0` and the source components `srcs` with which
`one_k` was entered: the Components are well formed, the found communities are
distinct and not empty, the leaf of every clique of a found community is done, a
clique of a found community was in a source component on entry, and a clique outside
the found communities is where it was on entry. -/
structure PartInv (P : Nat) (srcs : List Int) (level0 : components) (found : List Int)
    (level : components) (ab : assigned_branches_t) : Prop where
  wf : level.WellFormed
  N_eq : level.N = level0.N
  found_nodup : found.Nodup
  found_ok : ∀ f ∈ found, 0 ≤ f ∧ level.members_of f ≠ []
  found_done : ∀ x, x < level.N → level.component_of x ∈ found → ab.done (P + x) = true
  moved : ∀ x, x < level.N → level.component_of x ∈ found →
    level0.component_of x ∈ srcs ∧ 0 ≤ level0.component_of x
  unmoved : ∀ x, x < level.N → level.component_of x ∉ found →
    level.component_of x = level0.component_of x

/-- From one state of `one_k` to a later one: the found communities stay found and
keep their cliques, and no mark is taken away. -/
structure PartStep (found : List Int) (level : components) (ab : assigned_branches_t)
    (found' : List Int) (level' : components) (ab' : assigned_branches_t) : Prop where
  N_eq : level'.N = level.N
  found_sub : ∀ f ∈ found, f ∈ found'
  keep : ∀ x, x < level.N → level.component_of x ∈ found →
    level'.component_of x = level.component_of x
  mono : ∀ x, ab.done x = true → ab'.done x = true

/-- What holds of the component ids in a recorded event of a run on Components of `C`
atoms: at a test of the loop over the communities of a source component the Components
have `C` atoms and the id of the source component is in `0 .. C - 1`; an id passed to
`get_members` on Components of `N` atoms, where `N = C`, is in `0 .. N`. -/
def LevelEvent.IdsInRange (C : Nat) : LevelEvent → Prop
  | .between _ source_component _ level _ =>
    level.N = C ∧ 0 ≤ source_component ∧ source_component < (C : Int)
  | .members component_id N => N = C ∧ 0 ≤ component_id ∧ component_id ≤ (N : Int)
  | .pushed _ => True

/-- Following the words of the claim on the percolation: an edge of the overlap graph
of the level `k` joins two cliques of the list that have at least `k` vertices each
and share at least `k - 1` vertices. -/
def overlap_edge (the_cliques : List clique) (k a b : Nat) : Prop :=
  a < the_cliques.length ∧ b < the_cliques.length ∧
    k ≤ (the_cliques.getD a []).length ∧ k ≤ (the_cliques.getD b []).length ∧
    k - 1 ≤ ((the_cliques.getD a []).filter
      (fun v => decide (v ∈ the_cliques.getD b []))).length

instance (the_cliques : List clique) (k a b : Nat) : Decidable (overlap_edge the_cliques k a b) := by
  unfold overlap_edge; infer_instance

/-- Following the words of the claim on the percolation: the cliques `a` and `b` are
joined by a path in the overlap graph of the level `k`. -/
def Joined (the_cliques : List clique) (k : Nat) : Nat → Nat → Prop :=
  Relation.ReflTransGen (overlap_edge the_cliques k)

/-- The state of `one_k` at the threshold `t` between two communities, as far as the
paths of the overlap graph go: a clique whose leaf is not done has more than `t`
vertices, and every found community holds a clique to which each of its cliques is
joined by a path. -/
def JoinedInv (the_cliques : List clique) (t P : Nat) (found : List Int) (level : components)
    (ab : assigned_branches_t) : Prop :=
  (∀ x, x < the_cliques.length → ab.done (P + x) = false →
    t < (the_cliques.getD x []).length) ∧
  ∀ f ∈ found, ∃ seed, ∀ x, x < the_cliques.length → level.component_of x = f →
    Joined the_cliques (t + 1) seed x

/-- What the claim on the percolation says of a completed level: two cliques of at
least `k` vertices are members of the same found community if and only if they are
joined by a path of the overlap graph of the level. -/
def Level.Percolated (the_cliques : List clique) (L : Level) : Prop :=
  ∀ a b, a < the_cliques.length → b < the_cliques.length →
    L.k ≤ (the_cliques.getD a []).length → L.k ≤ (the_cliques.getD b []).length →
    ((∃ f ∈ L.found_communities, a ∈ L.current_percolation_level.members_of f ∧
        b ∈ L.current_percolation_level.members_of f) ↔
      Joined the_cliques L.k a b)

/-- Following the words of the claim on the connected components: the vertex `v` is
reached from the vertex `u` along edges of `g`. -/
def Reachable (g : SimpleIntGraph) : Int → Int → Prop :=
  Relation.ReflTransGen (adjacent g)

/-- What is kept of a completed level at `k ≥ 2` for the lines written: the Components
are well formed, the lines are the ones that `write_all_communities_for_this_k` writes
for the found communities, and every found community holds a clique to which each of
its cliques is joined by a path of the overlap graph. -/
def Level.SeedJoined (the_cliques : List clique) (L : Level) : Prop :=
  2 ≤ L.k ∧ L.current_percolation_level.WellFormed ∧
    L.current_percolation_level.N = the_cliques.length ∧
    (∀ f ∈ L.found_communities, 0 ≤ f) ∧
    write_all_communities_for_this_k L.current_percolation_level the_cliques
      L.found_communities = .ok L.written ∧
    ∀ f ∈ L.found_communities, ∃ seed, ∀ x, x < the_cliques.length →
      L.current_percolation_level.component_of x = f → Joined the_cliques L.k seed x

/-- A graph whose maximal cliques of at least three vertices are the two cliques of
four vertices `0 1 2 3` and `1 2 3 4` that share three, and the triangle `5 6 7`
apart. -/
def two_levels_graph : SimpleIntGraph :=
  ⟨[[1, 2, 3], [0, 2, 3, 4], [0, 1, 3, 4], [0, 1, 2, 4], [1, 2, 3], [6, 7], [5, 7], [5, 6]],
   [(0, 1), (0, 2), (0, 3), (1, 2), (1, 3), (1, 4), (2, 3), (2, 4), (3, 4), (5, 6), (5, 7),
     (6, 7)]⟩

/-! ## Lemmas on sorted sequences -/

theorem set_intersection_nil_right (l : List Int) : set_intersection l [] = [] := by
  cases l <;> simp [set_intersection, set_intersection_aux]

theorem set_intersection_aux_eq (a : Int) (as : List Int)
    (h1 : (a :: as).Sorted (· < ·))
    (ih : ∀ bs : List Int, bs.Sorted (· < ·) →
      set_intersection as bs = as.filter (fun x => decide (x ∈ bs)))
    (bs : List Int) (h2 : bs.Sorted (· < ·)) :
    set_intersection_aux a (set_intersection as) bs
      = (a :: as).filter (fun x => decide (x ∈ bs)) := by
  have ha : ∀ x ∈ as, a < x := (List.sorted_cons.1 h1).1
  induction bs with
  | nil => simp [set_intersection_aux]
  | cons b bs ihb =>
    have hb : ∀ x ∈ bs, b < x := (List.sorted_cons.1 h2).1
    have hbs : bs.Sorted (· < ·) := (List.sorted_cons.1 h2).2
    unfold set_intersection_aux
    by_cases hab : a < b
    · rw [if_pos hab, ih _ h2]
      have : a ∉ b :: bs := by
        intro hm
        rcases List.mem_cons.1 hm with h | h
        · omega
        · have := hb a h; omega
      rw [List.filter_cons_of_neg (by simpa using this)]
    · rw [if_neg hab]
      by_cases hba : b < a
      · rw [if_pos hba, ihb hbs]
        apply List.filter_congr
        intro x hx
        have hxa : a ≤ x := by
          rcases List.mem_cons.1 hx with h | h
          · omega
          · have := ha x h; omega
        have : x ≠ b := by omega
        simp [this]
      · rw [if_neg hba]
        have hab' : a = b := by omega
        subst hab'
        rw [ih _ hbs]
        have : as.filter (fun x => decide (x ∈ bs))
            = as.filter (fun x => decide (x ∈ a :: bs)) := by
          apply List.filter_congr
          intro x hx
          have := ha x hx
          have : x ≠ a := by omega
          simp [this]
        simp [List.filter_cons, this]

/-- On strictly ascending ranges `set_intersection` keeps the elements of the first
range that occur in the second. -/
theorem set_intersection_eq_filter (l1 l2 : List Int) (h1 : l1.Sorted (· < ·))
    (h2 : l2.Sorted (· < ·)) :
    set_intersection l1 l2 = l1.filter (fun x => decide (x ∈ l2)) := by
  induction l1 generalizing l2 with
  | nil => simp [set_intersection]
  | cons a as ih =>
    unfold set_intersection
    exact set_intersection_aux_eq a as h1 (fun bs hbs => ih bs (List.sorted_cons.1 h1).2 hbs) l2 h2

theorem std_set_of_sorted (l : List Int) (h : l.Sorted (· < ·)) : std_set l = l := by
  unfold std_set
  have h' : l.Sorted (· ≤ ·) := h.imp (fun hab => le_of_lt hab)
  rw [List.Sorted.insertionSort_eq h']
  exact List.Nodup.dedup h.nodup

theorem mem_insert_at_lower_bound (v x : Int) (l : List Int) :
    x ∈ insert_at_lower_bound v l ↔ x = v ∨ x ∈ l := by
  induction l with
  | nil => simp [insert_at_lower_bound]
  | cons b l ih =>
    unfold insert_at_lower_bound
    split
    · simp [ih]; tauto
    · simp

theorem sorted_insert_at_lower_bound (v : Int) (l : List Int) (h : l.Sorted (· < ·))
    (hv : v ∉ l) : (insert_at_lower_bound v l).Sorted (· < ·) := by
  induction l with
  | nil => simp [insert_at_lower_bound]
  | cons b l ih =>
    have hb : ∀ x ∈ l, b < x := (List.sorted_cons.1 h).1
    have hl : l.Sorted (· < ·) := (List.sorted_cons.1 h).2
    have hvb : v ≠ b := fun e => hv (by simp [e])
    have hvl : v ∉ l := fun e => hv (by simp [e])
    unfold insert_at_lower_bound
    by_cases hlt : b < v
    · rw [if_pos hlt]
      refine List.sorted_cons.2 ⟨?_, ih hl hvl⟩
      intro x hx
      show b < x
      rcases (mem_insert_at_lower_bound v x l).1 hx with h1 | h1
      · rw [h1]; exact hlt
      · exact hb x h1
    · rw [if_neg hlt]
      have hvb' : v < b := by omega
      refine List.sorted_cons.2 ⟨?_, h⟩
      intro x hx
      show v < x
      rcases List.mem_cons.1 hx with h1 | h1
      · rw [h1]; exact hvb'
      · have := hb x h1; omega

/-- Two strictly ascending lists with the same members are equal. -/
theorem sorted_ext (a b : List Int) (ha : a.Sorted (· < ·)) (hb : b.Sorted (· < ·))
    (h : SameVertexSet a b) : a = b := by
  have hp : a.Perm b := (List.perm_ext_iff_of_nodup ha.nodup hb.nodup).2 h
  exact List.eq_of_perm_of_sorted hp ha hb

theorem sorted_insertionSort_of_nodup (l : List Int) (h : l.Nodup) :
    (l.insertionSort (· ≤ ·)).Sorted (· < ·) := by
  have hs : (l.insertionSort (· ≤ ·)).Sorted (· ≤ ·) := List.sorted_insertionSort _ l
  have hn : (l.insertionSort (· ≤ ·)).Nodup := (List.perm_insertionSort _ l).nodup_iff.2 h
  exact (List.Sorted.lt_of_le hs hn)

theorem mem_insertionSort (l : List Int) (x : Int) :
    x ∈ l.insertionSort (· ≤ ·) ↔ x ∈ l :=
  (List.perm_insertionSort _ l).mem_iff

theorem length_le_of_nodup_subset (S P : List Int) (hS : S.Nodup) (h : ∀ x ∈ S, x ∈ P) :
    S.length ≤ P.length :=
  (List.subperm_of_subset hS h).length_le


theorem length_le_of_nodup_subset_nat (S P : List Nat) (hS : S.Nodup) (h : ∀ x ∈ S, x ∈ P) :
    S.length ≤ P.length :=
  (List.subperm_of_subset hS h).length_le

/-! ## The graph interface under the Graph invariants -/

theorem neighbours_of_out_of_range (g : SimpleIntGraph) (v : Int)
    (h : ¬ (0 ≤ v ∧ v < (numNodes g : Int))) : neighbouring_nodes_in_order g v = [] := by
  unfold neighbouring_nodes_in_order
  by_cases h0 : 0 ≤ v
  · rw [if_pos h0]
    have : g.neighbours.length ≤ v.toNat := by
      unfold numNodes at h
      omega
    simp [List.getD_eq_getElem?_getD, List.getElem?_eq_none this]
  · rw [if_neg h0]

theorem in_range_of_adjacent (g : SimpleIntGraph) (u v : Int) (h : adjacent g u v) :
    0 ≤ u ∧ u < (numNodes g : Int) := by
  by_contra hc
  unfold adjacent at h
  rw [neighbours_of_out_of_range g u hc] at h
  simp at h

theorem GraphInvariants.good (g : SimpleIntGraph) (h : GraphInvariants g) :
    GoodAdjacency g := by
  obtain ⟨_, hs, hsym, _⟩ := h
  have key : ∀ u v : Int, adjacent g u v → adjacent g v u ∧ v ≠ u := by
    intro u v huv
    obtain ⟨h0, h1⟩ := in_range_of_adjacent g u v huv
    have hu : ((u.toNat : Nat) : Int) = u := Int.toNat_of_nonneg h0
    have hlt : u.toNat < numNodes g := by omega
    have := hsym u.toNat hlt v (by rw [hu]; exact huv)
    rw [hu] at this
    exact this
  refine ⟨?_, fun u v huv => (key u v huv).1, ?_, ?_⟩
  · intro v
    by_cases hv : 0 ≤ v ∧ v < (numNodes g : Int)
    · have hu : ((v.toNat : Nat) : Int) = v := Int.toNat_of_nonneg hv.1
      have := hs v.toNat (by omega)
      rw [hu] at this
      exact this
    · rw [neighbours_of_out_of_range g v hv]
      exact List.sorted_nil
  · intro v hv
    exact (key v v hv).2 rfl
  · intro u v huv
    exact (in_range_of_adjacent g v u (key u v huv).1).1

theorem are_connected_iff (g : SimpleIntGraph) (u v : Int) :
    are_connected g u v = true ↔ adjacent g u v := by
  unfold are_connected adjacent
  simp

theorem branches_on_iff (g : SimpleIntGraph) (p v : Int) :
    branches_on g p v = true ↔ v ≠ p ∧ ¬ adjacent g v p := by
  unfold branches_on
  simp [← are_connected_iff]

theorem branches_on_false_iff (g : SimpleIntGraph) (p v : Int) :
    branches_on g p v = false ↔ v = p ∨ adjacent g v p := by
  rw [← Bool.not_eq_true, branches_on_iff]
  tauto


theorem isMaximalClique_iff (g : SimpleIntGraph) (K : List Int) :
    IsMaximalClique g K ↔ (∀ v ∈ K, 0 ≤ v ∧ v < (numNodes g : Int)) ∧ IsClique g K ∧
      ∀ w : Int, 0 ≤ w → w < (numNodes g : Int) → w ∉ K → ¬ ∀ u ∈ K, adjacent g w u := by
  unfold IsMaximalClique
  constructor
  · rintro ⟨h1, h2, h3⟩
    refine ⟨h1, h2, ?_⟩
    intro w h0 hn hw
    have hu : ((w.toNat : Nat) : Int) = w := Int.toNat_of_nonneg h0
    have := h3 w.toNat (by omega) (by rw [hu]; exact hw)
    rw [hu] at this
    exact this
  · rintro ⟨h1, h2, h3⟩
    refine ⟨h1, h2, ?_⟩
    intro w hn hw
    exact h3 (w : Int) (by omega) (by omega) hw

/-! ## The pivot: `count_disconnections` and `find_node_with_fewest_discs` -/

theorem count_disconnections_le (cands : List Int) (v : Int) (g : SimpleIntGraph) :
    count_disconnections cands v g ≤ (cands.length : Int) := by
  unfold count_disconnections
  simp only
  omega

theorem count_disconnections_nonneg (cands : List Int) (v : Int) (g : SimpleIntGraph) :
    0 ≤ count_disconnections cands v g := by
  unfold count_disconnections
  simp only
  omega

/-- The number of disconnections of `p` bounds the number of candidates that the loop
of `cliquesWorker` branches on. -/
theorem branches_le_count_disconnections (g : SimpleIntGraph) (hg : GoodAdjacency g)
    (P : List Int) (hP : P.Sorted (· < ·)) (p : Int) :
    ((P.filter (branches_on g p)).length : Int) ≤ count_disconnections P p g := by
  unfold count_disconnections
  simp only
  rw [set_intersection_eq_filter P _ hP (hg.sorted p)]
  have h1 := List.length_eq_length_filter_add (l := P)
    (fun x => decide (x ∈ neighbouring_nodes_in_order g p))
  have h2 : (P.filter (branches_on g p)).length
      ≤ (P.filter (fun x => !decide (x ∈ neighbouring_nodes_in_order g p))).length := by
    rw [← List.countP_eq_length_filter, ← List.countP_eq_length_filter]
    apply List.countP_mono_left
    intro x _ hx
    have hx' := (branches_on_iff g p x).1 hx
    have : ¬ adjacent g p x := fun h => hx'.2 (hg.symm p x h)
    unfold adjacent at this
    simp [this]
  omega

/-- The state of the search for the pivot: nothing chosen yet, or a vertex of `Not`
or `Candidates` together with its number of disconnections. -/
theorem fewest_over_Not_spec (g : SimpleIntGraph) (cands X : List Int) :
    ∀ (l : List Int) (s : Fewest), (∀ x ∈ l, x ∈ X) →
      (s = ⟨2147483647, -1, false⟩ ∨
        (s.fewestIsInCands = false ∧ s.fewestDiscVertex ∈ X ∧
          s.fewestDisc = count_disconnections cands s.fewestDiscVertex g)) →
      let r := fewest_over_Not cands g l s
      (r.1 = ⟨2147483647, -1, false⟩ ∨
        (r.1.fewestIsInCands = false ∧ r.1.fewestDiscVertex ∈ X ∧
          r.1.fewestDisc = count_disconnections cands r.1.fewestDiscVertex g)) ∧
      (r.2 = true → r.1.fewestIsInCands = false ∧ r.1.fewestDisc = 0) := by
  intro l
  induction l with
  | nil =>
    intro s _ hs
    simp [fewest_over_Not]
    exact hs
  | cons v rest ih =>
    intro s hl hs
    have hv : v ∈ X := hl v (by simp)
    have hrest : ∀ x ∈ rest, x ∈ X := fun x hx => hl x (by simp [hx])
    simp only [fewest_over_Not]
    by_cases hlt : count_disconnections cands v g < s.fewestDisc
    · rw [if_pos hlt]
      by_cases h0 : count_disconnections cands v g = 0
      · simp [h0, hv]
      · have : ((!false && count_disconnections cands v g == 0) = true) = False := by
          simp [h0]
        simp only [this, if_false]
        exact ih _ hrest (Or.inr ⟨rfl, hv, rfl⟩)
    · rw [if_neg hlt]
      exact ih s hrest hs

theorem fewest_over_Candidates_spec (g : SimpleIntGraph) (cands X P : List Int) :
    ∀ (l : List Int) (s : Fewest), (∀ x ∈ l, x ∈ P) →
      (s = ⟨2147483647, -1, false⟩ ∨
        (s.fewestDiscVertex ∈ (if s.fewestIsInCands then P else X) ∧
          s.fewestDisc = count_disconnections cands s.fewestDiscVertex g)) →
      let r := fewest_over_Candidates cands g l s
      (r.1 = ⟨2147483647, -1, false⟩ ∨
        (r.1.fewestDiscVertex ∈ (if r.1.fewestIsInCands then P else X) ∧
          r.1.fewestDisc = count_disconnections cands r.1.fewestDiscVertex g)) ∧
      r.2 = false ∧ r.1.fewestDisc ≤ s.fewestDisc ∧
      ∀ x ∈ l, r.1.fewestDisc ≤ count_disconnections cands x g := by
  intro l
  induction l with
  | nil =>
    intro s _ hs
    simp [fewest_over_Candidates]
    exact hs
  | cons v rest ih =>
    intro s hl hs
    have hv : v ∈ P := hl v (by simp)
    have hrest : ∀ x ∈ rest, x ∈ P := fun x hx => hl x (by simp [hx])
    simp only [fewest_over_Candidates]
    by_cases hlt : count_disconnections cands v g < s.fewestDisc
    · rw [if_pos hlt]
      have : ((!true && count_disconnections cands v g == 0) = true) = False := by simp
      simp only [this, if_false]
      obtain ⟨h1, h2, h3, h4⟩ := ih ⟨count_disconnections cands v g, v, true⟩ hrest
        (Or.inr ⟨by simp [hv], rfl⟩)
      refine ⟨h1, h2, ?_, ?_⟩
      · simp only at h3; omega
      · intro x hx
        rcases List.mem_cons.1 hx with h | h
        · subst h; exact h3
        · exact h4 x h
    · rw [if_neg hlt]
      obtain ⟨h1, h2, h3, h4⟩ := ih s hrest hs
      refine ⟨h1, h2, h3, ?_⟩
      intro x hx
      rcases List.mem_cons.1 hx with h | h
      · subst h; omega
      · exact h4 x h

/-- On a non-empty ascending `Candidates` of fewer than `2^31 - 1` vertices,
`find_node_with_fewest_discs` returns a vertex of `Candidates` or of `Not`, tells
which, and returns its number of disconnections. -/
theorem find_node_with_fewest_discs_spec (g : SimpleIntGraph) (X P : List Int)
    (hP : P.Sorted (· < ·)) (hne : P ≠ []) (hsmall : P.length < 2147483647)
    (hX0 : ∀ x ∈ X, (0 : Int) ≤ x) (hP0 : ∀ x ∈ P, (0 : Int) ≤ x) :
    ∃ f, find_node_with_fewest_discs ⟨2147483647, -1, false⟩ X P g = .ok f ∧
      f.fewestDiscVertex ∈ (if f.fewestIsInCands then P else X) ∧
      f.fewestDisc = count_disconnections P f.fewestDiscVertex g := by
  unfold find_node_with_fewest_discs
  rw [std_set_of_sorted P hP]
  have hemp : P.isEmpty = false := by
    cases P with
    | nil => exact absurd rfl hne
    | cons a l => rfl
  simp only [hemp, Bool.false_eq_true, if_false]
  have hN := fewest_over_Not_spec g P X X ⟨2147483647, -1, false⟩ (fun _ h => h) (Or.inl rfl)
  simp only at hN
  obtain ⟨hN1, hN2⟩ := hN
  rcases hr : fewest_over_Not P g X ⟨2147483647, -1, false⟩ with ⟨s1, b1⟩
  rw [hr] at hN1 hN2
  simp only at hN1 hN2
  cases b1 with
  | true =>
    refine ⟨s1, rfl, ?_⟩
    rcases hN1 with h | h
    · have := (hN2 rfl).2
      rw [h] at this
      simp at this
    · simp [h.1, h.2.1, h.2.2]
  | false =>
    simp only
    have hs1 : s1 = ⟨2147483647, -1, false⟩ ∨
        (s1.fewestDiscVertex ∈ (if s1.fewestIsInCands then P else X) ∧
          s1.fewestDisc = count_disconnections P s1.fewestDiscVertex g) := by
      rcases hN1 with h | h
      · exact Or.inl h
      · exact Or.inr ⟨by simp [h.1, h.2.1], h.2.2⟩
    have hC := fewest_over_Candidates_spec g P X P P s1 (fun _ h => h) hs1
    simp only at hC
    obtain ⟨hC1, hC2, hC3, hC4⟩ := hC
    rcases hr2 : fewest_over_Candidates P g P s1 with ⟨s2, b2⟩
    rw [hr2] at hC1 hC2 hC3 hC4
    simp only at hC1 hC2 hC3 hC4
    subst hC2
    simp only
    obtain ⟨a, ha⟩ := List.exists_mem_of_ne_nil P hne
    have hle : s2.fewestDisc ≤ (P.length : Int) :=
      le_trans (hC4 a ha) (count_disconnections_le P a g)
    have hset : s2.fewestDiscVertex ∈ (if s2.fewestIsInCands then P else X) ∧
        s2.fewestDisc = count_disconnections P s2.fewestDiscVertex g := by
      rcases hC1 with h | h
      · rw [h] at hle
        simp only at hle
        omega
      · exact h
    have hv0 : (0 : Int) ≤ s2.fewestDiscVertex := by
      by_cases hc : s2.fewestIsInCands = true
      · have := hset.1; rw [if_pos hc] at this; exact hP0 _ this
      · have := hset.1; rw [if_neg hc] at this; exact hX0 _ this
    refine ⟨s2, ?_, hset⟩
    simp [hle, hv0]

/-! ## One branch of the enumeration: `tryCandidate` -/

theorem Extension.of_same_union (g : SimpleIntGraph) (X P X' P' S : List Int)
    (h : Extension g X P S) (hsub : ∀ s ∈ S, s ∈ P')
    (hU : ∀ w, w ∈ P' ++ X' → w ∈ P ++ X) : Extension g X' P' S :=
  ⟨h.nodup, hsub, h.clique, fun w hw => h.maximal w (hU w hw)⟩

theorem Extension.length_le (g : SimpleIntGraph) (X P S : List Int)
    (h : Extension g X P S) : S.length ≤ P.length :=
  length_le_of_nodup_subset S P h.nodup h.sub

/-- An extension found in the state that `tryCandidate` passes on, with the selected
vertex put in front, is an extension in the state of the caller. -/
theorem Extension.lift (g : SimpleIntGraph) (hg : GoodAdjacency g)
    (Xpar Ppar X C S' : List Int) (v : Int) (hv : v ∈ Ppar)
    (hC : ∀ x ∈ C, x ∈ Ppar)
    (hU : ∀ w, w ∈ Ppar ++ Xpar → w ≠ v → w ∈ C ++ X)
    (h : Extension g (X.filter (fun x => decide (x ∈ neighbouring_nodes_in_order g v)))
      (C.filter (fun x => decide (x ∈ neighbouring_nodes_in_order g v))) S') :
    Extension g Xpar Ppar (v :: S') := by
  have hS'N : ∀ s ∈ S', adjacent g v s := by
    intro s hs
    have := h.sub s hs
    simp only [List.mem_filter, decide_eq_true_eq] at this
    exact this.2
  have hvS' : v ∉ S' := fun hm => hg.irrefl v (hS'N v hm)
  refine ⟨List.nodup_cons.2 ⟨hvS', h.nodup⟩, ?_, ?_, ?_⟩
  · intro s hs
    rcases List.mem_cons.1 hs with h1 | h1
    · rw [h1]; exact hv
    · have := h.sub s h1
      simp only [List.mem_filter] at this
      exact hC s this.1
  · intro a ha b hb hab
    rcases List.mem_cons.1 ha with h1 | h1
    · rcases List.mem_cons.1 hb with h2 | h2
      · exact absurd (h1.trans h2.symm) hab
      · rw [h1]; exact hS'N b h2
    · rcases List.mem_cons.1 hb with h2 | h2
      · rw [h2]; exact hg.symm v a (hS'N a h1)
      · exact h.clique a h1 b h2 hab
  · intro w hw hall
    have hwv : adjacent g w v := hall v (by simp)
    have hne : w ≠ v := fun e => hg.irrefl v (by rw [e] at hwv; exact hwv)
    have hvw : adjacent g v w := hg.symm w v hwv
    have hw' := hU w hw hne
    have hmem : w ∈ C.filter (fun x => decide (x ∈ neighbouring_nodes_in_order g v))
        ++ X.filter (fun x => decide (x ∈ neighbouring_nodes_in_order g v)) := by
      rcases List.mem_append.1 hw' with h1 | h1
      · exact List.mem_append.2 (Or.inl (List.mem_filter.2 ⟨h1, by simpa using hvw⟩))
      · exact List.mem_append.2 (Or.inr (List.mem_filter.2 ⟨h1, by simpa using hvw⟩))
    exact h.maximal w hmem (fun s hs => hall s (by simp [hs]))

/-- An extension of the caller that holds the selected vertex, with that vertex
taken out, is an extension in the state that `tryCandidate` passes on. -/
theorem Extension.descend (g : SimpleIntGraph) (hg : GoodAdjacency g)
    (Xpar Ppar X C S : List Int) (v : Int) (hv : v ∈ S)
    (hC : ∀ s ∈ S, s ≠ v → s ∈ C)
    (hU : ∀ w, w ∈ C ++ X → w ∈ Ppar ++ Xpar)
    (h : Extension g Xpar Ppar S) :
    Extension g (X.filter (fun x => decide (x ∈ neighbouring_nodes_in_order g v)))
      (C.filter (fun x => decide (x ∈ neighbouring_nodes_in_order g v))) (S.erase v) := by
  have hmem : ∀ s, s ∈ S.erase v ↔ s ≠ v ∧ s ∈ S := fun s => h.nodup.mem_erase_iff
  refine ⟨h.nodup.erase v, ?_, ?_, ?_⟩
  · intro s hs
    obtain ⟨h1, h2⟩ := (hmem s).1 hs
    have : adjacent g v s := h.clique v hv s h2 (fun e => h1 e.symm)
    exact List.mem_filter.2 ⟨hC s h2 h1, by simpa using this⟩
  · intro a ha b hb hab
    exact h.clique a ((hmem a).1 ha).2 b ((hmem b).1 hb).2 hab
  · intro w hw hall
    have hw2 : w ∈ C ++ X ∧ adjacent g v w := by
      rcases List.mem_append.1 hw with h1 | h1
      · have := List.mem_filter.1 h1
        exact ⟨List.mem_append.2 (Or.inl this.1), by simpa using this.2⟩
      · have := List.mem_filter.1 h1
        exact ⟨List.mem_append.2 (Or.inr this.1), by simpa using this.2⟩
    refine h.maximal w (hU w hw2.1) ?_
    intro s hs
    by_cases hsv : s = v
    · rw [hsv]; exact hg.symm v w hw2.2
    · exact hall s ((hmem s).2 ⟨hsv, hs⟩)

/-- The state that `tryCandidate` passes on satisfies the entry condition of
`cliquesWorker`. -/
theorem WorkerPre.descend_pre (g : SimpleIntGraph) (hg : GoodAdjacency g)
    (R X C : List Int) (v : Int) (h : WorkerPre R X C) :
    WorkerPre (R ++ [v])
      (X.filter (fun x => decide (x ∈ neighbouring_nodes_in_order g v)))
      (C.filter (fun x => decide (x ∈ neighbouring_nodes_in_order g v))) := by
  have hNv : ∀ x, x ∈ neighbouring_nodes_in_order g v → x ≠ v := by
    intro x hx e
    rw [e] at hx
    exact hg.irrefl v hx
  refine ⟨by simp, h.sortedP.filter _, h.sortedX.filter _, ?_, ?_, ?_, ?_, ?_, ?_⟩
  · intro x hx; exact h.nonnegP x (List.mem_filter.1 hx).1
  · intro x hx; exact h.nonnegX x (List.mem_filter.1 hx).1
  · intro x hx hx'
    exact h.disjPX x (List.mem_filter.1 hx).1 (List.mem_filter.1 hx').1
  · intro x hx hx'
    have h2 := List.mem_filter.1 hx'
    rcases List.mem_append.1 hx with h1 | h1
    · exact h.disjRP x h1 h2.1
    · have : x = v := by simpa using h1
      exact hNv x (by simpa using h2.2) this
  · intro x hx hx'
    have h2 := List.mem_filter.1 hx'
    rcases List.mem_append.1 hx with h1 | h1
    · exact h.disjRX x h1 h2.1
    · have : x = v := by simpa using h1
      exact hNv x (by simpa using h2.2) this
  · exact lt_of_le_of_lt (List.length_filter_le _ _) h.small

/-- The call `tryCandidate` returns what the recursive call returns on the
intersections of `Not` and `Candidates` with the neighbours of the selected vertex. -/
theorem tryCandidate_eq (g : SimpleIntGraph) (hg : GoodAdjacency g)
    (worker : List Int → List Int → List Int → Except Err (List (List Int)))
    (R X C : List Int) (v : Int) (h : WorkerPre R X C) :
    tryCandidate worker g R X C v
      = worker (R ++ [v])
          (X.filter (fun x => decide (x ∈ neighbouring_nodes_in_order g v)))
          (C.filter (fun x => decide (x ∈ neighbouring_nodes_in_order g v))) := by
  unfold tryCandidate
  have hemp : R.isEmpty = false := by
    cases R with
    | nil => exact absurd rfl h.compsub_ne
    | cons a l => rfl
  simp only [hemp, Bool.false_eq_true, if_false]
  rw [set_intersection_eq_filter C _ h.sortedP (hg.sorted v),
    set_intersection_eq_filter X _ h.sortedX (hg.sorted v)]

/-! ## The loop of `cliquesWorker` -/

theorem WorkerPre.of_sublist (R X P P' : List Int) (h : WorkerPre R X P)
    (hs : P'.Sublist P) : WorkerPre R X P' :=
  ⟨h.compsub_ne, h.sortedP.sublist hs, h.sortedX,
    fun x hx => h.nonnegP x (hs.subset hx), h.nonnegX,
    fun x hx => h.disjPX x (hs.subset hx),
    fun x hx hx' => h.disjRP x hx (hs.subset hx'), h.disjRX,
    lt_of_le_of_lt hs.length_le h.small⟩

theorem not_mem_of_sorted_middle (before rest : List Int) (v : Int)
    (h : (before ++ v :: rest).Sorted (· < ·)) : v ∉ before ++ rest := by
  have hn : (before ++ v :: rest).Nodup := h.nodup
  have hp : (before ++ v :: rest).Perm (v :: (before ++ rest)) := List.perm_middle
  exact (List.nodup_cons.1 (hp.nodup_iff.1 hn)).1

theorem mem_middle_iff (before rest : List Int) (v x : Int) :
    x ∈ before ++ v :: rest ↔ x = v ∨ x ∈ before ++ rest := by
  simp only [List.mem_append, List.mem_cons]
  tauto

theorem cliquesWorker_loop_spec (g : SimpleIntGraph) (hg : GoodAdjacency g) (m n : Nat)
    (worker : List Int → List Int → List Int → Except Err (List (List Int)))
    (hw : WorkerSpec g m worker n) (R : List Int) (p : Int) :
    ∀ (rest before X : List Int) (fd : Int), LoopPre g p R X before rest fd n →
      ∃ out fin, cliquesWorker_loop worker g m R p before rest X fd = .ok (out, fin) ∧
        LoopPost g m p R X before rest out fin := by
  intro rest
  induction rest with
  | nil =>
    intro before X fd hpre
    refine ⟨[], some (before, X), by simp [cliquesWorker_loop], ?_⟩
    refine ⟨by simp, ?_, by simp, ?_⟩
    · intro S hS _ hfin
      obtain ⟨v, hv, hb⟩ := hfin rfl
      have := hpre.skipped v (by simpa using hS.sub v hv)
      rw [this] at hb
      exact absurd hb (by simp)
    · intro C N hCN
      simp only [Option.some.injEq, Prod.mk.injEq] at hCN
      obtain ⟨h1, h2⟩ := hCN
      subst h1; subst h2
      exact ⟨by simp, hpre.pre.sortedX, by simp⟩
  | cons v rest ih =>
    intro before X fd hpre
    have hsorted := hpre.pre.sortedP
    have hvnot : v ∉ before ++ rest := not_mem_of_sorted_middle before rest v hsorted
    have hsub : (before ++ rest).Sublist (before ++ v :: rest) :=
      List.Sublist.append (List.Sublist.refl before) (List.sublist_cons_self v rest)
    have hlen : (before ++ rest).length < (before ++ v :: rest).length := by simp
    simp only [cliquesWorker_loop]
    by_cases hsize : (before ++ v :: rest).length + R.length ≥ m
    · simp only [hsize, not_true_eq_false, if_false]
      by_cases hb : branches_on g p v = true
      · -- the loop branches on `v`
        have hcount : ((v :: rest).filter (branches_on g p)).length
            = (rest.filter (branches_on g p)).length + 1 := by
          rw [List.filter_cons_of_pos hb]; rfl
        have hcnt := hpre.counter
        rw [hcount] at hcnt
        have hb' := (branches_on_iff g p v).1 hb
        have hcond : fd > 0 ∧ v ≠ p ∧ ¬ are_connected g v p = true := by
          refine ⟨by push_cast at hcnt; omega, hb'.1, ?_⟩
          rw [are_connected_iff]; exact hb'.2
        rw [if_pos hcond]
        have hpre1 : WorkerPre R X (before ++ rest) := hpre.pre.of_sublist _ _ _ _ hsub
        rw [tryCandidate_eq g hg worker R X (before ++ rest) v hpre1]
        have hP'len : ((before ++ rest).filter
            (fun x => decide (x ∈ neighbouring_nodes_in_order g v))).length < n :=
          lt_of_le_of_lt (List.length_filter_le _ _) (lt_of_lt_of_le hlen hpre.fuel)
        obtain ⟨out1, ho1, hpost1⟩ := hw _ _ _ (hpre1.descend_pre g hg R X _ v) hP'len
        rw [ho1]
        simp only
        -- the state after `v` has been moved to `Not`
        have hvX : v ∉ X := hpre.pre.disjPX v (by simp)
        have hvR : v ∉ R := fun h => hpre.pre.disjRP v h (by simp)
        have hpre2 : LoopPre g p R (insert_at_lower_bound v X) before rest (fd - 1) n := by
          refine ⟨⟨hpre1.compsub_ne, hpre1.sortedP,
            sorted_insert_at_lower_bound v X hpre.pre.sortedX hvX, hpre1.nonnegP, ?_, ?_,
            hpre1.disjRP, ?_, hpre1.small⟩, le_of_lt (lt_of_lt_of_le hlen hpre.fuel),
            hpre.skipped, by push_cast at hcnt ⊢; omega⟩
          · intro x hx
            rcases (mem_insert_at_lower_bound v x X).1 hx with h | h
            · rw [h]; exact hpre.pre.nonnegP v (by simp)
            · exact hpre.pre.nonnegX x h
          · intro x hx hx'
            rcases (mem_insert_at_lower_bound v x X).1 hx' with h | h
            · rw [h] at hx; exact hvnot hx
            · exact hpre1.disjPX x hx h
          · intro x hx hx'
            rcases (mem_insert_at_lower_bound v x X).1 hx' with h | h
            · rw [h] at hx; exact hvR hx
            · exact hpre.pre.disjRX x hx h
        obtain ⟨out2, fin, ho2, hpost2⟩ := ih before (insert_at_lower_bound v X) (fd - 1) hpre2
        rw [ho2]
        refine ⟨out1 ++ out2, fin, rfl, ?_⟩
        have hUdown : ∀ w, w ∈ (before ++ v :: rest) ++ X →
            w ∈ (before ++ rest) ++ insert_at_lower_bound v X := by
          intro w hw
          simp only [List.mem_append, List.mem_cons, mem_insert_at_lower_bound] at hw ⊢
          tauto
        have hUup : ∀ w, w ∈ (before ++ rest) ++ insert_at_lower_bound v X →
            w ∈ (before ++ v :: rest) ++ X := by
          intro w hw
          simp only [List.mem_append, List.mem_cons, mem_insert_at_lower_bound] at hw ⊢
          tauto
        refine ⟨?_, ?_, ?_, ?_⟩
        · intro K hK
          rcases List.mem_append.1 hK with h1 | h2
          · obtain ⟨S', hKS, hext, hm⟩ := hpost1.sound K h1
            refine ⟨v :: S', by rw [hKS]; simp, ?_, hm, v, by simp, hb⟩
            refine Extension.lift g hg X (before ++ v :: rest) X (before ++ rest) S' v
              (by simp) (fun x hx => hsub.subset hx) ?_ hext
            intro w hw hne
            simp only [List.mem_append, List.mem_cons] at hw ⊢
            tauto
          · obtain ⟨S, hKS, hext, hm, hbr⟩ := hpost2.sound K h2
            refine ⟨S, hKS, ?_, hm, hbr⟩
            exact hext.of_same_union g _ _ _ _ S (fun s hs => hsub.subset (hext.sub s hs))
              hUdown
        · intro S hext hm hfin
          by_cases hvS : v ∈ S
          · have hext' := Extension.descend g hg X (before ++ v :: rest) X (before ++ rest)
              S v hvS ?_ ?_ hext
            · have hlenS : (R ++ [v]).length + (S.erase v).length = R.length + S.length := by
                rw [List.length_erase_of_mem hvS]
                have : 0 < S.length := List.length_pos_of_mem hvS
                simp only [List.length_append, List.length_singleton]
                omega
              obtain ⟨K, hK, hKm⟩ := hpost1.complete _ hext' (by rw [hlenS]; exact hm)
              refine ⟨K, List.mem_append.2 (Or.inl hK), ?_⟩
              intro x
              rw [hKm x, hext.nodup.mem_erase_iff]
              simp only [List.mem_append, List.mem_singleton]
              constructor
              · rintro ((h | h) | h)
                · exact Or.inl h
                · exact Or.inr (h ▸ hvS)
                · exact Or.inr h.2
              · rintro (h | h)
                · exact Or.inl (Or.inl h)
                · by_cases hxv : x = v
                  · exact Or.inl (Or.inr hxv)
                  · exact Or.inr ⟨hxv, h⟩
            · intro s hs hne
              have := hext.sub s hs
              rcases (mem_middle_iff before rest v s).1 this with h | h
              · exact absurd h hne
              · exact h
            · intro w hw
              simp only [List.mem_append, List.mem_cons] at hw ⊢
              tauto
          · have hsubS : ∀ s ∈ S, s ∈ before ++ rest := by
              intro s hs
              rcases (mem_middle_iff before rest v s).1 (hext.sub s hs) with h | h
              · rw [h] at hs; exact absurd hs hvS
              · exact h
            have hext' : Extension g (insert_at_lower_bound v X) (before ++ rest) S :=
              hext.of_same_union g _ _ _ _ S hsubS hUup
            obtain ⟨K, hK, hKm⟩ := hpost2.complete S hext' hm hfin
            exact ⟨K, List.mem_append.2 (Or.inr hK), hKm⟩
        · rw [List.pairwise_append]
          refine ⟨hpost1.unique, hpost2.unique, ?_⟩
          intro K1 hK1 K2 hK2 hsame
          obtain ⟨S1, hKS1, _, _⟩ := hpost1.sound K1 hK1
          obtain ⟨S2, hKS2, hext2, _, _⟩ := hpost2.sound K2 hK2
          have h1 : v ∈ K1 := by rw [hKS1]; simp
          have h2 : v ∈ K2 := (hsame v).1 h1
          rw [hKS2] at h2
          rcases List.mem_append.1 h2 with h | h
          · exact hvR h
          · exact hvnot (hext2.sub v h)
        · intro C N hCN
          obtain ⟨hC, hN, hmem⟩ := hpost2.final C N hCN
          refine ⟨?_, hN, ?_⟩
          · rw [hC, List.filter_cons_of_neg (by simp [hb])]
          · intro x
            rw [hmem x, mem_insert_at_lower_bound]
            simp only [List.mem_cons]
            constructor
            · rintro ((h | h) | h)
              · exact Or.inr ⟨Or.inl h, by rw [h]; exact hb⟩
              · exact Or.inl h
              · exact Or.inr ⟨Or.inr h.1, h.2⟩
            · rintro (h | ⟨h | h, h'⟩)
              · exact Or.inl (Or.inr h)
              · exact Or.inl (Or.inl h)
              · exact Or.inr ⟨h, h'⟩
      · -- the loop steps over `v`
        have hbf : branches_on g p v = false := by simpa using hb
        have hcond : ¬ (fd > 0 ∧ v ≠ p ∧ ¬ are_connected g v p = true) := by
          intro hc
          apply hb
          rw [branches_on_iff, ← are_connected_iff]
          exact ⟨hc.2.1, hc.2.2⟩
        rw [if_neg hcond]
        have hassoc : (before ++ [v]) ++ rest = before ++ v :: rest := by simp
        have hpre2 : LoopPre g p R X (before ++ [v]) rest fd n := by
          refine ⟨by rw [hassoc]; exact hpre.pre, by rw [hassoc]; exact hpre.fuel, ?_, ?_⟩
          · intro b hb'
            rcases List.mem_append.1 hb' with h | h
            · exact hpre.skipped b h
            · have : b = v := by simpa using h
              rw [this]; exact hbf
          · have := hpre.counter
            rw [List.filter_cons_of_neg (by simp [hbf])] at this
            exact this
        obtain ⟨out, fin, ho, hpost⟩ := ih (before ++ [v]) X fd hpre2
        refine ⟨out, fin, ho, ?_⟩
        refine ⟨?_, ?_, hpost.unique, ?_⟩
        · intro K hK
          have := hpost.sound K hK
          rw [hassoc] at this
          exact this
        · intro S hext hm hfin
          exact hpost.complete S (by rw [hassoc]; exact hext) hm hfin
        · intro C N hCN
          obtain ⟨hC, hN, hmem⟩ := hpost.final C N hCN
          refine ⟨?_, hN, ?_⟩
          · rw [hC, List.filter_cons_of_pos (by simp [hbf])]
            simp
          · intro x
            rw [hmem x]
            simp only [List.mem_cons]
            constructor
            · rintro (h | h)
              · exact Or.inl h
              · exact Or.inr ⟨Or.inr h.1, h.2⟩
            · rintro (h | ⟨h | h, h'⟩)
              · exact Or.inl h
              · rw [h, hbf] at h'; exact absurd h' (by simp)
              · exact Or.inr ⟨h, h'⟩
    · -- too few candidates are left: the function returns
      simp only [hsize, not_false_eq_true, if_true]
      refine ⟨[], none, rfl, ?_⟩
      refine ⟨by simp, ?_, by simp, by simp⟩
      intro S hext hm _
      have := hext.length_le
      omega

/-! ## `cliquesWorker` -/

/-- Every extension holds a vertex that the loop branches on, or the pivot itself. -/
theorem Extension.pivot_mem (g : SimpleIntGraph) (hg : GoodAdjacency g)
    (X P S : List Int) (p : Int) (hp : p ∈ P ++ X) (h : Extension g X P S)
    (hno : ∀ s ∈ S, branches_on g p s = false) : p ∈ S := by
  by_contra hpS
  apply h.maximal p hp
  intro s hs
  rcases (branches_on_false_iff g p s).1 (hno s hs) with h1 | h1
  · rw [h1] at hs; exact absurd hs hpS
  · exact hg.symm s p h1

theorem cliquesWorker_spec (g : SimpleIntGraph) (hg : GoodAdjacency g) (m : Nat) :
    ∀ fuel, WorkerSpec g m (cliquesWorker fuel g m) fuel := by
  intro fuel
  induction fuel with
  | zero =>
    intro R X P _ hlt
    exact absurd hlt (Nat.not_lt_zero _)
  | succ fuel ih =>
    intro R X P hpre hlt
    simp only [cliquesWorker]
    by_cases hsize : P.length + R.length ≥ m
    swap
    · -- pruned: too few candidates
      simp only [hsize, not_false_eq_true, if_true]
      refine ⟨[], rfl, by simp, ?_, by simp⟩
      intro S hext hm
      have := hext.length_le
      omega
    simp only [hsize, not_true_eq_false, if_false]
    by_cases hP : P = []
    · -- no candidate is left
      subst hP
      simp only [List.isEmpty_nil, if_true]
      have hSnil : ∀ S, Extension g X [] S → S = [] := by
        intro S hext
        cases S with
        | nil => rfl
        | cons a l => exact absurd (hext.sub a (by simp)) (by simp)
      by_cases hemit : X.isEmpty = true ∧ R.length ≥ m
      · rw [if_pos hemit]
        have hX : X = [] := by simpa using hemit.1
        subst hX
        refine ⟨[R], rfl, ?_, ?_, by simp⟩
        · intro K hK
          have hKR : K = R := by simpa using hK
          refine ⟨[], by simp [hKR], ⟨List.nodup_nil, by simp, ?_, ?_⟩, by rw [hKR]; exact hemit.2⟩
          · intro u hu; simp at hu
          · intro w hw; simp at hw
        · intro S hext _
          rw [hSnil S hext]
          exact ⟨R, by simp, by simp⟩
      · rw [if_neg hemit]
        refine ⟨[], rfl, by simp, ?_, by simp⟩
        intro S hext hm
        have hS := hSnil S hext
        subst hS
        by_cases hX : X = []
        · apply absurd _ hemit
          refine ⟨by simp [hX], ?_⟩
          simpa using hm
        · obtain ⟨w, hw⟩ := List.exists_mem_of_ne_nil X hX
          exact absurd (fun s hs => by simp at hs) (hext.maximal w (by simp [hw]))
    · -- a pivot is chosen
      have hemp : P.isEmpty = false := by
        cases P with
        | nil => exact absurd rfl hP
        | cons a l => rfl
      simp only [hemp, Bool.false_eq_true, if_false]
      obtain ⟨f, hf, hfv, hfd⟩ := find_node_with_fewest_discs_spec g X P hpre.sortedP hP
        hpre.small hpre.nonnegX hpre.nonnegP
      rw [hf]
      simp only
      have hcount := branches_le_count_disconnections g hg P hpre.sortedP f.fewestDiscVertex
      rw [← hfd] at hcount
      have hpPX : f.fewestDiscVertex ∈ P ++ X := by
        by_cases hc : f.fewestIsInCands = true
        · rw [if_pos hc] at hfv; exact List.mem_append.2 (Or.inl hfv)
        · rw [if_neg hc] at hfv; exact List.mem_append.2 (Or.inr hfv)
      -- an extension without a vertex the loop branches on holds the pivot, which is
      -- then a candidate
      have hnoX : f.fewestIsInCands = false → ∀ S, Extension g X P S →
          ¬ ∀ s ∈ S, branches_on g f.fewestDiscVertex s = false := by
        intro hc S hext hno
        have hpS := hext.pivot_mem g hg X P S _ hpPX hno
        have : f.fewestDiscVertex ∈ X := by simpa [hc] using hfv
        exact hpre.disjPX _ (hext.sub _ hpS) this
      by_cases hexit : (!f.fewestIsInCands && f.fewestDisc == 0) = true
      · -- a vertex of `Not` is connected to every candidate
        rw [if_pos hexit]
        refine ⟨[], rfl, by simp, ?_, by simp⟩
        intro S hext _
        simp only [Bool.and_eq_true, Bool.not_eq_true', beq_iff_eq] at hexit
        exfalso
        apply hnoX hexit.1 S hext
        intro s hs
        by_contra hb
        have hb' : branches_on g f.fewestDiscVertex s = true := by simpa using hb
        have hpos : 0 < (P.filter (branches_on g f.fewestDiscVertex)).length :=
          List.length_pos_of_mem (List.mem_filter.2 ⟨hext.sub s hs, hb'⟩)
        rw [hexit.2] at hcount
        omega
      · rw [if_neg hexit]
        have hlpre : LoopPre g f.fewestDiscVertex R X [] P f.fewestDisc fuel :=
          ⟨by simpa using hpre, by simp; omega, by simp, hcount⟩
        obtain ⟨out, fin, ho, hpost⟩ := cliquesWorker_loop_spec g hg m fuel
          (cliquesWorker fuel g m) ih R f.fewestDiscVertex P [] X f.fewestDisc hlpre
        rw [ho]
        have hsound : ∀ K ∈ out, ∃ S, K = R ++ S ∧ Extension g X P S ∧ m ≤ K.length := by
          intro K hK
          obtain ⟨S, h1, h2, h3, _⟩ := hpost.sound K hK
          exact ⟨S, h1, h2, h3⟩
        cases fin with
        | none =>
          simp only
          exact ⟨out, rfl, hsound, fun S hext hm => hpost.complete S hext hm (by simp),
            hpost.unique⟩
        | some CN =>
          obtain ⟨C', N'⟩ := CN
          simp only
          obtain ⟨hC', hN'sorted, hN'mem⟩ := hpost.final C' N' rfl
          simp only [List.nil_append] at hC'
          have hC'mem : ∀ x, x ∈ C' ↔ x ∈ P ∧ branches_on g f.fewestDiscVertex x = false := by
            intro x
            rw [hC', List.mem_filter]
            simp
          have hcompl_loop : ∀ S, Extension g X P S → m ≤ R.length + S.length →
              (∃ v ∈ S, branches_on g f.fewestDiscVertex v = true) →
              ∃ K ∈ out, ∀ x, x ∈ K ↔ x ∈ R ∨ x ∈ S :=
            fun S hext hm hv => hpost.complete S hext hm (fun _ => hv)
          by_cases hfic : f.fewestIsInCands = true
          swap
          · -- the pivot is a vertex of `Not`
            rw [if_neg hfic]
            refine ⟨out, rfl, hsound, ?_, hpost.unique⟩
            intro S hext hm
            apply hcompl_loop S hext hm
            by_contra hno
            apply hnoX (by simpa using hfic) S hext
            intro s hs
            by_contra hb
            exact hno ⟨s, hs, by simpa using hb⟩
          rw [if_pos hfic]
          have hpP : f.fewestDiscVertex ∈ P := by simpa [hfic] using hfv
          by_cases hsize2 : C'.length + R.length ≥ m
          swap
          · simp only [hsize2, not_false_eq_true, if_true]
            refine ⟨out, rfl, hsound, ?_, hpost.unique⟩
            intro S hext hm
            apply hcompl_loop S hext hm
            by_contra hno
            have hsub : ∀ s ∈ S, s ∈ C' := by
              intro s hs
              rw [hC'mem]
              refine ⟨hext.sub s hs, ?_⟩
              by_contra hb
              exact hno ⟨s, hs, by simpa using hb⟩
            have := length_le_of_nodup_subset S C' hext.nodup hsub
            omega
          simp only [hsize2, not_true_eq_false, if_false]
          -- the last branch, on the pivot
          have hC'sub : C'.Sublist P := by rw [hC']; exact List.filter_sublist P
          have hpre3 : WorkerPre R N' C' := by
            refine ⟨hpre.compsub_ne, hpre.sortedP.sublist hC'sub, hN'sorted,
              fun x hx => hpre.nonnegP x (hC'sub.subset hx), ?_, ?_,
              fun x hx hx' => hpre.disjRP x hx (hC'sub.subset hx'), ?_,
              lt_of_le_of_lt hC'sub.length_le hpre.small⟩
            · intro x hx
              rcases (hN'mem x).1 hx with h | h
              · exact hpre.nonnegX x h
              · exact hpre.nonnegP x h.1
            · intro x hx hx'
              rcases (hN'mem x).1 hx' with h | h
              · exact hpre.disjPX x (hC'sub.subset hx) h
              · rw [((hC'mem x).1 hx).2] at h
                exact absurd h.2 (by simp)
            · intro x hx hx'
              rcases (hN'mem x).1 hx' with h | h
              · exact hpre.disjRX x hx h
              · exact hpre.disjRP x hx h.1
          rw [tryCandidate_eq g hg _ R N' C' _ hpre3]
          have hpC' : f.fewestDiscVertex ∈ C' := by
            rw [hC'mem]
            exact ⟨hpP, (branches_on_false_iff g _ _).2 (Or.inl rfl)⟩
          have hlen3 : (C'.filter (fun x => decide
              (x ∈ neighbouring_nodes_in_order g f.fewestDiscVertex))).length < fuel := by
            have h1 : (C'.filter (fun x => decide
                (x ∈ neighbouring_nodes_in_order g f.fewestDiscVertex))).length < C'.length := by
              rw [List.length_filter_lt_length_iff_exists]
              refine ⟨_, hpC', ?_⟩
              have := hg.irrefl f.fewestDiscVertex
              unfold adjacent at this
              simpa using this
            have h2 := hC'sub.length_le
            omega
          obtain ⟨out2, ho2, hpost2⟩ := ih _ _ _ (hpre3.descend_pre g hg R N' C' _) hlen3
          rw [ho2]
          refine ⟨out ++ out2, rfl, ?_, ?_, ?_⟩
          · intro K hK
            rcases List.mem_append.1 hK with h1 | h2
            · exact hsound K h1
            · obtain ⟨S', hKS, hext, hm⟩ := hpost2.sound K h2
              refine ⟨f.fewestDiscVertex :: S', by rw [hKS]; simp, ?_, hm⟩
              refine Extension.lift g hg X P N' C' S' _ hpP (fun x hx => hC'sub.subset hx)
                ?_ hext
              intro w hw _
              rw [List.mem_append, hC'mem, hN'mem]
              rcases List.mem_append.1 hw with h | h
              · by_cases hb : branches_on g f.fewestDiscVertex w = true
                · exact Or.inr (Or.inr ⟨h, hb⟩)
                · exact Or.inl ⟨h, by simpa using hb⟩
              · exact Or.inr (Or.inl h)
          · intro S hext hm
            by_cases hbr : ∃ v ∈ S, branches_on g f.fewestDiscVertex v = true
            · obtain ⟨K, hK, hKm⟩ := hcompl_loop S hext hm hbr
              exact ⟨K, List.mem_append.2 (Or.inl hK), hKm⟩
            · have hno : ∀ s ∈ S, branches_on g f.fewestDiscVertex s = false := by
                intro s hs
                by_contra hb
                exact hbr ⟨s, hs, by simpa using hb⟩
              have hpS := hext.pivot_mem g hg X P S _ hpPX hno
              have hext' := Extension.descend g hg X P N' C' S _ hpS ?_ ?_ hext
              · have hlenS : (R ++ [f.fewestDiscVertex]).length
                    + (S.erase f.fewestDiscVertex).length = R.length + S.length := by
                  rw [List.length_erase_of_mem hpS]
                  have : 0 < S.length := List.length_pos_of_mem hpS
                  simp only [List.length_append, List.length_singleton]
                  omega
                obtain ⟨K, hK, hKm⟩ := hpost2.complete _ hext' (by rw [hlenS]; exact hm)
                refine ⟨K, List.mem_append.2 (Or.inr hK), ?_⟩
                intro x
                rw [hKm x, hext.nodup.mem_erase_iff]
                simp only [List.mem_append, List.mem_singleton]
                constructor
                · rintro ((h | h) | h)
                  · exact Or.inl h
                  · exact Or.inr (h ▸ hpS)
                  · exact Or.inr h.2
                · rintro (h | h)
                  · exact Or.inl (Or.inl h)
                  · by_cases hxv : x = f.fewestDiscVertex
                    · exact Or.inl (Or.inr hxv)
                    · exact Or.inr ⟨hxv, h⟩
              · intro s hs _
                rw [hC'mem]
                exact ⟨hext.sub s hs, hno s hs⟩
              · intro w hw
                rw [List.mem_append, hC'mem, hN'mem] at hw
                rcases hw with h | h | h
                · exact List.mem_append.2 (Or.inl h.1)
                · exact List.mem_append.2 (Or.inr h)
                · exact List.mem_append.2 (Or.inl h.1)
          · rw [List.pairwise_append]
            refine ⟨hpost.unique, hpost2.unique, ?_⟩
            intro K1 hK1 K2 hK2 hsame
            obtain ⟨S1, hKS1, hext1, _, v, hv, hbv⟩ := hpost.sound K1 hK1
            obtain ⟨S2, hKS2, hext2, _⟩ := hpost2.sound K2 hK2
            have hbv' := (branches_on_iff g _ v).1 hbv
            have h1 : v ∈ K1 := by rw [hKS1]; simp [hv]
            have h2 : v ∈ K2 := (hsame v).1 h1
            rw [hKS2] at h2
            simp only [List.mem_append, List.mem_singleton] at h2
            rcases h2 with (h | h) | h
            · exact hpre.disjRP v h (hext1.sub v hv)
            · exact hbv'.1 h
            · have := (List.mem_filter.1 (hext2.sub v h)).2
              have hadj : adjacent g f.fewestDiscVertex v := by simpa using this
              exact hbv'.2 (hg.symm _ _ hadj)

/-! ## `cliquesForOneNode` -/

theorem split_neighbours_eq (v : Int) :
    ∀ (l : List Int) (last : Int) (Not Candidates : List Int),
      (last :: l).Sorted (· < ·) →
      split_neighbours v l last Not Candidates
        = .ok (Not ++ l.filter (fun x => decide (x < v)),
            Candidates ++ l.filter (fun x => decide (x > v))) := by
  intro l
  induction l with
  | nil => intro last Not Candidates _; simp [split_neighbours]
  | cons n rest ih =>
    intro last Not Candidates hs
    have h1 : last < n := (List.sorted_cons.1 hs).1 n (by simp)
    have h2 : (n :: rest).Sorted (· < ·) := (List.sorted_cons.1 hs).2
    simp only [split_neighbours, h1, not_true_eq_false, if_false]
    rw [ih n _ _ h2]
    by_cases ha : n < v
    · have hb : ¬ n > v := by omega
      simp [ha, hb]
    · by_cases hb : n > v
      · simp [ha, hb]
      · simp [ha, hb]

theorem length_split (v : Int) (l : List Int) (hv : v ∉ l) :
    l.length = (l.filter (fun x => decide (x < v))).length
      + (l.filter (fun x => decide (x > v))).length := by
  induction l with
  | nil => simp
  | cons a l ih =>
    have hav : a ≠ v := fun e => hv (by simp [e])
    have hl : v ∉ l := fun e => hv (by simp [e])
    have := ih hl
    by_cases ha : a < v
    · have hb : ¬ a > v := by omega
      simp only [List.filter_cons, ha, hb, decide_True, decide_False, if_true,
        Bool.false_eq_true, if_false, List.length_cons]
      omega
    · have hb : a > v := by omega
      simp only [List.filter_cons, ha, hb, decide_True, decide_False, if_true,
        Bool.false_eq_true, if_false, List.length_cons]
      omega

/-- A list of distinct vertices of `g` has at most `numNodes` entries. -/
theorem length_le_numNodes (n : Nat) (l : List Int) (hn : l.Nodup)
    (hr : ∀ x ∈ l, 0 ≤ x ∧ x < (n : Int)) : l.length ≤ n := by
  have hinj : ∀ x ∈ l, ∀ y ∈ l, Int.toNat x = Int.toNat y → x = y := by
    intro x hx y hy hxy
    have := hr x hx
    have := hr y hy
    omega
  have hn' : (l.map Int.toNat).Nodup := List.Nodup.map_on hinj hn
  have hsub : ∀ k ∈ l.map Int.toNat, k ∈ List.range n := by
    intro k hk
    obtain ⟨x, hx, hxk⟩ := List.mem_map.1 hk
    have := hr x hx
    rw [List.mem_range]
    omega
  have := (List.subperm_of_subset hn' hsub).length_le
  simpa using this

theorem IsMaximalClique.of_same (g : SimpleIntGraph) (a b : List Int)
    (h : SameVertexSet a b) (ha : IsMaximalClique g a) : IsMaximalClique g b := by
  rw [isMaximalClique_iff] at ha ⊢
  obtain ⟨h1, h2, h3⟩ := ha
  refine ⟨fun v hv => h1 v ((h v).2 hv), ?_, ?_⟩
  · intro u hu v hv huv
    exact h2 u ((h u).2 hu) v ((h v).2 hv) huv
  · intro w hw0 hwn hwb hall
    exact h3 w hw0 hwn (fun hwa => hwb ((h w).1 hwa)) (fun u hu => hall u ((h u).1 hu))

/-- What one call of `cliquesForOneNode` hands to the receiver: the maximal cliques
of at least `m` vertices whose smallest vertex is `v`, each once. -/
theorem cliquesForOneNode_spec (g : SimpleIntGraph) (hG : GraphInvariants g) (m v : Nat)
    (hv : v < numNodes g) :
    ∃ out, cliquesForOneNode g m (v : Int) = .ok out ∧
      (∀ K ∈ out, ∃ S, K = (v : Int) :: S ∧ S.Nodup ∧ (∀ s ∈ S, (v : Int) < s) ∧
        IsMaximalClique g K ∧ m ≤ K.length) ∧
      (∀ M, IsMaximalClique g M → M.Nodup → (v : Int) ∈ M → (∀ x ∈ M, (v : Int) ≤ x) →
        m ≤ M.length → ∃ K ∈ out, SameVertexSet K M) ∧
      out.Pairwise (fun a b => ¬ SameVertexSet a b) := by
  have hg := GraphInvariants.good g hG
  have hsortedN := hg.sorted (v : Int)
  have hvN : (v : Int) ∉ neighbouring_nodes_in_order g (v : Int) := hg.irrefl v
  -- the part of a maximal clique above its smallest vertex `v`
  have hrest : ∀ M, IsMaximalClique g M → M.Nodup → (v : Int) ∈ M →
      (∀ x ∈ M, (v : Int) ≤ x) → ∀ s ∈ M.erase (v : Int),
        s ∈ neighbouring_nodes_in_order g (v : Int) ∧ (v : Int) < s := by
    intro M hM hMn hvM hmin s hs
    rw [isMaximalClique_iff] at hM
    obtain ⟨hne, hsM⟩ := hMn.mem_erase_iff.1 hs
    have hadj : adjacent g (v : Int) s := hM.2.1 _ hvM s hsM (fun e => hne e.symm)
    have := hmin s hsM
    exact ⟨hadj, by omega⟩
  unfold cliquesForOneNode
  simp only
  by_cases hdeg : degree g (v : Int) + 1 < m
  · -- the degree of `v` is too small
    rw [if_pos hdeg]
    refine ⟨[], rfl, by simp, ?_, by simp⟩
    intro M hM hMn hvM hmin hm
    exfalso
    have hle : (M.erase (v : Int)).length ≤ degree g (v : Int) :=
      length_le_of_nodup_subset _ _ (hMn.erase _)
        (fun s hs => (hrest M hM hMn hvM hmin s hs).1)
    rw [List.length_erase_of_mem hvM] at hle
    omega
  rw [if_neg hdeg]
  have hsplit := split_neighbours_eq (v : Int) (neighbouring_nodes_in_order g (v : Int))
    (-1) [] [] (List.sorted_cons.2 ⟨fun x hx => by
      have := hg.nonneg _ _ hx
      show (-1 : Int) < x
      omega, hsortedN⟩)
  rw [hsplit]
  simp only [List.nil_append]
  have hlen := length_split (v : Int) _ hvN
  have hd : degree g (v : Int)
      = ((neighbouring_nodes_in_order g (v : Int)).filter (fun x => decide (x < (v : Int)))).length
        + ((neighbouring_nodes_in_order g (v : Int)).filter
            (fun x => decide (x > (v : Int)))).length := hlen
  simp only [hd, not_true_eq_false, if_false]
  -- the entry condition of `cliquesWorker`
  have hdegree_lt : degree g (v : Int) < 2147483647 := by
    have h1 : ((v : Int) :: neighbouring_nodes_in_order g (v : Int)).Nodup :=
      List.nodup_cons.2 ⟨hvN, hsortedN.nodup⟩
    have h2 := length_le_numNodes (numNodes g) _ h1 (by
      intro x hx
      rcases List.mem_cons.1 hx with h | h
      · rw [h]; omega
      · exact in_range_of_adjacent g x (v : Int) (hg.symm _ _ h))
    have h3 := hG.1
    simp only [List.length_cons] at h2
    unfold degree
    omega
  have hpre : WorkerPre [(v : Int)]
      ((neighbouring_nodes_in_order g (v : Int)).filter (fun x => decide (x < (v : Int))))
      ((neighbouring_nodes_in_order g (v : Int)).filter (fun x => decide (x > (v : Int)))) := by
    refine ⟨by simp, hsortedN.filter _, hsortedN.filter _, ?_, ?_, ?_, ?_, ?_, ?_⟩
    · intro x hx; exact hg.nonneg _ _ (List.mem_filter.1 hx).1
    · intro x hx; exact hg.nonneg _ _ (List.mem_filter.1 hx).1
    · intro x hx hx'
      have h1 := (List.mem_filter.1 hx).2
      have h2 := (List.mem_filter.1 hx').2
      simp only [decide_eq_true_eq] at h1 h2
      omega
    · intro x hx hx'
      have h1 : x = (v : Int) := by simpa using hx
      have h2 := (List.mem_filter.1 hx').2
      simp only [decide_eq_true_eq] at h2
      omega
    · intro x hx hx'
      have h1 : x = (v : Int) := by simpa using hx
      have h2 := (List.mem_filter.1 hx').2
      simp only [decide_eq_true_eq] at h2
      omega
    · have := List.length_filter_le (fun x => decide (x > (v : Int)))
        (neighbouring_nodes_in_order g (v : Int))
      unfold degree at hdegree_lt
      omega
  obtain ⟨out, ho, hpost⟩ := cliquesWorker_spec g hg m _ _ _ _ hpre (Nat.lt_succ_self _)
  refine ⟨out, ho, ?_, ?_, hpost.unique⟩
  · intro K hK
    obtain ⟨S, hKS, hext, hm⟩ := hpost.sound K hK
    have hSsub : ∀ s ∈ S, adjacent g (v : Int) s ∧ (v : Int) < s := by
      intro s hs
      have := List.mem_filter.1 (hext.sub s hs)
      exact ⟨this.1, by simpa using this.2⟩
    refine ⟨S, by rw [hKS]; rfl, hext.nodup, fun s hs => (hSsub s hs).2, ?_, hm⟩
    rw [hKS, isMaximalClique_iff]
    refine ⟨?_, ?_, ?_⟩
    · intro x hx
      rcases List.mem_append.1 hx with h | h
      · have : x = (v : Int) := by simpa using h
        rw [this]; omega
      · exact in_range_of_adjacent g x (v : Int) (hg.symm _ _ (hSsub x h).1)
    · intro a ha b hb hab
      simp only [List.singleton_append, List.mem_cons] at ha hb
      rcases ha with h1 | h1
      · rcases hb with h2 | h2
        · exact absurd (h1.trans h2.symm) hab
        · rw [h1]; exact (hSsub b h2).1
      · rcases hb with h2 | h2
        · rw [h2]; exact hg.symm _ _ (hSsub a h1).1
        · exact hext.clique a h1 b h2 hab
    · intro w _ _ hwK hall
      have hwv : adjacent g w (v : Int) := hall _ (by simp)
      have hvw : adjacent g (v : Int) w := hg.symm _ _ hwv
      have hne : w ≠ (v : Int) := fun e => hwK (by simp [e])
      refine hext.maximal w ?_ (fun s hs => hall s (by simp [hs]))
      rw [List.mem_append, List.mem_filter, List.mem_filter]
      by_cases hlt : w < (v : Int)
      · exact Or.inr ⟨hvw, by simpa using hlt⟩
      · exact Or.inl ⟨hvw, by simp only [gt_iff_lt, decide_eq_true_eq]; omega⟩
  · intro M hM0 hMn hvM hmin hm
    have hM := (isMaximalClique_iff g M).1 hM0
    have hext : Extension g
        ((neighbouring_nodes_in_order g (v : Int)).filter (fun x => decide (x < (v : Int))))
        ((neighbouring_nodes_in_order g (v : Int)).filter (fun x => decide (x > (v : Int))))
        (M.erase (v : Int)) := by
      refine ⟨hMn.erase _, ?_, ?_, ?_⟩
      · intro s hs
        have := hrest M hM0 hMn hvM hmin s hs
        exact List.mem_filter.2 ⟨this.1, by simpa using this.2⟩
      · intro a ha b hb hab
        exact hM.2.1 a (hMn.mem_erase_iff.1 ha).2 b (hMn.mem_erase_iff.1 hb).2 hab
      · intro w hw hall
        have hvw : adjacent g (v : Int) w := by
          rcases List.mem_append.1 hw with h | h
          · exact (List.mem_filter.1 h).1
          · exact (List.mem_filter.1 h).1
        have hwv : adjacent g w (v : Int) := hg.symm _ _ hvw
        have hallM : ∀ u ∈ M, adjacent g w u := by
          intro u hu
          by_cases huv : u = (v : Int)
          · rw [huv]; exact hwv
          · exact hall u (hMn.mem_erase_iff.2 ⟨huv, hu⟩)
        have hwM : w ∉ M := fun hwM => hg.irrefl w (hallM w hwM)
        have hr := in_range_of_adjacent g w _ hwv
        exact hM.2.2 w hr.1 hr.2 hwM hallM
    have hlenM : [(v : Int)].length + (M.erase (v : Int)).length = M.length := by
      rw [List.length_erase_of_mem hvM]
      have : 0 < M.length := List.length_pos_of_mem hvM
      simp only [List.length_singleton]
      omega
    obtain ⟨K, hK, hKm⟩ := hpost.complete _ hext (by rw [hlenM]; exact hm)
    refine ⟨K, hK, ?_⟩
    intro x
    rw [hKm x, hMn.mem_erase_iff]
    simp only [List.mem_singleton]
    constructor
    · rintro (h | h)
      · rw [h]; exact hvM
      · exact h.2
    · intro h
      by_cases hxv : x = (v : Int)
      · exact Or.inl hxv
      · exact Or.inr ⟨hxv, h⟩

/-! ## `findCliques` and `cliquesToVector` -/

theorem foldl_receive_unsorted_clique (found output_vector : List (List Int)) :
    found.foldl receive_unsorted_clique output_vector
      = output_vector ++ found.map (fun K => K.insertionSort (· ≤ ·)) := by
  induction found generalizing output_vector with
  | nil => simp
  | cons K rest ih =>
    simp only [List.foldl_cons, List.map_cons]
    rw [ih]
    simp [receive_unsorted_clique]

theorem check_end_points_ok (g : SimpleIntGraph) (hG : GraphInvariants g) :
    ∀ rs : List Nat, (∀ r ∈ rs, r < numRels g) → check_end_points g rs = .ok () := by
  intro rs
  induction rs with
  | nil => intro _; rfl
  | cons r rs ih =>
    intro h
    have hr := hG.2.2.2 r (h r (by simp))
    simp only [check_end_points, hr, not_true_eq_false, if_false]
    exact ih (fun r' hr' => h r' (by simp [hr']))

theorem findCliques_loop_eq (g : SimpleIntGraph) (hG : GraphInvariants g) (m : Nat) :
    ∀ (vs : List Nat) (output_vector : List (List Int)), (∀ v ∈ vs, v < numNodes g) →
      findCliques_loop g m vs output_vector = (output_vector ++ deliveries g m vs, none) := by
  intro vs
  induction vs with
  | nil => intro o _; simp [findCliques_loop, deliveries]
  | cons v vs ih =>
    intro o h
    obtain ⟨out, ho, _⟩ := cliquesForOneNode_spec g hG m v (h v (by simp))
    simp only [findCliques_loop, deliveries, ho]
    rw [foldl_receive_unsorted_clique, ih _ (fun v' hv' => h v' (by simp [hv']))]
    simp

/-- Under the Graph invariants and with `m ≥ 3` the run of `cliquesToVector` ends
normally, and the vector holds the sorted cliques of the calls of `cliquesForOneNode`
for the vertices `0 .. numNodes - 1`, in this order. -/
theorem cliquesToVector_eq (g : SimpleIntGraph) (hG : GraphInvariants g) (m : Nat)
    (hm : 3 ≤ m) (output_vector : List (List Int)) :
    cliquesToVector g m output_vector
      = (output_vector ++ deliveries g m (List.range (numNodes g)), none) := by
  unfold cliquesToVector findCliques
  have h3 : m ≥ 3 := hm
  simp only [h3, not_true_eq_false, if_false]
  rw [check_end_points_ok g hG _ (fun r hr => List.mem_range.1 hr)]
  exact findCliques_loop_eq g hG m _ _ (fun v hv => List.mem_range.1 hv)

theorem mem_deliveries (g : SimpleIntGraph) (m : Nat) (c : List Int) :
    ∀ vs : List Nat, c ∈ deliveries g m vs ↔
      ∃ v ∈ vs, ∃ out, cliquesForOneNode g m (v : Int) = .ok out ∧
        ∃ K ∈ out, c = K.insertionSort (· ≤ ·) := by
  intro vs
  induction vs with
  | nil => simp [deliveries]
  | cons v vs ih =>
    simp only [deliveries, List.mem_append, ih, List.mem_cons]
    constructor
    · rintro (h | ⟨v', hv', h⟩)
      · cases ho : cliquesForOneNode g m (v : Int) with
        | error e => rw [ho] at h; simp at h
        | ok out =>
          rw [ho] at h
          simp only [List.mem_map] at h
          obtain ⟨K, hK, hc⟩ := h
          exact ⟨v, Or.inl rfl, out, ho, K, hK, hc.symm⟩
      · exact ⟨v', Or.inr hv', h⟩
    · rintro ⟨v', hv' | hv', out, ho, K, hK, hc⟩
      · left
        rw [hv'] at ho
        rw [ho]
        simp only [List.mem_map]
        exact ⟨K, hK, hc.symm⟩
      · exact Or.inr ⟨v', hv', out, ho, K, hK, hc⟩

/-- Every delivered clique is the sorted form of a maximal clique `v :: S` whose
smallest vertex is the `v` of the call that delivered it. -/
theorem deliveries_sound (g : SimpleIntGraph) (hG : GraphInvariants g) (m : Nat)
    (vs : List Nat) (hvs : ∀ v ∈ vs, v < numNodes g) (c : List Int)
    (hc : c ∈ deliveries g m vs) :
    ∃ v ∈ vs, ∃ S, c = ((v : Int) :: S).insertionSort (· ≤ ·) ∧ ((v : Int) :: S).Nodup ∧
      (∀ s ∈ S, (v : Int) < s) ∧ IsMaximalClique g ((v : Int) :: S) ∧ m ≤ S.length + 1 := by
  obtain ⟨v, hv, out, ho, K, hK, hcK⟩ := (mem_deliveries g m c vs).1 hc
  obtain ⟨out', ho', hsound, _, _⟩ := cliquesForOneNode_spec g hG m v (hvs v hv)
  rw [ho] at ho'
  cases ho'
  obtain ⟨S, hKS, hSn, hSlt, hmax, hlen⟩ := hsound K hK
  subst hKS
  refine ⟨v, hv, S, hcK, ?_, hSlt, hmax, by simpa using hlen⟩
  refine List.nodup_cons.2 ⟨?_, hSn⟩
  intro hvS
  have := hSlt _ hvS
  omega

theorem deliveries_pairwise (g : SimpleIntGraph) (hG : GraphInvariants g) (m : Nat) :
    ∀ vs : List Nat, (∀ v ∈ vs, v < numNodes g) → vs.Sorted (· < ·) →
      (deliveries g m vs).Pairwise (fun a b => ¬ SameVertexSet a b) := by
  intro vs
  induction vs with
  | nil => intro _ _; simp [deliveries]
  | cons v vs ih =>
    intro hvs hsorted
    have hvs' : ∀ v' ∈ vs, v' < numNodes g := fun v' hv' => hvs v' (by simp [hv'])
    obtain ⟨out, ho, hsound, _, huniq⟩ := cliquesForOneNode_spec g hG m v (hvs v (by simp))
    simp only [deliveries, ho]
    rw [List.pairwise_append]
    refine ⟨?_, ih hvs' (List.sorted_cons.1 hsorted).2, ?_⟩
    · rw [List.pairwise_map]
      refine huniq.imp ?_
      intro a b hab hsame
      apply hab
      intro x
      have := hsame x
      rw [mem_insertionSort, mem_insertionSort] at this
      exact this
    · intro a ha b hb hsame
      obtain ⟨K, hK, haK⟩ := List.mem_map.1 ha
      obtain ⟨S, hKS, _⟩ := hsound K hK
      obtain ⟨v', hv', S', hb', _, hlt, _⟩ := deliveries_sound g hG m vs hvs' b hb
      have hvv' : v < v' := (List.sorted_cons.1 hsorted).1 v' hv'
      have h1 : (v : Int) ∈ a := by
        rw [← haK, mem_insertionSort, hKS]; simp
      have h2 : (v : Int) ∈ b := (hsame _).1 h1
      rw [hb', mem_insertionSort] at h2
      rcases List.mem_cons.1 h2 with h | h
      · omega
      · have := hlt _ h
        omega

/-! ## The bloom index -/

theorem bloom_set_wellFormed (bl : bloom) (a : Int) (h : bl.WellFormed) :
    (bl.set a).WellFormed := by
  unfold bloom.WellFormed bloom.set at *
  refine ⟨h.1, ?_⟩
  intro b hb
  simp only at hb
  split at hb
  · exact h.2 b hb
  · rcases List.mem_cons.1 hb with h1 | h1
    · rw [h1]; exact Nat.mod_lt _ h.1
    · exact h.2 b h1

theorem bloom_test_set_self (bl : bloom) (a : Int) : (bl.set a).test a = true := by
  unfold bloom.test bloom.set
  simp only
  split
  · assumption
  · simp

theorem bloom_test_set_mono (bl : bloom) (a a' : Int) (h : bl.test a' = true) :
    (bl.set a).test a' = true := by
  unfold bloom.test bloom.set at *
  simp only at h ⊢
  split
  · exact h
  · simp only [List.contains_eq_any_beq, List.any_eq_true, beq_iff_eq] at h ⊢
    obtain ⟨x, hx, hxe⟩ := h
    exact ⟨x, List.mem_cons_of_mem _ hx, hxe⟩

theorem set_branch_spec (c : clique) (b : Nat) :
    ∀ isf : intersecting_clique_finder, isf.bl.WellFormed →
      (set_branch isf c b).bl.WellFormed ∧
      (set_branch isf c b).power_up = isf.power_up ∧
      (∀ a, isf.bl.test a = true → (set_branch isf c b).bl.test a = true) ∧
      ∀ v ∈ c, (set_branch isf c b).bl.test (bloom_key b v) = true := by
  induction c with
  | nil => intro isf h; simp [set_branch, h]
  | cons x rest ih =>
    intro isf h
    have hstep : set_branch isf (x :: rest) b
        = set_branch { isf with bl := isf.bl.set (bloom_key b x) } rest b := rfl
    rw [hstep]
    obtain ⟨h1, h2, h3, h4⟩ := ih { isf with bl := isf.bl.set (bloom_key b x) }
      (bloom_set_wellFormed _ _ h)
    refine ⟨h1, h2, ?_, ?_⟩
    · intro a ha
      exact h3 a (bloom_test_set_mono _ _ _ ha)
    · intro v hv
      rcases List.mem_cons.1 hv with hvx | hvr
      · rw [hvx]
        exact h3 _ (bloom_test_set_self _ _)
      · exact h4 v hvr

theorem add_clique_to_bloom_loop_spec (c : clique) :
    ∀ (fuel : Nat) (isf : intersecting_clique_finder) (b : Nat), isf.bl.WellFormed →
      (add_clique_to_bloom_loop fuel isf c b).bl.WellFormed ∧
      (add_clique_to_bloom_loop fuel isf c b).power_up = isf.power_up ∧
      (∀ a, isf.bl.test a = true → (add_clique_to_bloom_loop fuel isf c b).bl.test a = true) ∧
      (b ≤ fuel → ∀ j, 1 ≤ b >>> j → ∀ v ∈ c,
        (add_clique_to_bloom_loop fuel isf c b).bl.test (bloom_key (b >>> j) v) = true) := by
  intro fuel
  induction fuel with
  | zero =>
    intro isf b h
    refine ⟨h, rfl, fun a ha => ha, ?_⟩
    intro hb j hj
    have hb0 : b = 0 := by omega
    rw [hb0] at hj
    simp at hj
  | succ fuel ih =>
    intro isf b h
    unfold add_clique_to_bloom_loop
    by_cases hb : b ≠ 0
    · rw [if_pos hb]
      obtain ⟨s1, s2, s3, s4⟩ := set_branch_spec c b isf h
      obtain ⟨h1, h2, h3, h4⟩ := ih (set_branch isf c b) (b >>> 1) s1
      refine ⟨h1, h2.trans s2, fun a ha => h3 a (s3 a ha), ?_⟩
      intro hle j hj v hv
      cases j with
      | zero => exact h3 _ (s4 v hv)
      | succ j =>
        have hshift : b >>> (j + 1) = (b >>> 1) >>> j := by
          rw [Nat.add_comm, Nat.shiftRight_add]
        rw [hshift] at hj ⊢
        refine h4 ?_ j hj v hv
        rw [Nat.shiftRight_eq_div_pow]
        simp only [pow_one]
        omega
    · rw [if_neg hb]
      refine ⟨h, rfl, fun a ha => ha, ?_⟩
      intro _ j hj
      have hb0 : b = 0 := by omega
      rw [hb0] at hj
      simp at hj

/-- The loop of `add_clique_to_bloom` as the code has it: while the branch is not
zero, its bits are set and the branch is halved. -/
theorem add_clique_to_bloom_unfold (isf : intersecting_clique_finder) (c : clique) (b : Nat) :
    isf.add_clique_to_bloom c b
      = if b ≠ 0 then (set_branch isf c b).add_clique_to_bloom c (b >>> 1) else isf := by
  have key : ∀ (fuel : Nat) (isf : intersecting_clique_finder) (b : Nat), b ≤ fuel →
      add_clique_to_bloom_loop fuel isf c b = add_clique_to_bloom_loop b isf c b := by
    intro fuel
    induction fuel using Nat.strong_induction_on with
    | _ fuel ih =>
      intro isf b hb
      cases fuel with
      | zero =>
        have : b = 0 := by omega
        rw [this]
      | succ fuel =>
        cases b with
        | zero => simp [add_clique_to_bloom_loop]
        | succ b =>
          have hhalf : (b + 1) >>> 1 ≤ b := by
            rw [Nat.shiftRight_eq_div_pow]
            simp only [pow_one]
            omega
          simp only [add_clique_to_bloom_loop, ne_eq, Nat.add_one_ne_zero, not_false_eq_true,
            if_true]
          rw [ih fuel (Nat.lt_succ_self _) _ _ (le_trans hhalf (by omega)),
            ih b (by omega) _ _ hhalf]
  unfold intersecting_clique_finder.add_clique_to_bloom
  cases b with
  | zero => simp [add_clique_to_bloom_loop]
  | succ b =>
    have hhalf : (b + 1) >>> 1 ≤ b := by
      rw [Nat.shiftRight_eq_div_pow]
      simp only [pow_one]
      omega
    simp only [add_clique_to_bloom_loop, ne_eq, Nat.add_one_ne_zero, not_false_eq_true, if_true]
    exact key b _ _ hhalf

theorem add_clique_to_bloom_spec (isf : intersecting_clique_finder) (c : clique) (b : Nat)
    (h : isf.bl.WellFormed) :
    (isf.add_clique_to_bloom c b).bl.WellFormed ∧
    (isf.add_clique_to_bloom c b).power_up = isf.power_up ∧
    (∀ a, isf.bl.test a = true → (isf.add_clique_to_bloom c b).bl.test a = true) ∧
    (∀ j, 1 ≤ b >>> j → ∀ v ∈ c,
      (isf.add_clique_to_bloom c b).bl.test (bloom_key (b >>> j) v) = true) := by
  obtain ⟨h1, h2, h3, h4⟩ := add_clique_to_bloom_loop_spec c b isf b h
  exact ⟨h1, h2, h3, h4 (le_refl b)⟩

theorem add_all_spec (calls : List (clique × Nat)) :
    ∀ isf : intersecting_clique_finder, isf.bl.WellFormed →
      (add_all isf calls).bl.WellFormed ∧
      (∀ a, isf.bl.test a = true → (add_all isf calls).bl.test a = true) ∧
      ∀ call ∈ calls, ∀ j, 1 ≤ call.2 >>> j → ∀ v ∈ call.1,
        (add_all isf calls).bl.test (bloom_key (call.2 >>> j) v) = true := by
  induction calls with
  | nil => intro isf h; exact ⟨h, fun a ha => ha, by simp⟩
  | cons call rest ih =>
    intro isf h
    obtain ⟨s1, _, s3, s4⟩ := add_clique_to_bloom_spec isf call.1 call.2 h
    obtain ⟨h1, h2, h3⟩ := ih (isf.add_clique_to_bloom call.1 call.2) s1
    have hstep : add_all isf (call :: rest)
        = add_all (isf.add_clique_to_bloom call.1 call.2) rest := rfl
    rw [hstep]
    refine ⟨h1, fun a ha => h2 a (s3 a ha), ?_⟩
    intro call' hc j hj v hv
    rcases List.mem_cons.1 hc with he | hr
    · rw [he]
      rw [he] at hj hv
      exact h2 _ (s4 j hj v hv)
    · exact h3 call' hr j hj v hv

theorem overlap_estimate_eq_countP (isf : intersecting_clique_finder) (q : clique) (b : Nat) :
    isf.overlap_estimate q b = q.countP (fun v => isf.bl.test (bloom_key b v)) := by
  unfold intersecting_clique_finder.overlap_estimate
  have key : ∀ (q : clique) (n : Nat),
      q.foldl (fun potential_overlap node_id =>
        potential_overlap + (if isf.bl.test (bloom_key b node_id) then 1 else 0)) n
        = n + q.countP (fun v => isf.bl.test (bloom_key b v)) := by
    intro q
    induction q with
    | nil => intro n; simp
    | cons x rest ih =>
      intro n
      simp only [List.foldl_cons, ih, List.countP_cons]
      by_cases hx : isf.bl.test (bloom_key b x) = true
      · simp [hx]; omega
      · simp [hx]
  rw [key q 0]
  simp

/-- The merge of `set_intersection` keeps no more elements than the second range has
members of the first, whether or not the ranges are sorted. -/
theorem length_set_intersection_le (l1 : List Int) :
    ∀ l2 : List Int, (set_intersection l1 l2).length ≤ l2.countP (fun x => decide (x ∈ l1)) := by
  induction l1 with
  | nil => intro l2; simp [set_intersection]
  | cons a as ih =>
    intro l2
    unfold set_intersection
    have hmono : ∀ l : List Int, l.countP (fun x => decide (x ∈ as))
        ≤ l.countP (fun x => decide (x ∈ a :: as)) := by
      intro l
      apply List.countP_mono_left
      intro x _ hx
      simp only [decide_eq_true_eq] at hx ⊢
      exact List.mem_cons_of_mem a hx
    induction l2 with
    | nil => simp [set_intersection_aux]
    | cons b bs ihb =>
      unfold set_intersection_aux
      by_cases hab : a < b
      · rw [if_pos hab]
        exact le_trans (ih (b :: bs)) (hmono (b :: bs))
      · rw [if_neg hab]
        by_cases hba : b < a
        · rw [if_pos hba]
          refine le_trans ihb ?_
          rw [List.countP_cons]
          omega
        · rw [if_neg hba]
          have hab' : b = a := by omega
          have h1 := ih bs
          have h2 := hmono bs
          have hin : decide (b ∈ a :: as) = true := by simp [hab']
          rw [List.countP_cons, hin]
          simp only [List.length_cons, if_true]
          omega

theorem create_wellFormed (L : Nat) (h : Int → Nat) (p : Nat) (hL : 0 < L) :
    (intersecting_clique_finder.create L h p).bl.WellFormed := by
  unfold intersecting_clique_finder.create bloom.create bloom.WellFormed
  simp [hL]

/-! ## The tree of branches and `mark_as_done` -/

theorem below_refl (x : Nat) : below x x := ⟨0, rfl⟩

theorem below_le (x y : Nat) (h : below x y) : x ≤ y := by
  obtain ⟨j, hj⟩ := h
  rw [← hj, Nat.shiftRight_eq_div_pow]
  exact Nat.div_le_self _ _

theorem below_half (x y : Nat) (h : below x y) : below (x / 2) y := by
  obtain ⟨j, hj⟩ := h
  refine ⟨j + 1, ?_⟩
  rw [Nat.shiftRight_add, hj, Nat.shiftRight_eq_div_pow]

theorem below_of_below_child (x y : Nat) (h : below (2 * x) y ∨ below (2 * x + 1) y) :
    below x y := by
  rcases h with h | h
  · have := below_half _ _ h
    rwa [show 2 * x / 2 = x by omega] at this
  · have := below_half _ _ h
    rwa [show (2 * x + 1) / 2 = x by omega] at this

theorem below_child_of_ne (x y : Nat) (h : below x y) (hne : y ≠ x) :
    below (2 * x) y ∨ below (2 * x + 1) y := by
  obtain ⟨j, hj⟩ := h
  cases j with
  | zero => exact absurd hj hne
  | succ j =>
    have h1 : (y >>> j) / 2 = x := by
      rw [← hj, Nat.shiftRight_succ]
    by_cases hpar : (y >>> j) % 2 = 0
    · left; exact ⟨j, by omega⟩
    · right; exact ⟨j, by omega⟩

theorem below_trans (x y z : Nat) (h1 : below x y) (h2 : below y z) : below x z := by
  obtain ⟨j, hj⟩ := h1
  obtain ⟨i, hi⟩ := h2
  exact ⟨i + j, by rw [Nat.shiftRight_add, hi, hj]⟩

/-- A node from the leaf level on has nothing but itself below it among the leaves. -/
theorem below_leaf_eq (P x y : Nat) (hx : P ≤ x) (hy : y < 2 * P) (h : below x y) : y = x := by
  obtain ⟨j, hj⟩ := h
  cases j with
  | zero => exact hj
  | succ j =>
    exfalso
    have h1 : (y >>> j) / 2 = x := by
      rw [← hj, Nat.shiftRight_succ]
    have h2 : y >>> j ≤ y := by
      rw [Nat.shiftRight_eq_div_pow]
      exact Nat.div_le_self _ _
    omega

theorem not_below_both (x y : Nat) (hx : 1 ≤ x) (h1 : below (2 * x) y)
    (h2 : below (2 * x + 1) y) : False := by
  obtain ⟨i, hi⟩ := h1
  obtain ⟨j, hj⟩ := h2
  rcases Nat.lt_trichotomy i j with hlt | heq | hgt
  · obtain ⟨d, hd⟩ : ∃ d, j = i + (d + 1) := ⟨j - i - 1, by omega⟩
    rw [hd, Nat.shiftRight_add, hi, Nat.shiftRight_succ] at hj
    have : (2 * x) >>> d ≤ 2 * x := by
      rw [Nat.shiftRight_eq_div_pow]
      exact Nat.div_le_self _ _
    omega
  · rw [heq] at hi
    omega
  · obtain ⟨d, hd⟩ : ∃ d, i = j + (d + 1) := ⟨i - j - 1, by omega⟩
    rw [hd, Nat.shiftRight_add, hj, Nat.shiftRight_succ] at hi
    have : (2 * x + 1) >>> d ≤ 2 * x + 1 := by
      rw [Nat.shiftRight_eq_div_pow]
      exact Nat.div_le_self _ _
    omega

theorem below_one (y : Nat) (hy : 1 ≤ y) : below 1 y := by
  induction y using Nat.strong_induction_on with
  | _ y ih =>
    by_cases h1 : y = 1
    · rw [h1]; exact below_refl 1
    · have := ih (y / 2) (by omega) (by omega)
      exact below_trans 1 (y / 2) y this ⟨1, by rw [Nat.shiftRight_eq_div_pow]⟩

theorem xor_one_eq (b : Nat) : b ^^^ 1 = 2 * (b / 2) + (b + 1) % 2 := by
  have h1 : (b ^^^ 1) / 2 = b / 2 := by
    rw [Nat.xor_div_two]
    simp
  have h2 : (b ^^^ 1) % 2 = (b + 1) % 2 := Nat.xor_mod_two_eq
  omega

theorem done_set (ab : assigned_branches_t) (b x : Nat)
    (hb : b < ab.assigned_branches.length) :
    ({ ab with assigned_branches := ab.assigned_branches.set b true } : assigned_branches_t).done x
      = (ab.done x || decide (x = b)) := by
  unfold assigned_branches_t.done
  simp only [List.getD_eq_getElem?_getD]
  by_cases hx : x = b
  · subst hx
    rw [List.getElem?_set_self hb]
    simp
  · rw [List.getElem?_set_ne (fun e => hx e.symm)]
    simp [hx]

/-- What `mark_as_done` does on a node `b` all of whose leaves, other than `b` itself,
are done: it ends, `b` is done afterwards, nothing done is undone, only `b` and nodes
above `b` are newly done, and the tree invariant is kept. -/
theorem mark_as_done_rec_spec (P : Nat) :
    ∀ (fuel : Nat) (ab : assigned_branches_t) (b : Nat), b < fuel → 1 ≤ b → b < 2 * P →
      TreeInvariant P ab →
      (∀ y, P ≤ y → y < 2 * P → below b y → y ≠ b → ab.done y = true) →
      ∃ k ab', mark_as_done_rec fuel ab b = .ok (k, ab') ∧
        ab'.done b = true ∧
        (∀ x, ab.done x = true → ab'.done x = true) ∧
        (∀ x, ab'.done x = true → ab.done x = true ∨ below x b) ∧
        TreeInvariant P ab' := by
  intro fuel
  induction fuel with
  | zero => intro ab b h; exact absurd h (Nat.not_lt_zero _)
  | succ fuel ih =>
    intro ab b hfuel hb1 hb2 hinv hleaves
    have hlen := hinv.1
    have hblen : b < ab.assigned_branches.length := by omega
    unfold mark_as_done_rec
    have hassert : (0 : Int) ≤ (b : Int) ∧ b < ab.assigned_branches.length := ⟨by omega, hblen⟩
    simp only [hassert, and_self, not_true_eq_false, if_false]
    by_cases hdone : ab.assigned_branches.getD b false = false
    swap
    · -- already done
      rw [if_neg hdone]
      have hd : ab.done b = true := by
        unfold assigned_branches_t.done
        simpa using hdone
      exact ⟨0, ab, rfl, hd, fun x hx => hx, fun x hx => Or.inl hx, hinv⟩
    rw [if_pos hdone]
    -- the state with `b` marked
    set ab1 : assigned_branches_t :=
      { ab with assigned_branches := ab.assigned_branches.set b true } with hab1
    have hd1 : ∀ x, ab1.done x = (ab.done x || decide (x = b)) :=
      fun x => done_set ab b x hblen
    have hinv1 : TreeInvariant P ab1 := by
      refine ⟨by simpa [hab1] using hlen, ?_⟩
      intro x hx1 hxP hxd y hy1 hy2 hxy
      rw [hd1] at hxd ⊢
      simp only [Bool.or_eq_true, decide_eq_true_eq] at hxd ⊢
      rcases hxd with hxd | hxb
      · exact Or.inl (hinv.2 x hx1 hxP hxd y hy1 hy2 hxy)
      · rw [hxb] at hxy hxP
        exact Or.inl (hleaves y hy1 hy2 hxy (by omega))
    have hpost1 : ∃ k ab', (Except.ok (1, ab1) : Except Err (Nat × assigned_branches_t))
          = .ok (k, ab') ∧
        ab'.done b = true ∧
        (∀ x, ab.done x = true → ab'.done x = true) ∧
        (∀ x, ab'.done x = true → ab.done x = true ∨ below x b) ∧
        TreeInvariant P ab' := by
      refine ⟨1, _, rfl, by rw [hd1]; simp, ?_, ?_, hinv1⟩
      · intro x hx
        rw [hd1, hx]; rfl
      · intro x hx
        rw [hd1] at hx
        simp only [Bool.or_eq_true, decide_eq_true_eq] at hx
        rcases hx with hx | hx
        · exact Or.inl hx
        · rw [hx]; exact Or.inr (below_refl b)
    by_cases hgt : b > 1
    swap
    · rw [if_neg hgt]
      exact hpost1
    rw [if_pos hgt]
    by_cases hsib : ab1.assigned_branches.getD (b ^^^ 1) false = true
    swap
    · rw [if_neg hsib]
      exact hpost1
    rw [if_pos hsib]
    -- the sibling is done: the parent is marked
    have hsib1 : ab1.done (b ^^^ 1) = true := hsib
    have hxor := xor_one_eq b
    have hsibne : b ^^^ 1 ≠ b := by omega
    have hsibd : ab.done (b ^^^ 1) = true := by
      rw [hd1] at hsib1
      simpa [hsibne] using hsib1
    have hshift : b >>> 1 = b / 2 := by
      rw [Nat.shiftRight_eq_div_pow]
    rw [hshift]
    have hchildren : ∀ y, below (2 * (b / 2)) y ∨ below (2 * (b / 2) + 1) y →
        below b y ∨ below (b ^^^ 1) y := by
      intro y hy
      by_cases hpar : b % 2 = 0
      · have e1 : 2 * (b / 2) = b := by omega
        have e2 : 2 * (b / 2) + 1 = b ^^^ 1 := by omega
        rcases hy with h | h
        · left; rwa [e1] at h
        · right; rwa [e2] at h
      · have e1 : 2 * (b / 2) = b ^^^ 1 := by omega
        have e2 : 2 * (b / 2) + 1 = b := by omega
        rcases hy with h | h
        · right; rwa [e1] at h
        · left; rwa [e2] at h
    have hleaves1 : ∀ y, P ≤ y → y < 2 * P → below (b / 2) y → y ≠ b / 2 →
        ab1.done y = true := by
      intro y hy1 hy2 hby hne
      rw [hd1]
      simp only [Bool.or_eq_true, decide_eq_true_eq]
      rcases hchildren y (below_child_of_ne _ _ hby hne) with h | h
      · by_cases hyb : y = b
        · exact Or.inr hyb
        · exact Or.inl (hleaves y hy1 hy2 h hyb)
      · left
        by_cases hsP : b ^^^ 1 < P
        · exact hinv.2 _ (by omega) hsP hsibd y hy1 hy2 h
        · have := below_leaf_eq P _ y (by omega) hy2 h
          rw [this]; exact hsibd
    obtain ⟨k, ab', hrec, h1, h2, h3, h4⟩ := ih ab1 (b / 2) (by omega) (by omega) (by omega)
      hinv1 hleaves1
    rw [hrec]
    refine ⟨1 + k, ab', rfl, ?_, ?_, ?_, h4⟩
    · apply h2
      rw [hd1]; simp
    · intro x hx
      apply h2
      rw [hd1, hx]; rfl
    · intro x hx
      rcases h3 x hx with h | h
      · rw [hd1] at h
        simp only [Bool.or_eq_true, decide_eq_true_eq] at h
        rcases h with h | h
        · exact Or.inl h
        · rw [h]; exact Or.inr (below_refl b)
      · refine Or.inr (below_trans x (b / 2) b h ⟨1, hshift⟩)

theorem mark_as_done_spec (P : Nat) (ab : assigned_branches_t) (b : Nat) (hb1 : 1 ≤ b)
    (hb2 : b < 2 * P) (hinv : TreeInvariant P ab)
    (hleaves : ∀ y, P ≤ y → y < 2 * P → below b y → y ≠ b → ab.done y = true) :
    ∃ k ab', ab.mark_as_done b = .ok (k, ab') ∧
      ab'.done b = true ∧
      (∀ x, ab.done x = true → ab'.done x = true) ∧
      (∀ x, ab'.done x = true → ab.done x = true ∨ below x b) ∧
      TreeInvariant P ab' :=
  mark_as_done_rec_spec P (b + 1) ab b (Nat.lt_succ_self b) hb1 hb2 hinv hleaves

/-- Marking a leaf. -/
theorem mark_leaf_spec (P : Nat) (ab : assigned_branches_t) (b : Nat) (hb1 : P ≤ b)
    (hb0 : 1 ≤ b) (hb2 : b < 2 * P) (hinv : TreeInvariant P ab) :
    ∃ k ab', ab.mark_as_done b = .ok (k, ab') ∧
      ab'.done b = true ∧
      (∀ x, ab.done x = true → ab'.done x = true) ∧
      (∀ x, ab'.done x = true → ab.done x = true ∨ below x b) ∧
      TreeInvariant P ab' := by
  apply mark_as_done_spec P ab b hb0 hb2 hinv
  intro y _ hy2 hby hne
  exact absurd (below_leaf_eq P b y hb1 hy2 hby) hne

/-! ## `recursive_search` -/

theorem overlap_le_estimate (isf : intersecting_clique_finder) (c q : clique) (leaf x : Nat)
    (h : Contains isf c leaf) (hx : 1 ≤ x) (hb : below x leaf) :
    actual_overlap c q ≤ isf.overlap_estimate q x := by
  rw [overlap_estimate_eq_countP]
  unfold actual_overlap
  refine le_trans (length_set_intersection_le c q) ?_
  apply List.countP_mono_left
  intro v _ hv
  simp only [decide_eq_true_eq] at hv
  exact h x hx hb v hv

theorem Searchable.mono (isf : intersecting_clique_finder) (the_cliques : List clique)
    (comps : components) (skip : Int) (q P : Nat) (ab ab' : assigned_branches_t)
    (h : Searchable isf the_cliques comps skip q P ab)
    (hm : ∀ x, ab.done x = true → ab'.done x = true) :
    Searchable isf the_cliques comps skip q P ab' := by
  intro l hl hd
  apply h l hl
  by_contra hc
  have := hm (P + l) (by simpa using hc)
  rw [this] at hd
  exact absurd hd (by simp)

/-- A leaf below a branch that is done is done. -/
theorem done_of_below_done (P : Nat) (ab : assigned_branches_t) (hinv : TreeInvariant P ab)
    (x y : Nat) (hx : 1 ≤ x) (hy1 : P ≤ y) (hy2 : y < 2 * P) (hxy : below x y)
    (hd : ab.done x = true) : ab.done y = true := by
  by_cases hxP : x < P
  · exact hinv.2 x hx hxP hd y hy1 hy2 hxy
  · rw [below_leaf_eq P x y (by omega) hy2 hxy]
    exact hd

theorem recursive_search_spec (isf : intersecting_clique_finder) (q t : Nat)
    (the_cliques : List clique) (comps : components) (skip : Int) (P : Nat)
    (hP : isf.power_up = P) (ht : 1 ≤ t) (hP30 : P ≤ 1073741824)
    (hC : the_cliques.length ≤ P) (hN : the_cliques.length ≤ comps.N) :
    ∀ (fuel b : Nat) (s : SearchState), P - b + 1 ≤ fuel → 1 ≤ b → b < 2 * P →
      TreeInvariant P s.assigned_branches → s.assigned_branches.done b = false →
      Searchable isf the_cliques comps skip q P s.assigned_branches →
      ∃ s' F, recursive_search fuel isf b q t the_cliques comps skip s = .ok s' ∧
        SearchPost the_cliques q t P b s s' F := by
  intro fuel
  induction fuel with
  | zero => intro b s h; omega
  | succ fuel ih =>
    intro b s hfuel hb1 hb2 hinv hnd hsrch
    unfold recursive_search
    have hnd' : s.assigned_branches.assigned_branches.getD b false = false := hnd
    simp only [hnd', not_true_eq_false, if_false, hP]
    by_cases hleaf : b ≥ P
    · -- a leaf
      rw [if_pos hleaf]
      have hleaf_only : ∀ l, l < the_cliques.length → below b (P + l) → l = b - P := by
        intro l hl hbl
        have := below_leaf_eq P b (P + l) hleaf (by omega) hbl
        omega
      by_cases hvalid : b - P ≥ the_cliques.length
      · rw [if_pos hvalid]
        refine ⟨s, [], rfl, by simp, List.nodup_nil, ?_, hinv, fun x hx => hx, by simp,
          fun x hx => Or.inl hx⟩
        intro l
        simp only [List.not_mem_nil, false_iff, not_and]
        intro hl hbl
        have := hleaf_only l hl hbl
        omega
      · rw [if_neg hvalid]
        have hlC : b - P < the_cliques.length := by omega
        have hbeq : P + (b - P) = b := by omega
        obtain ⟨_, hskip, hlt, hneq⟩ := hsrch (b - P) hlC (by rw [hbeq]; exact hnd)
        have hcomp : comps.my_component_id (b - P)
            = .ok (comps.my_component.getD (b - P) (-1)) := by
          unfold components.my_component_id
          have : (0 : Int) ≤ ((b - P : Nat) : Int) ∧ b - P < comps.N := ⟨by omega, by omega⟩
          simp only [this, and_self, not_true_eq_false, if_false]
        rw [hcomp]
        simp only [hskip, if_false, hneq, ne_eq, not_false_eq_true, not_true_eq_false, hlt]
        by_cases hov : actual_overlap (the_cliques.getD (b - P) []) (the_cliques.getD q []) ≥ t
        · rw [if_pos hov]
          obtain ⟨k, ab', hmark, h1, h2, h3, h4⟩ :=
            mark_leaf_spec P s.assigned_branches b hleaf hb1 hb2 hinv
          rw [hmark]
          refine ⟨_, [b - P], rfl, rfl, by simp, ?_, h4, h2, ?_, ?_⟩
          · intro l
            simp only [List.mem_singleton]
            constructor
            · intro hl
              rw [hl, hbeq]
              exact ⟨hlC, below_refl b, hnd, hov⟩
            · rintro ⟨hl, hbl, _, _⟩
              exact hleaf_only l hl hbl
          · intro l hl
            have : l = b - P := by simpa using hl
            rw [this, hbeq]
            exact h1
          · intro x hx
            rcases h3 x hx with h | h
            · exact Or.inl h
            · exact Or.inr ⟨b - P, by simp, by rw [hbeq]; exact h⟩
        · rw [if_neg hov]
          refine ⟨s, [], rfl, by simp, List.nodup_nil, ?_, hinv, fun x hx => hx, by simp,
            fun x hx => Or.inl hx⟩
          intro l
          simp only [List.not_mem_nil, false_iff, not_and]
          intro hl hbl _ hov'
          rw [hleaf_only l hl hbl] at hov'
          exact hov hov'
    · -- an internal node
      rw [if_neg hleaf]
      have hshift : b <<< 1 = 2 * b := by
        rw [Nat.shiftLeft_eq]; omega
      simp only [hshift]
      have hno_overflow : 2 * b < 2147483648 := by omega
      simp only [hno_overflow, not_true_eq_false, if_false]
      -- one child: the search is entered or the child is cut
      have child : ∀ (c pot : Nat) (s0 : SearchState), (c = 2 * b ∨ c = 2 * b + 1) →
          TreeInvariant P s0.assigned_branches →
          Searchable isf the_cliques comps skip q P s0.assigned_branches →
          (pot ≥ t → s0.assigned_branches.done c = false) →
          (¬ pot ≥ t → ∀ l, l < the_cliques.length → below c (P + l) →
            s0.assigned_branches.done (P + l) = false →
            ¬ t ≤ actual_overlap (the_cliques.getD l []) (the_cliques.getD q [])) →
          ∃ s' F, (if pot ≥ t then
              recursive_search fuel isf c q t the_cliques comps skip s0 else .ok s0) = .ok s' ∧
            SearchPost the_cliques q t P c s0 s' F := by
        intro c pot s0 hc hinv0 hsrch0 hpos hneg
        by_cases hpot : pot ≥ t
        · rw [if_pos hpot]
          exact ih c s0 (by omega) (by omega) (by omega) hinv0 (hpos hpot) hsrch0
        · rw [if_neg hpot]
          refine ⟨s0, [], rfl, by simp, List.nodup_nil, ?_, hinv0, fun x hx => hx, by simp,
            fun x hx => Or.inl hx⟩
          intro l
          simp only [List.not_mem_nil, false_iff, not_and]
          intro hl hbl hdl
          exact hneg hpot l hl hbl hdl
      -- what the two estimates, taken in the state `s`, say about a state `s0` after `s`
      have estimate : ∀ (c : Nat) (s0 : SearchState), (c = 2 * b ∨ c = 2 * b + 1) →
          (∀ x, s.assigned_branches.done x = true → s0.assigned_branches.done x = true) →
          (s.assigned_branches.done c = false → s0.assigned_branches.done c = false) →
          ((if s.assigned_branches.assigned_branches.getD c false = true then 0
              else isf.overlap_estimate (the_cliques.getD q []) c) ≥ t →
            s0.assigned_branches.done c = false) ∧
          (¬ (if s.assigned_branches.assigned_branches.getD c false = true then 0
              else isf.overlap_estimate (the_cliques.getD q []) c) ≥ t →
            ∀ l, l < the_cliques.length → below c (P + l) →
              s0.assigned_branches.done (P + l) = false →
              ¬ t ≤ actual_overlap (the_cliques.getD l []) (the_cliques.getD q [])) := by
        intro c s0 hc hmono hkeep
        constructor
        · intro hpot
          apply hkeep
          by_contra hd
          have hd' : s.assigned_branches.assigned_branches.getD c false = true := by
            simpa [assigned_branches_t.done] using hd
          rw [if_pos hd'] at hpot
          omega
        · intro hpot l hl hbl hdl hov
          have hdl' : s.assigned_branches.done (P + l) = false := by
            by_contra hd
            have := hmono (P + l) (by simpa using hd)
            rw [this] at hdl
            exact absurd hdl (by simp)
          have hcd : s.assigned_branches.assigned_branches.getD c false = false := by
            by_contra hd
            have hd' : s.assigned_branches.done c = true := by
              simpa [assigned_branches_t.done] using hd
            have := done_of_below_done P _ hinv c (P + l) (by omega) (by omega) (by omega)
              hbl hd'
            rw [this] at hdl'
            exact absurd hdl' (by simp)
          apply hpot
          simp only [hcd, Bool.false_eq_true, if_false]
          exact le_trans hov
            (overlap_le_estimate isf _ _ (P + l) c (hsrch l hl hdl').1 (by omega) hbl)
      -- the left child
      obtain ⟨e1, e2⟩ := estimate (2 * b)
        { s with searches_performed := s.searches_performed + 2 } (Or.inl rfl)
        (fun x hx => hx) (fun h => h)
      obtain ⟨s2, F1, hrun1, post1⟩ := child (2 * b) _
        { s with searches_performed := s.searches_performed + 2 } (Or.inl rfl) hinv hsrch e1 e2
      simp only [ge_iff_le] at hrun1 ⊢
      rw [hrun1]
      simp only
      -- the right child
      have hkeep : s.assigned_branches.done (2 * b + 1) = false →
          s2.assigned_branches.done (2 * b + 1) = false := by
        intro hd
        by_contra hc
        rcases post1.frame (2 * b + 1) (by simpa using hc) with h | ⟨l, hl, hbl⟩
        · simp only at h
          rw [h] at hd
          exact absurd hd (by simp)
        · exact not_below_both b (P + l) hb1 ((post1.mem l).1 hl).2.1 hbl
      obtain ⟨e3, e4⟩ := estimate (2 * b + 1) s2 (Or.inr rfl) post1.mono hkeep
      obtain ⟨s3, F2, hrun2, post2⟩ := child (2 * b + 1) _ s2 (Or.inr rfl) post1.inv
        (hsrch.mono isf the_cliques comps skip q P _ _ post1.mono) e3 e4
      simp only [ge_iff_le] at hrun2
      rw [hrun2]
      refine ⟨s3, F1 ++ F2, rfl, ?_, ?_, ?_, post2.inv,
        fun x hx => post2.mono x (post1.mono x hx), ?_, ?_⟩
      · rw [post2.found, post1.found]
        simp
      · rw [List.nodup_append]
        refine ⟨post1.nodup, post2.nodup, ?_⟩
        intro l h1 h2
        have := post1.marked l h1
        rw [((post2.mem l).1 h2).2.2.1] at this
        exact absurd this (by simp)
      · intro l
        rw [List.mem_append, post1.mem, post2.mem]
        constructor
        · rintro (⟨h1, h2, h3, h4⟩ | ⟨h1, h2, h3, h4⟩)
          · exact ⟨h1, below_of_below_child b _ (Or.inl h2), h3, h4⟩
          · refine ⟨h1, below_of_below_child b _ (Or.inr h2), ?_, h4⟩
            by_contra hc
            have := post1.mono (P + l) (by simpa using hc)
            rw [this] at h3
            exact absurd h3 (by simp)
        · rintro ⟨h1, h2, h3, h4⟩
          rcases below_child_of_ne b (P + l) h2 (by omega) with h | h
          · exact Or.inl ⟨h1, h, h3, h4⟩
          · refine Or.inr ⟨h1, h, ?_, h4⟩
            by_contra hc
            rcases post1.frame (P + l) (by simpa using hc) with hd | ⟨l', hl', hbl'⟩
            · simp only at hd
              rw [hd] at h3
              exact absurd h3 (by simp)
            · have hl'C := ((post1.mem l').1 hl').1
              have heq := below_leaf_eq P (P + l) (P + l') (by omega) (by omega) hbl'
              have : l' = l := by omega
              rw [this] at hl'
              exact not_below_both b (P + l) hb1 ((post1.mem l).1 hl').2.1 h
      · intro l hl
        rcases List.mem_append.1 hl with h | h
        · exact post2.mono _ (post1.marked l h)
        · exact post2.marked l h
      · intro x hx
        rcases post2.frame x hx with h | ⟨l, hl, hbl⟩
        · rcases post1.frame x h with h' | ⟨l, hl, hbl⟩
          · exact Or.inl h'
          · exact Or.inr ⟨l, List.mem_append.2 (Or.inl hl), hbl⟩
        · exact Or.inr ⟨l, List.mem_append.2 (Or.inr hl), hbl⟩

/-! ## `neighbours_of_one_clique` -/

theorem contains_of_add_all (L : Nat) (h : Int → Nat) (p : Nat) (hL : 0 < L)
    (calls : List (clique × Nat)) (c : clique) (leaf : Nat) (hc : (c, leaf) ∈ calls) :
    Contains (add_all (intersecting_clique_finder.create L h p) calls) c leaf := by
  have hwf : (intersecting_clique_finder.create L h p).bl.WellFormed := by
    unfold intersecting_clique_finder.create bloom.create bloom.WellFormed
    simp [hL]
  obtain ⟨_, _, hall⟩ := add_all_spec calls _ hwf
  intro x hx hb v hv
  obtain ⟨j, hj⟩ := hb
  have := hall (c, leaf) hc j (by rw [hj]; exact hx) v hv
  rw [hj] at this
  exact this

theorem neighbours_of_one_clique_spec (isf : intersecting_clique_finder) (q t : Nat)
    (the_cliques : List clique) (comps : components) (skip : Int) (P : Nat)
    (hP : isf.power_up = P) (ht : 1 ≤ t) (hP1 : 1 ≤ P) (hP30 : P ≤ 1073741824)
    (hC : the_cliques.length ≤ P) (hN : the_cliques.length ≤ comps.N)
    (hq : q < the_cliques.length) (hskip : comps.my_component.getD q (-1) = skip)
    (s : SearchState) (hinv : TreeInvariant P s.assigned_branches)
    (hsrch : Searchable isf the_cliques comps skip q P s.assigned_branches) :
    ∃ s' F, neighbours_of_one_clique the_cliques q comps t skip isf s = .ok s' ∧
      SearchPost the_cliques q t P 1 s s' F := by
  unfold neighbours_of_one_clique
  have hcomp : comps.my_component_id q = .ok (comps.my_component.getD q (-1)) := by
    unfold components.my_component_id
    have : (0 : Int) ≤ (q : Int) ∧ q < comps.N := ⟨by omega, by omega⟩
    simp only [this, and_self, not_true_eq_false, if_false]
  rw [hcomp]
  simp only [hskip, not_true_eq_false, if_false]
  by_cases hroot : s.assigned_branches.assigned_branches.getD 1 false = false
  · rw [if_pos hroot, hP]
    exact recursive_search_spec isf q t the_cliques comps skip P hP ht hP30 hC hN P 1 s
      (by omega) (le_refl 1) (by omega) hinv hroot hsrch
  · rw [if_neg hroot]
    have hd : s.assigned_branches.done 1 = true := by
      simpa [assigned_branches_t.done] using hroot
    refine ⟨s, [], rfl, by simp, List.nodup_nil, ?_, hinv, fun x hx => hx, by simp,
      fun x hx => Or.inl hx⟩
    intro l
    simp only [List.not_mem_nil, false_iff, not_and]
    intro hl _ hdl
    have := done_of_below_done P _ hinv 1 (P + l) (le_refl 1) (by omega) (by omega)
      (below_one _ (by omega)) hd
    rw [this] at hdl
    exact absurd hdl (by simp)

/-! ## Components -/

theorem getD_modify_allocating (f : List Nat → List Nat) :
    ∀ (ls : List (List Nat)) (i j : Nat),
      (modify_allocating f ls i).getD j [] = if j = i then f (ls.getD i []) else ls.getD j [] := by
  intro ls
  induction ls with
  | nil =>
    intro i
    induction i with
    | zero =>
      intro j
      cases j with
      | zero => simp [modify_allocating]
      | succ j => simp [modify_allocating]
    | succ i ih =>
      intro j
      cases j with
      | zero => simp [modify_allocating]
      | succ j =>
        have := ih j
        simp only [modify_allocating, List.getD_cons_succ, this]
        simp
  | cons l ls ih =>
    intro i j
    cases i with
    | zero =>
      cases j with
      | zero => simp [modify_allocating]
      | succ j => simp [modify_allocating]
    | succ i =>
      cases j with
      | zero => simp [modify_allocating]
      | succ j =>
        simp only [modify_allocating, List.getD_cons_succ, ih i j]
        simp

theorem first_empty_spec (ls : List (List Nat)) :
    ls.getD (first_empty ls) [] = [] ∧ ∀ j, j < first_empty ls → ls.getD j [] ≠ [] := by
  induction ls with
  | nil => simp [first_empty]
  | cons l ls ih =>
    unfold first_empty
    by_cases hl : l.isEmpty = true
    · rw [if_pos hl]
      refine ⟨by simpa using hl, ?_⟩
      intro j hj
      omega
    · rw [if_neg hl]
      refine ⟨by simpa using ih.1, ?_⟩
      intro j hj
      cases j with
      | zero => simpa using hl
      | succ j => simpa using ih.2 j (by omega)

theorem top_empty_component_spec (c : components) :
    0 ≤ c.top_empty_component ∧ c.members_of c.top_empty_component = [] := by
  unfold components.top_empty_component components.members_of
  refine ⟨by omega, ?_⟩
  simpa using (first_empty_spec c.members).1

theorem get_members_eq (c : components) (id : Int) :
    c.get_members id = .error (.assertion .components_hpp 25) ∨
      (0 ≤ id ∧ id < (c.N : Int) ∧ c.get_members id = .ok (c.members_of id)) := by
  unfold components.get_members
  by_cases h : id ≥ 0 ∧ id < (c.N : Int)
  · right
    refine ⟨h.1, h.2, ?_⟩
    simp only [h, and_self, not_true_eq_false, if_false]
    rfl
  · left
    rw [if_pos h]

theorem my_component_id_eq (c : components) (n : Nat) (hn : n < c.N) :
    c.my_component_id n = .ok (c.component_of n) := by
  unfold components.my_component_id
  have : (0 : Int) ≤ (n : Int) ∧ n < c.N := ⟨by omega, hn⟩
  simp only [this, and_self, not_true_eq_false, if_false]
  rfl

/-- What `move_node` does to well-formed Components: the atom is in its destination
afterwards, at the end of the member list, and nothing else has changed. -/
theorem move_node_spec (c : components) (a : Nat) (d : Int) (hwf : c.WellFormed)
    (ha : a < c.N) (hd : 0 ≤ d) :
    (c.move_node a d).WellFormed ∧ (c.move_node a d).N = c.N ∧
      (∀ x, (c.move_node a d).component_of x = if x = a then d else c.component_of x) ∧
      (c.move_node a d).members_of d = (c.members_of d).erase a ++ [a] ∧
      ∀ id : Int, 0 ≤ id → id ≠ d → (c.move_node a d).members_of id = (c.members_of id).erase a := by
  have hcomp : ∀ x, (c.move_node a d).component_of x = if x = a then d else c.component_of x := by
    intro x
    unfold components.move_node components.component_of
    simp only [List.getD_eq_getElem?_getD]
    by_cases hx : x = a
    · subst hx
      rw [List.getElem?_set_self (by rw [hwf.size]; exact ha)]
      simp
    · rw [List.getElem?_set_ne (fun e => hx e.symm)]
      simp [hx]
  -- the member lists after the removal
  have hrem : ∀ j : Nat,
      (if 0 ≤ c.my_component.getD a (-1) then
          modify_allocating (fun l => l.erase a) c.members (c.my_component.getD a (-1)).toNat
        else c.members).getD j [] = (c.members.getD j []).erase a := by
    intro j
    have hj : ∀ (src : Int), c.component_of a = src → ¬ (0 ≤ src ∧ j = src.toNat) →
        (c.members.getD j []).erase a = c.members.getD j [] := by
      intro src hsrc hne
      apply List.erase_of_not_mem
      intro hmem
      have := (hwf.mem_iff (j : Int) a (by omega)).1 (by
        unfold components.members_of; simpa using hmem)
      rw [hsrc] at this
      apply hne
      rw [this.2]
      exact ⟨by omega, by simp⟩
    by_cases h0 : 0 ≤ c.my_component.getD a (-1)
    · rw [if_pos h0, getD_modify_allocating]
      by_cases hjs : j = (c.my_component.getD a (-1)).toNat
      · rw [if_pos hjs, hjs]
      · rw [if_neg hjs]
        exact (hj _ rfl (fun h => hjs h.2)).symm
    · rw [if_neg h0]
      exact (hj _ rfl (fun h => h0 h.1)).symm
  have hmem : ∀ j : Nat, (c.move_node a d).members.getD j []
      = if j = d.toNat then (c.members.getD j []).erase a ++ [a]
        else (c.members.getD j []).erase a := by
    intro j
    unfold components.move_node
    simp only
    rw [getD_modify_allocating]
    by_cases hjd : j = d.toNat
    · rw [if_pos hjd, if_pos hjd, hrem, hjd]
    · rw [if_neg hjd, if_neg hjd, hrem]
  have hN : (c.move_node a d).N = c.N := rfl
  have hmd : (c.move_node a d).members_of d = (c.members_of d).erase a ++ [a] := by
    unfold components.members_of
    rw [hmem, if_pos rfl]
  have hmo : ∀ id : Int, 0 ≤ id → id ≠ d →
      (c.move_node a d).members_of id = (c.members_of id).erase a := by
    intro id hid hne
    unfold components.members_of
    rw [hmem, if_neg (by omega)]
  refine ⟨⟨?_, ?_, ?_⟩, hN, hcomp, hmd, hmo⟩
  · unfold components.move_node
    simpa using hwf.size
  · intro id x hid
    rw [hN, hcomp]
    by_cases hidd : id = d
    · rw [hidd, hmd, List.mem_append, (hwf.nodup d).mem_erase_iff, hwf.mem_iff d x hd]
      by_cases hx : x = a
      · simp [hx, ha]
      · simp [hx]
    · rw [hmo id hid hidd, (hwf.nodup id).mem_erase_iff, hwf.mem_iff id x hid]
      by_cases hx : x = a
      · simp [hx]
        exact fun _ h => hidd h.symm
      · simp [hx]
  · intro id
    by_cases hidd : id = d
    · rw [hidd, hmd]
      refine List.Nodup.append ((hwf.nodup d).erase a) (List.nodup_singleton a) ?_
      intro x hx hx'
      have : x = a := by simpa using hx'
      rw [this] at hx
      exact (List.Nodup.not_mem_erase (hwf.nodup d)) hx
    · by_cases hid : 0 ≤ id
      · rw [hmo id hid hidd]
        exact (hwf.nodup id).erase a
      · -- a negative id reads the member list 0
        have h0 : id.toNat = 0 := by omega
        have hread : ∀ c' : components, c'.members_of id = c'.members_of 0 := by
          intro c'
          unfold components.members_of
          rw [h0]; rfl
        rw [hread]
        by_cases hd0 : (0 : Int) = d
        · rw [hd0, hmd]
          refine List.Nodup.append ((hwf.nodup d).erase a) (List.nodup_singleton a) ?_
          intro x hx hx'
          have : x = a := by simpa using hx'
          rw [this] at hx
          exact (List.Nodup.not_mem_erase (hwf.nodup d)) hx
        · rw [hmo 0 (le_refl 0) hd0]
          exact (hwf.nodup 0).erase a

theorem setN_wellFormed (N : Nat) :
    (components.empty.setN N).WellFormed ∧ (components.empty.setN N).N = N ∧
      (∀ a, (components.empty.setN N).component_of a = -1) ∧
      ∀ id, (components.empty.setN N).members_of id = [] := by
  have hcomp : ∀ a, (components.empty.setN N).component_of a = -1 := by
    intro a
    unfold components.setN components.component_of
    simp only [List.getD_eq_getElem?_getD]
    by_cases ha : a < N
    · simp [List.getElem?_replicate, ha]
    · simp [List.getElem?_replicate, ha]
  have hmem : ∀ id, (components.empty.setN N).members_of id = [] := by
    intro id
    unfold components.setN components.members_of
    simp
  refine ⟨⟨by simp [components.setN], ?_, ?_⟩, rfl, hcomp, hmem⟩
  · intro id a hid
    rw [hmem, hcomp]
    constructor
    · intro h; simp at h
    · intro h; omega
  · intro id
    rw [hmem]
    exact List.nodup_nil

/-! ## The state in which `one_k` starts its search -/

theorem mark_leaf_iff (P : Nat) (ab : assigned_branches_t) (b : Nat) (hb1 : P ≤ b)
    (hb0 : 1 ≤ b) (hb2 : b < 2 * P) (hinv : TreeInvariant P ab) :
    ∃ k ab', ab.mark_as_done b = .ok (k, ab') ∧ TreeInvariant P ab' ∧
      (∀ x, ab.done x = true → ab'.done x = true) ∧
      ∀ y, P ≤ y → y < 2 * P → (ab'.done y = true ↔ ab.done y = true ∨ y = b) := by
  obtain ⟨k, ab', hrun, h1, h2, h3, h4⟩ := mark_leaf_spec P ab b hb1 hb0 hb2 hinv
  refine ⟨k, ab', hrun, h4, h2, ?_⟩
  intro y hy1 hy2
  constructor
  · intro hd
    rcases h3 y hd with h | h
    · exact Or.inl h
    · exact Or.inr (below_leaf_eq P y b hy1 hb2 h).symm
  · rintro (h | h)
    · exact h2 y h
    · rw [h]; exact h1

theorem premark_invalid_spec (P : Nat) :
    ∀ (leaves : List Nat) (ab : assigned_branches_t) (total : Nat),
      (∀ b ∈ leaves, P ≤ b ∧ 1 ≤ b ∧ b < 2 * P) → TreeInvariant P ab →
      ∃ n ab', premark_invalid leaves ab total = .ok (n, ab') ∧ TreeInvariant P ab' ∧
        ∀ y, P ≤ y → y < 2 * P → (ab'.done y = true ↔ ab.done y = true ∨ y ∈ leaves) := by
  intro leaves
  induction leaves with
  | nil =>
    intro ab total _ hinv
    exact ⟨total, ab, rfl, hinv, by simp⟩
  | cons b rest ih =>
    intro ab total hl hinv
    obtain ⟨hb1, hb0, hb2⟩ := hl b (by simp)
    obtain ⟨k, ab1, hrun, hinv1, _, hiff⟩ := mark_leaf_iff P ab b hb1 hb0 hb2 hinv
    obtain ⟨n, ab', hrun', hinv', hiff'⟩ := ih ab1 (total + k)
      (fun b' hb' => hl b' (by simp [hb'])) hinv1
    refine ⟨n, ab', ?_, hinv', ?_⟩
    · simp only [premark_invalid, hrun, hrun']
    · intro y hy1 hy2
      rw [hiff' y hy1 hy2, hiff y hy1 hy2]
      simp only [List.mem_cons]
      tauto

theorem done_replicate (p C n x : Nat) :
    (⟨p, C, List.replicate n false⟩ : assigned_branches_t).done x = false := by
  unfold assigned_branches_t.done
  simp only [List.getD_eq_getElem?_getD]
  by_cases hx : x < n
  · simp [List.getElem?_replicate, hx]
  · simp [List.getElem?_replicate, hx]

/-- The constructor of `assigned_branches_t` ends with exactly the invalid leaves done. -/
theorem create_spec (P C : Nat) (hP : 1 ≤ P) (hC : C ≤ P) (hP2 : 2 * P ≤ 2147483647) :
    ∃ ab, assigned_branches_t.create P C = .ok ab ∧ TreeInvariant P ab ∧
      ∀ l, l < P → (ab.done (P + l) = true ↔ C ≤ l) := by
  have hinv0 : TreeInvariant P ⟨P, C, List.replicate (2 * P) false⟩ := by
    refine ⟨by simp, ?_⟩
    intro x _ _ hd
    rw [done_replicate] at hd
    exact absurd hd (by simp)
  obtain ⟨n, ab, hrun, hinv, hiff⟩ := premark_invalid_spec P
    (List.range' (P + C) (2 * P - (P + C))) ⟨P, C, List.replicate (2 * P) false⟩ 0
    (by
      intro b hb
      rw [List.mem_range'_1] at hb
      omega) hinv0
  refine ⟨ab, ?_, hinv, ?_⟩
  · unfold assigned_branches_t.create
    rw [if_neg (by omega), if_neg (by omega)]
    simp only [hrun]
  · intro l hl
    rw [hiff (P + l) (by omega) (by omega), done_replicate, List.mem_range'_1]
    constructor
    · rintro (h | h)
      · exact absurd h (by simp)
      · omega
    · intro h
      right
      omega

theorem premark_small_spec (the_cliques : List clique) (t P : Nat) :
    ∀ (cs : List Nat) (ab : assigned_branches_t), (∀ c ∈ cs, c < P) → 1 ≤ P →
      TreeInvariant P ab →
      ∃ ab', premark_small the_cliques t P cs ab = .ok ab' ∧ TreeInvariant P ab' ∧
        ∀ l, l < P → (ab'.done (P + l) = true ↔
          ab.done (P + l) = true ∨ (l ∈ cs ∧ (the_cliques.getD l []).length ≤ t)) := by
  intro cs
  induction cs with
  | nil =>
    intro ab _ _ hinv
    exact ⟨ab, rfl, hinv, by simp⟩
  | cons c rest ih =>
    intro ab hcs hP hinv
    have hc := hcs c (by simp)
    have hrest : ∀ c' ∈ rest, c' < P := fun c' hc' => hcs c' (by simp [hc'])
    simp only [premark_small]
    by_cases hsmall : (the_cliques.getD c []).length ≤ t
    · rw [if_pos hsmall]
      obtain ⟨k, ab1, hrun, hinv1, _, hiff⟩ :=
        mark_leaf_iff P ab (P + c) (by omega) (by omega) (by omega) hinv
      rw [hrun]
      obtain ⟨ab', hrun', hinv', hiff'⟩ := ih ab1 hrest hP hinv1
      refine ⟨ab', hrun', hinv', ?_⟩
      intro l hl
      rw [hiff' l hl, hiff (P + l) (by omega) (by omega)]
      simp only [List.mem_cons]
      constructor
      · rintro ((h | h) | h)
        · exact Or.inl h
        · have : l = c := by omega
          exact Or.inr ⟨Or.inl this, by rw [this]; exact hsmall⟩
        · exact Or.inr ⟨Or.inr h.1, h.2⟩
      · rintro (h | ⟨h | h, h'⟩)
        · exact Or.inl (Or.inl h)
        · exact Or.inl (Or.inr (by rw [h]))
        · exact Or.inr ⟨h, h'⟩
    · rw [if_neg hsmall]
      obtain ⟨ab', hrun', hinv', hiff'⟩ := ih ab hrest hP hinv
      refine ⟨ab', hrun', hinv', ?_⟩
      intro l hl
      rw [hiff' l hl]
      simp only [List.mem_cons]
      constructor
      · rintro (h | h)
        · exact Or.inl h
        · exact Or.inr ⟨Or.inr h.1, h.2⟩
      · rintro (h | ⟨h | h, h'⟩)
        · exact Or.inl h
        · rw [h] at h'; exact absurd h' hsmall
        · exact Or.inr ⟨h, h'⟩

/-- The assigned branches with which `one_k` starts: a valid leaf is done exactly when
its clique has at most `t` vertices. -/
theorem one_k_prelude_spec (the_cliques : List clique) (t P : Nat) (hP : 1 ≤ P)
    (hC : the_cliques.length ≤ P) (hP2 : 2 * P ≤ 2147483647) :
    ∃ ab0 ab, assigned_branches_t.create P the_cliques.length = .ok ab0 ∧
      premark_small the_cliques t P (List.range the_cliques.length) ab0 = .ok ab ∧
      TreeInvariant P ab ∧
      ∀ l, l < the_cliques.length →
        (ab.done (P + l) = true ↔ (the_cliques.getD l []).length ≤ t) := by
  obtain ⟨ab0, hrun0, hinv0, hiff0⟩ := create_spec P the_cliques.length hP hC hP2
  obtain ⟨ab, hrun, hinv, hiff⟩ := premark_small_spec the_cliques t P
    (List.range the_cliques.length) ab0
    (fun c hc => lt_of_lt_of_le (List.mem_range.1 hc) hC) hP hinv0
  refine ⟨ab0, ab, hrun0, hrun, hinv, ?_⟩
  intro l hl
  rw [hiff l (by omega), hiff0 l (by omega), List.mem_range]
  constructor
  · rintro (h | h)
    · omega
    · exact h.2
  · intro h
    exact Or.inr ⟨hl, h⟩

/-! ## The bloom index of a level -/

theorem contains_after_add (isf : intersecting_clique_finder) (c : clique) (leaf : Nat)
    (h : isf.bl.WellFormed) : Contains (isf.add_clique_to_bloom c leaf) c leaf := by
  obtain ⟨_, _, _, h4⟩ := add_clique_to_bloom_spec isf c leaf h
  intro x hx hb v hv
  obtain ⟨j, hj⟩ := hb
  have := h4 j (by rw [hj]; exact hx) v hv
  rw [hj] at this
  exact this

theorem populate_spec (the_cliques : List clique) (t P : Nat) :
    ∀ (cs : List Nat) (isf : intersecting_clique_finder), isf.bl.WellFormed →
      (populate the_cliques t P cs isf).bl.WellFormed ∧
      (populate the_cliques t P cs isf).power_up = isf.power_up ∧
      (∀ a, isf.bl.test a = true → (populate the_cliques t P cs isf).bl.test a = true) ∧
      ∀ c ∈ cs, t ≤ (the_cliques.getD c []).length →
        Contains (populate the_cliques t P cs isf) (the_cliques.getD c []) (P + c) := by
  intro cs
  induction cs with
  | nil => intro isf h; exact ⟨h, rfl, fun a ha => ha, by simp⟩
  | cons c rest ih =>
    intro isf h
    simp only [populate]
    by_cases hsize : (the_cliques.getD c []).length ≥ t
    · rw [if_pos hsize]
      obtain ⟨s1, s2, s3, _⟩ := add_clique_to_bloom_spec isf (the_cliques.getD c []) (c + P) h
      obtain ⟨h1, h2, h3, h4⟩ := ih (isf.add_clique_to_bloom (the_cliques.getD c []) (c + P)) s1
      refine ⟨h1, h2.trans s2, fun a ha => h3 a (s3 a ha), ?_⟩
      intro c' hc' hsize'
      rcases List.mem_cons.1 hc' with he | hr
      · rw [he]
        have := contains_after_add isf (the_cliques.getD c []) (c + P) h
        rw [Nat.add_comm P c]
        intro x hx hb v hv
        exact h3 _ (this x hx hb v hv)
      · exact h4 c' hr hsize'
    · rw [if_neg hsize]
      obtain ⟨h1, h2, h3, h4⟩ := ih isf h
      refine ⟨h1, h2, h3, ?_⟩
      intro c' hc' hsize'
      rcases List.mem_cons.1 hc' with he | hr
      · rw [he] at hsize'
        exact absurd hsize' hsize
      · exact h4 c' hr hsize'

/-! ## The overlap of two cliques -/

theorem actual_overlap_eq_filter (a b : clique) (ha : a.Sorted (· < ·)) (hb : b.Sorted (· < ·)) :
    actual_overlap a b = (a.filter (fun x => decide (x ∈ b))).length := by
  unfold actual_overlap
  rw [set_intersection_eq_filter a b ha hb]

theorem actual_overlap_comm (a b : clique) (ha : a.Sorted (· < ·)) (hb : b.Sorted (· < ·)) :
    actual_overlap a b = actual_overlap b a := by
  rw [actual_overlap_eq_filter a b ha hb, actual_overlap_eq_filter b a hb ha]
  apply List.Perm.length_eq
  apply (List.perm_ext_iff_of_nodup (ha.nodup.filter _) (hb.nodup.filter _)).2
  intro x
  simp only [List.mem_filter, decide_eq_true_eq]
  tauto

/-- A clique that does not contain all of `q` overlaps `q` in fewer vertices than `q`
has. -/
theorem actual_overlap_lt (a q : clique) (ha : a.Sorted (· < ·)) (hq : q.Sorted (· < ·))
    (h : ¬ ∀ v ∈ q, v ∈ a) : actual_overlap a q < q.length := by
  rw [actual_overlap_comm a q ha hq, actual_overlap_eq_filter q a hq ha,
    List.length_filter_lt_length_iff_exists]
  push_neg at h
  obtain ⟨v, hv, hva⟩ := h
  exact ⟨v, hv, by simpa using hva⟩

/-! ## The growth of one community -/

theorem move_in_spec (C : Nat) (cur d : Int) (hd : 0 ≤ d) (hne : d ≠ cur) :
    ∀ (Fnd F : List Nat) (level : components), level.WellFormed → level.N = C →
      Fnd.Nodup → (∀ x ∈ Fnd, x < C ∧ level.component_of x = cur) →
      ∃ level', move_in cur d Fnd F level = .ok (Fnd.reverse ++ F, level') ∧
        level'.WellFormed ∧ level'.N = C ∧
        (∀ l, level'.component_of l = if l ∈ Fnd then d else level.component_of l) ∧
        (level'.members_of d).length = (level.members_of d).length + Fnd.length := by
  intro Fnd
  induction Fnd with
  | nil =>
    intro F level hwf hN _ _
    exact ⟨level, rfl, hwf, hN, by simp, by simp⟩
  | cons x rest ih =>
    intro F level hwf hN hnd hx
    obtain ⟨hxC, hxcur⟩ := hx x (by simp)
    obtain ⟨hwf1, hN1, hcomp1, hmd1, _⟩ := move_node_spec level x d hwf (by omega) hd
    have hxd : x ∉ level.members_of d := by
      intro hm
      have := ((hwf.mem_iff d x hd).1 hm).2
      rw [hxcur] at this
      exact hne this.symm
    obtain ⟨level', hrun, hwf', hN', hcomp', hlen'⟩ := ih (x :: F) (level.move_node x d) hwf1
      (by rw [hN1, hN]) (List.nodup_cons.1 hnd).2 (by
        intro x' hx'
        refine ⟨(hx x' (by simp [hx'])).1, ?_⟩
        rw [hcomp1]
        have : x' ≠ x := fun e => (List.nodup_cons.1 hnd).1 (e ▸ hx')
        rw [if_neg this]
        exact (hx x' (by simp [hx'])).2)
    refine ⟨level', ?_, hwf', hN', ?_, ?_⟩
    · simp only [move_in, my_component_id_eq level x (by omega), hxcur, not_true_eq_false,
        if_false, hrun]
      simp
    · intro l
      rw [hcomp' l, hcomp1 l]
      by_cases hlr : l ∈ rest
      · simp [hlr]
      · by_cases hlx : l = x
        · simp [hlx]
        · simp [hlr, hlx]
    · rw [hlen', hmd1, List.erase_of_not_mem hxd, List.length_append]
      simp only [List.length_cons, List.length_nil]
      omega

/-- The members of a component of `C` atoms are at most `C`. -/
theorem members_length_le (level : components) (hwf : level.WellFormed) (id : Int)
    (hid : 0 ≤ id) : (level.members_of id).length ≤ level.N := by
  have hsub : ∀ x ∈ level.members_of id, x ∈ List.range level.N := by
    intro x hx
    exact List.mem_range.2 ((hwf.mem_iff id x hid).1 hx).1
  have := (List.subperm_of_subset (hwf.nodup id) hsub).length_le
  simpa using this

/-- Two distinct maximal cliques overlap in fewer vertices than the first has. -/
theorem small_overlap_lt (the_cliques : List clique) (h : DistinctMaximal the_cliques)
    (b q : Nat) (hb : b < the_cliques.length) (hq : q < the_cliques.length) (hne : b ≠ q) :
    overlap_of the_cliques b q < (the_cliques.getD b []).length := by
  unfold overlap_of
  rw [actual_overlap_comm _ _ (h.1 b hb) (h.1 q hq)]
  exact actual_overlap_lt _ _ (h.1 q hq) (h.1 b hb) (h.2 q hq b hb (Ne.symm hne))

theorem grow_community_spec (the_cliques : List clique) (t P : Nat)
    (isf : intersecting_clique_finder) (hset : LevelSetting the_cliques t P isf)
    (orig : Nat → Int) (S0 : List Int) (cur : Int) (rest : List Int) (d : Int) (seed : Nat)
    (level0 : components) (ab0 : assigned_branches_t)
    (hd0 : 0 ≤ d) (hdsrc : d ∉ cur :: rest) (hcur : cur ∈ S0)
    (hd_empty : ∀ l, l < the_cliques.length → level0.component_of l ≠ d)
    (hsrc_orig : ∀ l, l < the_cliques.length → level0.component_of l ∈ cur :: rest →
      level0.component_of l = orig l ∧ orig l ∈ S0)
    (hsep : ∀ a, a < the_cliques.length → ∀ b, b < the_cliques.length →
      orig a ∈ S0 → orig b ∈ S0 → orig a ≠ orig b → overlap_of the_cliques a b < t) :
    ∀ (fuel : Nat) (F : List Nat) (level : components) (ab : assigned_branches_t),
      GrowInv the_cliques t P cur rest d seed level0 ab0 F level ab →
      (the_cliques.length - (level.members_of d).length) + F.length + 1 ≤ fuel →
      ∃ level' ab', grow_community t the_cliques P isf cur d fuel F level ab
          = .ok (level', ab') ∧
        GrowInv the_cliques t P cur rest d seed level0 ab0 [] level' ab' := by
  intro fuel
  induction fuel with
  | zero => intro F level ab _ h; omega
  | succ fuel ih =>
    intro F level ab inv hfuel
    cases F with
    | nil => exact ⟨level, ab, rfl, inv⟩
    | cons q tail =>
      obtain ⟨hqC, hqd⟩ := inv.F_mem q (by simp)
      have hC := hset.C_le
      have hP := hset.P_pos
      have hqtail : q ∉ tail := (List.nodup_cons.1 inv.F_nodup).1
      have hdcur : d ≠ cur := fun e => hdsrc (by rw [e]; simp)
      -- a member of `d` came out of the current source component
      have hmember : ∀ l, l < the_cliques.length → level.component_of l = d →
          level0.component_of l = cur ∧ orig l = cur := by
        intro l hl hld
        rcases inv.frame l hl with h | h
        · exact absurd (by rw [← h]; exact hld) (hd_empty l hl)
        · exact ⟨h.1, by rw [← (hsrc_orig l hl (by rw [h.1]; simp)).1, h.1]⟩
      -- a clique in a source component has not moved
      have hunmoved : ∀ l, l < the_cliques.length → level.component_of l ∈ cur :: rest →
          level.component_of l = orig l ∧ orig l ∈ S0 := by
        intro l hl hls
        rcases inv.frame l hl with h | h
        · rw [h] at hls ⊢
          exact hsrc_orig l hl hls
        · rw [h.2] at hls
          exact absurd hls hdsrc
      -- the leaf of the popped clique is marked
      obtain ⟨k, ab1, hmark, hinv1, hmono1, hiff1⟩ :=
        mark_leaf_iff P ab (P + q) (by omega) (by omega) (by omega) inv.tree
      have hdone1 : ∀ l, l < the_cliques.length →
          (ab1.done (P + l) = false ↔ ab.done (P + l) = false ∧ l ≠ q) := by
        intro l hl
        have := hiff1 (P + l) (by omega) (by omega)
        constructor
        · intro h
          constructor
          · by_contra hc
            have hc' : ab.done (P + l) = true := by simpa using hc
            rw [this.2 (Or.inl hc')] at h
            exact absurd h (by simp)
          · intro e
            rw [this.2 (Or.inr (by rw [e]))] at h
            exact absurd h (by simp)
        · rintro ⟨h1, h2⟩
          by_contra hc
          have hc' : ab1.done (P + l) = true := by simpa using hc
          rcases this.1 hc' with h | h
          · rw [h] at h1; exact absurd h1 (by simp)
          · exact h2 (by omega)
      -- a clique whose leaf is not done is in a source component
      have hfree1 : ∀ l, l < the_cliques.length → ab1.done (P + l) = false →
          level.component_of l ∈ cur :: rest := by
        intro l hl hdl
        obtain ⟨h1, h2⟩ := (hdone1 l hl).1 hdl
        rcases inv.free l hl h1 with h | h
        · exact h
        · have := inv.d_done l hl h h1
          simp only [List.cons.injEq] at this
          exact absurd this.1.symm h2
      -- the search
      have hsrch : Searchable isf the_cliques level d q P ab1 := by
        intro l hl hdl
        obtain ⟨h1, h2⟩ := (hdone1 l hl).1 hdl
        refine ⟨hset.contains l hl (le_of_lt (inv.big l hl h1)), ?_, ?_, h2⟩
        · intro e
          exact hdsrc (by rw [← e]; exact hfree1 l hl hdl)
        · exact actual_overlap_lt _ _ (hset.cliques.1 l hl) (hset.cliques.1 q hqC)
            (hset.cliques.2 l hl q hqC h2)
      obtain ⟨s', Fnd, hsearch, post⟩ := neighbours_of_one_clique_spec isf q t the_cliques
        level d P hset.isf_P hset.t_pos hP (by have := hset.P_le; omega) hC (by rw [inv.N_eq]) hqC hqd
        ⟨0, [], ab1⟩ hinv1 hsrch
      have hFnd : ∀ l, l ∈ Fnd ↔ l < the_cliques.length ∧ ab1.done (P + l) = false ∧
          t ≤ overlap_of the_cliques l q := by
        intro l
        rw [post.mem]
        constructor
        · rintro ⟨h1, _, h3, h4⟩
          exact ⟨h1, h3, h4⟩
        · rintro ⟨h1, h3, h4⟩
          exact ⟨h1, below_one _ (by omega), h3, h4⟩
      have hdone' : ∀ l, l < the_cliques.length →
          (s'.assigned_branches.done (P + l) = false ↔
            ab1.done (P + l) = false ∧ l ∉ Fnd) := by
        intro l hl
        constructor
        · intro h
          constructor
          · by_contra hc
            have := post.mono (P + l) (by simpa using hc)
            rw [this] at h
            exact absurd h (by simp)
          · intro hm
            rw [post.marked l hm] at h
            exact absurd h (by simp)
        · rintro ⟨h1, h2⟩
          by_contra hc
          rcases post.frame (P + l) (by simpa using hc) with h | ⟨l', hl', hb⟩
          · simp only at h
            rw [h] at h1
            exact absurd h1 (by simp)
          · have hl'C := ((hFnd l').1 hl').1
            have := below_leaf_eq P (P + l) (P + l') (by omega) (by omega) hb
            have : l' = l := by omega
            rw [this] at hl'
            exact h2 hl'
      -- the cliques found are in the current source component
      have hFnd_cur : ∀ x ∈ Fnd, x < the_cliques.length ∧ level.component_of x = cur := by
        intro x hx
        obtain ⟨hxC, hxd, hxov⟩ := (hFnd x).1 hx
        refine ⟨hxC, ?_⟩
        have hxs := hfree1 x hxC hxd
        obtain ⟨h1, h2⟩ := hunmoved x hxC hxs
        rw [h1]
        by_contra hne
        have := hsep x hxC q hqC h2 (by rw [(hmember q hqC hqd).2]; exact hcur)
          (by rw [(hmember q hqC hqd).2]; exact hne)
        omega
      obtain ⟨level', hmove, hwf', hN', hcomp', hlen'⟩ := move_in_spec the_cliques.length cur d
        hd0 hdcur Fnd tail level inv.wf inv.N_eq post.nodup hFnd_cur
      -- the frontier stays below the number of cliques
      have htail_sub : ∀ x ∈ q :: tail, x ∈ level.members_of d := by
        intro x hx
        obtain ⟨h1, h2⟩ := inv.F_mem x hx
        exact (inv.wf.mem_iff d x hd0).2 ⟨by rw [inv.N_eq]; exact h1, h2⟩
      have hlen_tail : tail.length + 1 ≤ (level.members_of d).length := by
        have := length_le_of_nodup_subset_nat (q :: tail) (level.members_of d) inv.F_nodup htail_sub
        simpa using this
      have hlen_d' : (level'.members_of d).length ≤ the_cliques.length := by
        have := members_length_le level' hwf' d hd0
        rw [hN'] at this
        exact this
      have hfront : (Fnd.reverse ++ tail).length < the_cliques.length := by
        simp only [List.length_append, List.length_reverse]
        omega
      -- the state of the next round
      have inv' : GrowInv the_cliques t P cur rest d seed level0 ab0 (Fnd.reverse ++ tail) level'
          s'.assigned_branches := by
        refine ⟨hwf', hN', post.inv, ?_, ?_, ⟨inv.seeded.1, ?_⟩, ?_, ?_, ?_,
          fun l hl hdl => inv.big l hl ((hdone1 l hl).1 ((hdone' l hl).1 hdl).1).1, ?_, ?_, ?_⟩
        · rw [List.nodup_append]
          refine ⟨List.nodup_reverse.2 post.nodup, (List.nodup_cons.1 inv.F_nodup).2, ?_⟩
          intro x hx hx'
          have h1 := (hFnd_cur x (List.mem_reverse.1 hx)).2
          have h2 := (inv.F_mem x (by simp [hx'])).2
          rw [h1] at h2
          exact hdcur h2.symm
        · intro l hl
          rw [hcomp']
          rcases List.mem_append.1 hl with h | h
          · have hm := List.mem_reverse.1 h
            exact ⟨(hFnd_cur l hm).1, by rw [if_pos hm]⟩
          · obtain ⟨h1, h2⟩ := inv.F_mem l (by simp [h])
            refine ⟨h1, ?_⟩
            split
            · rfl
            · exact h2
        · rw [hcomp']
          split
          · rfl
          · exact inv.seeded.2
        · intro l hl hld hdl
          exfalso
          obtain ⟨h1, h2⟩ := (hdone' l hl).1 hdl
          rw [hcomp', if_neg h2] at hld
          exact hdsrc (by rw [← hld]; exact hfree1 l hl h1)
        · intro l hl hdl
          obtain ⟨h1, h2⟩ := (hdone' l hl).1 hdl
          rw [hcomp', if_neg h2]
          exact Or.inl (hfree1 l hl h1)
        · intro l hl hls
          rw [hcomp'] at hls
          by_cases hm : l ∈ Fnd
          · rw [if_pos hm] at hls
            exact absurd hls hdsrc
          · rw [if_neg hm] at hls
            rcases inv.src_free l hl hls with hfr | hsm
            · left
              rw [hdone' l hl]
              refine ⟨?_, hm⟩
              rw [hdone1 l hl]
              refine ⟨hfr, ?_⟩
              intro e
              rw [e, hqd] at hls
              exact hdsrc hls
            · exact Or.inr hsm
        · intro l hl
          rw [hcomp']
          by_cases hm : l ∈ Fnd
          · rw [if_pos hm]
            right
            refine ⟨?_, rfl⟩
            rcases inv.frame l hl with h | h
            · rw [← h]; exact (hFnd_cur l hm).2
            · exact h.1
          · rw [if_neg hm]
            exact inv.frame l hl
        · intro a haC b hbC had hanF hbs
          rw [hcomp'] at had hbs
          have hbm : b ∉ Fnd := by
            intro hm
            rw [if_pos hm] at hbs
            exact hdsrc hbs
          rw [if_neg hbm] at hbs
          have ham : a ∉ Fnd := fun hm => hanF (List.mem_append.2 (Or.inl (List.mem_reverse.2 hm)))
          rw [if_neg ham] at had
          by_cases haq : a = q
          · rw [haq]
            have hbq : b ≠ q := by
              intro e
              rw [e, hqd] at hbs
              exact hdsrc hbs
            rcases inv.src_free b hbC hbs with hfr | hsm
            · by_contra hov
              apply hbm
              rw [hFnd]
              refine ⟨hbC, ?_, by omega⟩
              rw [hdone1 b hbC]
              exact ⟨hfr, hbq⟩
            · have := small_overlap_lt the_cliques hset.cliques b q hbC hqC hbq
              omega
          · apply inv.searched a haC b hbC had _ hbs
            intro hm
            rcases List.mem_cons.1 hm with h | h
            · exact haq h
            · exact hanF (List.mem_append.2 (Or.inr h))
        · intro x hx
          exact post.mono x (hmono1 x (inv.mono x hx))
      obtain ⟨level'', ab'', hrec, inv''⟩ := ih (Fnd.reverse ++ tail) level'
        s'.assigned_branches inv' (by
          simp only [List.length_append, List.length_reverse, List.length_cons] at hfuel ⊢
          omega)
      refine ⟨level'', ab'', ?_, inv''⟩
      simp only [grow_community, hmark, my_component_id_eq level q (by rw [inv.N_eq]; exact hqC),
        hqd, not_true_eq_false, if_false, hsearch]
      have hfound : s'.cliques_found = Fnd := by
        rw [post.found]; rfl
      rw [hfound, hmove]
      simp only [hfront, not_true_eq_false, if_false]
      exact hrec

/-! ## The communities of one source component -/

theorem get_members_ok (c : components) (id : Int) (h0 : 0 ≤ id) (h1 : id < (c.N : Int)) :
    c.get_members id = .ok (c.members_of id) := by
  unfold components.get_members
  have : id ≥ 0 ∧ id < (c.N : Int) := ⟨h0, h1⟩
  simp only [this, and_self, not_true_eq_false, if_false]
  rfl

theorem component_ne_of_empty (level : components) (hwf : level.WellFormed) (id : Int)
    (hid : 0 ≤ id) (hemp : level.members_of id = []) (l : Nat) (hl : l < level.N) :
    level.component_of l ≠ id := by
  intro e
  have := (hwf.mem_iff id l hid).2 ⟨hl, e⟩
  rw [hemp] at this
  exact absurd this (by simp)

theorem exists_member (level : components) (hwf : level.WellFormed) (id : Int)
    (hid : 0 ≤ id) (hne : level.members_of id ≠ []) :
    ∃ l, l < level.N ∧ level.component_of l = id := by
  obtain ⟨x, hx⟩ := List.exists_mem_of_ne_nil _ hne
  exact ⟨x, (hwf.mem_iff id x hid).1 hx⟩

theorem overlap_of_comm (the_cliques : List clique) (h : DistinctMaximal the_cliques)
    (a b : Nat) (ha : a < the_cliques.length) (hb : b < the_cliques.length) :
    overlap_of the_cliques a b = overlap_of the_cliques b a :=
  actual_overlap_comm _ _ (h.1 a ha) (h.1 b hb)

/-- One community: from the state between two communities in which the current source
component is not empty to the next such state. -/
theorem one_community_spec (the_cliques : List clique) (t P : Nat)
    (isf : intersecting_clique_finder) (hset : LevelSetting the_cliques t P isf)
    (orig : Nat → Int) (S0 : List Int) (cur : Int) (rest found : List Int)
    (level : components) (ab : assigned_branches_t)
    (inv : OneKInv the_cliques t P orig S0 (cur :: rest) found level ab)
    (seed : Nat) (hseed : seed ∈ level.members_of cur) :
    ∃ level2 ab2,
      grow_community t the_cliques P isf cur level.top_empty_component
          (the_cliques.length + 1) [seed]
          (level.move_node seed level.top_empty_component) ab = .ok (level2, ab2) ∧
        OneKInv the_cliques t P orig S0 (cur :: rest) (found ++ [level.top_empty_component])
          level2 ab2 ∧
        (∀ x ∈ level2.members_of cur, x ∈ level.members_of cur ∧ x ≠ seed) := by
  obtain ⟨hcur_S0, hcur0⟩ := inv.src_sub cur (by simp)
  obtain ⟨hg0, hgemp⟩ := top_empty_component_spec level
  generalize hgrow : level.top_empty_component = grow at hg0 hgemp ⊢
  obtain ⟨hseedN, hseedcur⟩ := (inv.wf.mem_iff cur seed hcur0).1 hseed
  have hseedC : seed < the_cliques.length := by rw [← inv.N_eq]; exact hseedN
  have hC1 : 1 ≤ the_cliques.length := by omega
  -- the new component is none of the components in use
  have hd_empty : ∀ l, l < the_cliques.length → level.component_of l ≠ grow :=
    fun l hl => component_ne_of_empty level inv.wf grow hg0 hgemp l (by rw [inv.N_eq]; exact hl)
  have hgsrc : grow ∉ cur :: rest := by
    intro hm
    rcases List.mem_cons.1 hm with h | h
    · rw [h] at hgemp
      rw [hgemp] at hseed
      exact absurd hseed (by simp)
    · exact inv.src_nonempty grow h hgemp
  have hgfound : grow ∉ found := fun hm => (inv.found_disj grow hm).2.2 hgemp
  have hcur_rest : cur ∉ rest := (List.nodup_cons.1 inv.src_nodup).1
  -- the seed is moved
  obtain ⟨hwf1, hN1, hcomp1, hmd1, _⟩ := move_node_spec level seed grow inv.wf hseedN hg0
  have ginv : GrowInv the_cliques t P cur rest grow seed level ab [seed]
      (level.move_node seed grow) ab := by
    refine ⟨hwf1, by rw [hN1, inv.N_eq], inv.tree, List.nodup_singleton seed, ?_,
      ⟨hseedC, by rw [hcomp1]; simp⟩, ?_, ?_, ?_, inv.big, ?_, ?_, fun x hx => hx⟩
    · intro l hl
      have : l = seed := by simpa using hl
      rw [this, hcomp1]
      exact ⟨hseedC, by simp⟩
    · intro l hl hld _
      rw [hcomp1] at hld
      by_cases hls : l = seed
      · rw [hls]
      · rw [if_neg hls] at hld
        exact absurd hld (hd_empty l hl)
    · intro l hl hdl
      rw [hcomp1]
      by_cases hls : l = seed
      · rw [if_pos hls]; exact Or.inr rfl
      · rw [if_neg hls]; exact Or.inl (inv.free l hl hdl)
    · intro l hl hls
      rw [hcomp1] at hls
      by_cases hlseed : l = seed
      · rw [if_pos hlseed] at hls
        exact absurd hls hgsrc
      · rw [if_neg hlseed] at hls
        exact inv.src_free l hl hls
    · intro l hl
      rw [hcomp1]
      by_cases hls : l = seed
      · rw [if_pos hls, hls]
        exact Or.inr ⟨hseedcur, rfl⟩
      · rw [if_neg hls]
        exact Or.inl rfl
    · intro a ha b _ had haF _
      rw [hcomp1] at had
      have has : a ≠ seed := by simpa using haF
      rw [if_neg has] at had
      exact absurd had (hd_empty a ha)
  have hfuel : (the_cliques.length - ((level.move_node seed grow).members_of grow).length)
      + [seed].length + 1 ≤ the_cliques.length + 1 := by
    rw [hmd1, hgemp]
    simp only [List.erase_nil, List.nil_append, List.length_singleton]
    omega
  obtain ⟨level2, ab2, hrun, G⟩ := grow_community_spec the_cliques t P isf hset orig S0 cur rest
    grow seed level ab hg0 hgsrc hcur_S0 hd_empty
    (fun l hl hls => ⟨inv.src_orig l hl hls, by
      rw [← inv.src_orig l hl hls]; exact (inv.src_sub _ hls).1⟩)
    inv.sep (the_cliques.length + 1) [seed] (level.move_node seed grow) ab ginv hfuel
  -- what the growth has left unchanged
  have hkeep : ∀ l, l < the_cliques.length → level2.component_of l ≠ grow →
      level2.component_of l = level.component_of l := by
    intro l hl hne
    rcases G.frame l hl with h | h
    · exact h
    · exact absurd h.2 hne
  have hmoved : ∀ l, l < the_cliques.length → level2.component_of l = grow →
      level.component_of l = cur := by
    intro l hl hlg
    rcases G.frame l hl with h | h
    · exact absurd (by rw [← h]; exact hlg) (hd_empty l hl)
    · exact h.1
  have hstay : ∀ l, l < the_cliques.length → level.component_of l ≠ cur →
      level2.component_of l = level.component_of l := by
    intro l hl hne
    rcases G.frame l hl with h | h
    · exact h
    · exact absurd h.1 hne
  have hfree2 : ∀ l, l < the_cliques.length → ab2.done (P + l) = false →
      level2.component_of l ∈ cur :: rest := by
    intro l hl hdl
    rcases G.free l hl hdl with h | h
    · exact h
    · exact absurd (G.d_done l hl h hdl) (by simp)
  have hnonempty : ∀ id : Int, 0 ≤ id → id ≠ cur → level.members_of id ≠ [] →
      level2.members_of id ≠ [] := by
    intro id hid hne hmem
    obtain ⟨x, hxN, hxid⟩ := exists_member level inv.wf id hid hmem
    have hxC : x < the_cliques.length := by rw [← inv.N_eq]; exact hxN
    have := hstay x hxC (by rw [hxid]; exact hne)
    intro hemp
    have hx2 := (G.wf.mem_iff id x hid).2 ⟨by rw [G.N_eq]; exact hxC, by rw [this]; exact hxid⟩
    rw [hemp] at hx2
    exact absurd hx2 (by simp)
  refine ⟨level2, ab2, hrun, ?_, ?_⟩
  swap
  · intro x hx
    obtain ⟨hxN, hxcur⟩ := (G.wf.mem_iff cur x hcur0).1 hx
    have hxC : x < the_cliques.length := by rw [← G.N_eq]; exact hxN
    have hxne : level2.component_of x ≠ grow := by
      rw [hxcur]; exact fun e => hgsrc (by rw [← e]; simp)
    refine ⟨(inv.wf.mem_iff cur x hcur0).2 ⟨by rw [inv.N_eq]; exact hxC, by
      rw [← hkeep x hxC hxne]; exact hxcur⟩, ?_⟩
    intro e
    rw [e, G.seeded.2] at hxcur
    exact hgsrc (by rw [hxcur]; simp)
  refine ⟨G.wf, G.N_eq, G.tree, hfree2, G.src_free, G.big, ?_, inv.src_sub, inv.src_nodup, ?_, ?_, ?_, ?_,
    ?_, ?_, ?_, inv.sep, ?_⟩
  · -- src_orig
    intro l hl hls
    have hne : level2.component_of l ≠ grow := fun e => hgsrc (by rw [← e]; exact hls)
    rw [hkeep l hl hne] at hls ⊢
    exact inv.src_orig l hl hls
  · -- src_nonempty
    intro s hs
    simp only [List.tail_cons] at hs
    exact hnonempty s (inv.src_sub s (by simp [hs])).2 (fun e => hcur_rest (by rw [← e]; exact hs))
      (inv.src_nonempty s hs)
  · -- found_disj
    intro f hf
    rcases List.mem_append.1 hf with h | h
    · obtain ⟨h1, h2, h3⟩ := inv.found_disj f h
      exact ⟨h1, h2, hnonempty f h2 (fun e => h1 (by rw [e]; simp)) h3⟩
    · have hfg : f = grow := by simpa using h
      rw [hfg]
      refine ⟨hgsrc, hg0, ?_⟩
      intro hemp
      have := (G.wf.mem_iff grow seed hg0).2 ⟨by rw [G.N_eq]; exact hseedC, G.seeded.2⟩
      rw [hemp] at this
      exact absurd this (by simp)
  · -- found_nodup
    rw [List.nodup_append]
    refine ⟨inv.found_nodup, List.nodup_singleton grow, ?_⟩
    intro f hf hf'
    have : f = grow := by simpa using hf'
    rw [this] at hf
    exact hgfound hf
  · -- found_orig
    intro f hf
    rcases List.mem_append.1 hf with h | h
    · obtain ⟨s, hs, hall⟩ := inv.found_orig f h
      refine ⟨s, hs, ?_⟩
      intro l hl hlf
      have hne : level2.component_of l ≠ grow := by
        rw [hlf]; exact fun e => hgfound (by rw [← e]; exact h)
      rw [hkeep l hl hne] at hlf
      exact hall l hl hlf
    · have hfg : f = grow := by simpa using h
      rw [hfg]
      refine ⟨cur, hcur_S0, ?_⟩
      intro l hl hlg
      have := hmoved l hl hlg
      rw [← inv.src_orig l hl (by rw [this]; simp), this]
  · -- placed
    intro l hl ho
    by_cases hlg : level2.component_of l = grow
    · right
      rw [hlg]
      simp
    · rw [hkeep l hl hlg]
      rcases inv.placed l hl ho with h | h
      · exact Or.inl h
      · exact Or.inr (List.mem_append.2 (Or.inl h))
  · -- closed_free
    intro a ha b hb haf hbs
    by_cases hag : level2.component_of a = grow
    · exact G.searched a ha b hb hag (by simp) hbs
    · rw [hkeep a ha hag] at haf
      have hbg : level2.component_of b ≠ grow := fun e => hgsrc (by rw [← e]; exact hbs)
      rw [hkeep b hb hbg] at hbs
      rcases List.mem_append.1 haf with h | h
      · exact inv.closed_free a ha b hb h hbs
      · have : level.component_of a = grow := by simpa using h
        exact absurd this (hd_empty a ha)
  · -- closed_found
    intro a ha b hb haf hbf hne
    have hold : ∀ x, x < the_cliques.length → level2.component_of x ∈ found ++ [grow] →
        level2.component_of x ≠ grow → level.component_of x ∈ found := by
      intro x hx hxf hxg
      rw [hkeep x hx hxg] at hxf
      rcases List.mem_append.1 hxf with h | h
      · exact h
      · have : level.component_of x = grow := by simpa using h
        exact absurd this (hd_empty x hx)
    have hnew : ∀ x, x < the_cliques.length → level2.component_of x = grow →
        level.component_of x ∈ cur :: rest := by
      intro x hx hxg
      rw [hmoved x hx hxg]
      simp
    by_cases hag : level2.component_of a = grow
    · by_cases hbg : level2.component_of b = grow
      · exact absurd (hag.trans hbg.symm) hne
      · exact inv.closed_free b hb a ha (hold b hb hbf hbg) (hnew a ha hag)
    · by_cases hbg : level2.component_of b = grow
      · rw [overlap_of_comm the_cliques hset.cliques a b ha hb]
        exact inv.closed_free a ha b hb (hold a ha haf hag) (hnew b hb hbg)
      · have h1 := hold a ha haf hag
        have h2 := hold b hb hbf hbg
        refine inv.closed_found a ha b hb h1 h2 ?_
        rw [← hkeep a ha hag, ← hkeep b hb hbg]
        exact hne
  · -- frame
    intro l hl
    rcases G.frame l hl with h | h
    · rw [h]
      rcases inv.frame l hl with h2 | h2
      · exact Or.inl h2
      · exact Or.inr (List.mem_append.2 (Or.inl h2))
    · right
      rw [h.2]
      simp

/-! ## `one_k` -/

theorem drain_source_spec (the_cliques : List clique) (t P : Nat)
    (isf : intersecting_clique_finder) (hset : LevelSetting the_cliques t P isf)
    (orig : Nat → Int) (S0 : List Int) (cur : Int) (rest : List Int) :
    ∀ (fuel : Nat) (found : List Int) (level : components) (ab : assigned_branches_t),
      OneKInv the_cliques t P orig S0 (cur :: rest) found level ab →
      (level.members_of cur).length + 1 ≤ fuel →
      drain_source t the_cliques P isf cur fuel found level ab
          = .error (.assertion .components_hpp 25) ∨
        (drain_source t the_cliques P isf cur fuel found level ab
            = .error (.assertion .cp5_cpp 480) ∧
          ∃ l, l < the_cliques.length ∧ orig l ∈ S0 ∧ (the_cliques.getD l []).length ≤ t) ∨
        ∃ found' level' ab',
          drain_source t the_cliques P isf cur fuel found level ab
            = .ok (found', level', ab') ∧
          OneKInv the_cliques t P orig S0 (cur :: rest) found' level' ab' ∧
          level'.members_of cur = [] := by
  intro fuel
  induction fuel with
  | zero => intro found level ab _ h; omega
  | succ fuel ih =>
    intro found level ab inv hfuel
    obtain ⟨_, hcur0⟩ := inv.src_sub cur (by simp)
    unfold drain_source
    rcases get_members_eq level cur with herr | ⟨_, hcurN, hok⟩
    · left
      rw [herr]
    rw [hok]
    cases hmem : level.members_of cur with
    | nil =>
      right; right
      exact ⟨found, level, ab, rfl, inv, hmem⟩
    | cons seed ms =>
      simp only
      have hseed : seed ∈ level.members_of cur := by rw [hmem]; simp
      obtain ⟨hseedN, hseedcur⟩ := (inv.wf.mem_iff cur seed hcur0).1 hseed
      have hseedC : seed < the_cliques.length := by rw [← inv.N_eq]; exact hseedN
      by_cases h480 : ab.assigned_branches.getD (P + seed) false = false
      swap
      · right; left
        rw [if_pos h480]
        refine ⟨rfl, seed, hseedC, ?_, ?_⟩
        · rw [← inv.src_orig seed hseedC (by rw [hseedcur]; simp), hseedcur]
          exact (inv.src_sub cur (by simp)).1
        · rcases inv.src_free seed hseedC (by rw [hseedcur]; simp) with hfr | hsm
          · exact absurd hfr h480
          · exact hsm
      have hfree : ab.done (P + seed) = false := h480
      have h481 : (the_cliques.getD seed []).length > t := inv.big seed hseedC hfree
      simp only [h480, not_true_eq_false, if_false, h481]
      obtain ⟨hg0, hgemp⟩ := top_empty_component_spec level
      rcases get_members_eq level level.top_empty_component with herr | ⟨_, hgN, hgok⟩
      · left
        rw [herr]
      rw [hgok, hgemp]
      simp only [List.length_nil, not_true_eq_false, if_false]
      obtain ⟨level2, ab2, hrun, inv2, hshrink⟩ := one_community_spec the_cliques t P isf hset
        orig S0 cur rest found level ab inv seed hseed
      rw [hrun]
      simp only
      have hgN2 : level.top_empty_component < (level2.N : Int) := by
        rw [inv2.N_eq, ← inv.N_eq]; exact hgN
      rw [get_members_ok level2 _ hg0 hgN2]
      simp only
      apply ih (found ++ [level.top_empty_component]) level2 ab2 inv2
      have hsub : ∀ x ∈ seed :: level2.members_of cur, x ∈ level.members_of cur := by
        intro x hx
        rcases List.mem_cons.1 hx with h | h
        · rw [h]; exact hseed
        · exact (hshrink x h).1
      have hnd : (seed :: level2.members_of cur).Nodup :=
        List.nodup_cons.2 ⟨fun h => (hshrink seed h).2 rfl, inv2.wf.nodup cur⟩
      have := length_le_of_nodup_subset_nat _ _ hnd hsub
      simp only [List.length_cons] at this
      omega

theorem one_k_sources_spec (the_cliques : List clique) (t P : Nat)
    (isf : intersecting_clique_finder) (hset : LevelSetting the_cliques t P isf)
    (orig : Nat → Int) (S0 : List Int) :
    ∀ (srcs found : List Int) (level : components) (ab : assigned_branches_t),
      OneKInv the_cliques t P orig S0 srcs found level ab →
      one_k_sources t the_cliques P isf srcs found level ab
          = .error (.assertion .components_hpp 25) ∨
        (one_k_sources t the_cliques P isf srcs found level ab
            = .error (.assertion .cp5_cpp 480) ∧
          ∃ l, l < the_cliques.length ∧ orig l ∈ S0 ∧ (the_cliques.getD l []).length ≤ t) ∨
        ∃ found' level' ab',
          one_k_sources t the_cliques P isf srcs found level ab = .ok (found', level', ab') ∧
          OneKInv the_cliques t P orig S0 [] found' level' ab' := by
  intro srcs
  induction srcs with
  | nil =>
    intro found level ab inv
    right; right
    exact ⟨found, level, ab, rfl, inv⟩
  | cons cur rest ih =>
    intro found level ab inv
    obtain ⟨_, hcur0⟩ := inv.src_sub cur (by simp)
    have hlen := members_length_le level inv.wf cur hcur0
    rw [inv.N_eq] at hlen
    unfold one_k_sources
    rcases drain_source_spec the_cliques t P isf hset orig S0 cur rest (the_cliques.length + 1)
      found level ab inv (by omega) with
      herr | ⟨herr, hcause⟩ | ⟨found1, level1, ab1, hok, inv1, hemp⟩
    · left
      rw [herr]
    · right; left
      rw [herr]
      exact ⟨rfl, hcause⟩
    rw [hok]
    simp only
    apply ih found1 level1 ab1
    -- the current source component is empty: it is no longer a source component
    have hnocur : ∀ l, l < the_cliques.length → level1.component_of l ≠ cur :=
      fun l hl => component_ne_of_empty level1 inv1.wf cur hcur0 hemp l (by
        rw [inv1.N_eq]; exact hl)
    have hmem : ∀ l, l < the_cliques.length →
        (level1.component_of l ∈ cur :: rest ↔ level1.component_of l ∈ rest) := by
      intro l hl
      simp only [List.mem_cons]
      constructor
      · rintro (h | h)
        · exact absurd h (hnocur l hl)
        · exact h
      · exact fun h => Or.inr h
    refine ⟨inv1.wf, inv1.N_eq, inv1.tree, ?_, ?_, inv1.big, ?_,
      fun s hs => inv1.src_sub s (by simp [hs]), (List.nodup_cons.1 inv1.src_nodup).2, ?_, ?_,
      inv1.found_nodup, inv1.found_orig, ?_, ?_, inv1.closed_found, inv1.sep, inv1.frame⟩
    · intro l hl hdl
      exact (hmem l hl).1 (inv1.free l hl hdl)
    · intro l hl hls
      exact inv1.src_free l hl ((hmem l hl).2 hls)
    · intro l hl hls
      exact inv1.src_orig l hl ((hmem l hl).2 hls)
    · intro s hs
      exact inv1.src_nonempty s (by
        simp only [List.tail_cons]
        exact List.mem_of_mem_tail hs)
    · intro f hf
      obtain ⟨h1, h2, h3⟩ := inv1.found_disj f hf
      exact ⟨fun h => h1 (by simp [h]), h2, h3⟩
    · intro l hl ho
      rcases inv1.placed l hl ho with h | h
      · exact Or.inl ((hmem l hl).1 h)
      · exact Or.inr h
    · intro a ha b hb haf hbs
      exact inv1.closed_free a ha b hb haf ((hmem b hb).2 hbs)

/-- The function `one_k`, entered with source components that hold every clique of more
than `t` vertices and are separated at the threshold `t`, either stops at the assertion
of `components::get_members`, or stops at the assertion on the seed clique, or returns
the communities of the level. -/
theorem one_k_spec (the_cliques : List clique) (t P : Nat)
    (isf : intersecting_clique_finder) (hset : LevelSetting the_cliques t P isf)
    (candidate_components : List Int) (level : components)
    (entry : OneKEntry the_cliques t candidate_components level) :
    one_k [] candidate_components level t the_cliques P the_cliques.length isf
        = .error (.assertion .components_hpp 25) ∨
      (one_k [] candidate_components level t the_cliques P the_cliques.length isf
          = .error (.assertion .cp5_cpp 480) ∧
        ∃ l, l < the_cliques.length ∧ level.component_of l ∈ candidate_components ∧
          (the_cliques.getD l []).length ≤ t) ∨
      ∃ found level',
        one_k [] candidate_components level t the_cliques P the_cliques.length isf
          = .ok (found, level') ∧
        OneKPost the_cliques t candidate_components level found level' := by
  obtain ⟨ab0, ab, hcreate, hpremark, htree, hdone⟩ :=
    one_k_prelude_spec the_cliques t P hset.P_pos hset.C_le hset.P_le
  unfold one_k
  simp only [List.isEmpty_nil, not_true_eq_false, if_false, hcreate, hpremark]
  have hbig : ∀ l, l < the_cliques.length → ab.done (P + l) = false →
      t < (the_cliques.getD l []).length := by
    intro l hl h
    by_contra hc
    rw [(hdone l hl).2 (by omega)] at h
    exact absurd h (by simp)
  have inv : OneKInv the_cliques t P level.component_of candidate_components.reverse
      candidate_components.reverse [] level ab := by
    refine ⟨entry.wf, entry.N_eq, htree, ?_, ?_, hbig, fun _ _ _ => rfl, ?_,
      List.nodup_reverse.2 entry.src_nodup, ?_, by simp, List.nodup_nil, by simp, ?_, by simp,
      by simp, ?_, fun _ _ => Or.inl rfl⟩
    · intro l hl hd
      exact List.mem_reverse.2 (entry.src_big l hl (hbig l hl hd))
    · intro l hl _
      by_cases hd : ab.done (P + l) = false
      · exact Or.inl hd
      · right
        have := (hdone l hl).1 (by simpa using hd)
        omega
    · intro s hs
      exact ⟨hs, (entry.src_nonempty s (List.mem_reverse.1 hs)).1⟩
    · intro s hs
      exact (entry.src_nonempty s (List.mem_reverse.1 (List.mem_of_mem_tail hs))).2
    · intro l _ ho
      exact Or.inl ho
    · intro a ha b hb hao hbo hne
      exact entry.sep a ha b hb (List.mem_reverse.1 hao) (List.mem_reverse.1 hbo) hne
  rcases one_k_sources_spec the_cliques t P isf hset level.component_of
    candidate_components.reverse candidate_components.reverse [] level ab inv with
    herr | ⟨herr, l, hl, hls, hsmall⟩ | ⟨found, level', ab', hok, inv'⟩
  · left
    rw [herr]
  · right; left
    rw [herr]
    exact ⟨rfl, l, hl, List.mem_reverse.1 hls, hsmall⟩
  right; right
  rw [hok]
  refine ⟨found, level', rfl, inv'.wf, inv'.N_eq, inv'.found_nodup,
    fun f hf => ⟨(inv'.found_disj f hf).2.1, (inv'.found_disj f hf).2.2⟩, ?_, ?_,
    inv'.closed_found, ?_⟩
  · intro f hf
    obtain ⟨s, hs, hall⟩ := inv'.found_orig f hf
    exact ⟨s, List.mem_reverse.1 hs, hall⟩
  · intro l hl ho
    rcases inv'.placed l hl (List.mem_reverse.2 ho) with h | h
    · exact absurd h (by simp)
    · exact h
  · -- a source component that is not a community is empty
    intro s hs hsf
    have hs0 := (entry.src_nonempty s hs).1
    by_contra hne
    obtain ⟨x, hxN, hxs⟩ := exists_member level' inv'.wf s hs0 hne
    have hxC : x < the_cliques.length := by rw [← inv'.N_eq]; exact hxN
    rcases inv'.frame x hxC with h | h
    · have ho : level.component_of x ∈ candidate_components.reverse := by
        rw [← h, hxs]
        exact List.mem_reverse.2 hs
      rcases inv'.placed x hxC ho with h2 | h2
      · exact absurd h2 (by simp)
      · rw [hxs] at h2
        exact hsf h2
    · rw [hxs] at h
      exact hsf h

/-! ## From one level to the next -/

theorem move_big_enough_spec (the_cliques : List clique) (new_k : Nat) (new_cand : Int)
    (hd : 0 ≤ new_cand) :
    ∀ (ms : List Nat) (nl : components), nl.WellFormed → (∀ x ∈ ms, x < nl.N) →
      (move_big_enough the_cliques new_k new_cand ms nl).WellFormed ∧
      (move_big_enough the_cliques new_k new_cand ms nl).N = nl.N ∧
      ∀ l, (move_big_enough the_cliques new_k new_cand ms nl).component_of l =
        if l ∈ ms ∧ new_k ≤ (the_cliques.getD l []).length then new_cand
        else nl.component_of l := by
  intro ms
  induction ms with
  | nil =>
    intro nl hwf _
    exact ⟨hwf, rfl, by simp [move_big_enough]⟩
  | cons x rest ih =>
    intro nl hwf hms
    unfold move_big_enough
    by_cases hx : (the_cliques.getD x []).length ≥ new_k
    · rw [if_pos hx]
      obtain ⟨hwf1, hN1, hcomp1, _, _⟩ := move_node_spec nl x new_cand hwf (hms x (by simp)) hd
      obtain ⟨hwf2, hN2, hcomp2⟩ := ih (nl.move_node x new_cand) hwf1 (by
        intro y hy
        rw [hN1]
        exact hms y (by simp [hy]))
      refine ⟨hwf2, by rw [hN2, hN1], ?_⟩
      intro l
      rw [hcomp2 l, hcomp1 l]
      by_cases h1 : l ∈ rest ∧ new_k ≤ (the_cliques.getD l []).length
      · rw [if_pos h1, if_pos ⟨by simp [h1.1], h1.2⟩]
      · rw [if_neg h1]
        by_cases h2 : l = x
        · rw [if_pos h2, if_pos ⟨by simp [h2], by rw [h2]; exact hx⟩]
        · rw [if_neg h2, if_neg]
          rintro ⟨h3, h4⟩
          rcases List.mem_cons.1 h3 with h | h
          · exact h2 h
          · exact h1 ⟨h, h4⟩
    · rw [if_neg hx]
      obtain ⟨hwf2, hN2, hcomp2⟩ := ih nl hwf (fun y hy => hms y (by simp [hy]))
      refine ⟨hwf2, hN2, ?_⟩
      intro l
      rw [hcomp2 l]
      by_cases h1 : l ∈ rest ∧ new_k ≤ (the_cliques.getD l []).length
      · rw [if_pos h1, if_pos ⟨by simp [h1.1], h1.2⟩]
      · rw [if_neg h1, if_neg]
        rintro ⟨h3, h4⟩
        rcases List.mem_cons.1 h3 with h | h
        · rw [h] at h4; exact hx h4
        · exact h1 ⟨h, h4⟩

theorem move_big_enough_none (the_cliques : List clique) (new_k : Nat) (new_cand : Int) :
    ∀ (ms : List Nat) (nl : components),
      (∀ x ∈ ms, ¬ new_k ≤ (the_cliques.getD x []).length) →
      move_big_enough the_cliques new_k new_cand ms nl = nl := by
  intro ms
  induction ms with
  | nil => intro nl _; rfl
  | cons x rest ih =>
    intro nl h
    unfold move_big_enough
    rw [if_neg (h x (by simp))]
    exact ih nl (fun y hy => h y (by simp [hy]))

theorem forall₂_imp_mem {α β : Type} {R S : α → β → Prop} :
    ∀ {l1 : List α} {l2 : List β}, List.Forall₂ R l1 l2 →
      (∀ a ∈ l1, ∀ b ∈ l2, R a b → S a b) → List.Forall₂ S l1 l2 := by
  intro l1 l2 h
  induction h with
  | nil => intro _; exact List.Forall₂.nil
  | cons hab _ ih =>
    intro H
    exact List.Forall₂.cons (H _ (by simp) _ (by simp) hab)
      (ih (fun a ha b hb => H a (by simp [ha]) b (by simp [hb])))

theorem next_sources_spec (the_cliques : List clique) (new_k : Nat) (level : components)
    (hwf : level.WellFormed) (hN : level.N = the_cliques.length) :
    ∀ (rest seen srcs : List Int) (nl : components), (seen ++ rest).Nodup →
      NextInv the_cliques new_k level seen srcs nl →
      next_sources the_cliques new_k level rest srcs nl
          = .error (.assertion .components_hpp 25) ∨
        ∃ srcs' nl', next_sources the_cliques new_k level rest srcs nl = .ok (srcs', nl') ∧
          NextInv the_cliques new_k level (seen ++ rest) srcs' nl' := by
  intro rest
  induction rest with
  | nil =>
    intro seen srcs nl _ inv
    right
    exact ⟨srcs, nl, rfl, by simpa using inv⟩
  | cons f rest ih =>
    intro seen srcs nl hnd inv
    unfold next_sources
    rcases get_members_eq level f with herr | ⟨hf0, _, hok⟩
    · left
      rw [herr]
    rw [hok]
    simp only
    obtain ⟨hc0, hcemp⟩ := top_empty_component_spec nl
    generalize hcand : nl.top_empty_component = new_cand at hc0 hcemp ⊢
    have hfseen : f ∉ seen := by
      intro h
      have := (List.nodup_append.1 hnd).2.2 h (by simp)
      exact this
    have hnd' : ((seen ++ [f]) ++ rest).Nodup := by simpa using hnd
    have hmem : ∀ l, l ∈ level.members_of f ↔ l < the_cliques.length ∧ level.component_of l = f := by
      intro l
      rw [hwf.mem_iff f l hf0, hN]
    have hcand_src : new_cand ∉ srcs := fun h => (inv.src_nonempty new_cand h).2 hcemp
    have hcand_free : ∀ l, l < the_cliques.length → nl.component_of l ≠ new_cand :=
      fun l hl => component_ne_of_empty nl inv.wf new_cand hc0 hcemp l (by rw [inv.N_eq]; exact hl)
    obtain ⟨hwf1, hN1, hcomp1⟩ := move_big_enough_spec the_cliques new_k new_cand hc0
      (level.members_of f) nl inv.wf (by
        intro x hx
        rw [inv.N_eq]
        exact ((hmem x).1 hx).1)
    -- a clique that is already in a source component is not moved
    have hold : ∀ l, l < the_cliques.length → 0 ≤ nl.component_of l →
        ¬ (l ∈ level.members_of f ∧ new_k ≤ (the_cliques.getD l []).length) := by
      rintro l hl h0 ⟨h1, _⟩
      have := ((inv.moved_iff l hl).1 h0).1
      rw [((hmem l).1 h1).2] at this
      exact hfseen this
    by_cases hbig : ∃ x ∈ level.members_of f, new_k ≤ (the_cliques.getD x []).length
    · -- the new component is a source component
      obtain ⟨x, hxm, hxbig⟩ := hbig
      have hxC := ((hmem x).1 hxm).1
      have hx1 : x ∈ (move_big_enough the_cliques new_k new_cand (level.members_of f)
          nl).members_of new_cand :=
        (hwf1.mem_iff new_cand x hc0).2 ⟨by rw [hN1, inv.N_eq]; exact hxC, by
          rw [hcomp1, if_pos ⟨hxm, hxbig⟩]⟩
      have hne : new_cand ≠ (move_big_enough the_cliques new_k new_cand (level.members_of f)
          nl).top_empty_component := by
        intro e
        have := (top_empty_component_spec (move_big_enough the_cliques new_k new_cand
          (level.members_of f) nl)).2
        rw [← e] at this
        rw [this] at hx1
        exact absurd hx1 (by simp)
      rw [if_neg hne]
      have inv1 : NextInv the_cliques new_k level (seen ++ [f]) (srcs ++ [new_cand])
          (move_big_enough the_cliques new_k new_cand (level.members_of f) nl) := by
        refine ⟨hwf1, by rw [hN1, inv.N_eq], ?_, ?_, ?_, ?_, ?_, ?_⟩
        · rw [List.nodup_append]
          refine ⟨inv.src_nodup, List.nodup_singleton _, ?_⟩
          intro s hs hs'
          have : s = new_cand := by simpa using hs'
          rw [this] at hs
          exact hcand_src hs
        · intro s hs
          rcases List.mem_append.1 hs with h | h
          · obtain ⟨hs0, hsne⟩ := inv.src_nonempty s h
            refine ⟨hs0, ?_⟩
            obtain ⟨y, hyN, hys⟩ := exists_member nl inv.wf s hs0 hsne
            have hyC : y < the_cliques.length := by rw [← inv.N_eq]; exact hyN
            intro hemp
            have := (hwf1.mem_iff s y hs0).2 ⟨by rw [hN1]; exact hyN, by
              rw [hcomp1, if_neg (hold y hyC (by rw [hys]; exact hs0))]; exact hys⟩
            rw [hemp] at this
            exact absurd this (by simp)
          · have : s = new_cand := by simpa using h
            rw [this]
            refine ⟨hc0, ?_⟩
            intro hemp
            rw [hemp] at hx1
            exact absurd hx1 (by simp)
        · intro l hl h0
          rw [hcomp1] at h0 ⊢
          split
          · simp
          · rename_i hnm
            rw [if_neg hnm] at h0
            exact List.mem_append.2 (Or.inl (inv.in_src l hl h0))
        · intro l hl
          rw [hcomp1]
          by_cases hm : l ∈ level.members_of f ∧ new_k ≤ (the_cliques.getD l []).length
          · rw [if_pos hm]
            constructor
            · intro _
              exact ⟨by rw [((hmem l).1 hm.1).2]; simp, hm.2⟩
            · intro _
              exact hc0
          · rw [if_neg hm, inv.moved_iff l hl]
            constructor
            · rintro ⟨h1, h2⟩
              exact ⟨List.mem_append.2 (Or.inl h1), h2⟩
            · rintro ⟨h1, h2⟩
              rcases List.mem_append.1 h1 with h | h
              · exact ⟨h, h2⟩
              · have : level.component_of l = f := by simpa using h
                exact absurd ⟨(hmem l).2 ⟨hl, this⟩, h2⟩ hm
        · intro a ha b hb
          rw [hcomp1, hcomp1]
          by_cases hma : a ∈ level.members_of f ∧ new_k ≤ (the_cliques.getD a []).length
          · by_cases hmb : b ∈ level.members_of f ∧ new_k ≤ (the_cliques.getD b []).length
            · rw [if_pos hma, if_pos hmb]
              intro _ _
              simp [((hmem a).1 hma.1).2, ((hmem b).1 hmb.1).2]
            · rw [if_pos hma, if_neg hmb]
              intro _ hb0
              constructor
              · intro e
                exact absurd e.symm (hcand_free b hb)
              · intro e
                exfalso
                have := ((inv.moved_iff b hb).1 hb0).1
                rw [← e, ((hmem a).1 hma.1).2] at this
                exact hfseen this
          · by_cases hmb : b ∈ level.members_of f ∧ new_k ≤ (the_cliques.getD b []).length
            · rw [if_neg hma, if_pos hmb]
              intro ha0 _
              constructor
              · intro e
                exact absurd e (hcand_free a ha)
              · intro e
                exfalso
                have := ((inv.moved_iff a ha).1 ha0).1
                rw [e, ((hmem b).1 hmb.1).2] at this
                exact hfseen this
            · rw [if_neg hma, if_neg hmb]
              exact inv.same a ha b hb
        · -- the new source component corresponds to the community `f`
          have hbigf : has_big_enough the_cliques new_k level f = true := by
            unfold has_big_enough
            exact decide_eq_true ⟨x, hxm, hxbig⟩
          rw [List.filter_append, List.filter_cons_of_pos hbigf, List.filter_nil]
          refine List.rel_append (forall₂_imp_mem inv.corr ?_)
            (List.Forall₂.cons ?_ List.Forall₂.nil)
          · intro s hs f2 hf2 hR c hc
            have hf2seen : f2 ∈ seen := (List.mem_filter.1 hf2).1
            rw [hcomp1]
            by_cases hm : c ∈ level.members_of f ∧ new_k ≤ (the_cliques.getD c []).length
            · rw [if_pos hm]
              constructor
              · intro e
                rw [← e] at hs
                exact absurd hs hcand_src
              · rintro ⟨e, _⟩
                rw [((hmem c).1 hm.1).2] at e
                rw [e] at hfseen
                exact absurd hf2seen hfseen
            · rw [if_neg hm]
              exact hR c hc
          · intro c hc
            rw [hcomp1]
            by_cases hm : c ∈ level.members_of f ∧ new_k ≤ (the_cliques.getD c []).length
            · rw [if_pos hm]
              exact ⟨fun _ => ⟨((hmem c).1 hm.1).2, hm.2⟩, fun _ => rfl⟩
            · rw [if_neg hm]
              constructor
              · intro e
                exact absurd e (hcand_free c hc)
              · rintro ⟨e, hb⟩
                exact absurd ⟨(hmem c).2 ⟨hc, e⟩, hb⟩ hm
      rcases ih (seen ++ [f]) (srcs ++ [new_cand]) _ hnd' inv1 with herr | ⟨srcs', nl', hrun, inv'⟩
      · left
        exact herr
      · right
        exact ⟨srcs', nl', hrun, by simpa using inv'⟩
    · -- no clique of the community is big enough
      have hnone : ∀ x ∈ level.members_of f, ¬ new_k ≤ (the_cliques.getD x []).length :=
        fun x hx hb => hbig ⟨x, hx, hb⟩
      rw [move_big_enough_none the_cliques new_k new_cand _ nl hnone, hcand, if_pos rfl]
      have inv1 : NextInv the_cliques new_k level (seen ++ [f]) srcs nl := by
        refine ⟨inv.wf, inv.N_eq, inv.src_nodup, inv.src_nonempty, inv.in_src, ?_, inv.same,
          ?_⟩
        · intro l hl
          rw [inv.moved_iff l hl]
          constructor
          · rintro ⟨h1, h2⟩
            exact ⟨List.mem_append.2 (Or.inl h1), h2⟩
          · rintro ⟨h1, h2⟩
            rcases List.mem_append.1 h1 with h | h
            · exact ⟨h, h2⟩
            · have : level.component_of l = f := by simpa using h
              exact absurd h2 (hnone l ((hmem l).2 ⟨hl, this⟩))
        · have hbigf : ¬ has_big_enough the_cliques new_k level f = true := by
            unfold has_big_enough
            rw [decide_eq_true_iff]
            exact hbig
          rw [List.filter_append, List.filter_cons_of_neg hbigf, List.filter_nil,
            List.append_nil]
          exact inv.corr
      rcases ih (seen ++ [f]) srcs nl hnd' inv1 with herr | ⟨srcs', nl', hrun, inv'⟩
      · left
        exact herr
      · right
        exact ⟨srcs', nl', hrun, by simpa using inv'⟩

/-! ## The loop over the levels -/

theorem write_all_communities_spec (level : components) (the_cliques : List clique)
    (hwf : level.WellFormed) (hN : level.N = the_cliques.length) :
    ∀ found : List Int,
      write_all_communities_for_this_k level the_cliques found
          = .error (.assertion .components_hpp 25) ∨
        ∃ lines, write_all_communities_for_this_k level the_cliques found = .ok lines := by
  intro found
  induction found with
  | nil => right; exact ⟨[], rfl⟩
  | cons f rest ih =>
    unfold write_all_communities_for_this_k
    rcases get_members_eq level f with herr | ⟨hf0, _, hok⟩
    · left
      rw [herr]
    rw [hok]
    dsimp only
    rw [if_neg (not_not.2 (fun c hc => by
      rw [← hN]
      exact ((hwf.mem_iff f c hf0).1 hc).1))]
    rcases ih with herr | ⟨lines, hl⟩
    · left
      rw [herr]
    · right
      rw [hl]
      exact ⟨_, rfl⟩

theorem level_setting (l : Nat) (h : Int → Nat) (the_cliques : List clique) (t P : Nat)
    (hl : 0 < l) (hdm : DistinctMaximal the_cliques) (ht : 1 ≤ t) (hP1 : 1 ≤ P)
    (hP2 : 2 * P ≤ 2147483647) (hC : the_cliques.length ≤ P) :
    LevelSetting the_cliques t P
      (populate the_cliques t P (List.range the_cliques.length)
        (intersecting_clique_finder.create l h P)) := by
  obtain ⟨_, h2, _, h4⟩ := populate_spec the_cliques t P (List.range the_cliques.length)
    (intersecting_clique_finder.create l h P) (create_wellFormed l h P hl)
  exact ⟨hdm, ht, hP1, hP2, hC, h2, fun c hc hsize => h4 c (List.mem_range.2 hc) hsize⟩

/-- The source components that `next_sources` builds out of the result of `one_k` are
a state in which `one_k` can be entered at the next threshold, and each of them holds
cliques of one community of the level before. -/
theorem next_entry (the_cliques : List clique) (k : Nat) (srcs found srcs1 : List Int)
    (level level1 nl1 : components) (entry : OneKEntry the_cliques (k - 1) srcs level)
    (post : OneKPost the_cliques (k - 1) srcs level found level1)
    (inv : NextInv the_cliques (k + 1) level1 found srcs1 nl1) :
    OneKEntry the_cliques k srcs1 nl1 ∧
      ∀ s ∈ srcs1, ∃ f ∈ found, ∀ c, c < the_cliques.length → nl1.component_of c = s →
        c ∈ level1.members_of f := by
  have hfound : ∀ a, a < the_cliques.length → nl1.component_of a ∈ srcs1 →
      0 ≤ nl1.component_of a ∧ level1.component_of a ∈ found := by
    intro a ha has
    have h0 := (inv.src_nonempty _ has).1
    exact ⟨h0, ((inv.moved_iff a ha).1 h0).1⟩
  constructor
  · refine ⟨inv.wf, inv.N_eq, inv.src_nodup, inv.src_nonempty, ?_, ?_⟩
    · intro c hc hsize
      have h1 : level.component_of c ∈ srcs := entry.src_big c hc (by omega)
      have h2 := post.placed c hc h1
      exact inv.in_src c hc ((inv.moved_iff c hc).2 ⟨h2, by omega⟩)
    · intro a ha b hb has hbs hne
      obtain ⟨ha0, haf⟩ := hfound a ha has
      obtain ⟨hb0, hbf⟩ := hfound b hb hbs
      have := post.closed a ha b hb haf hbf (fun e => hne ((inv.same a ha b hb ha0 hb0).2 e))
      omega
  · intro s hs
    obtain ⟨hs0, hsne⟩ := inv.src_nonempty s hs
    obtain ⟨x, hxN, hxs⟩ := exists_member nl1 inv.wf s hs0 hsne
    have hxC : x < the_cliques.length := by rw [← inv.N_eq]; exact hxN
    obtain ⟨hx0, hxf⟩ := hfound x hxC (by rw [hxs]; exact hs)
    refine ⟨level1.component_of x, hxf, ?_⟩
    intro c hc hcs
    have hc0 : 0 ≤ nl1.component_of c := by rw [hcs]; exact hs0
    have := (inv.same c hc x hxC hc0 hx0).1 (by rw [hcs, hxs])
    exact (post.wf.mem_iff _ c (post.found_nonempty _ hxf).1).2
      ⟨by rw [post.N_eq]; exact hc, this⟩

theorem nextInv_init (the_cliques : List clique) (new_k : Nat) (level : components) :
    NextInv the_cliques new_k level [] [] (components.empty.setN the_cliques.length) := by
  obtain ⟨h1, h2, h3, _⟩ := setN_wellFormed the_cliques.length
  refine ⟨h1, h2, List.nodup_nil, by simp, ?_, ?_, ?_, by simp⟩
  · intro c _ h0
    rw [h3] at h0
    omega
  · intro c _
    rw [h3]
    simp
  · intro a _ b _ h0
    rw [h3] at h0
    omega

theorem percolation_levels_spec (l : Nat) (h : Int → Nat) (the_cliques : List clique)
    (P max_k : Nat) (hl : 0 < l) (hdm : DistinctMaximal the_cliques) (hP1 : 1 ≤ P)
    (hP2 : 2 * P ≤ 2147483647) (hC : the_cliques.length ≤ P) :
    ∀ (n k : Nat) (srcs : List Int) (level : components) (completed : List Level),
      2 ≤ k →
      OneKEntry the_cliques (k - 1) srcs level →
      List.Chain' Refines completed →
      (∀ L ∈ completed.getLast?, ∀ s ∈ srcs, ∃ f ∈ L.found_communities,
        ∀ c, c < the_cliques.length → level.component_of c = s →
          c ∈ L.current_percolation_level.members_of f) →
      List.Chain' Refines (percolation_levels l h the_cliques P the_cliques.length max_k
          (List.range' k n) srcs level completed).1 ∧
        ((percolation_levels l h the_cliques P the_cliques.length max_k
            (List.range' k n) srcs level completed).2 = none ∨
          (percolation_levels l h the_cliques P the_cliques.length max_k
            (List.range' k n) srcs level completed).2 = some (.assertion .components_hpp 25) ∨
          (percolation_levels l h the_cliques P the_cliques.length max_k
            (List.range' k n) srcs level completed).2 = some (.assertion .cp5_cpp 480)) := by
  intro n
  induction n with
  | zero =>
    intro k srcs level completed _ _ hchain _
    exact ⟨hchain, Or.inl rfl⟩
  | succ n ih =>
    intro k srcs level completed hk entry hchain hlink
    rw [List.range'_succ]
    unfold percolation_levels
    simp only
    have hset := level_setting l h the_cliques (k - 1) P hl hdm (by omega) hP1 hP2 hC
    rcases one_k_spec the_cliques (k - 1) P _ hset srcs level entry with
      herr | ⟨herr, _⟩ | ⟨found, level1, hok, post⟩
    · rw [herr]
      exact ⟨hchain, Or.inr (Or.inl rfl)⟩
    · rw [herr]
      exact ⟨hchain, Or.inr (Or.inr rfl)⟩
    rw [hok]
    simp only
    rcases write_all_communities_spec level1 the_cliques post.wf post.N_eq found with
      herr | ⟨lines, hlines⟩
    · rw [herr]
      exact ⟨hchain, Or.inr (Or.inl rfl)⟩
    rw [hlines]
    simp only
    have hchain1 : List.Chain' Refines (completed ++ [⟨k, found, level1, lines⟩]) := by
      rw [List.chain'_append]
      refine ⟨hchain, List.chain'_singleton _, ?_⟩
      intro L hL L2 hL2
      have hL2e : L2 = ⟨k, found, level1, lines⟩ := by simpa using hL2.symm
      rw [hL2e]
      intro f2 hf2
      obtain ⟨s, hs, hall⟩ := post.found_orig f2 hf2
      obtain ⟨f, hf, hsub⟩ := hlink L hL s hs
      refine ⟨f, hf, ?_⟩
      intro c hc
      obtain ⟨hcN, hcf⟩ := (post.wf.mem_iff f2 c (post.found_nonempty f2 hf2).1).1 hc
      have hcC : c < the_cliques.length := by rw [← post.N_eq]; exact hcN
      exact hsub c hcC (hall c hcC hcf)
    by_cases hmax : k + 1 > max_k
    · rw [if_pos hmax]
      exact ⟨hchain1, Or.inl rfl⟩
    rw [if_neg hmax]
    rcases next_sources_spec the_cliques (k + 1) level1 post.wf post.N_eq found [] []
      (components.empty.setN the_cliques.length) (by simpa using post.found_nodup)
      (nextInv_init the_cliques (k + 1) level1) with herr | ⟨srcs1, nl1, hrun, inv⟩
    · rw [herr]
      exact ⟨hchain1, Or.inr (Or.inl rfl)⟩
    rw [hrun]
    simp only
    obtain ⟨entry1, hlink1⟩ := next_entry the_cliques k srcs found srcs1 level level1 nl1 entry
      post (by simpa using inv)
    apply ih (k + 1) srcs1 nl1 _ (by omega) entry1 hchain1
    intro L hL
    have hLe : L = ⟨k, found, level1, lines⟩ := by simpa using hL.symm
    rw [hLe]
    exact hlink1

/-! ## The threshold `t = 0`

With `min_k = 1` the first level searches with the threshold `t = 0`. Every estimate
is at least `0`, so the search descends into every branch, also into one that is done,
and stops at the assertion at the head of `recursive_search`. -/

theorem mark_as_done_rec_mono :
    ∀ (fuel : Nat) (ab : assigned_branches_t) (b k : Nat) (ab' : assigned_branches_t),
      mark_as_done_rec fuel ab b = .ok (k, ab') →
      ∀ x, ab.done x = true → ab'.done x = true := by
  intro fuel
  induction fuel with
  | zero => intro ab b k ab' h; simp [mark_as_done_rec] at h
  | succ fuel ih =>
    intro ab b k ab' h x hx
    unfold mark_as_done_rec at h
    dsimp only at h
    split_ifs at h with h1 h2 h3 h4
    · have hx1 : ({ ab with assigned_branches := ab.assigned_branches.set b true } :
          assigned_branches_t).done x = true := by
        rw [done_set ab b x h1.2, hx]
        rfl
      cases hrec : mark_as_done_rec fuel
          { ab with assigned_branches := ab.assigned_branches.set b true } (b >>> 1) with
      | error e => rw [hrec] at h; simp at h
      | ok r =>
        obtain ⟨k2, ab2⟩ := r
        rw [hrec] at h
        simp only [Except.ok.injEq, Prod.mk.injEq] at h
        rw [← h.2]
        exact ih _ _ _ _ hrec x hx1
    · simp only [Except.ok.injEq, Prod.mk.injEq] at h
      rw [← h.2, done_set ab b x h1.2, hx]
      rfl
    · simp only [Except.ok.injEq, Prod.mk.injEq] at h
      rw [← h.2, done_set ab b x h1.2, hx]
      rfl
    · simp only [Except.ok.injEq, Prod.mk.injEq] at h
      rw [← h.2]
      exact hx

theorem mark_as_done_rec_error :
    ∀ (fuel : Nat) (ab : assigned_branches_t) (b : Nat) (e : Err),
      mark_as_done_rec fuel ab b = .error e → e ≠ .assertion .cp5_cpp 507 := by
  intro fuel
  induction fuel with
  | zero =>
    intro ab b e h
    simp only [mark_as_done_rec, Except.error.injEq] at h
    rw [← h]
    simp
  | succ fuel ih =>
    intro ab b e h
    unfold mark_as_done_rec at h
    dsimp only at h
    split_ifs at h with h1 h2 h3 h4
    · cases hrec : mark_as_done_rec fuel
          { ab with assigned_branches := ab.assigned_branches.set b true } (b >>> 1) with
      | error e2 =>
        rw [hrec] at h
        simp only [Except.error.injEq] at h
        rw [← h]
        exact ih _ _ _ hrec
      | ok r =>
        rw [hrec] at h
        simp at h
    · simp only [Except.error.injEq] at h
      rw [← h]
      simp

theorem result_error {α : Type} (Q : α → Prop) (e0 : Err)
    (he : e0 ≠ .assertion .cp5_cpp 507) :
    (∀ a, (Except.error e0 : Except Err α) = .ok a → Q a) ∧
      ∀ e, (Except.error e0 : Except Err α) = .error e → e ≠ .assertion .cp5_cpp 507 := by
  refine ⟨fun a h => by simp at h, fun e h => ?_⟩
  simp only [Except.error.injEq] at h
  rw [← h]
  exact he

theorem result_ok {α : Type} (Q : α → Prop) (a0 : α) (h0 : Q a0) :
    (∀ a, (Except.ok a0 : Except Err α) = .ok a → Q a) ∧
      ∀ e, (Except.ok a0 : Except Err α) = .error e → e ≠ .assertion .cp5_cpp 507 := by
  refine ⟨fun a h => ?_, fun e h => by simp at h⟩
  simp only [Except.ok.injEq] at h
  rw [← h]
  exact h0

/-- The search does not unmark a branch, and it does not stop at the assertion of
`one_k` on the source component. -/
theorem recursive_search_mono (isf : intersecting_clique_finder) (q t : Nat)
    (the_cliques : List clique) (level : components) (skip : Int) :
    ∀ (fuel b : Nat) (s : SearchState),
      (∀ s', recursive_search fuel isf b q t the_cliques level skip s = .ok s' →
        ∀ x, s.assigned_branches.done x = true → s'.assigned_branches.done x = true) ∧
      ∀ e, recursive_search fuel isf b q t the_cliques level skip s = .error e →
        e ≠ .assertion .cp5_cpp 507 := by
  intro fuel
  induction fuel with
  | zero =>
    intro b s
    exact result_error _ _ (by simp)
  | succ fuel ih =>
    intro b s
    unfold recursive_search
    dsimp only
    by_cases h1 : s.assigned_branches.assigned_branches.getD b false = false
    swap
    · rw [if_pos h1]
      exact result_error _ _ (by simp)
    rw [if_neg (not_not.2 h1)]
    by_cases h2 : b ≥ isf.power_up
    · rw [if_pos h2]
      by_cases h3 : b - isf.power_up ≥ the_cliques.length
      · rw [if_pos h3]
        exact result_ok _ _ (fun x hx => hx)
      rw [if_neg h3]
      cases hc : level.my_component_id (b - isf.power_up) with
      | error e =>
        dsimp only
        refine result_error _ _ ?_
        unfold components.my_component_id at hc
        split_ifs at hc
        simp only [Except.error.injEq] at hc
        rw [← hc]
        simp
      | ok id =>
        dsimp only
        by_cases h4 : id = skip
        · rw [if_pos h4]
          exact result_error _ _ (by simp)
        rw [if_neg h4]
        by_cases h5 : b - isf.power_up ≠ q
        swap
        · rw [if_pos h5]
          exact result_error _ _ (by simp)
        rw [if_neg (not_not.2 h5)]
        by_cases h6 : actual_overlap (the_cliques.getD (b - isf.power_up) [])
            (the_cliques.getD q []) < (the_cliques.getD q []).length
        swap
        · rw [if_pos h6]
          exact result_error _ _ (by simp)
        rw [if_neg (not_not.2 h6)]
        by_cases h7 : actual_overlap (the_cliques.getD (b - isf.power_up) [])
            (the_cliques.getD q []) ≥ t
        · rw [if_pos h7]
          cases hm : s.assigned_branches.mark_as_done b with
          | error e =>
            dsimp only
            exact result_error _ _ (mark_as_done_rec_error _ _ _ _ hm)
          | ok r =>
            obtain ⟨k, ab'⟩ := r
            dsimp only
            exact result_ok _ _ (fun x hx => mark_as_done_rec_mono _ _ _ _ _ hm x hx)
        · rw [if_neg h7]
          exact result_ok _ _ (fun x hx => hx)
    · rw [if_neg h2]
      by_cases h3 : b <<< 1 < 2147483648
      swap
      · rw [if_pos h3]
        exact result_error _ _ (by simp)
      rw [if_neg (not_not.2 h3)]
      -- one of the two branches, searched or cut
      have key : ∀ (c : Prop) [Decidable c] (b2 : Nat) (s0 s1 : SearchState),
          (∀ x, s0.assigned_branches.done x = true → s1.assigned_branches.done x = true) →
          (∀ s2, (if c then recursive_search fuel isf b2 q t the_cliques level skip s1
              else .ok s1) = .ok s2 →
            ∀ x, s0.assigned_branches.done x = true → s2.assigned_branches.done x = true) ∧
          ∀ e, (if c then recursive_search fuel isf b2 q t the_cliques level skip s1
              else .ok s1) = .error e → e ≠ .assertion .cp5_cpp 507 := by
        intro c _ b2 s0 s1 h01
        by_cases hc : c
        · rw [if_pos hc]
          obtain ⟨g1, g2⟩ := ih b2 s1
          exact ⟨fun s2 hs2 x hx => g1 s2 hs2 x (h01 x hx), g2⟩
        · rw [if_neg hc]
          exact result_ok _ _ h01
      have hleft := key ((if s.assigned_branches.assigned_branches.getD (b <<< 1) false
              = true then 0 else isf.overlap_estimate (the_cliques.getD q []) (b <<< 1)) ≥ t)
        (b <<< 1) s { s with searches_performed := s.searches_performed + 2 } (fun x hx => hx)
      generalize (if (if s.assigned_branches.assigned_branches.getD (b <<< 1) false
              = true then 0 else isf.overlap_estimate (the_cliques.getD q []) (b <<< 1)) ≥ t
            then recursive_search fuel isf (b <<< 1) q t the_cliques level skip
              { s with searches_performed := s.searches_performed + 2 }
            else .ok { s with searches_performed := s.searches_performed + 2 }) = after_left
        at hleft
      cases after_left with
      | error e =>
        dsimp only
        exact result_error _ _ (hleft.2 e rfl)
      | ok s2 =>
        dsimp only
        exact key _ (b <<< 1 + 1) s s2 (hleft.1 s2 rfl)

/-- With the threshold `0` a search that has a done branch below it does not return:
it reaches the done branch and stops at an assertion. -/
theorem recursive_search_zero (isf : intersecting_clique_finder) (q : Nat)
    (the_cliques : List clique) (level : components) (skip : Int) :
    ∀ (fuel b : Nat) (s : SearchState),
      (∃ y, below b y ∧ y < 2 * isf.power_up ∧ s.assigned_branches.done y = true) →
      ∀ s', recursive_search fuel isf b q 0 the_cliques level skip s ≠ .ok s' := by
  intro fuel
  induction fuel with
  | zero =>
    intro b s _ s' h
    simp [recursive_search] at h
  | succ fuel ih =>
    intro b s hy s'
    obtain ⟨y, hby, hy2, hyd⟩ := hy
    unfold recursive_search
    dsimp only
    by_cases h1 : s.assigned_branches.assigned_branches.getD b false = false
    swap
    · rw [if_pos h1]
      simp
    rw [if_neg (not_not.2 h1)]
    have hyb : y ≠ b := by
      intro e
      rw [e] at hyd
      unfold assigned_branches_t.done at hyd
      rw [hyd] at h1
      exact absurd h1 (by simp)
    by_cases h2 : b ≥ isf.power_up
    · exact absurd (below_leaf_eq isf.power_up b y h2 hy2 hby) hyb
    rw [if_neg h2]
    by_cases h3 : b <<< 1 < 2147483648
    swap
    · rw [if_pos h3]
      simp
    rw [if_neg (not_not.2 h3)]
    have hshift : b <<< 1 = 2 * b := by
      rw [Nat.shiftLeft_eq]
      omega
    rw [if_pos (Nat.zero_le _)]
    cases hl : recursive_search fuel isf (b <<< 1) q 0 the_cliques level skip
        { s with searches_performed := s.searches_performed + 2 } with
    | error e => simp
    | ok s2 =>
      dsimp only
      rw [if_pos (Nat.zero_le _)]
      have hyd2 : s2.assigned_branches.done y = true :=
        (recursive_search_mono isf q 0 the_cliques level skip fuel (b <<< 1) _).1 s2 hl y hyd
      rcases below_child_of_ne b y hby hyb with hb | hb
      · exact absurd hl (ih (b <<< 1) { s with searches_performed := s.searches_performed + 2 }
          ⟨y, by rw [hshift]; exact hb, hy2, hyd⟩ s2)
      · exact ih (b <<< 1 + 1) s2 ⟨y, by rw [hshift]; exact hb, hy2, hyd2⟩ s'

/-- With the threshold `0` the growth of a community stops at an assertion in its first
search, which is not the assertion on the source component. -/
theorem grow_community_zero (the_cliques : List clique) (P : Nat)
    (isf : intersecting_clique_finder) (hisf : isf.power_up = P) (hP : the_cliques.length ≤ P)
    (cur d : Int) (seed other : Nat) (level : components) (ab : assigned_branches_t)
    (hN : level.N = the_cliques.length) (hseed : seed < the_cliques.length)
    (hother : other < the_cliques.length) (hne : other ≠ seed)
    (hfree : ab.done (P + other) = false) (hinv : TreeInvariant P ab) :
    ∀ fuel, ∃ e, grow_community 0 the_cliques P isf cur d fuel [seed] level ab = .error e ∧
      e ≠ .assertion .cp5_cpp 507 := by
  intro fuel
  cases fuel with
  | zero => exact ⟨.fuel, rfl, by simp⟩
  | succ fuel =>
    obtain ⟨k, ab1, hmark, hinv1, _, hiff1⟩ :=
      mark_leaf_iff P ab (P + seed) (by omega) (by omega) (by omega) hinv
    have hseed_done : ab1.done (P + seed) = true :=
      (hiff1 (P + seed) (by omega) (by omega)).2 (Or.inr rfl)
    have hother_free : ab1.done (P + other) = false := by
      by_contra hc
      rcases (hiff1 (P + other) (by omega) (by omega)).1 (by simpa using hc) with h | h
      · rw [h] at hfree
        exact absurd hfree (by simp)
      · exact hne (by omega)
    have hroot : ab1.assigned_branches.getD 1 false = false := by
      by_contra hc
      have hd : ab1.done 1 = true := by simpa [assigned_branches_t.done] using hc
      have := hinv1.2 1 (le_refl 1) (by omega) hd (P + other) (by omega) (by omega)
        (below_one _ (by omega))
      rw [this] at hother_free
      exact absurd hother_free (by simp)
    unfold grow_community
    rw [hmark]
    dsimp only
    rw [my_component_id_eq level seed (by rw [hN]; exact hseed)]
    dsimp only
    by_cases h500 : level.component_of seed = d
    swap
    · rw [if_pos h500]
      exact ⟨_, rfl, by simp⟩
    rw [if_neg (not_not.2 h500)]
    unfold neighbours_of_one_clique
    rw [my_component_id_eq level seed (by rw [hN]; exact hseed)]
    dsimp only
    rw [if_neg (not_not.2 h500.symm), if_pos hroot]
    cases hs : recursive_search isf.power_up isf 1 seed 0 the_cliques level d ⟨0, [], ab1⟩ with
    | error e =>
      exact ⟨e, rfl,
        (recursive_search_mono isf seed 0 the_cliques level d isf.power_up 1 _).2 e hs⟩
    | ok s' =>
      exact absurd hs (recursive_search_zero isf seed the_cliques level d isf.power_up 1 _
        ⟨P + seed, below_one _ (by omega), by rw [hisf]; omega, hseed_done⟩ s')

/-- With the threshold `0` and at least two cliques, none of them empty, `one_k` stops
at an assertion, which is not the assertion on the source component. -/
theorem one_k_zero (the_cliques : List clique) (P : Nat) (isf : intersecting_clique_finder)
    (hisf : isf.power_up = P) (hP : the_cliques.length ≤ P) (hP2 : 2 * P ≤ 2147483647)
    (hC : 2 ≤ the_cliques.length)
    (hsize : ∀ c, c < the_cliques.length → 0 < (the_cliques.getD c []).length)
    (cur : Int) (level : components) (hwf : level.WellFormed)
    (hN : level.N = the_cliques.length) (hcur : 0 ≤ cur) (hmem : level.members_of cur ≠ []) :
    ∃ e, one_k [] [cur] level 0 the_cliques P the_cliques.length isf = .error e ∧
      e ≠ .assertion .cp5_cpp 507 := by
  obtain ⟨ab0, ab, hcreate, hpremark, htree, hdone⟩ :=
    one_k_prelude_spec the_cliques 0 P (by omega) hP hP2
  have hfree : ∀ c, c < the_cliques.length → ab.done (P + c) = false := by
    intro c hc
    by_contra hd
    have := (hdone c hc).1 (by simpa using hd)
    have := hsize c hc
    omega
  unfold one_k
  simp only [List.isEmpty_nil, not_true_eq_false, if_false, hcreate, hpremark,
    List.reverse_cons, List.reverse_nil, List.nil_append]
  unfold one_k_sources drain_source
  rcases get_members_eq level cur with herr | ⟨_, _, hok⟩
  · rw [herr]
    exact ⟨_, rfl, by simp⟩
  rw [hok]
  cases hm : level.members_of cur with
  | nil => exact absurd hm hmem
  | cons seed ms =>
    dsimp only
    have hseed : seed ∈ level.members_of cur := by rw [hm]; simp
    obtain ⟨hseedN, _⟩ := (hwf.mem_iff cur seed hcur).1 hseed
    have hseedC : seed < the_cliques.length := by rw [← hN]; exact hseedN
    have h480 : ab.assigned_branches.getD (P + seed) false = false := hfree seed hseedC
    have h481 : (the_cliques.getD seed []).length > 0 := hsize seed hseedC
    simp only [h480, not_true_eq_false, if_false, h481]
    rcases get_members_eq level level.top_empty_component with herr | ⟨hg0, _, hgok⟩
    · rw [herr]
      exact ⟨_, rfl, by simp⟩
    rw [hgok]
    dsimp only
    by_cases h486 : 0 = (level.members_of level.top_empty_component).length
    swap
    · rw [if_pos h486]
      exact ⟨_, rfl, by simp⟩
    rw [if_neg (not_not.2 h486)]
    obtain ⟨_, hN1, _, _, _⟩ := move_node_spec level seed level.top_empty_component hwf hseedN hg0
    have hother : ∃ other, other < the_cliques.length ∧ other ≠ seed := by
      by_cases h0 : seed = 0
      · exact ⟨1, by omega, by omega⟩
      · exact ⟨0, by omega, fun e => h0 e.symm⟩
    obtain ⟨other, hoC, hone⟩ := hother
    obtain ⟨e, he, hne⟩ := grow_community_zero the_cliques P isf hisf hP cur
      level.top_empty_component seed other (level.move_node seed level.top_empty_component) ab
      (by rw [hN1, hN]) hseedC hoC hone (hfree other hoC) htree (the_cliques.length + 1)
    rw [he]
    exact ⟨e, rfl, hne⟩

/-! ## `do_clique_percolation_variant_5b` -/

theorem int32_wrap_double (e : Nat) (he : e ≤ 30) :
    int32_wrap ((2 : Int) ^ e * 2) = -2147483648 ∨
      ∃ e2 : Nat, e2 ≤ 30 ∧ int32_wrap ((2 : Int) ^ e * 2) = (2 : Int) ^ e2 := by
  by_cases h30 : e = 30
  · left
    rw [h30]
    decide
  · right
    refine ⟨e + 1, by omega, ?_⟩
    have h1 : (2 : Int) ^ e ≤ (2 : Int) ^ 29 := pow_le_pow_right₀ (by norm_num) (by omega)
    have h2 : (0 : Int) < (2 : Int) ^ e := by positivity
    have h3 : (2 : Int) ^ (e + 1) = (2 : Int) ^ e * 2 := pow_succ 2 e
    have h4 : (2 : Int) ^ 29 = 536870912 := by norm_num
    rw [h3]
    unfold int32_wrap
    omega

/-- The loop on `power_up` returns `0`, the least 32-bit value, or a power of two of at
most `2^30`, and what it returns is not below `C`. -/
theorem power_up_loop_spec (C : Int) :
    ∀ (fuel : Nat) (p q : Int),
      (p = -2147483648 ∨ p = 0 ∨ ∃ e : Nat, e ≤ 30 ∧ p = (2 : Int) ^ e) →
      power_up_loop fuel p C = .ok q →
      (q = -2147483648 ∨ q = 0 ∨ ∃ e : Nat, e ≤ 30 ∧ q = (2 : Int) ^ e) ∧ C ≤ q := by
  intro fuel
  induction fuel with
  | zero => intro p q _ h; simp [power_up_loop] at h
  | succ fuel ih =>
    intro p q hp h
    unfold power_up_loop at h
    by_cases hlt : p < C
    · rw [if_pos hlt] at h
      refine ih _ q ?_ h
      rcases hp with hp | hp | ⟨e, he, hp⟩
      · right; left
        rw [hp]
        decide
      · right; left
        rw [hp]
        decide
      · rw [hp]
        rcases int32_wrap_double e he with h1 | ⟨e2, he2, h2⟩
        · exact Or.inl h1
        · exact Or.inr (Or.inr ⟨e2, he2, h2⟩)
    · rw [if_neg hlt] at h
      simp only [Except.ok.injEq] at h
      rw [← h]
      exact ⟨hp, by omega⟩

theorem power_up_positive (C : Nat) (q : Int) (h : power_up_loop 64 1 (C : Int) = .ok q)
    (hq : q > 0) :
    1 ≤ q.toNat ∧ C ≤ q.toNat ∧ (2 * q.toNat ≤ 2147483647 ∨ q.toNat = 1073741824) := by
  obtain ⟨h1, h2⟩ := power_up_loop_spec (C : Int) 64 1 q
    (Or.inr (Or.inr ⟨0, by omega, by norm_num⟩)) h
  rcases h1 with h1 | h1 | ⟨e, he, h1⟩
  · omega
  · omega
  · by_cases h30 : e = 30
    · rw [h30] at h1
      have h4 : (2 : Int) ^ 30 = 1073741824 := by norm_num
      omega
    · have h3 : (2 : Int) ^ e ≤ (2 : Int) ^ 29 := pow_le_pow_right₀ (by norm_num) (by omega)
      have h4 : (2 : Int) ^ 29 = 536870912 := by norm_num
      omega

theorem move_all_spec (d : Int) (hd : 0 ≤ d) :
    ∀ (cs : List Nat) (level : components), level.WellFormed → (∀ c ∈ cs, c < level.N) →
      (cs.foldl (fun level c => level.move_node c d) level).WellFormed ∧
      (cs.foldl (fun level c => level.move_node c d) level).N = level.N ∧
      ∀ x, (cs.foldl (fun level c => level.move_node c d) level).component_of x =
        if x ∈ cs then d else level.component_of x := by
  intro cs
  induction cs with
  | nil =>
    intro level hwf _
    exact ⟨hwf, rfl, by simp⟩
  | cons c rest ih =>
    intro level hwf hcs
    obtain ⟨hwf1, hN1, hcomp1, _, _⟩ := move_node_spec level c d hwf (hcs c (by simp)) hd
    obtain ⟨hwf2, hN2, hcomp2⟩ := ih (level.move_node c d) hwf1 (by
      intro x hx
      rw [hN1]
      exact hcs x (by simp [hx]))
    simp only [List.foldl_cons]
    refine ⟨hwf2, by rw [hN2, hN1], ?_⟩
    intro x
    rw [hcomp2 x, hcomp1 x]
    by_cases h1 : x ∈ rest
    · simp [h1]
    · by_cases h2 : x = c
      · simp [h2]
      · simp [h1, h2]

/-- The lowest level: every clique is in the component `0`. -/
theorem lowest_level_spec (C : Nat) :
    ((List.range C).foldl
        (fun level c => level.move_node c (components.empty.setN C).top_empty_component)
        (components.empty.setN C)).WellFormed ∧
      ((List.range C).foldl
        (fun level c => level.move_node c (components.empty.setN C).top_empty_component)
        (components.empty.setN C)).N = C ∧
      ∀ c, c < C → ((List.range C).foldl
        (fun level c => level.move_node c (components.empty.setN C).top_empty_component)
        (components.empty.setN C)).component_of c = 0 := by
  have htop : (components.empty.setN C).top_empty_component = 0 := rfl
  rw [htop]
  obtain ⟨h1, h2, _, _⟩ := setN_wellFormed C
  obtain ⟨g1, g2, g3⟩ := move_all_spec 0 (le_refl 0) (List.range C) (components.empty.setN C) h1
    (by
      intro c hc
      rw [h2]
      exact List.mem_range.1 hc)
  refine ⟨g1, by rw [g2, h2], ?_⟩
  intro c hc
  rw [g3 c, if_pos (List.mem_range.2 hc)]

/-- The levels completed are numbered from the first value of `k` on. -/
theorem percolation_levels_ks (l : Nat) (h : Int → Nat) (the_cliques : List clique)
    (P C max_k k0 : Nat) :
    ∀ (n k : Nat) (srcs : List Int) (level : components) (completed : List Level),
      completed.map Level.k = List.range' k0 completed.length →
      k = k0 + completed.length →
      (percolation_levels l h the_cliques P C max_k (List.range' k n) srcs level completed).1.map
          Level.k =
        List.range' k0 (percolation_levels l h the_cliques P C max_k (List.range' k n) srcs
          level completed).1.length := by
  intro n
  induction n with
  | zero =>
    intro k srcs level completed hmap _
    exact hmap
  | succ n ih =>
    intro k srcs level completed hmap hk
    rw [List.range'_succ]
    unfold percolation_levels
    dsimp only
    cases h1 : one_k [] srcs level (k - 1) the_cliques P C
        (populate the_cliques (k - 1) P (List.range C)
          (intersecting_clique_finder.create l h P)) with
    | error e => exact hmap
    | ok r1 =>
      obtain ⟨found, level1⟩ := r1
      dsimp only
      cases h2 : write_all_communities_for_this_k level1 the_cliques found with
      | error e => exact hmap
      | ok lines =>
        dsimp only
        have hmap1 : (completed ++ [(⟨k, found, level1, lines⟩ : Level)]).map Level.k =
            List.range' k0 (completed ++ [(⟨k, found, level1, lines⟩ : Level)]).length := by
          rw [List.map_append, hmap, List.length_append, List.length_singleton,
            List.range'_concat, hk]
          simp
        by_cases hmax : k + 1 > max_k
        · rw [if_pos hmax]
          exact hmap1
        rw [if_neg hmax]
        cases h3 : next_sources the_cliques (k + 1) level1 found []
            (components.empty.setN C) with
        | error e => exact hmap1
        | ok r3 =>
          obtain ⟨srcs1, nl1⟩ := r3
          dsimp only
          exact ih (k + 1) srcs1 nl1 _ hmap1 (by
            rw [List.length_append, List.length_singleton]
            omega)

/-- In a list of at least two distinct maximal cliques none is empty. -/
theorem distinct_maximal_nonempty (the_cliques : List clique) (hdm : DistinctMaximal the_cliques)
    (hC : 2 ≤ the_cliques.length) (c : Nat) (hc : c < the_cliques.length) :
    0 < (the_cliques.getD c []).length := by
  by_contra hlen
  have hnil : the_cliques.getD c [] = [] := List.length_eq_zero.1 (by omega)
  have hother : ∃ other, other < the_cliques.length ∧ other ≠ c := by
    by_cases h0 : c = 0
    · exact ⟨1, by omega, by omega⟩
    · exact ⟨0, by omega, fun e => h0 e.symm⟩
  obtain ⟨other, ho, hne⟩ := hother
  apply hdm.2 other ho c hc hne
  rw [hnil]
  simp

/-- The whole run: the completed levels refine one another, and the run ends, or stops
at the assertion of `components::get_members`, at the assertion on the seed clique, at
an assertion of the first level when `min_k` is `1`, or before the first level. -/
theorem percolation_spec (l : Nat) (h : Int → Nat) (min_k max_k : Nat)
    (the_cliques : List clique) (hl : 0 < l) (hC : 2 ≤ the_cliques.length)
    (hdm : DistinctMaximal the_cliques) :
    List.Chain' Refines (do_clique_percolation_variant_5b l h min_k max_k the_cliques).1 ∧
      (do_clique_percolation_variant_5b l h min_k max_k the_cliques).2
        ≠ some (.assertion .cp5_cpp 507) := by
  unfold do_clique_percolation_variant_5b
  by_cases h1 : the_cliques.length > 2147483647
  · rw [if_pos h1]
    exact ⟨List.chain'_nil, by simp⟩
  rw [if_neg h1]
  dsimp only
  rw [if_neg (by omega)]
  by_cases h344 : min_k > 0 ∧ min_k ≤ max_k ∧ the_cliques.length > 1
  swap
  · rw [if_pos h344]
    exact ⟨List.chain'_nil, by simp⟩
  rw [if_neg (not_not.2 h344)]
  cases hp : power_up_loop 64 1 (the_cliques.length : Int) with
  | error e =>
    dsimp only
    refine ⟨List.chain'_nil, ?_⟩
    intro he
    simp only [Option.some.injEq] at he
    -- the loop stops early only for want of fuel
    have hfuel : ∀ (fuel : Nat) (p : Int), power_up_loop fuel p (the_cliques.length : Int)
        = .error e → e = .fuel := by
      intro fuel
      induction fuel with
      | zero =>
        intro p hpe
        simp only [power_up_loop, Except.error.injEq] at hpe
        exact hpe.symm
      | succ fuel ih =>
        intro p hpe
        unfold power_up_loop at hpe
        split_ifs at hpe
        exact ih _ hpe
    rw [hfuel 64 1 hp] at he
    exact absurd he (by simp)
  | ok power_up =>
    dsimp only
    by_cases h349 : power_up > 0
    swap
    · rw [if_pos h349]
      exact ⟨List.chain'_nil, by simp⟩
    rw [if_neg (not_not.2 h349)]
    obtain ⟨hP1, hP3, hP2⟩ := power_up_positive the_cliques.length power_up hp h349
    rcases hP2 with hP2 | hP2
    swap
    · -- the tree of `2^31` branches does not fit 32 bits
      have hn : max_k + 1 - min_k = (max_k - min_k) + 1 := by omega
      rw [hn, List.range'_succ]
      unfold percolation_levels
      dsimp only
      have hone : ∀ (srcs : List Int) (level : components) (isf : intersecting_clique_finder),
          one_k [] srcs level (min_k - 1) the_cliques power_up.toNat the_cliques.length isf
            = .error .length_error := by
        intro srcs level isf
        have hbig : 2 * power_up.toNat > 2147483647 := by omega
        unfold one_k assigned_branches_t.create
        simp [hbig]
      rw [hone]
      exact ⟨List.chain'_nil, by simp⟩
    obtain ⟨hwf0, hN0, hcomp0⟩ := lowest_level_spec the_cliques.length
    have htop : (components.empty.setN the_cliques.length).top_empty_component = 0 := rfl
    have hmem0 : ((List.range the_cliques.length).foldl
        (fun level c => level.move_node c
          (components.empty.setN the_cliques.length).top_empty_component)
        (components.empty.setN the_cliques.length)).members_of 0 ≠ [] := by
      intro hemp
      have := (hwf0.mem_iff 0 0 (le_refl 0)).2 ⟨by rw [hN0]; omega, hcomp0 0 (by omega)⟩
      rw [hemp] at this
      exact absurd this (by simp)
    by_cases hk : 2 ≤ min_k
    · have entry : OneKEntry the_cliques (min_k - 1) [0] ((List.range the_cliques.length).foldl
          (fun level c => level.move_node c
            (components.empty.setN the_cliques.length).top_empty_component)
          (components.empty.setN the_cliques.length)) := by
        refine ⟨hwf0, hN0, List.nodup_singleton 0, ?_, ?_, ?_⟩
        · intro s hs
          have : s = 0 := by simpa using hs
          rw [this]
          exact ⟨le_refl 0, hmem0⟩
        · intro c hc _
          rw [hcomp0 c hc]
          simp
        · intro a ha b hb _ _ hne
          rw [hcomp0 a ha, hcomp0 b hb] at hne
          exact absurd rfl hne
      have := percolation_levels_spec l h the_cliques power_up.toNat max_k hl hdm hP1 hP2 hP3
        (max_k + 1 - min_k) min_k [0] _ [] hk entry List.chain'_nil (by simp)
      refine ⟨this.1, ?_⟩
      intro hc
      rcases this.2 with h2 | h2 | h2
      · have := hc.symm.trans h2
        simp at this
      · have := hc.symm.trans h2
        simp at this
      · have := hc.symm.trans h2
        simp at this
    · -- the first level has the threshold `0`
      have hmin : min_k = 1 := by omega
      have hn : max_k + 1 - min_k = (max_k - 1) + 1 := by omega
      rw [hmin] at hn ⊢
      rw [hn, List.range'_succ]
      unfold percolation_levels
      dsimp only
      obtain ⟨_, hisf, _, _⟩ := populate_spec the_cliques 0 power_up.toNat
        (List.range the_cliques.length)
        (intersecting_clique_finder.create l h power_up.toNat)
        (create_wellFormed l h power_up.toNat hl)
      obtain ⟨e, he, hne⟩ := one_k_zero the_cliques power_up.toNat _ hisf hP3 hP2 hC
        (distinct_maximal_nonempty the_cliques hdm hC) 0 _ hwf0 hN0 (le_refl 0) hmem0
      have he2 : one_k [] [(components.empty.setN the_cliques.length).top_empty_component]
          ((List.range the_cliques.length).foldl
            (fun level c => level.move_node c
              (components.empty.setN the_cliques.length).top_empty_component)
            (components.empty.setN the_cliques.length)) (1 - 1) the_cliques power_up.toNat
          the_cliques.length (populate the_cliques (1 - 1) power_up.toNat
            (List.range the_cliques.length)
            (intersecting_clique_finder.create l h power_up.toNat)) = .error e := he
      rw [he2]
      dsimp only
      exact ⟨List.chain'_nil, by simpa using hne⟩

/-- The completed levels of the whole run are numbered from `min_k` on. -/
theorem percolation_ks (l : Nat) (h : Int → Nat) (min_k max_k : Nat)
    (the_cliques : List clique) :
    (do_clique_percolation_variant_5b l h min_k max_k the_cliques).1.map Level.k =
      List.range' min_k (do_clique_percolation_variant_5b l h min_k max_k the_cliques).1.length := by
  unfold do_clique_percolation_variant_5b
  by_cases h1 : the_cliques.length > 2147483647
  · rw [if_pos h1]
    rfl
  rw [if_neg h1]
  dsimp only
  by_cases h2 : the_cliques.length = 1
  · rw [if_pos h2]
    rfl
  rw [if_neg h2]
  by_cases h344 : min_k > 0 ∧ min_k ≤ max_k ∧ the_cliques.length > 1
  swap
  · rw [if_pos h344]
    rfl
  rw [if_neg (not_not.2 h344)]
  cases hp : power_up_loop 64 1 (the_cliques.length : Int) with
  | error e => rfl
  | ok power_up =>
    dsimp only
    by_cases h349 : power_up > 0
    swap
    · rw [if_pos h349]
      rfl
    rw [if_neg (not_not.2 h349)]
    exact percolation_levels_ks l h the_cliques power_up.toNat the_cliques.length max_k min_k
      (max_k + 1 - min_k) min_k _ _ [] rfl rfl

/-! ## The lines of `comm<k>` -/

theorem insert_nodes_spec (one_clique : clique) :
    ∀ s : List Int, s.Nodup →
      (insert_nodes s one_clique).Nodup ∧
        ∀ v, v ∈ insert_nodes s one_clique ↔ v ∈ s ∨ v ∈ one_clique := by
  induction one_clique with
  | nil =>
    intro s hs
    exact ⟨hs, by simp [insert_nodes]⟩
  | cons x rest ih =>
    intro s hs
    unfold insert_nodes
    rw [List.foldl_cons]
    by_cases hx : x ∈ s
    · rw [if_pos hx]
      obtain ⟨h1, h2⟩ := ih s hs
      refine ⟨h1, ?_⟩
      intro v
      have := h2 v
      unfold insert_nodes at this
      rw [this]
      simp only [List.mem_cons]
      constructor
      · rintro (h | h)
        · exact Or.inl h
        · exact Or.inr (Or.inr h)
      · rintro (h | h | h)
        · exact Or.inl h
        · rw [h]; exact Or.inl hx
        · exact Or.inr h
    · rw [if_neg hx]
      have hs' : (s ++ [x]).Nodup := by
        rw [List.nodup_append]
        refine ⟨hs, List.nodup_singleton x, ?_⟩
        intro a ha ha'
        have : a = x := by simpa using ha'
        rw [this] at ha
        exact hx ha
      obtain ⟨h1, h2⟩ := ih (s ++ [x]) hs'
      refine ⟨h1, ?_⟩
      intro v
      have := h2 v
      unfold insert_nodes at this
      rw [this]
      simp only [List.mem_append, List.mem_singleton, List.mem_cons]
      tauto

theorem nodes_of_members_spec (the_cliques : List clique) :
    ∀ (members : List Nat) (s : List Int), s.Nodup →
      (members.foldl (fun s clique_id => insert_nodes s (the_cliques.getD clique_id [])) s).Nodup ∧
        ∀ v, v ∈ members.foldl
            (fun s clique_id => insert_nodes s (the_cliques.getD clique_id [])) s ↔
          v ∈ s ∨ ∃ c ∈ members, v ∈ the_cliques.getD c [] := by
  intro members
  induction members with
  | nil =>
    intro s hs
    exact ⟨hs, by simp⟩
  | cons c rest ih =>
    intro s hs
    obtain ⟨g1, g2⟩ := insert_nodes_spec (the_cliques.getD c []) s hs
    obtain ⟨h1, h2⟩ := ih (insert_nodes s (the_cliques.getD c [])) g1
    rw [List.foldl_cons]
    refine ⟨h1, ?_⟩
    intro v
    rw [h2 v, g2 v]
    simp only [List.mem_cons, exists_eq_or_imp]
    tauto

theorem write_all_communities_lines (level : components) (the_cliques : List clique) :
    ∀ found : List Int,
      (∀ f ∈ found, 0 ≤ f ∧ f < (level.N : Int) ∧
        ∀ c ∈ level.members_of f, c < the_cliques.length) →
      ∃ lines, write_all_communities_for_this_k level the_cliques found = .ok lines ∧
        List.Forall₂ (fun f line => line.Nodup ∧
          ∀ v, v ∈ line ↔ ∃ c ∈ level.members_of f, v ∈ the_cliques.getD c []) found lines := by
  intro found
  induction found with
  | nil =>
    intro _
    exact ⟨[], rfl, List.Forall₂.nil⟩
  | cons f rest ih =>
    intro hfound
    obtain ⟨hf0, hfN, hfm⟩ := hfound f (by simp)
    obtain ⟨lines, hrun, hall⟩ := ih (fun f' hf' => hfound f' (by simp [hf']))
    obtain ⟨h1, h2⟩ := nodes_of_members_spec the_cliques (level.members_of f) [] List.nodup_nil
    refine ⟨_ :: lines, ?_, List.Forall₂.cons ⟨h1, ?_⟩ hall⟩
    · unfold write_all_communities_for_this_k
      rcases get_members_eq level f with herr | ⟨_, _, hok⟩
      · unfold components.get_members at herr
        rw [if_neg (not_not.2 ⟨hf0, hfN⟩)] at herr
        exact absurd herr (by simp)
      · rw [hok]
        dsimp only
        rw [if_neg (not_not.2 hfm), hrun]
    · intro v
      rw [h2 v]
      simp

/-! ## The loop on `power_up` -/

theorem int32_wrap_double_small (e : Nat) (he : e < 30) :
    int32_wrap ((2 : Int) ^ e * 2) = (2 : Int) ^ (e + 1) := by
  have h1 : (2 : Int) ^ e ≤ (2 : Int) ^ 29 := pow_le_pow_right₀ (by norm_num) (by omega)
  have h2 : (0 : Int) < (2 : Int) ^ e := by positivity
  have h3 : (2 : Int) ^ (e + 1) = (2 : Int) ^ e * 2 := pow_succ 2 e
  have h4 : (2 : Int) ^ 29 = 536870912 := by norm_num
  rw [h3]
  unfold int32_wrap
  omega

/-- From a power of two whose half is below `C`, with `C` at most `2^30`, the loop
ends at the smallest power of two that is not below `C`. -/
theorem power_up_loop_smallest (C : Int) (hC : C ≤ 1073741824) :
    ∀ (fuel e : Nat), e ≤ 30 → 31 - e ≤ fuel → (2 : Int) ^ e / 2 < C →
      ∃ e2 : Nat, e2 ≤ 30 ∧ power_up_loop fuel ((2 : Int) ^ e) C = .ok ((2 : Int) ^ e2) ∧
        C ≤ (2 : Int) ^ e2 ∧ (2 : Int) ^ e2 / 2 < C := by
  intro fuel
  induction fuel with
  | zero => intro e he hf _; omega
  | succ fuel ih =>
    intro e he hf hhalf
    unfold power_up_loop
    by_cases hlt : (2 : Int) ^ e < C
    · rw [if_pos hlt]
      have he30 : e < 30 := by
        by_contra hc
        have h30 : e = 30 := by omega
        rw [h30] at hlt
        have h4 : (2 : Int) ^ 30 = 1073741824 := by norm_num
        omega
      rw [int32_wrap_double_small e he30]
      apply ih (e + 1) (by omega) (by omega)
      have h3 : (2 : Int) ^ (e + 1) = (2 : Int) ^ e * 2 := pow_succ 2 e
      rw [h3]
      omega
    · rw [if_neg hlt]
      exact ⟨e, he, rfl, by omega, hhalf⟩

/-- Above `2^30` the loop never ends: `power_up` wraps to the least 32-bit value and
then stays `0`. -/
theorem power_up_loop_diverges (C : Int) (hC : 1073741824 < C) (fuel : Nat) (q : Int) :
    power_up_loop fuel 1 C ≠ .ok q := by
  intro h
  obtain ⟨h1, h2⟩ := power_up_loop_spec C fuel 1 q
    (Or.inr (Or.inr ⟨0, by omega, by norm_num⟩)) h
  rcases h1 with h1 | h1 | ⟨e, he, h1⟩
  · omega
  · omega
  · have h3 : (2 : Int) ^ e ≤ (2 : Int) ^ 30 := pow_le_pow_right₀ (by norm_num) he
    have h4 : (2 : Int) ^ 30 = 1073741824 := by norm_num
    omega

/-! ## The assigned branches: a node is done exactly when its children are -/

/-- What `mark_as_done` does on a node `b` whose children, when it has any, are done,
in a state that has the invariant at every other node: it ends and the invariant
holds at every node. -/
theorem mark_as_done_rec_children (P : Nat) :
    ∀ (fuel : Nat) (ab : assigned_branches_t) (b : Nat), b < fuel → 1 ≤ b → b < 2 * P →
      ab.assigned_branches.length = 2 * P →
      (∀ x, 1 ≤ x → x < P → x ≠ b →
        (ab.done x = true ↔ ab.done (2 * x) = true ∧ ab.done (2 * x + 1) = true)) →
      (b < P → ab.done (2 * b) = true ∧ ab.done (2 * b + 1) = true) →
      ∃ k ab', mark_as_done_rec fuel ab b = .ok (k, ab') ∧ ChildrenInvariant P ab' := by
  intro fuel
  induction fuel with
  | zero => intro ab b h; exact absurd h (Nat.not_lt_zero _)
  | succ fuel ih =>
    intro ab b hfuel hb1 hb2 hlen hother hchildren
    have hblen : b < ab.assigned_branches.length := by omega
    unfold mark_as_done_rec
    have hassert : (0 : Int) ≤ (b : Int) ∧ b < ab.assigned_branches.length := ⟨by omega, hblen⟩
    simp only [hassert, and_self, not_true_eq_false, if_false]
    by_cases hdone : ab.assigned_branches.getD b false = false
    swap
    · -- already done
      rw [if_neg hdone]
      have hd : ab.done b = true := by
        unfold assigned_branches_t.done
        simpa using hdone
      refine ⟨0, ab, rfl, hlen, ?_⟩
      intro x hx1 hxP
      by_cases hxb : x = b
      · rw [hxb]
        rw [hxb] at hxP
        exact ⟨fun _ => hchildren hxP, fun _ => hd⟩
      · exact hother x hx1 hxP hxb
    rw [if_pos hdone]
    have hnd : ab.done b = false := hdone
    set ab1 : assigned_branches_t :=
      { ab with assigned_branches := ab.assigned_branches.set b true } with hab1
    have hd1 : ∀ x, ab1.done x = (ab.done x || decide (x = b)) :=
      fun x => done_set ab b x hblen
    have hlen1 : ab1.assigned_branches.length = 2 * P := by simpa [hab1] using hlen
    -- the invariant in the new state, away from the parent of `b`
    have hother1 : ∀ x, 1 ≤ x → x < P → x ≠ b / 2 →
        (ab1.done x = true ↔ ab1.done (2 * x) = true ∧ ab1.done (2 * x + 1) = true) := by
      intro x hx1 hxP hxp
      rw [hd1, hd1, hd1]
      simp only [Bool.or_eq_true, decide_eq_true_eq]
      have h1 : 2 * x ≠ b := by omega
      have h2 : 2 * x + 1 ≠ b := by omega
      by_cases hxb : x = b
      · rw [hxb] at hxP
        have := hchildren (by omega)
        rw [hxb]
        simp [this.1, this.2]
      · have := hother x hx1 hxP hxb
        simp only [hxb, h1, h2, or_false]
        exact this
    have hfull1 : (b / 2 < 1 ∨ (ab1.done (b / 2) = true ↔
        ab1.done (2 * (b / 2)) = true ∧ ab1.done (2 * (b / 2) + 1) = true)) →
        ChildrenInvariant P ab1 := by
      intro hp
      refine ⟨hlen1, ?_⟩
      intro x hx1 hxP
      by_cases hxp : x = b / 2
      · rcases hp with hp | hp
        · omega
        · rw [hxp]; exact hp
      · exact hother1 x hx1 hxP hxp
    by_cases hgt : b > 1
    swap
    · rw [if_neg hgt]
      exact ⟨1, ab1, rfl, hfull1 (Or.inl (by omega))⟩
    rw [if_pos hgt]
    have hxor := xor_one_eq b
    have hsibne : b ^^^ 1 ≠ b := by omega
    have hpP : b / 2 < P := by omega
    have hp1 : 1 ≤ b / 2 := by omega
    have hpb : b / 2 ≠ b := by omega
    -- the two children of the parent are `b` and its sibling
    have hkids : ∀ ab2 : assigned_branches_t,
        (ab2.done (2 * (b / 2)) = true ∧ ab2.done (2 * (b / 2) + 1) = true) ↔
          (ab2.done b = true ∧ ab2.done (b ^^^ 1) = true) := by
      intro ab2
      by_cases hpar : b % 2 = 0
      · have e1 : 2 * (b / 2) = b := by omega
        have e2 : 2 * (b / 2) + 1 = b ^^^ 1 := by omega
        rw [e2, e1]
      · have e1 : 2 * (b / 2) = b ^^^ 1 := by omega
        have e2 : 2 * (b / 2) + 1 = b := by omega
        rw [e2, e1]
        exact And.comm
    have hb1d : ab1.done b = true := by rw [hd1]; simp
    by_cases hsib : ab1.assigned_branches.getD (b ^^^ 1) false = true
    swap
    · rw [if_neg hsib]
      refine ⟨1, ab1, rfl, hfull1 (Or.inr ?_)⟩
      have hs1 : ab1.done (b ^^^ 1) = false := by
        unfold assigned_branches_t.done
        simpa using hsib
      have hpold := hother (b / 2) hp1 hpP hpb
      rw [hkids ab] at hpold
      have hpnd : ab1.done (b / 2) = false := by
        rw [hd1]
        simp only [hpb, decide_False, Bool.or_false]
        by_contra hc
        have := (hpold.1 (by simpa using hc)).1
        rw [hnd] at this
        exact absurd this (by simp)
      rw [hkids ab1, hpnd, hs1]
      simp
    rw [if_pos hsib]
    have hs1 : ab1.done (b ^^^ 1) = true := hsib
    have hshift : b >>> 1 = b / 2 := by
      rw [Nat.shiftRight_eq_div_pow]
    rw [hshift]
    obtain ⟨k, ab', hrec, hinv'⟩ := ih ab1 (b / 2) (by omega) hp1 (by omega) hlen1
      (fun x hx1 hxP hxp => hother1 x hx1 hxP hxp)
      (fun _ => (hkids ab1).2 ⟨hb1d, hs1⟩)
    rw [hrec]
    exact ⟨1 + k, ab', rfl, hinv'⟩

theorem mark_as_done_children (P : Nat) (ab : assigned_branches_t) (b : Nat) (hb1 : P ≤ b)
    (hb0 : 1 ≤ b) (hb2 : b < 2 * P) (hinv : ChildrenInvariant P ab) :
    ∃ k ab', ab.mark_as_done b = .ok (k, ab') ∧ ChildrenInvariant P ab' :=
  mark_as_done_rec_children P (b + 1) ab b (Nat.lt_succ_self b) hb0 hb2 hinv.1
    (fun x hx1 hxP _ => hinv.2 x hx1 hxP) (fun h => absurd h (by omega))

theorem mark_all_children (P : Nat) :
    ∀ (leaves : List Nat) (ab : assigned_branches_t),
      (∀ i ∈ leaves, P ≤ i ∧ i < 2 * P) → 1 ≤ P → ChildrenInvariant P ab →
      ∃ ab', mark_all leaves ab = .ok ab' ∧ ChildrenInvariant P ab' := by
  intro leaves
  induction leaves with
  | nil =>
    intro ab _ _ hinv
    exact ⟨ab, rfl, hinv⟩
  | cons b rest ih =>
    intro ab hl hP hinv
    obtain ⟨hb1, hb2⟩ := hl b (by simp)
    obtain ⟨k, ab1, hrun, hinv1⟩ := mark_as_done_children P ab b hb1 (by omega) hb2 hinv
    obtain ⟨ab', hrun', hinv'⟩ := ih ab1 (fun i hi => hl i (by simp [hi])) hP hinv1
    refine ⟨ab', ?_, hinv'⟩
    unfold mark_all
    rw [hrun]
    exact hrun'

theorem premark_invalid_children (P : Nat) :
    ∀ (leaves : List Nat) (ab : assigned_branches_t) (total : Nat),
      (∀ i ∈ leaves, P ≤ i ∧ i < 2 * P) → 1 ≤ P → ChildrenInvariant P ab →
      ∀ n ab', premark_invalid leaves ab total = .ok (n, ab') → ChildrenInvariant P ab' := by
  intro leaves
  induction leaves with
  | nil =>
    intro ab total _ _ hinv n ab' h
    simp only [premark_invalid, Except.ok.injEq, Prod.mk.injEq] at h
    rw [← h.2]
    exact hinv
  | cons b rest ih =>
    intro ab total hl hP hinv n ab' h
    obtain ⟨hb1, hb2⟩ := hl b (by simp)
    obtain ⟨k, ab1, hrun, hinv1⟩ := mark_as_done_children P ab b hb1 (by omega) hb2 hinv
    unfold premark_invalid at h
    rw [hrun] at h
    exact ih ab1 _ (fun i hi => hl i (by simp [hi])) hP hinv1 n ab' h

/-- An assigned_branches_t that the constructor has built has the invariant, and its
tree fits 32 bits. -/
theorem create_children (P C : Nat) (hP : 1 ≤ P) (ab : assigned_branches_t)
    (h : assigned_branches_t.create P C = .ok ab) :
    ChildrenInvariant P ab ∧ 2 * P ≤ 2147483647 := by
  unfold assigned_branches_t.create at h
  by_cases h1 : 2 * P > 2147483647
  · rw [if_pos h1] at h
    exact absurd h (by simp)
  rw [if_neg h1] at h
  by_cases h2 : P + C > 2147483647
  · rw [if_pos h2] at h
    exact absurd h (by simp)
  rw [if_neg h2] at h
  dsimp only at h
  have hinv0 : ChildrenInvariant P ⟨P, C, List.replicate (2 * P) false⟩ := by
    refine ⟨by simp, ?_⟩
    intro b _ _
    rw [done_replicate, done_replicate]
    simp
  refine ⟨?_, by omega⟩
  cases hpre : premark_invalid (List.range' (P + C) (2 * P - (P + C)))
      ⟨P, C, List.replicate (2 * P) false⟩ 0 with
  | error e =>
    rw [hpre] at h
    exact absurd h (by simp)
  | ok r =>
    obtain ⟨n, ab1⟩ := r
    rw [hpre] at h
    simp only [Except.ok.injEq] at h
    rw [← h]
    exact premark_invalid_children P _ _ 0 (by
      intro i hi
      rw [List.mem_range'_1] at hi
      omega) hP hinv0 n ab1 hpre

/-- With the invariant at every internal node, an internal node is done exactly when
every leaf below it is. -/
theorem done_iff_leaves (P : Nat) (ab : assigned_branches_t) (hinv : ChildrenInvariant P ab) :
    ∀ (n b : Nat), P - b ≤ n → 1 ≤ b → b < P →
      (ab.done b = true ↔ ∀ y, P ≤ y → y < 2 * P → below b y → ab.done y = true) := by
  intro n
  induction n with
  | zero => intro b h _ hb; omega
  | succ n ih =>
    intro b hn hb1 hbP
    -- a child is a leaf or an internal node further down
    have hchild : ∀ c, (c = 2 * b ∨ c = 2 * b + 1) →
        (ab.done c = true ↔ ∀ y, P ≤ y → y < 2 * P → below c y → ab.done y = true) := by
      intro c hc
      by_cases hcP : c < P
      · exact ih c (by omega) (by omega) hcP
      · constructor
        · intro hd y _ hy2 hcy
          rw [below_leaf_eq P c y (by omega) hy2 hcy]
          exact hd
        · intro hall
          exact hall c (by omega) (by omega) (below_refl c)
    rw [hinv.2 b hb1 hbP, hchild (2 * b) (Or.inl rfl), hchild (2 * b + 1) (Or.inr rfl)]
    constructor
    · rintro ⟨h1, h2⟩ y hy1 hy2 hby
      have hne : y ≠ b := by omega
      rcases below_child_of_ne b y hby hne with h | h
      · exact h1 y hy1 hy2 h
      · exact h2 y hy1 hy2 h
    · intro hall
      exact ⟨fun y hy1 hy2 h => hall y hy1 hy2 (below_of_below_child b y (Or.inl h)),
        fun y hy1 hy2 h => hall y hy1 hy2 (below_of_below_child b y (Or.inr h))⟩

/-- Marking a node other than `0` leaves the entry of node `0` as it is. -/
theorem mark_as_done_rec_zero :
    ∀ (fuel : Nat) (ab : assigned_branches_t) (b k : Nat) (ab' : assigned_branches_t),
      1 ≤ b → mark_as_done_rec fuel ab b = .ok (k, ab') → ab'.done 0 = ab.done 0 := by
  intro fuel
  induction fuel with
  | zero => intro ab b k ab' _ h; simp [mark_as_done_rec] at h
  | succ fuel ih =>
    intro ab b k ab' hb h
    unfold mark_as_done_rec at h
    dsimp only at h
    split_ifs at h with h1 h2 h3 h4
    · have hx1 : ({ ab with assigned_branches := ab.assigned_branches.set b true } :
          assigned_branches_t).done 0 = ab.done 0 := by
        rw [done_set ab b 0 h1.2]
        simp
        omega
      cases hrec : mark_as_done_rec fuel
          { ab with assigned_branches := ab.assigned_branches.set b true } (b >>> 1) with
      | error e => rw [hrec] at h; simp at h
      | ok r =>
        obtain ⟨k2, ab2⟩ := r
        rw [hrec] at h
        simp only [Except.ok.injEq, Prod.mk.injEq] at h
        rw [← h.2, ← hx1]
        have hshift : b >>> 1 = b / 2 := by rw [Nat.shiftRight_eq_div_pow]
        exact ih _ _ _ _ (by rw [hshift]; omega) hrec
    · simp only [Except.ok.injEq, Prod.mk.injEq] at h
      rw [← h.2, done_set ab b 0 h1.2]
      simp
      omega
    · simp only [Except.ok.injEq, Prod.mk.injEq] at h
      rw [← h.2, done_set ab b 0 h1.2]
      simp
      omega
    · simp only [Except.ok.injEq, Prod.mk.injEq] at h
      rw [← h.2]

theorem premark_invalid_zero :
    ∀ (leaves : List Nat) (ab : assigned_branches_t) (total n : Nat)
      (ab' : assigned_branches_t), (∀ i ∈ leaves, 1 ≤ i) →
      premark_invalid leaves ab total = .ok (n, ab') → ab'.done 0 = ab.done 0 := by
  intro leaves
  induction leaves with
  | nil =>
    intro ab total n ab' _ h
    simp only [premark_invalid, Except.ok.injEq, Prod.mk.injEq] at h
    rw [← h.2]
  | cons b rest ih =>
    intro ab total n ab' hl h
    unfold premark_invalid at h
    cases hm : ab.mark_as_done b with
    | error e => rw [hm] at h; simp at h
    | ok r =>
      obtain ⟨k, ab1⟩ := r
      rw [hm] at h
      dsimp only at h
      rw [ih ab1 _ n ab' (fun i hi => hl i (by simp [hi])) h]
      exact mark_as_done_rec_zero _ _ _ _ _ (hl b (by simp)) hm

/-- The constructor does not touch node `0`. -/
theorem create_zero (P C : Nat) (hP : 1 ≤ P) (ab : assigned_branches_t)
    (h : assigned_branches_t.create P C = .ok ab) : ab.done 0 = false := by
  unfold assigned_branches_t.create at h
  split_ifs at h
  dsimp only at h
  cases hpre : premark_invalid (List.range' (P + C) (2 * P - (P + C)))
      ⟨P, C, List.replicate (2 * P) false⟩ 0 with
  | error e =>
    rw [hpre] at h
    exact absurd h (by simp)
  | ok r =>
    obtain ⟨n, ab1⟩ := r
    rw [hpre] at h
    simp only [Except.ok.injEq] at h
    rw [← h, premark_invalid_zero _ _ 0 n ab1 (by
      intro i hi
      rw [List.mem_range'_1] at hi
      omega) hpre]
    exact done_replicate P C (2 * P) 0

/-! ## The checks of `findCliques` on its arguments -/

theorem check_end_points_eq (g : SimpleIntGraph) :
    ∀ rs : List Nat,
      (check_end_points g rs = .error .SelfLoopsNotSupportedException ∧
          ∃ r ∈ rs, (EndPoints g r).2 ≤ (EndPoints g r).1) ∨
        (check_end_points g rs = .ok () ∧ ∀ r ∈ rs, (EndPoints g r).1 < (EndPoints g r).2) := by
  intro rs
  induction rs with
  | nil => right; exact ⟨rfl, by simp⟩
  | cons r rest ih =>
    unfold check_end_points
    dsimp only
    by_cases hr : (EndPoints g r).1 < (EndPoints g r).2
    · rw [if_neg (not_not.2 hr)]
      rcases ih with ⟨h1, r2, hr2, hbad⟩ | ⟨h1, hall⟩
      · left
        exact ⟨h1, r2, by simp [hr2], hbad⟩
      · right
        refine ⟨h1, ?_⟩
        intro r2 hr2
        rcases List.mem_cons.1 hr2 with h | h
        · rw [h]; exact hr
        · exact hall r2 h
    · rw [if_pos hr]
      left
      exact ⟨rfl, r, by simp, by omega⟩

theorem find_node_with_fewest_discs_error (s : Fewest) (Not Candidates : List Int)
    (g : SimpleIntGraph) (e : Err)
    (h : find_node_with_fewest_discs s Not Candidates g = .error e) :
    e ≠ .SelfLoopsNotSupportedException := by
  unfold find_node_with_fewest_discs at h
  dsimp only at h
  by_cases h1 : Candidates.isEmpty
  · rw [if_pos h1] at h
    simp only [Except.error.injEq] at h
    rw [← h]
    simp
  rw [if_neg h1] at h
  cases h2 : fewest_over_Not (std_set Candidates) g Not s with
  | mk s1 b1 =>
    rw [h2] at h
    cases b1 with
    | true => simp at h
    | false =>
      dsimp only at h
      cases h3 : fewest_over_Candidates (std_set Candidates) g Candidates s1 with
      | mk s2 b2 =>
        rw [h3] at h
        cases b2 with
        | true => simp at h
        | false =>
          dsimp only at h
          split_ifs at h
          · simp only [Except.error.injEq] at h
            rw [← h]
            simp
          · simp only [Except.error.injEq] at h
            rw [← h]
            simp

theorem tryCandidate_error
    (worker : List Int → List Int → List Int → Except Err (List (List Int)))
    (hworker : ∀ a b c e, worker a b c = .error e → e ≠ .SelfLoopsNotSupportedException)
    (g : SimpleIntGraph) (Compsub Not Candidates : List Int) (selected : Int) (e : Err)
    (h : tryCandidate worker g Compsub Not Candidates selected = .error e) :
    e ≠ .SelfLoopsNotSupportedException := by
  unfold tryCandidate at h
  by_cases h1 : Compsub.isEmpty
  · rw [if_pos h1] at h
    simp only [Except.error.injEq] at h
    rw [← h]
    simp
  · rw [if_neg h1] at h
    exact hworker _ _ _ e h

theorem cliquesWorker_loop_error
    (worker : List Int → List Int → List Int → Except Err (List (List Int)))
    (hworker : ∀ a b c e, worker a b c = .error e → e ≠ .SelfLoopsNotSupportedException)
    (g : SimpleIntGraph) (minimumSize : Nat) (Compsub : List Int) (pivot : Int) :
    ∀ (rest before Not : List Int) (fewestDisc : Int) (e : Err),
      cliquesWorker_loop worker g minimumSize Compsub pivot before rest Not fewestDisc
        = .error e → e ≠ .SelfLoopsNotSupportedException := by
  intro rest
  induction rest with
  | nil =>
    intro before Not fd e h
    simp [cliquesWorker_loop] at h
  | cons v rest ih =>
    intro before Not fd e h
    unfold cliquesWorker_loop at h
    by_cases h1 : (before ++ v :: rest).length + Compsub.length ≥ minimumSize
    swap
    · rw [if_pos h1] at h
      simp at h
    rw [if_neg (not_not.2 h1)] at h
    by_cases h2 : fd > 0 ∧ v ≠ pivot ∧ ¬ are_connected g v pivot
    · rw [if_pos h2, if_neg (not_not.2 h1)] at h
      cases h3 : tryCandidate worker g Compsub Not (before ++ rest) v with
      | error e1 =>
        rw [h3] at h
        simp only [Except.error.injEq] at h
        rw [← h]
        exact tryCandidate_error worker hworker g _ _ _ _ e1 h3
      | ok out1 =>
        rw [h3] at h
        dsimp only at h
        cases h4 : cliquesWorker_loop worker g minimumSize Compsub pivot before rest
            (insert_at_lower_bound v Not) (fd - 1) with
        | error e2 =>
          rw [h4] at h
          simp only [Except.error.injEq] at h
          rw [← h]
          exact ih _ _ _ e2 h4
        | ok r =>
          rw [h4] at h
          simp at h
    · rw [if_neg h2] at h
      exact ih _ _ _ e h

theorem cliquesWorker_error (g : SimpleIntGraph) (minimumSize : Nat) :
    ∀ (fuel : Nat) (Compsub Not Candidates : List Int) (e : Err),
      cliquesWorker fuel g minimumSize Compsub Not Candidates = .error e →
      e ≠ .SelfLoopsNotSupportedException := by
  intro fuel
  induction fuel with
  | zero =>
    intro Compsub Not Candidates e h
    simp only [cliquesWorker, Except.error.injEq] at h
    rw [← h]
    simp
  | succ fuel ih =>
    intro Compsub Not Candidates e h
    unfold cliquesWorker at h
    by_cases h1 : Candidates.length + Compsub.length ≥ minimumSize
    swap
    · rw [if_pos h1] at h
      simp at h
    rw [if_neg (not_not.2 h1)] at h
    by_cases h2 : Candidates.isEmpty
    · rw [if_pos h2] at h
      split_ifs at h
    rw [if_neg h2] at h
    cases h3 : find_node_with_fewest_discs ⟨2147483647, -1, false⟩ Not Candidates g with
    | error e1 =>
      rw [h3] at h
      simp only [Except.error.injEq] at h
      rw [← h]
      exact find_node_with_fewest_discs_error _ _ _ _ e1 h3
    | ok f =>
      rw [h3] at h
      dsimp only at h
      by_cases h4 : (!f.fewestIsInCands && f.fewestDisc == 0) = true
      · rw [if_pos h4] at h
        simp at h
      rw [if_neg h4] at h
      cases h5 : cliquesWorker_loop (cliquesWorker fuel g minimumSize) g minimumSize Compsub
          f.fewestDiscVertex [] Candidates Not f.fewestDisc with
      | error e2 =>
        rw [h5] at h
        simp only [Except.error.injEq] at h
        rw [← h]
        exact cliquesWorker_loop_error _ (fun a b c e => ih a b c e) g minimumSize Compsub _
          _ _ _ _ e2 h5
      | ok r =>
        obtain ⟨out, fin⟩ := r
        rw [h5] at h
        cases fin with
        | none => simp at h
        | some p =>
          obtain ⟨Candidates2, Not2⟩ := p
          dsimp only at h
          by_cases h6 : f.fewestIsInCands = true
          · rw [if_pos h6] at h
            by_cases h7 : Candidates2.length + Compsub.length ≥ minimumSize
            swap
            · rw [if_pos h7] at h
              simp at h
            rw [if_neg (not_not.2 h7)] at h
            cases h8 : tryCandidate (cliquesWorker fuel g minimumSize) g Compsub Not2
                Candidates2 f.fewestDiscVertex with
            | error e3 =>
              rw [h8] at h
              simp only [Except.error.injEq] at h
              rw [← h]
              exact tryCandidate_error _ (fun a b c e => ih a b c e) g _ _ _ _ e3 h8
            | ok out2 =>
              rw [h8] at h
              simp at h
          · rw [if_neg h6] at h
            simp at h

theorem split_neighbours_error (v : Int) :
    ∀ (ns : List Int) (last : Int) (Not Candidates : List Int) (e : Err),
      split_neighbours v ns last Not Candidates = .error e →
      e ≠ .SelfLoopsNotSupportedException := by
  intro ns
  induction ns with
  | nil =>
    intro last Not Candidates e h
    simp [split_neighbours] at h
  | cons n rest ih =>
    intro last Not Candidates e h
    unfold split_neighbours at h
    dsimp only at h
    by_cases h1 : last < n
    · rw [if_neg (not_not.2 h1)] at h
      exact ih _ _ _ e h
    · rw [if_pos h1] at h
      simp only [Except.error.injEq] at h
      rw [← h]
      simp

theorem cliquesForOneNode_error (g : SimpleIntGraph) (minimumSize : Nat) (v : Int) (e : Err)
    (h : cliquesForOneNode g minimumSize v = .error e) :
    e ≠ .SelfLoopsNotSupportedException := by
  unfold cliquesForOneNode at h
  dsimp only at h
  by_cases h1 : degree g v + 1 < minimumSize
  · rw [if_pos h1] at h
    simp at h
  rw [if_neg h1] at h
  cases h2 : split_neighbours v (neighbouring_nodes_in_order g v) (-1) [] [] with
  | error e1 =>
    rw [h2] at h
    simp only [Except.error.injEq] at h
    rw [← h]
    exact split_neighbours_error v _ _ _ _ e1 h2
  | ok r =>
    obtain ⟨Not, Candidates⟩ := r
    rw [h2] at h
    dsimp only at h
    by_cases h3 : degree g v = Not.length + Candidates.length
    · rw [if_neg (not_not.2 h3)] at h
      exact cliquesWorker_error g minimumSize _ _ _ _ e h
    · rw [if_pos h3] at h
      simp only [Except.error.injEq] at h
      rw [← h]
      simp

theorem findCliques_loop_error (g : SimpleIntGraph) (minimumSize : Nat) :
    ∀ (vs : List Nat) (output_vector : List (List Int)),
      (findCliques_loop g minimumSize vs output_vector).2
        ≠ some .SelfLoopsNotSupportedException := by
  intro vs
  induction vs with
  | nil =>
    intro out
    simp [findCliques_loop]
  | cons v rest ih =>
    intro out
    unfold findCliques_loop
    cases h1 : cliquesForOneNode g minimumSize (v : Int) with
    | error e =>
      dsimp only
      intro hc
      simp only [Option.some.injEq] at hc
      exact cliquesForOneNode_error g minimumSize _ e h1 hc
    | ok found =>
      dsimp only
      exact ih _

/-! ## The example of two pairs of cliques -/

theorem two_sources_wellFormed : two_sources.WellFormed ∧ two_sources.N = 4 := by
  have e : two_sources =
      ((((components.empty.setN 4).move_node 0 0).move_node 1 0).move_node 2 1).move_node 3 1 :=
    by decide
  obtain ⟨h0, n0, _, _⟩ := setN_wellFormed 4
  obtain ⟨h1, n1, _, _, _⟩ := move_node_spec _ 0 0 h0 (by rw [n0]; decide) (by decide)
  obtain ⟨h2, n2, _, _, _⟩ := move_node_spec _ 1 0 h1 (by rw [n1, n0]; decide) (by decide)
  obtain ⟨h3, n3, _, _, _⟩ := move_node_spec _ 2 1 h2 (by rw [n2, n1, n0]; decide) (by decide)
  obtain ⟨h4, _, _, _, _⟩ := move_node_spec _ 3 1 h3 (by rw [n3, n2, n1, n0]; decide)
    (by decide)
  rw [e]
  exact ⟨h4, rfl⟩

theorem two_communities_wellFormed : two_communities.WellFormed ∧ two_communities.N = 4 := by
  have e : two_communities =
      ((((components.empty.setN 4).move_node 0 1).move_node 1 1).move_node 2 2).move_node 3 2 :=
    by decide
  obtain ⟨h0, n0, _, _⟩ := setN_wellFormed 4
  obtain ⟨h1, n1, _, _, _⟩ := move_node_spec _ 0 1 h0 (by rw [n0]; decide) (by decide)
  obtain ⟨h2, n2, _, _, _⟩ := move_node_spec _ 1 1 h1 (by rw [n1, n0]; decide) (by decide)
  obtain ⟨h3, n3, _, _, _⟩ := move_node_spec _ 2 2 h2 (by rw [n2, n1, n0]; decide) (by decide)
  obtain ⟨h4, _, _, _, _⟩ := move_node_spec _ 3 2 h3 (by rw [n3, n2, n1, n0]; decide)
    (by decide)
  rw [e]
  exact ⟨h4, rfl⟩

theorem two_pairs_setting : LevelSetting cliques_two_pairs 3 4 index_two_pairs :=
  level_setting 10000000000 identity_hash cliques_two_pairs 3 4 (by decide) (by decide)
    (by decide) (by decide) (by decide) (by decide)

theorem two_sources_entry : OneKEntry cliques_two_pairs 3 [0, 1] two_sources := by
  refine ⟨two_sources_wellFormed.1, rfl, by decide, by decide, by decide, ?_⟩
  intro a ha b hb
  have hlen : cliques_two_pairs.length = 4 := rfl
  rw [hlen] at ha hb
  interval_cases a <;> interval_cases b <;> decide

/-! ## The contract of the clique enumeration -/

/-- C1 (enumeration completeness): on a graph that satisfies the Graph invariants and
for `m ≥ 3`, the run of `cliquesToVector` ends normally and every maximal clique of
at least `m` vertices, written as its strictly ascending list `M`, is in the vector.
The degree skip, the size pruning, the branching on the candidates not adjacent to
the pivot and the early exit are all part of the embedded code, so none loses `M`. -/
theorem enumeration_complete (g : SimpleIntGraph) (m : Nat) (hG : GraphInvariants g)
    (hm : 3 ≤ m) (M : List Int) (hs : M.Sorted (· < ·)) (hM : IsMaximalClique g M)
    (hlen : m ≤ M.length) :
    (cliquesToVector g m []).2 = none ∧ M ∈ (cliquesToVector g m []).1 := by
  rw [cliquesToVector_eq g hG m hm]
  refine ⟨rfl, ?_⟩
  simp only [List.nil_append]
  cases M with
  | nil => simp at hlen; omega
  | cons a rest =>
    have hmin : ∀ x ∈ a :: rest, a ≤ x := by
      intro x hx
      rcases List.mem_cons.1 hx with h | h
      · omega
      · exact le_of_lt ((List.sorted_cons.1 hs).1 x h)
    have ha := hM.1 a (by simp)
    have hu : ((a.toNat : Nat) : Int) = a := Int.toNat_of_nonneg ha.1
    have hv : a.toNat < numNodes g := by omega
    obtain ⟨out, ho, hsound, hcomplete, _⟩ := cliquesForOneNode_spec g hG m a.toNat hv
    rw [hu] at ho hsound hcomplete
    obtain ⟨K, hK, hKM⟩ := hcomplete (a :: rest) hM hs.nodup (by simp) hmin hlen
    obtain ⟨S, hKS, hSn, hSlt, _⟩ := hsound K hK
    have hKn : K.Nodup := by
      rw [hKS]
      refine List.nodup_cons.2 ⟨?_, hSn⟩
      intro h
      have := hSlt a h
      omega
    have heq : K.insertionSort (· ≤ ·) = a :: rest := by
      apply sorted_ext _ _ (sorted_insertionSort_of_nodup K hKn) hs
      intro x
      rw [mem_insertionSort]
      exact hKM x
    rw [mem_deliveries]
    exact ⟨a.toNat, List.mem_range.2 hv, out, by rw [hu]; exact ho, K, hK, heq.symm⟩

theorem enumeration_complete_witness :
    (cliquesToVector bow_tie 3 []).2 = none ∧ [0, 1, 2] ∈ (cliquesToVector bow_tie 3 []).1 :=
  enumeration_complete bow_tie 3 (by decide) (by decide) [0, 1, 2] (by decide) (by decide)
    (by decide)

/-- C2 (enumeration soundness): on a graph that satisfies the Graph invariants and for
`m ≥ 3`, every entry of the vector filled by `cliquesToVector` has pairwise adjacent
vertices, has at least `m` of them, and is a maximal clique of `g`: its vertices are
vertices of `g` and no vertex of `g` outside it is adjacent to all of them. -/
theorem enumeration_sound (g : SimpleIntGraph) (m : Nat) (hG : GraphInvariants g)
    (hm : 3 ≤ m) (K : List Int) (hK : K ∈ (cliquesToVector g m []).1) :
    IsClique g K ∧ m ≤ K.length ∧ IsMaximalClique g K := by
  rw [cliquesToVector_eq g hG m hm] at hK
  simp only [List.nil_append] at hK
  obtain ⟨v, _, S, hKS, _, _, hmax, hlen⟩ :=
    deliveries_sound g hG m _ (fun v hv => List.mem_range.1 hv) K hK
  have hsame : SameVertexSet ((v : Int) :: S) K := by
    intro x
    rw [hKS, mem_insertionSort]
  have hmaxK := IsMaximalClique.of_same g _ _ hsame hmax
  refine ⟨hmaxK.2.1, ?_, hmaxK⟩
  rw [hKS, List.length_insertionSort]
  simpa using hlen

theorem enumeration_sound_witness :
    IsClique bow_tie [2, 3, 4] ∧ 3 ≤ [(2 : Int), 3, 4].length ∧
      IsMaximalClique bow_tie [2, 3, 4] :=
  enumeration_sound bow_tie 3 (by decide) (by decide) [2, 3, 4] (by decide)

/-- C3 (enumeration uniqueness): on a graph that satisfies the Graph invariants and
for `m ≥ 3`, no two positions of the vector filled by `cliquesToVector` hold the same
vertex set, and every clique that the call of `cliquesForOneNode` for the vertex `v`
hands to the receiver has `v` as its smallest vertex. -/
theorem enumeration_unique (g : SimpleIntGraph) (m : Nat) (hG : GraphInvariants g)
    (hm : 3 ≤ m) :
    (cliquesToVector g m []).1.Pairwise (fun a b => ¬ SameVertexSet a b) ∧
      ∀ v : Nat, v < numNodes g → ∀ out, cliquesForOneNode g m (v : Int) = .ok out →
        ∀ K ∈ out, (v : Int) ∈ K ∧ ∀ x ∈ K, (v : Int) ≤ x := by
  rw [cliquesToVector_eq g hG m hm]
  simp only [List.nil_append]
  refine ⟨deliveries_pairwise g hG m _ (fun v hv => List.mem_range.1 hv)
    (List.sorted_lt_range _), ?_⟩
  intro v hv out ho K hK
  obtain ⟨out', ho', hsound, _, _⟩ := cliquesForOneNode_spec g hG m v hv
  rw [ho] at ho'
  cases ho'
  obtain ⟨S, hKS, _, hSlt, _⟩ := hsound K hK
  rw [hKS]
  refine ⟨by simp, ?_⟩
  intro x hx
  rcases List.mem_cons.1 hx with h | h
  · omega
  · exact le_of_lt (hSlt x h)

theorem enumeration_unique_witness :
    (cliquesToVector bow_tie 3 []).1.Pairwise (fun a b => ¬ SameVertexSet a b) ∧
      ∀ v : Nat, v < numNodes bow_tie → ∀ out,
        cliquesForOneNode bow_tie 3 (v : Int) = .ok out →
        ∀ K ∈ out, (v : Int) ∈ K ∧ ∀ x ∈ K, (v : Int) ≤ x :=
  enumeration_unique bow_tie 3 (by decide) (by decide)

/-- C10 (clique sortedness): on a graph that satisfies the Graph invariants and for
`m ≥ 3`, every entry of the vector filled by `cliquesToVector` is strictly ascending,
and every `Compsub` handed to the receiver holds no vertex twice. -/
theorem cliques_strictly_ascending (g : SimpleIntGraph) (m : Nat) (hG : GraphInvariants g)
    (hm : 3 ≤ m) :
    (∀ K ∈ (cliquesToVector g m []).1, K.Sorted (· < ·)) ∧
      ∀ v : Nat, v < numNodes g → ∀ out, cliquesForOneNode g m (v : Int) = .ok out →
        ∀ Compsub ∈ out, Compsub.Nodup := by
  rw [cliquesToVector_eq g hG m hm]
  simp only [List.nil_append]
  constructor
  · intro K hK
    obtain ⟨v, _, S, hKS, hn, _⟩ :=
      deliveries_sound g hG m _ (fun v hv => List.mem_range.1 hv) K hK
    rw [hKS]
    exact sorted_insertionSort_of_nodup _ hn
  · intro v hv out ho K hK
    obtain ⟨out', ho', hsound, _, _⟩ := cliquesForOneNode_spec g hG m v hv
    rw [ho] at ho'
    cases ho'
    obtain ⟨S, hKS, hSn, hSlt, _⟩ := hsound K hK
    rw [hKS]
    refine List.nodup_cons.2 ⟨?_, hSn⟩
    intro h
    have := hSlt _ h
    omega

theorem cliques_strictly_ascending_witness :
    (∀ K ∈ (cliquesToVector bow_tie 3 []).1, K.Sorted (· < ·)) ∧
      ∀ v : Nat, v < numNodes bow_tie → ∀ out,
        cliquesForOneNode bow_tie 3 (v : Int) = .ok out →
        ∀ Compsub ∈ out, Compsub.Nodup :=
  cliques_strictly_ascending bow_tie 3 (by decide) (by decide)

/-! ## The contract of the bloom index -/

/-- C7 (`overlap_estimate` is an upper bound): in the bloom index built by any sequence
of `add_clique_to_bloom` calls on a filter of any length `L > 0` with any hash function
`h`, for every clique `c` added with leaf index `l`, every ancestor `l >> j ≥ 1` of the
leaf and every query clique `q`, `overlap_estimate(q, l >> j)` is at least
`actual_overlap(c, q)`. The vertices of `q` need not be distinct. -/
theorem overlap_estimate_upper_bound (L : Nat) (h : Int → Nat) (p : Nat) (hL : 0 < L)
    (calls : List (clique × Nat)) (c : clique) (l : Nat) (hc : (c, l) ∈ calls)
    (j : Nat) (hj : 1 ≤ l >>> j) (q : clique) :
    actual_overlap c q
      ≤ (add_all (intersecting_clique_finder.create L h p) calls).overlap_estimate q (l >>> j) := by
  obtain ⟨_, _, hall⟩ := add_all_spec calls _ (create_wellFormed L h p hL)
  rw [overlap_estimate_eq_countP]
  unfold actual_overlap
  refine le_trans (length_set_intersection_le c q) ?_
  apply List.countP_mono_left
  intro x _ hx
  simp only [decide_eq_true_eq] at hx
  exact hall (c, l) hc j hj x hx

theorem overlap_estimate_upper_bound_witness :
    actual_overlap [1, 2, 3] [2, 3, 4]
      ≤ (add_all (intersecting_clique_finder.create 8 identity_hash 2)
          [([1, 2, 3], 2), ([2, 3, 4], 3)]).overlap_estimate [2, 3, 4] (2 >>> 1) :=
  overlap_estimate_upper_bound 8 identity_hash 2 (by decide) [([1, 2, 3], 2), ([2, 3, 4], 3)]
    [1, 2, 3] 2 (by decide) 1 (by decide) [2, 3, 4]

/-- C8 (no false negative): in a bloom filter whose bit array is not empty, after
`add_clique_to_bloom(c, l)` the test of the key `(b << 32) + v` is true for every
ancestor `b = l >> j ≥ 1` of `l` (so `l ≥ 1`) and every vertex `v` of `c`, and it is
still true after any further calls of `add_clique_to_bloom`. -/
theorem bloom_no_false_negative (isf : intersecting_clique_finder)
    (hwf : isf.bl.WellFormed) (c : clique) (l : Nat) (j : Nat) (hj : 1 ≤ l >>> j)
    (v : Int) (hv : v ∈ c) (later : List (clique × Nat)) :
    (isf.add_clique_to_bloom c l).bl.test (bloom_key (l >>> j) v) = true ∧
      (add_all (isf.add_clique_to_bloom c l) later).bl.test (bloom_key (l >>> j) v) = true := by
  obtain ⟨h1, _, _, h4⟩ := add_clique_to_bloom_spec isf c l hwf
  obtain ⟨_, hmono, _⟩ := add_all_spec later _ h1
  exact ⟨h4 j hj v hv, hmono _ (h4 j hj v hv)⟩

theorem bloom_no_false_negative_witness :
    ((intersecting_clique_finder.create 8 identity_hash 2).add_clique_to_bloom
        [1, 2, 3] 3).bl.test (bloom_key (3 >>> 1) 2) = true ∧
      (add_all ((intersecting_clique_finder.create 8 identity_hash 2).add_clique_to_bloom
        [1, 2, 3] 3) [([4, 5, 6], 2)]).bl.test (bloom_key (3 >>> 1) 2) = true :=
  bloom_no_false_negative (intersecting_clique_finder.create 8 identity_hash 2) (by decide)
    [1, 2, 3] 3 1 (by decide) 2 (by decide) [([4, 5, 6], 2)]

/-! ## The search for the neighbours of a clique -/

theorem first_leaf_done_invariant : TreeInvariant 2 first_leaf_done := by
  refine ⟨rfl, ?_⟩
  intro x h1 h2 hd
  have hx : x = 1 := by omega
  rw [hx] at hd
  exact absurd hd (by decide)

theorem second_leaf_only (l : Nat) (hl : l < 2) (hd : first_leaf_done.done (2 + l) = false) :
    l = 1 := by
  by_contra hne
  have h0 : l = 0 := by omega
  rw [h0] at hd
  exact absurd hd (by decide)

theorem index_sharing_edge_contains :
    ∀ l, l < cliques_sharing_edge.length → first_leaf_done.done (2 + l) = false →
      Contains index_sharing_edge (cliques_sharing_edge.getD l []) (2 + l) := by
  intro l hl hd
  rw [second_leaf_only l hl hd]
  exact contains_of_add_all 10000000000 identity_hash 2 (by decide) _ _ _ (by decide)

/-- C9, as stated, fails: the state below satisfies (i), (ii) and (iii), the clique 1
has an overlap of 2 with the query clique 0 and its leaf is not done, but it is in the
component to skip, and the call stops at the assertion of line 241 instead of
appending it. -/
theorem neighbour_search_aborts_on_skipped_component :
    TreeInvariant 2 first_leaf_done ∧
    (∀ l, l < cliques_sharing_edge.length → first_leaf_done.done (2 + l) = false →
      Contains index_sharing_edge (cliques_sharing_edge.getD l []) (2 + l)) ∧
    first_leaf_done.done (2 + 0) = true ∧ 1 ≤ 2 ∧
    first_leaf_done.done (2 + 1) = false ∧
    2 ≤ actual_overlap (cliques_sharing_edge.getD 1 []) (cliques_sharing_edge.getD 0 []) ∧
    neighbours_of_one_clique cliques_sharing_edge 0 both_in_component_0 2 0
      index_sharing_edge ⟨0, [], first_leaf_done⟩ = .error (.assertion .cp5_cpp 241) := by
  exact ⟨first_leaf_done_invariant, index_sharing_edge_contains, by decide, by decide,
    by decide, by decide, rfl⟩

/-- C9, amended: in a state over a tree with the leaves `P .. 2P - 1` (`1 ≤ P ≤ 2^30`,
at most `P` cliques, a Components of at least as many atoms) where (i) an internal
node is done only if all leaves below it are, (ii) the bloom index contains every
clique whose leaf is not done, (iii) the leaf of the query clique `q` is done and
`t ≥ 1`, and moreover (iv) `q` is in the component to skip and no clique whose leaf is
not done is, (v) every clique whose leaf is not done has an overlap with `q` that is
smaller than `q`, the call of `neighbours_of_one_clique` returns and has appended to
`cliques_found` exactly the clique ids `l < C` whose leaf was not done and whose
overlap with `q` is at least `t`, each once. -/
theorem neighbour_search_exact (isf : intersecting_clique_finder) (the_cliques : List clique)
    (comps : components) (ab : assigned_branches_t) (P q t : Nat) (skip : Int)
    (searches_performed : Nat) (cliques_found : List Nat)
    (hP : isf.power_up = P) (hP1 : 1 ≤ P) (hP30 : P ≤ 1073741824)
    (hC : the_cliques.length ≤ P) (hN : the_cliques.length ≤ comps.N)
    (hq : q < the_cliques.length)
    (h_i : TreeInvariant P ab)
    (h_ii : ∀ l, l < the_cliques.length → ab.done (P + l) = false →
      Contains isf (the_cliques.getD l []) (P + l))
    (h_iii : ab.done (P + q) = true) (ht : 1 ≤ t)
    (h_skip : comps.my_component.getD q (-1) = skip)
    (h_iv : ∀ l, l < the_cliques.length → ab.done (P + l) = false →
      comps.my_component.getD l (-1) ≠ skip)
    (h_v : ∀ l, l < the_cliques.length → ab.done (P + l) = false →
      actual_overlap (the_cliques.getD l []) (the_cliques.getD q [])
        < (the_cliques.getD q []).length) :
    ∃ s' F, neighbours_of_one_clique the_cliques q comps t skip isf
        ⟨searches_performed, cliques_found, ab⟩ = .ok s' ∧
      s'.cliques_found = cliques_found ++ F ∧ F.Nodup ∧
      ∀ l, l ∈ F ↔ l < the_cliques.length ∧ ab.done (P + l) = false ∧
        t ≤ actual_overlap (the_cliques.getD l []) (the_cliques.getD q []) := by
  have hsrch : Searchable isf the_cliques comps skip q P ab := by
    intro l hl hd
    refine ⟨h_ii l hl hd, h_iv l hl hd, h_v l hl hd, ?_⟩
    intro e
    rw [e, h_iii] at hd
    exact absurd hd (by simp)
  obtain ⟨s', F, hrun, post⟩ := neighbours_of_one_clique_spec isf q t the_cliques comps skip P
    hP ht hP1 hP30 hC hN hq h_skip ⟨searches_performed, cliques_found, ab⟩ h_i hsrch
  refine ⟨s', F, hrun, post.found, post.nodup, ?_⟩
  intro l
  rw [post.mem]
  constructor
  · rintro ⟨h1, _, h3, h4⟩
    exact ⟨h1, h3, h4⟩
  · rintro ⟨h1, h3, h4⟩
    exact ⟨h1, below_one _ (by omega), h3, h4⟩

theorem neighbour_search_exact_witness :
    ∃ s' F, neighbours_of_one_clique cliques_sharing_edge 0 in_two_components 2 1
        index_sharing_edge ⟨0, [], first_leaf_done⟩ = .ok s' ∧
      s'.cliques_found = [] ++ F ∧ F.Nodup ∧
      ∀ l, l ∈ F ↔ l < cliques_sharing_edge.length ∧ first_leaf_done.done (2 + l) = false ∧
        2 ≤ actual_overlap (cliques_sharing_edge.getD l []) (cliques_sharing_edge.getD 0 []) :=
  neighbour_search_exact index_sharing_edge cliques_sharing_edge in_two_components
    first_leaf_done 2 0 2 1 0 [] (by decide) (by decide) (by decide) (by decide) (by decide)
    (by decide) first_leaf_done_invariant index_sharing_edge_contains (by decide) (by decide)
    (by decide)
    (by
      intro l hl hd
      rw [second_leaf_only l hl hd]
      decide)
    (by
      intro l hl hd
      rw [second_leaf_only l hl hd]
      decide)

/-! ## The percolation on small inputs -/

/-- C5, as stated, fails: for the single triangle with `k = 3` no level is run and no
community is written. -/
theorem single_triangle_emits_nothing :
    do_clique_percolation_variant_5b 10000000000 identity_hash 3 3 [[0, 1, 2]] = ([], none) := by
  decide

/-- C5, amended: on a clique list that holds exactly one clique,
`do_clique_percolation_variant_5b` returns at its guard `C == 1`: no level is run and
no community is written, whatever `min_k` and `max_k` are. -/
theorem single_clique_emits_nothing (l : Nat) (h : Int → Nat) (min_k max_k : Nat)
    (c : clique) : do_clique_percolation_variant_5b l h min_k max_k [c] = ([], none) := by
  unfold do_clique_percolation_variant_5b
  simp

/-! ## The communities of consecutive levels -/

/-- C6 (monotonicity across levels): for every list of at least two distinct maximal
cliques, every `min_k` and `max_k` and every bloom filter of `l > 0` bits, the levels
that `do_clique_percolation_variant_5b` completes are the levels `min_k`, `min_k + 1`,
... in this order, the set of cliques of each community found at a level `k' + 1` is a
subset of the set of cliques of one community found at the level `k'`, and the run
never stops at the assertion of `one_k` before `move_node`
(`source_component == my_component_id(frontier_clique_to_be_moved_in)`): every
neighbour that the search returns is still a member of the source component. -/
theorem communities_nest_across_levels (l : Nat) (h : Int → Nat) (min_k max_k : Nat)
    (the_cliques : List clique) (hl : 0 < l) (hC : 2 ≤ the_cliques.length)
    (hdm : DistinctMaximal the_cliques) :
    List.Chain' Refines (do_clique_percolation_variant_5b l h min_k max_k the_cliques).1 ∧
      (do_clique_percolation_variant_5b l h min_k max_k the_cliques).1.map Level.k =
        List.range' min_k
          (do_clique_percolation_variant_5b l h min_k max_k the_cliques).1.length ∧
      (do_clique_percolation_variant_5b l h min_k max_k the_cliques).2
        ≠ some (.assertion .cp5_cpp 507) :=
  ⟨(percolation_spec l h min_k max_k the_cliques hl hC hdm).1,
    percolation_ks l h min_k max_k the_cliques,
    (percolation_spec l h min_k max_k the_cliques hl hC hdm).2⟩

/-- C6 on three cliques, two of which share three vertices, with `min_k = 3` and
`max_k = 4`: both levels are completed. -/
theorem communities_nest_across_levels_witness :
    (0 < 10000000000 ∧ 2 ≤ cliques_two_levels.length ∧ DistinctMaximal cliques_two_levels) ∧
      (do_clique_percolation_variant_5b 10000000000 identity_hash 3 4
        cliques_two_levels).1.length = 2 ∧
      (List.Chain' Refines
          (do_clique_percolation_variant_5b 10000000000 identity_hash 3 4
            cliques_two_levels).1 ∧
        (do_clique_percolation_variant_5b 10000000000 identity_hash 3 4
            cliques_two_levels).1.map Level.k =
          List.range' 3
            (do_clique_percolation_variant_5b 10000000000 identity_hash 3 4
              cliques_two_levels).1.length ∧
        (do_clique_percolation_variant_5b 10000000000 identity_hash 3 4
            cliques_two_levels).2 ≠ some (.assertion .cp5_cpp 507)) :=
  ⟨⟨by decide, by decide, by decide⟩, by decide,
    communities_nest_across_levels 10000000000 identity_hash 3 4 cliques_two_levels
      (by decide) (by decide) (by decide)⟩

/-! ## The output of one level -/

/-- C11 (community output is the union of its cliques): when every found community is
a component id that `get_members` accepts and its members are clique ids,
`write_all_communities_for_this_k` writes one line per found community, and the line
of a community holds every vertex of every member clique of its component, nothing
else, and every vertex once. -/
theorem community_line_is_union (level : components) (the_cliques : List clique)
    (found : List Int)
    (hfound : ∀ f ∈ found, 0 ≤ f ∧ f < (level.N : Int) ∧
      ∀ c ∈ level.members_of f, c < the_cliques.length) :
    ∃ lines, write_all_communities_for_this_k level the_cliques found = .ok lines ∧
      lines.length = found.length ∧
      List.Forall₂ (fun f line => line.Nodup ∧
        ∀ v, v ∈ line ↔ ∃ c ∈ level.members_of f, v ∈ the_cliques.getD c []) found lines := by
  obtain ⟨lines, hrun, hall⟩ := write_all_communities_lines level the_cliques found hfound
  exact ⟨lines, hrun, hall.length_eq.symm, hall⟩

/-- C11 on the two communities of level 3 of `cliques_two_levels`. -/
theorem community_line_is_union_witness :
    (∀ f ∈ [(1 : Int), 2], 0 ≤ f ∧ f < ((level_3_done.N : Nat) : Int) ∧
        ∀ c ∈ level_3_done.members_of f, c < cliques_two_levels.length) ∧
      ∃ lines, write_all_communities_for_this_k level_3_done cliques_two_levels [1, 2]
          = .ok lines ∧
        lines.length = [(1 : Int), 2].length ∧
        List.Forall₂ (fun f line => line.Nodup ∧
          ∀ v, v ∈ line ↔ ∃ c ∈ level_3_done.members_of f, v ∈ cliques_two_levels.getD c [])
          [1, 2] lines :=
  ⟨by decide, community_line_is_union level_3_done cliques_two_levels [1, 2] (by decide)⟩

/-! ## The size of the tree -/

/-- C12, as stated, fails: for `C = 2^30 + 1`, which is not rejected as too many
cliques, the loop on `power_up` never ends, whatever the number of rounds it is
given. -/
theorem power_up_loop_never_ends_above_2_30 :
    ¬ ∃ (fuel : Nat) (q : Int), power_up_loop fuel 1 1073741825 = .ok q := by
  rintro ⟨fuel, q, h⟩
  exact power_up_loop_diverges 1073741825 (by norm_num) fuel q h

/-- C12, amended: for every clique count `C` with `2 ≤ C ≤ 2^30` the loop on
`power_up`, run in 32-bit signed arithmetic, ends with `power_up` a positive power of
two such that `power_up ≥ C` and `power_up / 2 < C`. -/
theorem power_up_is_smallest_power_of_two (C : Nat) (hC : 2 ≤ C) (hC2 : C ≤ 1073741824) :
    ∃ e : Nat, power_up_loop 64 1 (C : Int) = .ok ((2 : Int) ^ e) ∧
      (0 : Int) < (2 : Int) ^ e ∧ (C : Int) ≤ (2 : Int) ^ e ∧ (2 : Int) ^ e / 2 < (C : Int) := by
  obtain ⟨e, _, h1, h2, h3⟩ := power_up_loop_smallest (C : Int) (by omega) 64 0 (by omega)
    (by omega) (by norm_num; omega)
  rw [pow_zero] at h1
  exact ⟨e, h1, by positivity, h2, h3⟩

/-- C12, amended, for five cliques: `power_up` is 8. -/
theorem power_up_is_smallest_power_of_two_witness :
    (2 ≤ 5 ∧ 5 ≤ 1073741824) ∧
      ∃ e : Nat, power_up_loop 64 1 ((5 : Nat) : Int) = .ok ((2 : Int) ^ e) ∧
        (0 : Int) < (2 : Int) ^ e ∧ ((5 : Nat) : Int) ≤ (2 : Int) ^ e ∧
        (2 : Int) ^ e / 2 < ((5 : Nat) : Int) :=
  ⟨by decide, power_up_is_smallest_power_of_two 5 (by decide) (by decide)⟩

/-! ## The assigned branches -/

/-- C13 (tree invariant of the assigned branches): in every `assigned_branches_t`
that the constructor has built for `1 ≤ C ≤ power_up` and that has then been changed
only by `mark_as_done` on leaf indices in `[power_up, 2 * power_up)`, every call
having ended, every internal node `b` in `[1, power_up)` is marked done if and only if
both children `2b` and `2b + 1` are, and hence if and only if every leaf below `b`
is. -/
theorem assigned_branches_children_invariant (power_up C : Nat) (hC1 : 1 ≤ C)
    (hC : C ≤ power_up) (ab0 : assigned_branches_t)
    (hbuilt : assigned_branches_t.create power_up C = .ok ab0) (leaves : List Nat)
    (hleaves : ∀ i ∈ leaves, power_up ≤ i ∧ i < 2 * power_up) :
    ∃ ab, mark_all leaves ab0 = .ok ab ∧
      (∀ b, 1 ≤ b → b < power_up →
        (ab.done b = true ↔ ab.done (2 * b) = true ∧ ab.done (2 * b + 1) = true)) ∧
      ∀ b, 1 ≤ b → b < power_up →
        (ab.done b = true ↔
          ∀ y, power_up ≤ y → y < 2 * power_up → below b y → ab.done y = true) := by
  obtain ⟨hinv0, _⟩ := create_children power_up C (by omega) ab0 hbuilt
  obtain ⟨ab, hrun, hinv⟩ := mark_all_children power_up leaves ab0 hleaves (by omega) hinv0
  exact ⟨ab, hrun, hinv.2,
    fun b hb1 hbP => done_iff_leaves power_up ab hinv power_up b (by omega) hb1 hbP⟩

/-- C13 on the tree of three cliques with the leaves 4 to 7, after the leaves 5 and 4
have been marked. -/
theorem assigned_branches_children_invariant_witness :
    (1 ≤ 3 ∧ 3 ≤ 4 ∧
        assigned_branches_t.create 4 3 = .ok three_of_four ∧
        ∀ i ∈ [5, 4], 4 ≤ i ∧ i < 2 * 4) ∧
      ∃ ab, mark_all [5, 4] three_of_four = .ok ab ∧
        (∀ b, 1 ≤ b → b < 4 →
          (ab.done b = true ↔ ab.done (2 * b) = true ∧ ab.done (2 * b + 1) = true)) ∧
        ∀ b, 1 ≤ b → b < 4 →
          (ab.done b = true ↔ ∀ y, 4 ≤ y → y < 2 * 4 → below b y → ab.done y = true) :=
  ⟨⟨by decide, by decide, rfl, by decide⟩,
    assigned_branches_children_invariant 4 3 (by decide) (by decide) three_of_four rfl [5, 4]
      (by decide)⟩

/-- C14, as stated, fails: for the power of two `2^30` the size `2*power_up` of the
tree does not fit an `int`, and the constructor stops at the exception of `resize`
before any leaf is marked. -/
theorem constructor_fails_for_2_30 :
    assigned_branches_t.create 1073741824 536870913 = .error .length_error := by
  rfl

/-- C14, amended: for every `power_up` with `2 * power_up ≤ 2^31 - 1` and every `C`
with `1 ≤ C ≤ power_up` the constructor `assigned_branches_t(power_up, C)` ends, and
right after it a leaf index `i` in `[power_up, 2 * power_up)` is marked done if and
only if `i ≥ power_up + C`, and node `0` is not marked. -/
theorem constructor_marks_invalid_leaves (power_up C : Nat) (hC1 : 1 ≤ C)
    (hC : C ≤ power_up) (hfit : 2 * power_up ≤ 2147483647) :
    ∃ ab, assigned_branches_t.create power_up C = .ok ab ∧
      (∀ i, power_up ≤ i → i < 2 * power_up →
        (ab.done i = true ↔ power_up + C ≤ i)) ∧
      ab.done 0 = false := by
  obtain ⟨ab, hrun, _, hiff⟩ := create_spec power_up C (by omega) hC hfit
  refine ⟨ab, hrun, ?_, create_zero power_up C (by omega) ab hrun⟩
  intro i hi1 hi2
  have := hiff (i - power_up) (by omega)
  rw [show power_up + (i - power_up) = i by omega] at this
  rw [this]
  omega

/-- C14, amended, on the tree of three cliques with the leaves 4 to 7. -/
theorem constructor_marks_invalid_leaves_witness :
    (1 ≤ 3 ∧ 3 ≤ 4 ∧ 2 * 4 ≤ 2147483647) ∧
      ∃ ab, assigned_branches_t.create 4 3 = .ok ab ∧
        (∀ i, 4 ≤ i → i < 2 * 4 → (ab.done i = true ↔ 4 + 3 ≤ i)) ∧
        ab.done 0 = false :=
  ⟨by decide, constructor_marks_invalid_leaves 4 3 (by decide) (by decide) (by decide)⟩

/-! ## The checks on the arguments and the empty result -/

/-- C15, as stated, fails: `cliquesToVector` called with `m = 2` does not fail with
`std::invalid_argument`; it stops at its own assertion `minimumSize >= 3` before
`findCliques` is called. -/
theorem cliquesToVector_asserts_minimum_size :
    cliquesToVector bow_tie 2 [] = ([], some (.assertion .cliques_cpp 266)) := by
  rfl

/-- C15, amended: for every graph and every `m < 3`, `findCliques` fails with
`std::invalid_argument` and the vector of the receiver is as it was, and
`cliquesToVector` stops at its assertion `minimumSize >= 3`, again with the vector as
it was: no clique is delivered. -/
theorem minimum_size_is_validated (g : SimpleIntGraph) (m : Nat)
    (output_vector : List (List Int)) (hm : m < 3) :
    findCliques g output_vector m = (output_vector, some .invalid_argument) ∧
      cliquesToVector g m output_vector
        = (output_vector, some (.assertion .cliques_cpp 266)) := by
  constructor
  · unfold findCliques
    rw [if_pos (by omega)]
  · unfold cliquesToVector
    rw [if_pos (by omega)]

/-- C15, amended, on the bow-tie with `m = 2`. -/
theorem minimum_size_is_validated_witness :
    2 < 3 ∧
      (findCliques bow_tie [] 2 = ([], some .invalid_argument) ∧
        cliquesToVector bow_tie 2 [] = ([], some (.assertion .cliques_cpp 266))) :=
  ⟨by decide, minimum_size_is_validated bow_tie 2 [] (by decide)⟩

/-- C16 (validation of the end points): for every graph and every `m ≥ 3`,
`findCliques` fails with `SelfLoopsNotSupportedException` if and only if some
relationship `r` of the graph has `EndPoints(r).first >= EndPoints(r).second`, and
when it fails so the vector of the receiver is as it was: no clique has been
delivered. -/
theorem end_points_are_validated (g : SimpleIntGraph) (m : Nat)
    (output_vector : List (List Int)) (hm : 3 ≤ m) :
    ((findCliques g output_vector m).2 = some .SelfLoopsNotSupportedException ↔
        ∃ r, r < numRels g ∧ (EndPoints g r).2 ≤ (EndPoints g r).1) ∧
      ((findCliques g output_vector m).2 = some .SelfLoopsNotSupportedException →
        (findCliques g output_vector m).1 = output_vector) := by
  unfold findCliques
  rw [if_neg (not_not.2 hm)]
  rcases check_end_points_eq g (List.range (numRels g)) with ⟨h1, r, hr, hbad⟩ | ⟨h1, hall⟩
  · rw [h1]
    exact ⟨⟨fun _ => ⟨r, List.mem_range.1 hr, hbad⟩, fun _ => rfl⟩, fun _ => rfl⟩
  · rw [h1]
    dsimp only
    have hno := findCliques_loop_error g m (List.range (numNodes g)) output_vector
    refine ⟨⟨fun h => absurd h hno, ?_⟩, fun h => absurd h hno⟩
    rintro ⟨r, hr, hbad⟩
    have := hall r (List.mem_range.2 hr)
    omega

/-- C16 on a graph whose only relationship has its end points in the wrong order. -/
theorem end_points_are_validated_witness :
    3 ≤ 3 ∧
      (((findCliques reversed_edge [] 3).2 = some .SelfLoopsNotSupportedException ↔
          ∃ r, r < numRels reversed_edge ∧
            (EndPoints reversed_edge r).2 ≤ (EndPoints reversed_edge r).1) ∧
        ((findCliques reversed_edge [] 3).2 = some .SelfLoopsNotSupportedException →
          (findCliques reversed_edge [] 3).1 = [])) :=
  ⟨by decide, end_points_are_validated reversed_edge 3 [] (by decide)⟩

/-- C17 (no cliques): whenever the enumeration ends with an empty vector, `main` ends
with the exit code 1 and `do_clique_percolation_variant_5b`, which also writes the
output, is never called; so it is for the graph without vertices, whatever the
arguments are. -/
theorem no_cliques_exit_code_1 (l : Nat) (h : Int → Nat) (parser_result : Int)
    (inputs_num : Nat) (k_arg : Int) (network : SimpleIntGraph) :
    (cliquesToVector network k_arg.toNat [] = ([], none) →
        main l h parser_result inputs_num k_arg network = ⟨.code 1, none⟩) ∧
      main l h parser_result inputs_num k_arg ⟨[], []⟩ = ⟨.code 1, none⟩ := by
  have key : ∀ net : SimpleIntGraph, cliquesToVector net k_arg.toNat [] = ([], none) →
      main l h parser_result inputs_num k_arg net = ⟨.code 1, none⟩ := by
    intro net hzero
    unfold main
    by_cases h1 : parser_result ≠ 0
    · rw [if_pos h1]
    rw [if_neg h1]
    by_cases h2 : inputs_num ≠ 2 ∨ k_arg < 3
    · rw [if_pos h2]
    rw [if_neg h2]
    dsimp only
    rw [hzero]
    rfl
  refine ⟨key network, ?_⟩
  by_cases h3 : k_arg < 3
  · unfold main
    by_cases h1 : parser_result ≠ 0
    · rw [if_pos h1]
    rw [if_neg h1, if_pos (Or.inr h3)]
  · apply key
    unfold cliquesToVector findCliques
    have hk : k_arg.toNat ≥ 3 := by omega
    rw [if_neg (not_not.2 hk), if_neg (not_not.2 hk)]
    rfl

/-- C17 on a graph of two vertices joined by an edge, with `k = 3`. -/
theorem no_cliques_exit_code_1_witness :
    cliquesToVector single_edge (3 : Int).toNat [] = ([], none) ∧
      main 10000000000 identity_hash 0 2 3 single_edge = ⟨.code 1, none⟩ :=
  ⟨rfl, (no_cliques_exit_code_1 10000000000 identity_hash 0 2 3 single_edge).1 rfl⟩

/-! ## The communities of one level and the source components of the next -/

/-- C20 (next-level filtering): when the found communities of the level `k'` are
distinct component ids that `get_members` accepts, the loop that builds the level
`new_k = k' + 1` ends, the source components it hands on are distinct and
correspond, one to one and in order, to the found communities that hold at least one
clique of at least `new_k` vertices, and the members of each source component are
exactly the cliques of at least `new_k` vertices of its community; a community
without such a clique contributes no source component. -/
theorem next_level_sources (the_cliques : List clique) (new_k : Nat) (level : components)
    (hwf : level.WellFormed) (hN : level.N = the_cliques.length) (found : List Int)
    (hnd : found.Nodup) (hfound : ∀ f ∈ found, 0 ≤ f ∧ f < (level.N : Int)) :
    ∃ source_components new_level,
      next_sources the_cliques new_k level found [] (components.empty.setN the_cliques.length)
        = .ok (source_components, new_level) ∧
      source_components.Nodup ∧
      List.Forall₂
        (fun s f => ∀ c, c ∈ new_level.members_of s ↔
          c ∈ level.members_of f ∧ new_k ≤ (the_cliques.getD c []).length)
        source_components (found.filter (has_big_enough the_cliques new_k level)) := by
  have htotal : ∀ (rest : List Int) (srcs : List Int) (nl : components),
      (∀ f ∈ rest, 0 ≤ f ∧ f < (level.N : Int)) →
      next_sources the_cliques new_k level rest srcs nl
        ≠ .error (.assertion .components_hpp 25) := by
    intro rest
    induction rest with
    | nil =>
      intro srcs nl _ h
      simp [next_sources] at h
    | cons f rest ih =>
      intro srcs nl hr
      unfold next_sources
      dsimp only
      rcases get_members_eq level f with herr | ⟨_, _, hok⟩
      · unfold components.get_members at herr
        rw [if_neg (not_not.2 (hr f (by simp)))] at herr
        exact absurd herr (by simp)
      rw [hok]
      dsimp only
      split_ifs
      · exact ih _ _ (fun f2 hf2 => hr f2 (by simp [hf2]))
      · exact ih _ _ (fun f2 hf2 => hr f2 (by simp [hf2]))
  rcases next_sources_spec the_cliques new_k level hwf hN found [] []
    (components.empty.setN the_cliques.length) (by simpa using hnd)
    (nextInv_init the_cliques new_k level) with herr | ⟨srcs, nl, hrun, inv⟩
  · exact absurd herr (htotal found [] _ hfound)
  refine ⟨srcs, nl, hrun, inv.src_nodup, ?_⟩
  have hcorr := inv.corr
  rw [List.nil_append] at hcorr
  refine forall₂_imp_mem hcorr ?_
  intro s hs f hf hR c
  have hs0 := (inv.src_nonempty s hs).1
  have hf0 := (hfound f (List.mem_filter.1 hf).1).1
  rw [inv.wf.mem_iff s c hs0, hwf.mem_iff f c hf0, inv.N_eq, hN]
  constructor
  · rintro ⟨hc, hcs⟩
    have := (hR c hc).1 hcs
    exact ⟨⟨hc, this.1⟩, this.2⟩
  · rintro ⟨⟨hc, hcf⟩, hb⟩
    exact ⟨hc, (hR c hc).2 ⟨hcf, hb⟩⟩

/-- C20 on the two communities of level 3 of `cliques_two_pairs`. -/
theorem next_level_sources_witness :
    (two_communities.WellFormed ∧ two_communities.N = cliques_two_pairs.length ∧
        [(1 : Int), 2].Nodup ∧
        ∀ f ∈ [(1 : Int), 2], 0 ≤ f ∧ f < ((two_communities.N : Nat) : Int)) ∧
      ∃ source_components new_level,
        next_sources cliques_two_pairs 4 two_communities [1, 2] []
            (components.empty.setN cliques_two_pairs.length)
          = .ok (source_components, new_level) ∧
        source_components.Nodup ∧
        List.Forall₂
          (fun s f => ∀ c, c ∈ new_level.members_of s ↔
            c ∈ two_communities.members_of f ∧ 4 ≤ (cliques_two_pairs.getD c []).length)
          source_components
          ([1, 2].filter (has_big_enough cliques_two_pairs 4 two_communities)) :=
  ⟨⟨two_communities_wellFormed.1, rfl, by decide, by decide⟩,
    next_level_sources cliques_two_pairs 4 two_communities two_communities_wellFormed.1 rfl
      [1, 2] (by decide) (by decide)⟩

/-! ## The choice of the pivot -/

/-- The loop over `Not` ends early only at a vertex without disconnection; when it
runs to its end the state holds the fewest disconnections met, the initial value
included. -/
theorem fewest_over_Not_min (g : SimpleIntGraph) (cands : List Int) :
    ∀ (l : List Int) (s : Fewest),
      let r := fewest_over_Not cands g l s
      r.1.fewestDisc ≤ s.fewestDisc ∧
      (r.2 = false → ∀ x ∈ l, r.1.fewestDisc ≤ count_disconnections cands x g) := by
  intro l
  induction l with
  | nil =>
    intro s
    simp [fewest_over_Not]
  | cons v rest ih =>
    intro s
    simp only [fewest_over_Not]
    by_cases hlt : count_disconnections cands v g < s.fewestDisc
    · rw [if_pos hlt]
      by_cases h0 : count_disconnections cands v g = 0
      · simp only [h0, Bool.not_false, beq_self_eq_true, Bool.and_self, if_true]
        refine ⟨by omega, ?_⟩
        intro h
        exact absurd h (by simp)
      · have : ((!false && count_disconnections cands v g == 0) = true) = False := by
          simp [h0]
        simp only [this, if_false]
        obtain ⟨h1, h2⟩ := ih ⟨count_disconnections cands v g, v, false⟩
        try simp only at h1 h2
        refine ⟨by omega, ?_⟩
        intro hr x hx
        rcases List.mem_cons.1 hx with h | h
        · subst h; exact h1
        · exact h2 hr x h
    · rw [if_neg hlt]
      obtain ⟨h1, h2⟩ := ih s
      try simp only at h1 h2
      refine ⟨h1, ?_⟩
      intro hr x hx
      rcases List.mem_cons.1 hx with h | h
      · subst h; omega
      · exact h2 hr x h

/-- The loop over `Candidates` takes a candidate only when it has fewer
disconnections than the state with which the loop was entered. -/
theorem fewest_over_Candidates_strict (g : SimpleIntGraph) (cands : List Int) :
    ∀ (l : List Int) (s : Fewest),
      let r := fewest_over_Candidates cands g l s
      (s.fewestIsInCands = false → r.1.fewestIsInCands = true →
        r.1.fewestDisc < s.fewestDisc) ∧
      r.1.fewestDisc ≤ s.fewestDisc := by
  intro l
  induction l with
  | nil =>
    intro s
    simp only [fewest_over_Candidates]
    refine ⟨?_, le_refl _⟩
    intro h1 h2
    rw [h1] at h2
    exact absurd h2 (by simp)
  | cons v rest ih =>
    intro s
    simp only [fewest_over_Candidates]
    by_cases hlt : count_disconnections cands v g < s.fewestDisc
    · rw [if_pos hlt]
      have : ((!true && count_disconnections cands v g == 0) = true) = False := by simp
      simp only [this, if_false]
      obtain ⟨_, h2⟩ := ih ⟨count_disconnections cands v g, v, true⟩
      try simp only at h2
      exact ⟨fun _ _ => by omega, by omega⟩
    · rw [if_neg hlt]
      exact ih s

/-- The pivot that `find_node_with_fewest_discs` returns on a non-empty ascending
`Candidates` of fewer than `2^31 - 1` vertices: it is a vertex of `Candidates` or of
`Not` as the flag tells, it comes with its number of disconnections, no vertex of
`Not` or `Candidates` has fewer, and when it is taken from `Candidates` every vertex
of `Not` has more. -/
theorem find_node_with_fewest_discs_min (g : SimpleIntGraph) (X P : List Int)
    (hP : P.Sorted (· < ·)) (hne : P ≠ []) (hsmall : P.length < 2147483647)
    (hX0 : ∀ x ∈ X, (0 : Int) ≤ x) (hP0 : ∀ x ∈ P, (0 : Int) ≤ x) :
    ∃ f, find_node_with_fewest_discs ⟨2147483647, -1, false⟩ X P g = .ok f ∧
      f.fewestDiscVertex ∈ (if f.fewestIsInCands then P else X) ∧
      f.fewestDisc = count_disconnections P f.fewestDiscVertex g ∧
      (∀ x ∈ X ++ P, f.fewestDisc ≤ count_disconnections P x g) ∧
      (f.fewestIsInCands = true → ∀ x ∈ X, f.fewestDisc < count_disconnections P x g) := by
  obtain ⟨f, hf, hmem, hcount⟩ := find_node_with_fewest_discs_spec g X P hP hne hsmall hX0 hP0
  refine ⟨f, hf, hmem, hcount, ?_⟩
  unfold find_node_with_fewest_discs at hf
  rw [std_set_of_sorted P hP] at hf
  have hemp : P.isEmpty = false := by
    cases P with
    | nil => exact absurd rfl hne
    | cons a l => rfl
  simp only [hemp, Bool.false_eq_true, if_false] at hf
  have hN := fewest_over_Not_spec g P X X ⟨2147483647, -1, false⟩ (fun _ h => h) (Or.inl rfl)
  have hNm := fewest_over_Not_min g P X ⟨2147483647, -1, false⟩
  simp only at hN hNm
  rcases hr : fewest_over_Not P g X ⟨2147483647, -1, false⟩ with ⟨s1, b1⟩
  rw [hr] at hf hN hNm
  simp only at hf hN hNm
  cases b1 with
  | true =>
    simp only at hf
    have hfs : s1 = f := by injection hf
    subst hfs
    obtain ⟨hflag, h0⟩ := hN.2 rfl
    refine ⟨?_, ?_⟩
    · intro x _
      rw [h0]
      exact count_disconnections_nonneg P x g
    · intro h
      rw [hflag] at h
      exact absurd h (by simp)
  | false =>
    simp only at hf
    have hC := fewest_over_Candidates_spec g P X P P s1 (fun _ h => h) (by
      rcases hN.1 with h | h
      · exact Or.inl h
      · exact Or.inr ⟨by simp [h.1, h.2.1], h.2.2⟩)
    have hCs := fewest_over_Candidates_strict g P P s1
    simp only at hC hCs
    rcases hr2 : fewest_over_Candidates P g P s1 with ⟨s2, b2⟩
    rw [hr2] at hf hC hCs
    simp only at hf hC hCs
    obtain ⟨_, hb2, _, hC4⟩ := hC
    subst hb2
    simp only at hf
    have hfs : s2 = f := by
      split_ifs at hf
      injection hf
    subst hfs
    have hs1flag : s1.fewestIsInCands = false := by
      rcases hN.1 with h | h
      · rw [h]
      · exact h.1
    refine ⟨?_, ?_⟩
    · intro x hx
      rcases List.mem_append.1 hx with h | h
      · exact le_trans hCs.2 (hNm.2 rfl x h)
      · exact hC4 x h
    · intro hflag x hx
      exact lt_of_lt_of_le (hCs.1 hs1flag hflag) (hNm.2 rfl x hx)

/-- The number of disconnections of `v` is the number of candidates less the number
of candidates that are neighbours of `v`. -/
theorem count_disconnections_eq (g : SimpleIntGraph) (hg : GoodAdjacency g) (P : List Int)
    (hP : P.Sorted (· < ·)) (v : Int) :
    count_disconnections P v g
      = ((P.length - (P.filter (fun c => decide (adjacent g v c))).length : Nat) : Int) := by
  unfold count_disconnections
  simp only
  rw [set_intersection_eq_filter P _ hP (hg.sorted v)]
  rfl

/-! ## The pivot -/

theorem neighbours_edgeless (n : Nat) (v : Int) :
    neighbouring_nodes_in_order (edgeless n) v = [] := by
  unfold neighbouring_nodes_in_order edgeless
  split
  · simp only [List.getD_eq_getElem?_getD, List.getElem?_replicate]
    split <;> rfl
  · rfl

theorem count_disconnections_edgeless (n : Nat) (cands : List Int) (v : Int) :
    count_disconnections cands v (edgeless n) = (cands.length : Int) := by
  unfold count_disconnections
  simp only [neighbours_edgeless, set_intersection_nil_right, List.length_nil, Nat.sub_zero]

/-- The loop over `Candidates` leaves the state as it is when no candidate has fewer
disconnections than the state holds. -/
theorem fewest_over_Candidates_unchanged (g : SimpleIntGraph) (cands : List Int) :
    ∀ (l : List Int) (s : Fewest),
      (∀ v ∈ l, ¬ count_disconnections cands v g < s.fewestDisc) →
      fewest_over_Candidates cands g l s = (s, false) := by
  intro l
  induction l with
  | nil => intro s _; rfl
  | cons v rest ih =>
    intro s h
    simp only [fewest_over_Candidates]
    rw [if_neg (h v (by simp))]
    exact ih s (fun x hx => h x (by simp [hx]))

theorem vertices_below_sorted (n : Nat) : (vertices_below n).Sorted (· < ·) := by
  unfold vertices_below List.Sorted
  rw [List.pairwise_map]
  exact (List.pairwise_lt_range n).imp (fun {a b} (h : a < b) => Int.ofNat_lt.2 h)

theorem vertices_below_length (n : Nat) : (vertices_below n).length = n := by
  unfold vertices_below
  rw [List.length_map, List.length_range]

theorem edgeless_invariants (n : Nat) (h : n ≤ 2147483647) : GraphInvariants (edgeless n) := by
  refine ⟨by simpa [numNodes, edgeless] using h, ?_, ?_, ?_⟩
  · intro i _
    rw [neighbours_edgeless]
    exact List.sorted_nil
  · intro i _ u hu
    rw [neighbours_edgeless] at hu
    exact absurd hu (by simp)
  · intro r hr
    simp [numRels, edgeless] at hr

/-- With `2^31 - 1` candidates none of which has a neighbour among them, and an empty
`Not`, the search for the pivot takes no vertex and stops at its last assertion. -/
theorem find_node_without_pivot (g : SimpleIntGraph) (P : List Int) (hP : P.Sorted (· < ·))
    (hlen : P.length = 2147483647)
    (hcount : ∀ v ∈ P, count_disconnections P v g = (P.length : Int)) :
    find_node_with_fewest_discs ⟨2147483647, -1, false⟩ [] P g
      = .error (.assertion .cliques_cpp 323) := by
  unfold find_node_with_fewest_discs
  rw [std_set_of_sorted _ hP]
  have hemp : P.isEmpty = false := by
    cases P with
    | nil => simp at hlen
    | cons a l => rfl
  have hloop := fewest_over_Candidates_unchanged g P P ⟨2147483647, -1, false⟩ (by
    intro v hv
    rw [hcount v hv, hlen]
    simp)
  simp only [hemp, Bool.false_eq_true, if_false, fewest_over_Not, hloop, hlen]
  simp

/-- C21, as stated, fails: the search starts from the number `2^31 - 1` of
disconnections and takes a vertex only when it has fewer. On the graph of `2^31 - 1`
vertices without an edge, with every vertex a candidate (an ascending, non-empty
`Candidates`) and an empty `Not`, every vertex has `2^31 - 1` disconnections, none is
taken, and the function stops at its assertion `fewestDiscVertex >= 0`. -/
theorem pivot_search_finds_no_vertex :
    GraphInvariants (edgeless 2147483647) ∧
      (vertices_below 2147483647).Sorted (· < ·) ∧
      (vertices_below 2147483647).length = 2147483647 ∧
      find_node_with_fewest_discs ⟨2147483647, -1, false⟩ [] (vertices_below 2147483647)
          (edgeless 2147483647)
        = .error (.assertion .cliques_cpp 323) :=
  ⟨edgeless_invariants _ (le_refl _), vertices_below_sorted _, vertices_below_length _,
    find_node_without_pivot _ _ (vertices_below_sorted _) (vertices_below_length _)
      (fun v _ => count_disconnections_edgeless _ _ v)⟩

/-- C21, amended: for every `Not` and every non-empty ascending `Candidates` of fewer
than `2^31 - 1` vertices of a graph that satisfies the Graph invariants,
`find_node_with_fewest_discs` returns a vertex `p` of `Not` or `Candidates` with
`fewestDisc = |Candidates| - |Candidates ∩ N(p)|`, which is the number that
`count_disconnections` gives for every vertex; no vertex of `Not` or `Candidates` has
fewer disconnections; with `fewestIsInCands` set `p` is a candidate and every vertex
of `Not` has strictly more disconnections than `p`, without it `p` is in `Not`; so
for `Not` disjoint from `Candidates` the flag is set if and only if `p` is a
candidate. -/
theorem pivot_has_fewest_disconnections (g : SimpleIntGraph) (hG : GraphInvariants g)
    (Not Candidates : List Int) (hC : Candidates.Sorted (· < ·)) (hne : Candidates ≠ [])
    (hsmall : Candidates.length < 2147483647) (hN0 : ∀ x ∈ Not, (0 : Int) ≤ x)
    (hC0 : ∀ x ∈ Candidates, (0 : Int) ≤ x) :
    ∃ f, find_node_with_fewest_discs ⟨2147483647, -1, false⟩ Not Candidates g = .ok f ∧
      (f.fewestDiscVertex ∈ Not ∨ f.fewestDiscVertex ∈ Candidates) ∧
      f.fewestDisc = count_disconnections Candidates f.fewestDiscVertex g ∧
      (∀ x : Int, count_disconnections Candidates x g
        = ((Candidates.length
            - (Candidates.filter (fun c => decide (adjacent g x c))).length : Nat) : Int)) ∧
      (∀ x ∈ Not ++ Candidates, f.fewestDisc ≤ count_disconnections Candidates x g) ∧
      (f.fewestIsInCands = true → f.fewestDiscVertex ∈ Candidates ∧
        ∀ x ∈ Not, f.fewestDisc < count_disconnections Candidates x g) ∧
      (f.fewestIsInCands = false → f.fewestDiscVertex ∈ Not) ∧
      ((∀ x ∈ Not, x ∉ Candidates) →
        (f.fewestIsInCands = true ↔ f.fewestDiscVertex ∈ Candidates)) := by
  obtain ⟨f, hf, hmem, hcount, hmin, hstrict⟩ :=
    find_node_with_fewest_discs_min g Not Candidates hC hne hsmall hN0 hC0
  have hin : f.fewestIsInCands = true → f.fewestDiscVertex ∈ Candidates := by
    intro h; rw [if_pos h] at hmem; exact hmem
  have hout : f.fewestIsInCands = false → f.fewestDiscVertex ∈ Not := by
    intro h; rw [h] at hmem; exact hmem
  refine ⟨f, hf, ?_, hcount, fun x => count_disconnections_eq g hG.good Candidates hC x, hmin,
    fun h => ⟨hin h, hstrict h⟩, hout, ?_⟩
  · cases h : f.fewestIsInCands with
    | true => exact Or.inr (hin h)
    | false => exact Or.inl (hout h)
  · intro hdisj
    refine ⟨hin, ?_⟩
    intro hp
    cases h : f.fewestIsInCands with
    | true => rfl
    | false => exact absurd hp (hdisj _ (hout h))

/-- C21, amended, at the vertex `2` of the bow-tie: `Not` holds the neighbours `0`
and `1`, `Candidates` the neighbours `3` and `4`. -/
theorem pivot_has_fewest_disconnections_witness :
    ∃ f, find_node_with_fewest_discs ⟨2147483647, -1, false⟩ [0, 1] [3, 4] bow_tie = .ok f ∧
      (f.fewestDiscVertex ∈ ([0, 1] : List Int) ∨ f.fewestDiscVertex ∈ ([3, 4] : List Int)) ∧
      f.fewestDisc = count_disconnections [3, 4] f.fewestDiscVertex bow_tie ∧
      (∀ x : Int, count_disconnections [3, 4] x bow_tie
        = ((([3, 4] : List Int).length
            - (([3, 4] : List Int).filter
                (fun c => decide (adjacent bow_tie x c))).length : Nat) : Int)) ∧
      (∀ x ∈ ([0, 1] ++ [3, 4] : List Int),
        f.fewestDisc ≤ count_disconnections [3, 4] x bow_tie) ∧
      (f.fewestIsInCands = true → f.fewestDiscVertex ∈ ([3, 4] : List Int) ∧
        ∀ x ∈ ([0, 1] : List Int), f.fewestDisc < count_disconnections [3, 4] x bow_tie) ∧
      (f.fewestIsInCands = false → f.fewestDiscVertex ∈ ([0, 1] : List Int)) ∧
      ((∀ x ∈ ([0, 1] : List Int), x ∉ ([3, 4] : List Int)) →
        (f.fewestIsInCands = true ↔ f.fewestDiscVertex ∈ ([3, 4] : List Int))) :=
  pivot_has_fewest_disconnections bow_tie (by decide) [0, 1] [3, 4] (by decide) (by decide)
    (by decide) (by decide) (by decide)

/-! ## The key of the bloom filter -/

/-- C26 (bloom key): for every branch id `b` with `1 ≤ b < 2^31` and every vertex id
`v` with `0 ≤ v < 2^31` the key `(int64_t(b) << 32) + v` is `(b << 32) | v`, it is not
negative and fits 64 bits, so that no step of its computation overflows, and two
pairs of a branch and a vertex with the same key are the same pair; in a filter of
`l > 0` bits the position `h(key) mod l` that `test` reads and `set` writes is below
`l`, and `set` leaves the set bits within the array. -/
theorem bloom_key_is_injective (b : Nat) (v : Int) (hb1 : 1 ≤ b) (hb : b < 2147483648)
    (hv0 : 0 ≤ v) (hv : v < 2147483648) :
    bloom_key b v = (((b <<< 32) ||| v.toNat : Nat) : Int) ∧
      0 ≤ bloom_key b v ∧ bloom_key b v < 9223372036854775808 ∧
      (∀ (b' : Nat) (v' : Int), 1 ≤ b' → b' < 2147483648 → 0 ≤ v' → v' < 2147483648 →
        bloom_key b' v' = bloom_key b v → b' = b ∧ v' = v) ∧
      ∀ bl : bloom, bl.WellFormed →
        bl.h (bloom_key b v) % bl.l < bl.l ∧ (bl.set (bloom_key b v)).WellFormed ∧
        (bl.set (bloom_key b v)).test (bloom_key b v) = true := by
  refine ⟨?_, ?_, ?_, ?_, ?_⟩
  · have hlt : v.toNat < 2 ^ 32 := by omega
    have h := Nat.mul_add_lt_is_or hlt b
    rw [Nat.shiftLeft_eq, Nat.mul_comm b, ← h]
    unfold bloom_key
    push_cast
    rw [Int.toNat_of_nonneg hv0]
    norm_num
    ring
  · unfold bloom_key; omega
  · unfold bloom_key; omega
  · intro b' v' _ _ h1 h2 h
    unfold bloom_key at h
    constructor <;> omega
  · intro bl hwf
    refine ⟨Nat.mod_lt _ hwf.1, bloom_set_wellFormed bl _ hwf, ?_⟩
    unfold bloom.test bloom.set
    simp only
    split <;> simp_all

/-- C26 at the root of the tree and the vertex `5`, in an empty filter of `10^10`
bits. -/
theorem bloom_key_is_injective_witness :
    ((1 ≤ 1 ∧ 1 < 2147483648) ∧ ((0 : Int) ≤ 5 ∧ (5 : Int) < 2147483648)) ∧
      (bloom_key 1 5 = (((1 <<< 32) ||| (5 : Int).toNat : Nat) : Int) ∧
        0 ≤ bloom_key 1 5 ∧ bloom_key 1 5 < 9223372036854775808 ∧
        (∀ (b' : Nat) (v' : Int), 1 ≤ b' → b' < 2147483648 → 0 ≤ v' → v' < 2147483648 →
          bloom_key b' v' = bloom_key 1 5 → b' = 1 ∧ v' = 5) ∧
        ∀ bl : bloom, bl.WellFormed →
          bl.h (bloom_key 1 5) % bl.l < bl.l ∧ (bl.set (bloom_key 1 5)).WellFormed ∧
          (bl.set (bloom_key 1 5)).test (bloom_key 1 5) = true) :=
  ⟨by decide, bloom_key_is_injective 1 5 (by decide) (by decide) (by decide) (by decide)⟩

/-! ## The record of the enumeration -/

/-- Without its record `tryCandidate_traced` is `tryCandidate`. -/
theorem tryCandidate_traced_snd
    (wt : Option Nat → List Int → List Int → List Int →
      List WorkerEvent × Except Err (List (List Int)))
    (w : List Int → List Int → List Int → Except Err (List (List Int)))
    (hw : ∀ h R X P, (wt h R X P).2 = w R X P) (g : SimpleIntGraph)
    (R X P : List Int) (v : Int) (held : Nat) :
    (tryCandidate_traced wt g R X P v held).2 = tryCandidate w g R X P v := by
  unfold tryCandidate_traced tryCandidate
  by_cases h : R.isEmpty
  · simp [h]
  · simp only [h, Bool.false_eq_true, if_false]
    exact hw _ _ _ _

/-- Without its record `cliquesWorker_loop_traced` is `cliquesWorker_loop`. -/
theorem cliquesWorker_loop_traced_snd
    (wt : Option Nat → List Int → List Int → List Int →
      List WorkerEvent × Except Err (List (List Int)))
    (w : List Int → List Int → List Int → Except Err (List (List Int)))
    (hw : ∀ h R X P, (wt h R X P).2 = w R X P) (g : SimpleIntGraph) (m : Nat)
    (R : List Int) (p : Int) :
    ∀ (rest before X : List Int) (fd : Int),
      (cliquesWorker_loop_traced wt g m R p before rest X fd).2
        = cliquesWorker_loop w g m R p before rest X fd := by
  intro rest
  induction rest with
  | nil => intro before X fd; rfl
  | cons v rest ih =>
    intro before X fd
    unfold cliquesWorker_loop_traced cliquesWorker_loop
    by_cases h1 : (before ++ v :: rest).length + R.length ≥ m
    swap
    · rw [if_pos h1, if_pos h1]
    simp only [h1, not_true_eq_false, if_false]
    by_cases h2 : fd > 0 ∧ v ≠ p ∧ ¬ are_connected g v p
    swap
    · rw [if_neg h2, if_neg h2]
      exact ih _ _ _
    rw [if_pos h2, if_pos h2]
    have ht := tryCandidate_traced_snd wt w hw g R X (before ++ rest) v
      (before ++ v :: rest).length
    rcases hc : tryCandidate_traced wt g R X (before ++ rest) v
      (before ++ v :: rest).length with ⟨ev1, r1⟩
    rw [hc] at ht
    simp only at ht
    rw [← ht]
    cases r1 with
    | error e => rfl
    | ok out1 =>
      simp only
      have hl := ih before (insert_at_lower_bound v X) (fd - 1)
      rcases hc2 : cliquesWorker_loop_traced wt g m R p before rest
        (insert_at_lower_bound v X) (fd - 1) with ⟨ev2, r2⟩
      rw [hc2] at hl
      simp only at hl
      rw [← hl]
      cases r2 with
      | error e => rfl
      | ok r => rfl

/-- Without its record `cliquesWorker_traced` is `cliquesWorker`. -/
theorem cliquesWorker_traced_snd (g : SimpleIntGraph) (m : Nat) :
    ∀ (fuel depth : Nat) (held : Option Nat) (R X P : List Int),
      (cliquesWorker_traced fuel g m depth held R X P).2 = cliquesWorker fuel g m R X P := by
  intro fuel
  induction fuel with
  | zero => intro depth held R X P; rfl
  | succ fuel ih =>
    intro depth held R X P
    unfold cliquesWorker_traced cliquesWorker
    simp only
    by_cases h1 : P.length + R.length ≥ m
    swap
    · rw [if_pos h1, if_pos h1]
    simp only [h1, not_true_eq_false, if_false]
    by_cases h2 : P.isEmpty
    · rw [if_pos h2, if_pos h2]
      split <;> rfl
    rw [if_neg h2, if_neg h2]
    cases hf : find_node_with_fewest_discs ⟨2147483647, -1, false⟩ X P g with
    | error e => rfl
    | ok f =>
      simp only
      by_cases h3 : (!f.fewestIsInCands && f.fewestDisc == 0) = true
      · rw [if_pos h3, if_pos h3]
      rw [if_neg h3, if_neg h3]
      have hw : ∀ h R X P, (cliquesWorker_traced fuel g m (depth + 1) h R X P).2
          = cliquesWorker fuel g m R X P := fun h R X P => ih (depth + 1) h R X P
      have hl := cliquesWorker_loop_traced_snd _ _ hw g m R f.fewestDiscVertex P [] X
        f.fewestDisc
      rcases hc : cliquesWorker_loop_traced (cliquesWorker_traced fuel g m (depth + 1)) g m R
        f.fewestDiscVertex [] P X f.fewestDisc with ⟨ev, r⟩
      rw [hc] at hl
      simp only at hl
      rw [← hl]
      cases r with
      | error e => rfl
      | ok r =>
        obtain ⟨out, fin⟩ := r
        cases fin with
        | none => rfl
        | some cn =>
          obtain ⟨C', N'⟩ := cn
          simp only
          by_cases h4 : f.fewestIsInCands = true
          swap
          · rw [if_neg h4, if_neg h4]
          rw [if_pos h4, if_pos h4]
          by_cases h5 : C'.length + R.length ≥ m
          swap
          · rw [if_pos h5, if_pos h5]
          simp only [h5, not_true_eq_false, if_false]
          have ht := tryCandidate_traced_snd _ _ hw g R N' C' f.fewestDiscVertex C'.length
          rcases hc2 : tryCandidate_traced (cliquesWorker_traced fuel g m (depth + 1)) g R N' C'
            f.fewestDiscVertex C'.length with ⟨ev2, r2⟩
          rw [hc2] at ht
          simp only at ht
          rw [← ht]
          cases r2 with
          | error e => rfl
          | ok out2 => rfl

/-- Without its record `cliquesForOneNode_traced` is `cliquesForOneNode`. -/
theorem cliquesForOneNode_traced_snd (g : SimpleIntGraph) (m : Nat) (v : Int) :
    (cliquesForOneNode_traced g m v).2 = cliquesForOneNode g m v := by
  unfold cliquesForOneNode_traced cliquesForOneNode
  simp only
  split
  · rfl
  · cases split_neighbours v (neighbouring_nodes_in_order g v) (-1) [] [] with
    | error e => rfl
    | ok r =>
      obtain ⟨X, P⟩ := r
      simp only
      split
      · rfl
      · exact cliquesWorker_traced_snd g m _ _ _ _ _ _

/-- Without its record `findCliques_loop_traced` is `findCliques_loop`. -/
theorem findCliques_loop_traced_snd (g : SimpleIntGraph) (m : Nat) :
    ∀ (vs : List Nat) (o : List (List Int)),
      (findCliques_loop_traced g m vs o).2 = findCliques_loop g m vs o := by
  intro vs
  induction vs with
  | nil => intro o; rfl
  | cons v vs ih =>
    intro o
    unfold findCliques_loop_traced findCliques_loop
    have h := cliquesForOneNode_traced_snd g m (v : Int)
    rcases hc : cliquesForOneNode_traced g m (v : Int) with ⟨ev, r⟩
    rw [hc] at h
    simp only at h
    rw [← h]
    cases r with
    | error e => rfl
    | ok found =>
      simp only
      exact ih _

/-- Without its record `findCliques_traced` is `findCliques`. -/
theorem findCliques_traced_snd (g : SimpleIntGraph) (o : List (List Int)) (m : Nat) :
    (findCliques_traced g o m).2 = findCliques g o m := by
  unfold findCliques_traced findCliques
  split
  · rfl
  · cases check_end_points g (List.range (numRels g)) with
    | error e => rfl
    | ok _ => exact findCliques_loop_traced_snd g m _ _

/-- A pivot that `find_node_with_fewest_discs` reports as taken from `Candidates` is a
candidate. -/
theorem find_node_in_candidates (g : SimpleIntGraph) (X P : List Int) (f : Fewest)
    (h : find_node_with_fewest_discs ⟨2147483647, -1, false⟩ X P g = .ok f)
    (hflag : f.fewestIsInCands = true) : f.fewestDiscVertex ∈ P := by
  unfold find_node_with_fewest_discs at h
  simp only at h
  split_ifs at h with hemp
  have hN := fewest_over_Not_spec g (std_set P) X X ⟨2147483647, -1, false⟩ (fun _ h => h)
    (Or.inl rfl)
  simp only at hN
  rcases hr : fewest_over_Not (std_set P) g X ⟨2147483647, -1, false⟩ with ⟨s1, b1⟩
  rw [hr] at h hN
  simp only at h hN
  have hs1 : s1.fewestIsInCands = false := by
    rcases hN.1 with e | e
    · rw [e]
    · exact e.1
  cases b1 with
  | true =>
    simp only at h
    have hfs : s1 = f := by injection h
    rw [← hfs, hs1] at hflag
    exact absurd hflag (by simp)
  | false =>
    simp only at h
    have hC := fewest_over_Candidates_spec g (std_set P) X P P s1 (fun _ h => h) (by
      rcases hN.1 with e | e
      · exact Or.inl e
      · exact Or.inr ⟨by simp [e.1, e.2.1], e.2.2⟩)
    simp only at hC
    rcases hr2 : fewest_over_Candidates (std_set P) g P s1 with ⟨s2, b2⟩
    rw [hr2] at h hC
    simp only at h hC
    obtain ⟨hC1, hb2, _, _⟩ := hC
    subst hb2
    simp only at h
    have hfs : s2 = f := by
      split_ifs at h
      injection h
    subst hfs
    rcases hC1 with e | e
    · rw [e] at hflag
      exact absurd hflag (by simp)
    · have := e.1
      rw [if_pos hflag] at this
      exact this

/-- The working sets of the call that `tryCandidate` makes for a vertex `v` that is
adjacent to all of `Compsub` and not in it. -/
theorem WorkingSets.of_selected (g : SimpleIntGraph) (hg : GoodAdjacency g) (R X P : List Int)
    (ws : WorkingSets g R X P) (v : Int) (hvR : ∀ r ∈ R, adjacent g v r) (hv : v ∉ R) :
    WorkingSets g (R ++ [v]) (set_intersection X (neighbouring_nodes_in_order g v))
      (set_intersection P (neighbouring_nodes_in_order g v)) := by
  rw [set_intersection_eq_filter X _ ws.sortedNot (hg.sorted v),
    set_intersection_eq_filter P _ ws.sortedCandidates (hg.sorted v)]
  have hmem : ∀ (l : List Int) (x : Int),
      x ∈ l.filter (fun x => decide (x ∈ neighbouring_nodes_in_order g v)) ↔
        x ∈ l ∧ adjacent g v x := by
    intro l x
    simp [List.mem_filter, adjacent]
  obtain ⟨r0, hr0⟩ := List.exists_mem_of_ne_nil R ws.compsub_ne
  refine ⟨by simp, ?_, ?_, ?_, ws.sortedNot.filter _, ws.sortedCandidates.filter _, ?_, ?_, ?_,
    ?_, ?_⟩
  · rw [List.nodup_append]
    refine ⟨ws.nodup, List.nodup_singleton v, ?_⟩
    intro a ha hb
    have : a = v := by simpa using hb
    exact hv (this ▸ ha)
  · intro a ha b hb hab
    rcases List.mem_append.1 ha with ha | ha <;> rcases List.mem_append.1 hb with hb | hb
    · exact ws.clique a ha b hb hab
    · have : b = v := by simpa using hb
      rw [this]
      exact hg.symm _ _ (hvR a ha)
    · have : a = v := by simpa using ha
      rw [this]
      exact hvR b hb
    · have h1 : a = v := by simpa using ha
      have h2 : b = v := by simpa using hb
      exact absurd (h1.trans h2.symm) hab
  · intro r hr
    rcases List.mem_append.1 hr with h | h
    · exact ws.vertices r h
    · have : r = v := by simpa using h
      rw [this]
      exact in_range_of_adjacent g v r0 (hvR r0 hr0)
  · intro x hx hx'
    exact ws.disjoint_Candidates_Not x ((hmem P x).1 hx).1 ((hmem X x).1 hx').1
  · intro r hr hr'
    rcases List.mem_append.1 hr with h | h
    · exact ws.disjoint_Compsub_Candidates r h ((hmem P r).1 hr').1
    · have : r = v := by simpa using h
      rw [this] at hr'
      exact hg.irrefl v ((hmem P v).1 hr').2
  · intro r hr hr'
    rcases List.mem_append.1 hr with h | h
    · exact ws.disjoint_Compsub_Not r h ((hmem X r).1 hr').1
    · have : r = v := by simpa using h
      rw [this] at hr'
      exact hg.irrefl v ((hmem X v).1 hr').2
  · intro x hx r hr
    obtain ⟨h1, h2⟩ := (hmem X x).1 hx
    rcases List.mem_append.1 hr with h | h
    · exact ws.adjacent_Not x h1 r h
    · have : r = v := by simpa using h
      rw [this]
      exact hg.symm _ _ h2
  · intro x hx r hr
    obtain ⟨h1, h2⟩ := (hmem P x).1 hx
    rcases List.mem_append.1 hr with h | h
    · exact ws.adjacent_Candidates x h1 r h
    · have : r = v := by simpa using h
      rw [this]
      exact hg.symm _ _ h2

/-- The intersection of a list with the neighbours of one of its elements is shorter
than the list. -/
theorem set_intersection_length_lt (g : SimpleIntGraph) (hg : GoodAdjacency g) (P : List Int)
    (v : Int) (hv : v ∈ P) :
    (set_intersection P (neighbouring_nodes_in_order g v)).length < P.length := by
  have hsub : ∀ (l2 : List Int) (l1 : List Int),
      (set_intersection l1 l2).Sublist l1 ∧ ∀ x ∈ set_intersection l1 l2, x ∈ l2 := by
    intro l2 l1
    induction l1 generalizing l2 with
    | nil => simp [set_intersection]
    | cons a as ih =>
      unfold set_intersection
      induction l2 with
      | nil => simp [set_intersection_aux]
      | cons b bs ih2 =>
        unfold set_intersection_aux
        by_cases h1 : a < b
        · rw [if_pos h1]
          exact ⟨(ih (b :: bs)).1.trans (List.sublist_cons_self _ _), (ih (b :: bs)).2⟩
        rw [if_neg h1]
        by_cases h2 : b < a
        · rw [if_pos h2]
          refine ⟨ih2.1, ?_⟩
          intro x hx
          exact List.mem_cons_of_mem _ (ih2.2 x hx)
        rw [if_neg h2]
        have hab : a = b := by omega
        refine ⟨(ih bs).1.cons₂ a, ?_⟩
        intro x hx
        rcases List.mem_cons.1 hx with h | h
        · rw [h, hab]; simp
        · exact List.mem_cons_of_mem _ ((ih bs).2 x h)
  obtain ⟨h1, h2⟩ := hsub (neighbouring_nodes_in_order g v) P
  rcases Nat.lt_or_ge (set_intersection P (neighbouring_nodes_in_order g v)).length P.length
    with h | h
  · exact h
  · exfalso
    have heq := h1.eq_of_length_le h
    rw [heq] at h2
    exact hg.irrefl v (h2 v hv)

/-- The events of a call of `tryCandidate` for a vertex that the caller holds among its
candidates. -/
theorem tryCandidate_traced_good (g : SimpleIntGraph) (hg : GoodAdjacency g)
    (wt : Option Nat → List Int → List Int → List Int →
      List WorkerEvent × Except Err (List (List Int)))
    (R : List Int)
    (hwt : ∀ h R' X' P', WorkingSets g R' X' P' → R'.length = R.length + 1 →
      (∀ n, h = some n → P'.length < n) → ∀ ev ∈ (wt h R' X' P').1, ev.Good g)
    (X P : List Int) (ws : WorkingSets g R X P) (v : Int) (hvR : ∀ r ∈ R, adjacent g v r)
    (hv : v ∉ R) (held : Nat)
    (hheld : (set_intersection P (neighbouring_nodes_in_order g v)).length < held) :
    ∀ ev ∈ (tryCandidate_traced wt g R X P v held).1, ev.Good g := by
  unfold tryCandidate_traced
  have hemp : R.isEmpty = false := by
    cases R with
    | nil => exact absurd rfl ws.compsub_ne
    | cons a l => rfl
  simp only [hemp, Bool.false_eq_true, if_false]
  apply hwt _ _ _ _ (WorkingSets.of_selected g hg R X P ws v hvR hv) (by simp)
  intro n hn
  simp only [Option.some.injEq] at hn
  rw [← hn]
  exact hheld

/-- The working sets after a candidate has been tried and moved to `Not`. -/
theorem WorkingSets.tried (g : SimpleIntGraph) (R X before rest : List Int) (v : Int)
    (ws : WorkingSets g R X (before ++ v :: rest)) :
    WorkingSets g R (insert_at_lower_bound v X) (before ++ rest) := by
  have hvP : v ∈ before ++ v :: rest := by simp
  have hvX : v ∉ X := ws.disjoint_Candidates_Not v hvP
  have hsub : ∀ x ∈ before ++ rest, x ∈ before ++ v :: rest := by
    intro x hx
    rcases List.mem_append.1 hx with h | h
    · exact List.mem_append.2 (Or.inl h)
    · exact List.mem_append.2 (Or.inr (List.mem_cons_of_mem _ h))
  have hnd : (before ++ v :: rest).Nodup := ws.sortedCandidates.nodup
  have hvn : v ∉ before ++ rest := by
    intro h
    rw [List.nodup_append] at hnd
    rcases List.mem_append.1 h with h | h
    · exact hnd.2.2 h (by simp) 
    · exact (List.nodup_cons.1 hnd.2.1).1 h
  refine ⟨ws.compsub_ne, ws.nodup, ws.clique, ws.vertices,
    sorted_insert_at_lower_bound v X ws.sortedNot hvX, ?_, ?_, ?_, ?_, ?_, ?_⟩
  · have h := ws.sortedCandidates
    unfold List.Sorted at h ⊢
    rw [List.pairwise_append] at h ⊢
    exact ⟨h.1, (List.pairwise_cons.1 h.2.1).2,
      fun a ha b hb => h.2.2 a ha b (List.mem_cons_of_mem _ hb)⟩
  · intro x hx hx'
    rcases (mem_insert_at_lower_bound v x X).1 hx' with h | h
    · exact hvn (h ▸ hx)
    · exact ws.disjoint_Candidates_Not x (hsub x hx) h
  · intro r hr hr'
    exact ws.disjoint_Compsub_Candidates r hr (hsub r hr')
  · intro r hr hr'
    rcases (mem_insert_at_lower_bound v r X).1 hr' with h | h
    · exact ws.disjoint_Compsub_Candidates r hr (h ▸ hvP)
    · exact ws.disjoint_Compsub_Not r hr h
  · intro x hx r hr
    rcases (mem_insert_at_lower_bound v x X).1 hx with h | h
    · rw [h]
      exact ws.adjacent_Candidates v hvP r hr
    · exact ws.adjacent_Not x h r hr
  · intro x hx r hr
    exact ws.adjacent_Candidates x (hsub x hx) r hr

/-- The events of the loop of `cliquesWorker`, and the working sets with which it
ends: the pivot is still among the candidates when it was before. -/
theorem cliquesWorker_loop_traced_good (g : SimpleIntGraph) (hg : GoodAdjacency g) (m : Nat)
    (wt : Option Nat → List Int → List Int → List Int →
      List WorkerEvent × Except Err (List (List Int)))
    (R : List Int)
    (hwt : ∀ h R' X' P', WorkingSets g R' X' P' → R'.length = R.length + 1 →
      (∀ n, h = some n → P'.length < n) → ∀ ev ∈ (wt h R' X' P').1, ev.Good g)
    (p : Int) :
    ∀ (rest before X : List Int) (fd : Int), WorkingSets g R X (before ++ rest) →
      (∀ ev ∈ (cliquesWorker_loop_traced wt g m R p before rest X fd).1, ev.Good g) ∧
      ∀ out C N, (cliquesWorker_loop_traced wt g m R p before rest X fd).2
          = .ok (out, some (C, N)) →
        WorkingSets g R N C ∧ (p ∈ before ++ rest → p ∈ C) := by
  intro rest
  induction rest with
  | nil =>
    intro before X fd ws
    unfold cliquesWorker_loop_traced
    refine ⟨by simp, ?_⟩
    intro out C N h
    simp only [Except.ok.injEq, Prod.mk.injEq, Option.some.injEq, true_and] at h
    rw [← h.2.1, ← h.2.2]
    simp only [List.append_nil] at ws ⊢
    exact ⟨ws, fun h => h⟩
  | cons v rest ih =>
    intro before X fd ws
    unfold cliquesWorker_loop_traced
    by_cases h1 : (before ++ v :: rest).length + R.length ≥ m
    swap
    · rw [if_pos h1]
      exact ⟨by simp, by simp⟩
    simp only [h1, not_true_eq_false, if_false]
    by_cases h2 : fd > 0 ∧ v ≠ p ∧ ¬ are_connected g v p
    swap
    · rw [if_neg h2]
      have := ih (before ++ [v]) X fd (by simpa using ws)
      simpa using this
    rw [if_pos h2]
    have hvP : v ∈ before ++ v :: rest := by simp
    have hgood1 := tryCandidate_traced_good g hg wt R hwt X (before ++ rest)
      (by
        have := WorkingSets.tried g R X before rest v ws
        exact ⟨ws.compsub_ne, ws.nodup, ws.clique, ws.vertices, ws.sortedNot,
          this.sortedCandidates, fun x hx => ws.disjoint_Candidates_Not x (by
            rcases List.mem_append.1 hx with h | h
            · exact List.mem_append.2 (Or.inl h)
            · exact List.mem_append.2 (Or.inr (List.mem_cons_of_mem _ h))),
          this.disjoint_Compsub_Candidates, ws.disjoint_Compsub_Not, ws.adjacent_Not,
          this.adjacent_Candidates⟩)
      v (fun r hr => ws.adjacent_Candidates v hvP r hr)
      (fun h => ws.disjoint_Compsub_Candidates v h hvP) (before ++ v :: rest).length (by
        have hsub : ∀ (l1 l2 : List Int), (set_intersection l1 l2).length ≤ l1.length := by
          intro l1
          induction l1 with
          | nil => intro l2; simp [set_intersection]
          | cons a as iha =>
            intro l2
            unfold set_intersection
            induction l2 with
            | nil => simp [set_intersection_aux]
            | cons b bs ihb =>
              unfold set_intersection_aux
              split
              · have := iha (b :: bs)
                simp only [List.length_cons]
                omega
              · split
                · exact ihb
                · have := iha bs
                  simp only [List.length_cons]
                  omega
        have := hsub (before ++ rest) (neighbouring_nodes_in_order g v)
        simp only [List.length_append, List.length_cons] at this ⊢
        omega)
    obtain ⟨hgood2, hfin2⟩ := ih before (insert_at_lower_bound v X) (fd - 1)
      (WorkingSets.tried g R X before rest v ws)
    have hins : (WorkerEvent.inserted v (insert_at_lower_bound v X)).Good g :=
      ⟨(mem_insert_at_lower_bound v v X).2 (Or.inl rfl),
        (WorkingSets.tried g R X before rest v ws).sortedNot⟩
    rcases hc : tryCandidate_traced wt g R X (before ++ rest) v
      (before ++ v :: rest).length with ⟨ev1, r1⟩
    rw [hc] at hgood1
    simp only at hgood1
    cases r1 with
    | error e =>
      simp only
      exact ⟨hgood1, by simp⟩
    | ok out1 =>
      simp only
      rcases hc2 : cliquesWorker_loop_traced wt g m R p before rest
        (insert_at_lower_bound v X) (fd - 1) with ⟨ev2, r2⟩
      rw [hc2] at hgood2 hfin2
      simp only at hgood2 hfin2
      have hall : ∀ ev ∈ ev1 ++ WorkerEvent.inserted v (insert_at_lower_bound v X) :: ev2,
          ev.Good g := by
        intro ev hev
        rcases List.mem_append.1 hev with h | h
        · exact hgood1 ev h
        · rcases List.mem_cons.1 h with h | h
          · rw [h]; exact hins
          · exact hgood2 ev h
      cases r2 with
      | error e =>
        simp only
        exact ⟨hall, by simp⟩
      | ok r =>
        obtain ⟨out2, fin⟩ := r
        simp only
        refine ⟨hall, ?_⟩
        intro out C N h
        simp only [Except.ok.injEq, Prod.mk.injEq] at h
        obtain ⟨hws, hp⟩ := hfin2 out2 C N (by rw [h.2])
        refine ⟨hws, ?_⟩
        intro hpm
        apply hp
        rcases List.mem_append.1 hpm with h' | h'
        · exact List.mem_append.2 (Or.inl h')
        · rcases List.mem_cons.1 h' with h'' | h''
          · exact absurd h''.symm h2.2.1
          · exact List.mem_append.2 (Or.inr h'')

/-- Every event of a call of `cliquesWorker` that is entered with working sets that
satisfy the invariant is good. -/
theorem cliquesWorker_traced_good (g : SimpleIntGraph) (hg : GoodAdjacency g) (m : Nat) :
    ∀ (fuel depth : Nat) (held : Option Nat) (R X P : List Int),
      WorkingSets g R X P → depth = R.length → (∀ n, held = some n → P.length < n) →
      ∀ ev ∈ (cliquesWorker_traced fuel g m depth held R X P).1, ev.Good g := by
  intro fuel
  induction fuel with
  | zero =>
    intro depth held R X P ws hd hh ev hev
    simp only [cliquesWorker_traced, List.mem_singleton] at hev
    rw [hev]
    exact ⟨ws, hd, hh⟩
  | succ fuel ih =>
    intro depth held R X P ws hd hh
    have hhere : (WorkerEvent.entry depth held R X P).Good g := ⟨ws, hd, hh⟩
    have hone : ∀ ev ∈ [WorkerEvent.entry depth held R X P], ev.Good g := by
      intro ev hev
      rw [List.mem_singleton.1 hev]
      exact hhere
    unfold cliquesWorker_traced
    simp only
    split
    · exact hone
    split
    · split <;> exact hone
    cases hf : find_node_with_fewest_discs ⟨2147483647, -1, false⟩ X P g with
    | error e => exact hone
    | ok f =>
      simp only
      split
      · exact hone
      have hwt : ∀ h R' X' P', WorkingSets g R' X' P' → R'.length = R.length + 1 →
          (∀ n, h = some n → P'.length < n) →
          ∀ ev ∈ (cliquesWorker_traced fuel g m (depth + 1) h R' X' P').1, ev.Good g :=
        fun h R' X' P' ws' hl hh' => ih (depth + 1) h R' X' P' ws' (by omega) hh'
      obtain ⟨hgood, hfin⟩ := cliquesWorker_loop_traced_good g hg m _ R hwt f.fewestDiscVertex
        P [] X f.fewestDisc (by simpa using ws)
      rcases hc : cliquesWorker_loop_traced (cliquesWorker_traced fuel g m (depth + 1)) g m R
        f.fewestDiscVertex [] P X f.fewestDisc with ⟨ev, r⟩
      rw [hc] at hgood hfin
      simp only at hgood hfin
      have hcons : ∀ e ∈ WorkerEvent.entry depth held R X P :: ev, e.Good g := by
        intro e he
        rcases List.mem_cons.1 he with h | h
        · rw [h]; exact hhere
        · exact hgood e h
      cases r with
      | error e => exact hcons
      | ok r =>
        obtain ⟨out, fin⟩ := r
        cases fin with
        | none => exact hcons
        | some cn =>
          obtain ⟨C', N'⟩ := cn
          simp only
          by_cases h4 : f.fewestIsInCands = true
          swap
          · rw [if_neg h4]
            exact hcons
          rw [if_pos h4]
          split
          · exact hcons
          obtain ⟨ws', hp⟩ := hfin out C' N' rfl
          have hpC : f.fewestDiscVertex ∈ C' :=
            hp (by simpa using find_node_in_candidates g X P f hf h4)
          have hgood2 := tryCandidate_traced_good g hg _ R hwt N' C' ws' f.fewestDiscVertex
            (fun r hr => ws'.adjacent_Candidates _ hpC r hr)
            (fun h => ws'.disjoint_Compsub_Candidates _ h hpC) C'.length
            (set_intersection_length_lt g hg C' _ hpC)
          rcases hc2 : tryCandidate_traced (cliquesWorker_traced fuel g m (depth + 1)) g R N' C'
            f.fewestDiscVertex C'.length with ⟨ev2, r2⟩
          rw [hc2] at hgood2
          simp only at hgood2
          have hall : ∀ e ∈ WorkerEvent.entry depth held R X P :: ev ++ ev2, e.Good g := by
            intro e he
            rcases List.mem_append.1 he with h | h
            · exact hcons e h
            · exact hgood2 e h
          cases r2 with
          | error e => exact hall
          | ok out2 => exact hall

/-- Every event of a call of `cliquesForOneNode` for a vertex of a graph that satisfies
the Graph invariants is good. -/
theorem cliquesForOneNode_traced_good (g : SimpleIntGraph) (hG : GraphInvariants g) (m v : Nat)
    (hv : v < numNodes g) :
    ∀ ev ∈ (cliquesForOneNode_traced g m (v : Int)).1, ev.Good g := by
  have hg := GraphInvariants.good g hG
  unfold cliquesForOneNode_traced
  simp only
  split
  · simp
  have hsplit := split_neighbours_eq (v : Int) (neighbouring_nodes_in_order g (v : Int))
    (-1) [] [] (List.sorted_cons.2 ⟨fun x hx => by
      have := hg.nonneg _ _ hx
      show (-1 : Int) < x
      omega, hg.sorted (v : Int)⟩)
  rw [hsplit]
  simp only [List.nil_append]
  split
  · simp
  apply cliquesWorker_traced_good g hg m _ 1 none [(v : Int)] _ _ _ rfl (by simp)
  refine ⟨by simp, List.nodup_singleton _, ?_, ?_, (hg.sorted _).filter _, (hg.sorted _).filter _,
    ?_, ?_, ?_, ?_, ?_⟩
  · intro a ha b hb hab
    have h1 : a = (v : Int) := by simpa using ha
    have h2 : b = (v : Int) := by simpa using hb
    exact absurd (h1.trans h2.symm) hab
  · intro r hr
    have : r = (v : Int) := by simpa using hr
    rw [this]
    omega
  · intro x hx hx'
    have h1 := (List.mem_filter.1 hx).2
    have h2 := (List.mem_filter.1 hx').2
    simp only [decide_eq_true_eq] at h1 h2
    omega
  · intro r hr hr'
    have : r = (v : Int) := by simpa using hr
    rw [this] at hr'
    have h1 := (List.mem_filter.1 hr').2
    simp only [decide_eq_true_eq] at h1
    omega
  · intro r hr hr'
    have : r = (v : Int) := by simpa using hr
    rw [this] at hr'
    have h1 := (List.mem_filter.1 hr').2
    simp only [decide_eq_true_eq] at h1
    omega
  · intro x hx r hr
    have : r = (v : Int) := by simpa using hr
    rw [this]
    exact hg.symm _ _ (List.mem_filter.1 hx).1
  · intro x hx r hr
    have : r = (v : Int) := by simpa using hr
    rw [this]
    exact hg.symm _ _ (List.mem_filter.1 hx).1

/-- Every event of the loop of `findCliques` over vertices of the graph is good. -/
theorem findCliques_loop_traced_good (g : SimpleIntGraph) (hG : GraphInvariants g) (m : Nat) :
    ∀ (vs : List Nat) (o : List (List Int)), (∀ v ∈ vs, v < numNodes g) →
      ∀ ev ∈ (findCliques_loop_traced g m vs o).1, ev.Good g := by
  intro vs
  induction vs with
  | nil => intro o _; simp [findCliques_loop_traced]
  | cons v vs ih =>
    intro o hvs
    unfold findCliques_loop_traced
    have h1 := cliquesForOneNode_traced_good g hG m v (hvs v (by simp))
    rcases hc : cliquesForOneNode_traced g m (v : Int) with ⟨ev, r⟩
    rw [hc] at h1
    simp only at h1
    cases r with
    | error e => exact h1
    | ok found =>
      simp only
      intro e he
      rcases List.mem_append.1 he with h | h
      · exact h1 e h
      · exact ih _ (fun x hx => hvs x (by simp [hx])) e h

/-- Every event of a run of `findCliques` on a graph that satisfies the Graph
invariants is good. -/
theorem findCliques_traced_good (g : SimpleIntGraph) (hG : GraphInvariants g) (m : Nat)
    (o : List (List Int)) : ∀ ev ∈ (findCliques_traced g o m).1, ev.Good g := by
  unfold findCliques_traced
  split
  · simp
  · cases check_end_points g (List.range (numRels g)) with
    | error e => simp
    | ok _ =>
      exact findCliques_loop_traced_good g hG m _ _ (fun v hv => List.mem_range.1 hv)

/-! ## The working sets and the depth of the recursion -/

/-- C22 (working-set invariant of the recursion): in the record of a run of
`findCliques` on a graph that satisfies the Graph invariants, which without the record
is the run of `findCliques`, at every entry to `cliquesWorker` the vector `Compsub` is
a non-empty clique of distinct vertices, `Not` and `Candidates` ascend strictly,
`Not`, `Candidates` and `Compsub` are pairwise disjoint, and every vertex of `Not` and
of `Candidates` is adjacent to every vertex of `Compsub`; after every insertion of a
tried candidate `Not` holds the candidate and ascends strictly. -/
theorem working_set_invariant (g : SimpleIntGraph) (hG : GraphInvariants g) (m : Nat) :
    (findCliques_traced g [] m).2 = findCliques g [] m ∧
      ∀ ev ∈ (findCliques_traced g [] m).1,
        (∀ depth held Compsub Not Candidates,
          ev = .entry depth held Compsub Not Candidates →
          Compsub ≠ [] ∧ Compsub.Nodup ∧ IsClique g Compsub ∧
          Not.Sorted (· < ·) ∧ Candidates.Sorted (· < ·) ∧
          (∀ x ∈ Candidates, x ∉ Not) ∧ (∀ x ∈ Compsub, x ∉ Candidates) ∧
          (∀ x ∈ Compsub, x ∉ Not) ∧
          (∀ x ∈ Not, ∀ r ∈ Compsub, adjacent g x r) ∧
          (∀ x ∈ Candidates, ∀ r ∈ Compsub, adjacent g x r)) ∧
        (∀ v Not, ev = .inserted v Not → v ∈ Not ∧ Not.Sorted (· < ·)) := by
  refine ⟨findCliques_traced_snd g [] m, ?_⟩
  intro ev hev
  have hgood := findCliques_traced_good g hG m [] ev hev
  constructor
  · intro depth held Compsub Not Candidates he
    rw [he] at hgood
    obtain ⟨ws, _, _⟩ := hgood
    exact ⟨ws.compsub_ne, ws.nodup, ws.clique, ws.sortedNot, ws.sortedCandidates,
      ws.disjoint_Candidates_Not, ws.disjoint_Compsub_Candidates, ws.disjoint_Compsub_Not,
      ws.adjacent_Not, ws.adjacent_Candidates⟩
  · intro v Not he
    rw [he] at hgood
    exact hgood

/-- C22 on the triangle with a tail, whose run enters `cliquesWorker` seven times and
inserts the vertex `3` into `Not` once. -/
theorem working_set_invariant_witness :
    (GraphInvariants triangle_with_tail ∧
        WorkerEvent.entry 2 (some 2) [0, 1] [] [2]
          ∈ (findCliques_traced triangle_with_tail [] 3).1 ∧
        WorkerEvent.inserted 3 [3] ∈ (findCliques_traced triangle_with_tail [] 3).1) ∧
      ((findCliques_traced triangle_with_tail [] 3).2 = findCliques triangle_with_tail [] 3 ∧
        ∀ ev ∈ (findCliques_traced triangle_with_tail [] 3).1,
          (∀ depth held Compsub Not Candidates,
            ev = .entry depth held Compsub Not Candidates →
            Compsub ≠ [] ∧ Compsub.Nodup ∧ IsClique triangle_with_tail Compsub ∧
            Not.Sorted (· < ·) ∧ Candidates.Sorted (· < ·) ∧
            (∀ x ∈ Candidates, x ∉ Not) ∧ (∀ x ∈ Compsub, x ∉ Candidates) ∧
            (∀ x ∈ Compsub, x ∉ Not) ∧
            (∀ x ∈ Not, ∀ r ∈ Compsub, adjacent triangle_with_tail x r) ∧
            (∀ x ∈ Candidates, ∀ r ∈ Compsub, adjacent triangle_with_tail x r)) ∧
          (∀ v Not, ev = .inserted v Not → v ∈ Not ∧ Not.Sorted (· < ·))) :=
  ⟨⟨by decide, by decide, by decide⟩, working_set_invariant triangle_with_tail (by decide) 3⟩

/-- C23 (the enumeration terminates): on a graph that satisfies the Graph invariants,
and so is without self-loops, no call of `cliquesForOneNode` for a vertex of the graph
and no run of `findCliques` uses up the `|Candidates| + 1` nested calls that the
embedding gives to `cliquesWorker`; every call of `cliquesWorker` made through
`tryCandidate` receives fewer candidates than its caller held when it selected the
vertex, the call on the pivot that is left inside `Candidates` included; the number
of active calls of `cliquesWorker` is at every entry the size of `Compsub`, a clique
of distinct vertices of the graph, and so at most any bound on the sizes of the
cliques of the graph. -/
theorem recursion_depth_is_bounded (g : SimpleIntGraph) (hG : GraphInvariants g) (m : Nat) :
    (∀ v : Nat, v < numNodes g → cliquesForOneNode g m (v : Int) ≠ .error .fuel) ∧
      (findCliques g [] m).2 ≠ some .fuel ∧
      ∀ ev ∈ (findCliques_traced g [] m).1,
        ∀ depth held Compsub Not Candidates,
          ev = .entry depth held Compsub Not Candidates →
          (∀ n, held = some n → Candidates.length < n) ∧
          depth = Compsub.length ∧ Compsub.Nodup ∧ IsClique g Compsub ∧
          (∀ r ∈ Compsub, 0 ≤ r ∧ r < (numNodes g : Int)) ∧
          ∀ w : Nat,
            (∀ K : List Int, K.Nodup → IsClique g K →
              (∀ x ∈ K, 0 ≤ x ∧ x < (numNodes g : Int)) → K.length ≤ w) →
            depth ≤ w := by
  refine ⟨?_, ?_, ?_⟩
  · intro v hv h
    obtain ⟨out, ho, _⟩ := cliquesForOneNode_spec g hG m v hv
    rw [ho] at h
    exact absurd h (by simp)
  · by_cases hm : 3 ≤ m
    · have := cliquesToVector_eq g hG m hm []
      unfold cliquesToVector at this
      rw [if_neg (by omega)] at this
      rw [this]
      simp
    · unfold findCliques
      rw [if_pos (by omega)]
      simp
  · intro ev hev depth held Compsub Not Candidates he
    have hgood := findCliques_traced_good g hG m [] ev hev
    rw [he] at hgood
    obtain ⟨ws, hd, hh⟩ := hgood
    refine ⟨hh, hd, ws.nodup, ws.clique, ws.vertices, ?_⟩
    intro w hw
    rw [hd]
    exact hw Compsub ws.nodup ws.clique ws.vertices

/-- C23 on the triangle with a tail: the call on the pivot `1`, which is left inside
the two candidates `1` and `2`, receives the one candidate `2`. -/
theorem recursion_depth_is_bounded_witness :
    (GraphInvariants triangle_with_tail ∧
        WorkerEvent.entry 2 (some 2) [0, 1] [] [2]
          ∈ (findCliques_traced triangle_with_tail [] 3).1) ∧
      ((∀ v : Nat, v < numNodes triangle_with_tail →
          cliquesForOneNode triangle_with_tail 3 (v : Int) ≠ .error .fuel) ∧
        (findCliques triangle_with_tail [] 3).2 ≠ some .fuel ∧
        ∀ ev ∈ (findCliques_traced triangle_with_tail [] 3).1,
          ∀ depth held Compsub Not Candidates,
            ev = .entry depth held Compsub Not Candidates →
            (∀ n, held = some n → Candidates.length < n) ∧
            depth = Compsub.length ∧ Compsub.Nodup ∧ IsClique triangle_with_tail Compsub ∧
            (∀ r ∈ Compsub, 0 ≤ r ∧ r < (numNodes triangle_with_tail : Int)) ∧
            ∀ w : Nat,
              (∀ K : List Int, K.Nodup → IsClique triangle_with_tail K →
                (∀ x ∈ K, 0 ≤ x ∧ x < (numNodes triangle_with_tail : Int)) → K.length ≤ w) →
              depth ≤ w) :=
  ⟨⟨by decide, by decide⟩, recursion_depth_is_bounded triangle_with_tail (by decide) 3⟩

/-! ## The cliques of the enumeration as the input of the percolation -/

/-- The vector that `cliquesToVector` fills holds distinct maximal cliques: every
clique ascends strictly and none contains all vertices of another. -/
theorem cliquesToVector_distinct_maximal (g : SimpleIntGraph) (hG : GraphInvariants g)
    (m : Nat) (hm : 3 ≤ m) : DistinctMaximal (cliquesToVector g m []).1 := by
  rw [cliquesToVector_eq g hG m hm]
  simp only [List.nil_append]
  have hsound : ∀ c ∈ deliveries g m (List.range (numNodes g)),
      c.Sorted (· < ·) ∧ IsMaximalClique g c := by
    intro c hc
    obtain ⟨v, _, S, hcS, hn, _, hmax, _⟩ :=
      deliveries_sound g hG m _ (fun v hv => List.mem_range.1 hv) c hc
    rw [hcS]
    refine ⟨sorted_insertionSort_of_nodup _ hn, ?_⟩
    apply IsMaximalClique.of_same g _ _ _ hmax
    intro x
    rw [mem_insertionSort]
  have hpair := deliveries_pairwise g hG m _ (fun v hv => List.mem_range.1 hv)
    (List.sorted_lt_range _)
  rw [List.pairwise_iff_getElem] at hpair
  have hget : ∀ i (hi : i < (deliveries g m (List.range (numNodes g))).length),
      (deliveries g m (List.range (numNodes g))).getD i []
        = (deliveries g m (List.range (numNodes g)))[i] := by
    intro i hi
    simp [List.getD_eq_getElem?_getD, List.getElem?_eq_getElem hi]
  refine ⟨?_, ?_⟩
  · intro l hl
    rw [hget l hl]
    exact (hsound _ (List.getElem_mem hl)).1
  · intro i hi j hj hij hsub
    rw [hget i hi, hget j hj] at hsub
    have hMi := (hsound _ (List.getElem_mem hi)).2
    have hMj := (hsound _ (List.getElem_mem hj)).2
    rw [isMaximalClique_iff] at hMi hMj
    have hsame : SameVertexSet (deliveries g m (List.range (numNodes g)))[i]
        (deliveries g m (List.range (numNodes g)))[j] := by
      intro x
      constructor
      · intro hx
        by_contra hxj
        have hxr := hMi.1 x hx
        apply hMj.2.2 x hxr.1 hxr.2 hxj
        intro u hu
        exact hMi.2.1 x hx u (hsub u hu) (fun e => hxj (e ▸ hu))
      · exact hsub x
    rcases Nat.lt_or_gt_of_ne hij with h | h
    · exact hpair i j hi hj h hsame
    · exact hpair j i hj hi h (fun x => (hsame x).symm)

theorem error_of_error {α : Type} (E : Err → Prop) (e0 : Err) (he : E e0) :
    ∀ e, (Except.error e0 : Except Err α) = .error e → E e := by
  intro e h
  simp only [Except.error.injEq] at h
  rw [← h]
  exact he

theorem error_of_ok {α : Type} (E : Err → Prop) (a0 : α) :
    ∀ e, (Except.ok a0 : Except Err α) = .error e → E e := by
  intro e h
  simp at h

/-- A call of `mark_as_done` stops early only for want of fuel or at its assertion. -/
theorem mark_as_done_rec_errors :
    ∀ (fuel : Nat) (ab : assigned_branches_t) (b : Nat) (e : Err),
      mark_as_done_rec fuel ab b = .error e → e = .fuel ∨ e = .assertion .cp5_cpp 182 := by
  intro fuel
  induction fuel with
  | zero =>
    intro ab b e h
    simp only [mark_as_done_rec, Except.error.injEq] at h
    exact Or.inl h.symm
  | succ fuel ih =>
    intro ab b e h
    unfold mark_as_done_rec at h
    dsimp only at h
    split_ifs at h with h1 h2 h3 h4
    · cases hrec : mark_as_done_rec fuel
          { ab with assigned_branches := ab.assigned_branches.set b true } (b >>> 1) with
      | error e2 =>
        rw [hrec] at h
        simp only [Except.error.injEq] at h
        rw [← h]
        exact ih _ _ _ hrec
      | ok r =>
        rw [hrec] at h
        simp at h
    · simp only [Except.error.injEq] at h
      exact Or.inr h.symm

/-- On a list of distinct maximal cliques a search for the neighbours of one of them
does not stop at the assertion `actual < current_clique.size()`. -/
theorem recursive_search_not_248 (isf : intersecting_clique_finder) (q t : Nat)
    (the_cliques : List clique) (hdm : DistinctMaximal the_cliques)
    (hq : q < the_cliques.length) (level : components) (skip : Int) :
    ∀ (fuel b : Nat) (s : SearchState) (e : Err),
      recursive_search fuel isf b q t the_cliques level skip s = .error e →
      e ≠ .assertion .cp5_cpp 248 := by
  intro fuel
  induction fuel with
  | zero =>
    intro b s
    exact error_of_error _ _ (by simp)
  | succ fuel ih =>
    intro b s
    unfold recursive_search
    dsimp only
    by_cases h1 : s.assigned_branches.assigned_branches.getD b false = false
    swap
    · rw [if_pos h1]
      exact error_of_error _ _ (by simp)
    rw [if_neg (not_not.2 h1)]
    by_cases h2 : b ≥ isf.power_up
    · rw [if_pos h2]
      by_cases h3 : b - isf.power_up ≥ the_cliques.length
      · rw [if_pos h3]
        exact error_of_ok _ _
      rw [if_neg h3]
      cases hc : level.my_component_id (b - isf.power_up) with
      | error e =>
        dsimp only
        refine error_of_error _ _ ?_
        unfold components.my_component_id at hc
        split_ifs at hc
        simp only [Except.error.injEq] at hc
        rw [← hc]
        simp
      | ok id =>
        dsimp only
        by_cases h4 : id = skip
        · rw [if_pos h4]
          exact error_of_error _ _ (by simp)
        rw [if_neg h4]
        by_cases h5 : b - isf.power_up ≠ q
        swap
        · rw [if_pos h5]
          exact error_of_error _ _ (by simp)
        rw [if_neg (not_not.2 h5)]
        have h6 : actual_overlap (the_cliques.getD (b - isf.power_up) [])
            (the_cliques.getD q []) < (the_cliques.getD q []).length :=
          actual_overlap_lt _ _ (hdm.1 _ (by omega)) (hdm.1 q hq)
            (hdm.2 _ (by omega) q hq h5)
        rw [if_neg (not_not.2 h6)]
        by_cases h7 : actual_overlap (the_cliques.getD (b - isf.power_up) [])
            (the_cliques.getD q []) ≥ t
        · rw [if_pos h7]
          cases hm : s.assigned_branches.mark_as_done b with
          | error e =>
            dsimp only
            refine error_of_error _ _ ?_
            rcases mark_as_done_rec_errors _ _ _ _ hm with h | h <;> rw [h] <;> simp
          | ok r =>
            obtain ⟨k, ab'⟩ := r
            dsimp only
            exact error_of_ok _ _
        · rw [if_neg h7]
          exact error_of_ok _ _
    · rw [if_neg h2]
      by_cases h3 : b <<< 1 < 2147483648
      swap
      · rw [if_pos h3]
        exact error_of_error _ _ (by simp)
      rw [if_neg (not_not.2 h3)]
      have key : ∀ (c : Prop) [Decidable c] (b2 : Nat) (s1 : SearchState),
          ∀ e, (if c then recursive_search fuel isf b2 q t the_cliques level skip s1
              else .ok s1) = .error e → e ≠ .assertion .cp5_cpp 248 := by
        intro c _ b2 s1
        by_cases hc : c
        · rw [if_pos hc]
          exact ih b2 s1
        · rw [if_neg hc]
          exact error_of_ok _ _
      have hleft := key ((if s.assigned_branches.assigned_branches.getD (b <<< 1) false
              = true then 0 else isf.overlap_estimate (the_cliques.getD q []) (b <<< 1)) ≥ t)
        (b <<< 1) { s with searches_performed := s.searches_performed + 2 }
      generalize (if (if s.assigned_branches.assigned_branches.getD (b <<< 1) false
              = true then 0 else isf.overlap_estimate (the_cliques.getD q []) (b <<< 1)) ≥ t
            then recursive_search fuel isf (b <<< 1) q t the_cliques level skip
              { s with searches_performed := s.searches_performed + 2 }
            else .ok { s with searches_performed := s.searches_performed + 2 }) = after_left
        at hleft
      cases after_left with
      | error e =>
        dsimp only
        exact error_of_error _ _ (hleft e rfl)
      | ok s2 =>
        dsimp only
        exact key _ (b <<< 1 + 1) s2

/-! ## The overlap of two cliques -/

/-- C29 (the overlap of two different maximal cliques is a strict sub-clique): on a
graph that satisfies the Graph invariants and for `m ≥ 3`, for the cliques `a` and `q`
at two different positions of the vector that `cliquesToVector` fills,
`actual_overlap(a, q)` is the number of vertices of `a` that are in `q`, it is less
than the size of `q` and less than the size of `a`, and no search for the neighbours
of `q` in this vector stops at the assertion `actual < current_clique.size()`. -/
theorem overlap_of_distinct_cliques_is_strict (g : SimpleIntGraph) (hG : GraphInvariants g)
    (m : Nat) (hm : 3 ≤ m) (i j : Nat) (hi : i < (cliquesToVector g m []).1.length)
    (hj : j < (cliquesToVector g m []).1.length) (hij : i ≠ j) :
    actual_overlap ((cliquesToVector g m []).1.getD i []) ((cliquesToVector g m []).1.getD j [])
        = (((cliquesToVector g m []).1.getD i []).filter
            (fun v => decide (v ∈ (cliquesToVector g m []).1.getD j []))).length ∧
      actual_overlap ((cliquesToVector g m []).1.getD i [])
          ((cliquesToVector g m []).1.getD j [])
        < ((cliquesToVector g m []).1.getD j []).length ∧
      actual_overlap ((cliquesToVector g m []).1.getD i [])
          ((cliquesToVector g m []).1.getD j [])
        < ((cliquesToVector g m []).1.getD i []).length ∧
      ∀ (fuel : Nat) (isf : intersecting_clique_finder) (b t : Nat) (level : components)
        (skip : Int) (s : SearchState),
        recursive_search fuel isf b j t (cliquesToVector g m []).1 level skip s
          ≠ .error (.assertion .cp5_cpp 248) := by
  have hdm := cliquesToVector_distinct_maximal g hG m hm
  refine ⟨actual_overlap_eq_filter _ _ (hdm.1 i hi) (hdm.1 j hj),
    actual_overlap_lt _ _ (hdm.1 i hi) (hdm.1 j hj) (hdm.2 i hi j hj hij),
    small_overlap_lt _ hdm i j hi hj hij, ?_⟩
  intro fuel isf b t level skip s h
  exact recursive_search_not_248 isf j t _ hdm hj level skip fuel b s _ h rfl

/-- C29 on the two triangles of the bow-tie. -/
theorem overlap_of_distinct_cliques_is_strict_witness :
    (GraphInvariants bow_tie ∧ 3 ≤ 3 ∧ 0 < (cliquesToVector bow_tie 3 []).1.length ∧
        1 < (cliquesToVector bow_tie 3 []).1.length ∧ 0 ≠ 1) ∧
      (actual_overlap ((cliquesToVector bow_tie 3 []).1.getD 0 [])
          ((cliquesToVector bow_tie 3 []).1.getD 1 [])
          = (((cliquesToVector bow_tie 3 []).1.getD 0 []).filter
              (fun v => decide (v ∈ (cliquesToVector bow_tie 3 []).1.getD 1 []))).length ∧
        actual_overlap ((cliquesToVector bow_tie 3 []).1.getD 0 [])
            ((cliquesToVector bow_tie 3 []).1.getD 1 [])
          < ((cliquesToVector bow_tie 3 []).1.getD 1 []).length ∧
        actual_overlap ((cliquesToVector bow_tie 3 []).1.getD 0 [])
            ((cliquesToVector bow_tie 3 []).1.getD 1 [])
          < ((cliquesToVector bow_tie 3 []).1.getD 0 []).length ∧
        ∀ (fuel : Nat) (isf : intersecting_clique_finder) (b t : Nat) (level : components)
          (skip : Int) (s : SearchState),
          recursive_search fuel isf b 1 t (cliquesToVector bow_tie 3 []).1 level skip s
            ≠ .error (.assertion .cp5_cpp 248)) :=
  ⟨⟨by decide, by decide, by decide, by decide, by decide⟩,
    overlap_of_distinct_cliques_is_strict bow_tie (by decide) 3 (by decide) 0 1 (by decide)
      (by decide) (by decide)⟩

/-! ## The record of a percolation level -/

/-- Without its record `move_in_traced` is `move_in`. -/
theorem move_in_traced_snd (src d : Int) :
    ∀ (Fnd F : List Nat) (level : components),
      (move_in_traced src d Fnd F level).2 = move_in src d Fnd F level := by
  intro Fnd
  induction Fnd with
  | nil => intro F level; rfl
  | cons x rest ih =>
    intro F level
    unfold move_in_traced move_in
    cases level.my_component_id x with
    | error e => rfl
    | ok id =>
      simp only
      split
      · rfl
      · exact ih _ _

/-- Without its record `grow_community_traced` is `grow_community`. -/
theorem grow_community_traced_snd (t : Nat) (the_cliques : List clique) (P : Nat)
    (isf : intersecting_clique_finder) (src d : Int) :
    ∀ (fuel : Nat) (F : List Nat) (level : components) (ab : assigned_branches_t),
      (grow_community_traced t the_cliques P isf src d fuel F level ab).2
        = grow_community t the_cliques P isf src d fuel F level ab := by
  intro fuel
  induction fuel with
  | zero => intro F level ab; rfl
  | succ fuel ih =>
    intro F level ab
    cases F with
    | nil => rfl
    | cons q tail =>
      unfold grow_community_traced grow_community
      cases ab.mark_as_done (P + q) with
      | error e => rfl
      | ok r =>
        obtain ⟨k, ab1⟩ := r
        simp only
        cases level.my_component_id q with
        | error e => rfl
        | ok id =>
          simp only
          split
          · rfl
          cases neighbours_of_one_clique the_cliques q level t d isf ⟨0, [], ab1⟩ with
          | error e => rfl
          | ok s =>
            simp only
            have hm := move_in_traced_snd src d s.cliques_found tail level
            rcases hc : move_in_traced src d s.cliques_found tail level with ⟨ev1, r1⟩
            rw [hc] at hm
            simp only at hm
            rw [← hm]
            cases r1 with
            | error e => rfl
            | ok r =>
              obtain ⟨F2, level2⟩ := r
              simp only
              split
              · rfl
              · exact ih _ _ _

/-- Without its record `drain_source_traced` is `drain_source`. -/
theorem drain_source_traced_snd (t : Nat) (the_cliques : List clique) (P : Nat)
    (isf : intersecting_clique_finder) (src : Int) :
    ∀ (fuel : Nat) (found : List Int) (level : components) (ab : assigned_branches_t),
      (drain_source_traced t the_cliques P isf src fuel found level ab).2
        = drain_source t the_cliques P isf src fuel found level ab := by
  intro fuel
  induction fuel with
  | zero => intro found level ab; rfl
  | succ fuel ih =>
    intro found level ab
    unfold drain_source_traced drain_source
    simp only
    cases level.get_members src with
    | error e => rfl
    | ok members =>
      cases members with
      | nil => rfl
      | cons seed ms =>
        simp only
        split
        · rfl
        split
        · rfl
        cases level.get_members level.top_empty_component with
        | error e => rfl
        | ok grown =>
          simp only
          split
          · rfl
          have hg := grow_community_traced_snd t the_cliques P isf src level.top_empty_component
            (the_cliques.length + 1) [seed] (level.move_node seed level.top_empty_component) ab
          rcases hc : grow_community_traced t the_cliques P isf src level.top_empty_component
            (the_cliques.length + 1) [seed] (level.move_node seed level.top_empty_component) ab
            with ⟨ev2, r2⟩
          rw [hc] at hg
          simp only at hg
          rw [← hg]
          cases r2 with
          | error e => rfl
          | ok r =>
            obtain ⟨level2, ab2⟩ := r
            simp only
            cases level2.get_members level.top_empty_component with
            | error e => rfl
            | ok _ =>
              simp only
              exact ih _ _ _

/-- Without its record `one_k_sources_traced` is `one_k_sources`. -/
theorem one_k_sources_traced_snd (t : Nat) (the_cliques : List clique) (P : Nat)
    (isf : intersecting_clique_finder) :
    ∀ (srcs found : List Int) (level : components) (ab : assigned_branches_t),
      (one_k_sources_traced t the_cliques P isf srcs found level ab).2
        = one_k_sources t the_cliques P isf srcs found level ab := by
  intro srcs
  induction srcs with
  | nil => intro found level ab; rfl
  | cons src rest ih =>
    intro found level ab
    unfold one_k_sources_traced one_k_sources
    have hd := drain_source_traced_snd t the_cliques P isf src (the_cliques.length + 1) found
      level ab
    rcases hc : drain_source_traced t the_cliques P isf src (the_cliques.length + 1) found
      level ab with ⟨ev1, r1⟩
    rw [hc] at hd
    simp only at hd
    rw [← hd]
    cases r1 with
    | error e => rfl
    | ok r =>
      obtain ⟨found1, level1, ab1⟩ := r
      simp only
      exact ih _ _ _

/-- Without its record `one_k_traced` is `one_k`. -/
theorem one_k_traced_snd (found cands : List Int) (level : components) (t : Nat)
    (the_cliques : List clique) (P C : Nat) (isf : intersecting_clique_finder) :
    (one_k_traced found cands level t the_cliques P C isf).2
      = one_k found cands level t the_cliques P C isf := by
  unfold one_k_traced one_k
  split
  · rfl
  cases assigned_branches_t.create P C with
  | error e => rfl
  | ok ab0 =>
    simp only
    cases premark_small the_cliques t P (List.range C) ab0 with
    | error e => rfl
    | ok ab =>
      simp only
      have hs := one_k_sources_traced_snd t the_cliques P isf cands.reverse found level ab
      rcases hc : one_k_sources_traced t the_cliques P isf cands.reverse found level ab
        with ⟨ev, r⟩
      rw [hc] at hs
      simp only at hs
      rw [← hs]
      cases r with
      | error e => rfl
      | ok r =>
        obtain ⟨f, lv, ab'⟩ := r
        rfl

/-- Without its record `percolation_levels_traced` is `percolation_levels`. -/
theorem percolation_levels_traced_snd (l : Nat) (h : Int → Nat) (the_cliques : List clique)
    (P C max_k : Nat) :
    ∀ (ks : List Nat) (srcs : List Int) (level : components) (completed : List Level),
      (percolation_levels_traced l h the_cliques P C max_k ks srcs level completed).2
        = percolation_levels l h the_cliques P C max_k ks srcs level completed := by
  intro ks
  induction ks with
  | nil => intro srcs level completed; rfl
  | cons k ks ih =>
    intro srcs level completed
    unfold percolation_levels_traced percolation_levels
    simp only
    have ho := one_k_traced_snd [] srcs level (k - 1) the_cliques P C
      (populate the_cliques (k - 1) P (List.range C) (intersecting_clique_finder.create l h P))
    rcases hc : one_k_traced [] srcs level (k - 1) the_cliques P C
      (populate the_cliques (k - 1) P (List.range C) (intersecting_clique_finder.create l h P))
      with ⟨ev, r⟩
    rw [hc] at ho
    simp only at ho
    rw [← ho]
    cases r with
    | error e => rfl
    | ok r =>
      obtain ⟨found, level1⟩ := r
      simp only
      cases write_all_communities_for_this_k level1 the_cliques found with
      | error e => rfl
      | ok lines =>
        simp only
        split
        · rfl
        cases next_sources the_cliques (k + 1) level1 found [] (components.empty.setN C) with
        | error e => rfl
        | ok r =>
          obtain ⟨srcs1, nl1⟩ := r
          simp only
          exact ih _ _ _

/-- Without its record `do_clique_percolation_variant_5b_traced` is
`do_clique_percolation_variant_5b`. -/
theorem percolation_traced_snd (l : Nat) (h : Int → Nat) (min_k max_k : Nat)
    (the_cliques : List clique) :
    (do_clique_percolation_variant_5b_traced l h min_k max_k the_cliques).2
      = do_clique_percolation_variant_5b l h min_k max_k the_cliques := by
  unfold do_clique_percolation_variant_5b_traced do_clique_percolation_variant_5b
  split
  · rfl
  simp only
  split
  · rfl
  split
  · rfl
  cases power_up_loop 64 1 (the_cliques.length : Int) with
  | error e => rfl
  | ok p =>
    simp only
    split
    · rfl
    exact percolation_levels_traced_snd _ _ _ _ _ _ _ _ _ _

/-! ## What holds of one level in every state

The lemmas of this section make no assumption on the Components, the assigned
branches or the bloom index with which the functions are entered. -/

/-- After a call of `mark_as_done` that has returned the branch is marked. -/
theorem mark_as_done_rec_done :
    ∀ (fuel : Nat) (ab : assigned_branches_t) (b k : Nat) (ab' : assigned_branches_t),
      mark_as_done_rec fuel ab b = .ok (k, ab') → ab'.done b = true := by
  intro fuel ab b k ab' h
  cases fuel with
  | zero => simp [mark_as_done_rec] at h
  | succ fuel =>
    unfold mark_as_done_rec at h
    dsimp only at h
    split_ifs at h with h1 h2 h3 h4
    · have hb : ({ ab with assigned_branches := ab.assigned_branches.set b true } :
          assigned_branches_t).done b = true := by
        rw [done_set ab b b h1.2]
        simp
      cases hrec : mark_as_done_rec fuel
          { ab with assigned_branches := ab.assigned_branches.set b true } (b >>> 1) with
      | error e => rw [hrec] at h; simp at h
      | ok r =>
        obtain ⟨k2, ab2⟩ := r
        rw [hrec] at h
        simp only [Except.ok.injEq, Prod.mk.injEq] at h
        rw [← h.2]
        exact mark_as_done_rec_mono _ _ _ _ _ hrec b hb
    · simp only [Except.ok.injEq, Prod.mk.injEq] at h
      rw [← h.2, done_set ab b b h1.2]
      simp
    · simp only [Except.ok.injEq, Prod.mk.injEq] at h
      rw [← h.2, done_set ab b b h1.2]
      simp
    · simp only [Except.ok.injEq, Prod.mk.injEq] at h
      rw [← h.2]
      unfold assigned_branches_t.done
      simpa using h2

/-- With more fuel than the branch id `mark_as_done` does not run out of fuel. -/
theorem mark_as_done_rec_no_fuel :
    ∀ (fuel : Nat) (ab : assigned_branches_t) (b : Nat), b < fuel →
      mark_as_done_rec fuel ab b ≠ .error .fuel := by
  intro fuel
  induction fuel with
  | zero => intro ab b hb; omega
  | succ fuel ih =>
    intro ab b hb h
    unfold mark_as_done_rec at h
    dsimp only at h
    split_ifs at h with h1 h2 h3 h4
    · have hlt : b >>> 1 < fuel := by
        rw [Nat.shiftRight_eq_div_pow]
        omega
      cases hrec : mark_as_done_rec fuel
          { ab with assigned_branches := ab.assigned_branches.set b true } (b >>> 1) with
      | error e =>
        rw [hrec] at h
        simp only [Except.error.injEq] at h
        rw [h] at hrec
        exact ih _ _ hlt hrec
      | ok r =>
        rw [hrec] at h
        simp at h
    · simp at h

theorem mark_as_done_no_fuel (ab : assigned_branches_t) (b : Nat) :
    ab.mark_as_done b ≠ .error .fuel :=
  mark_as_done_rec_no_fuel (b + 1) ab b (by omega)

/-- What a search appends, in every state: cliques of the list, each once, whose leaf
was not marked before the search and is marked after it; and no mark is taken away. -/
theorem recursive_search_found (isf : intersecting_clique_finder) (q t : Nat)
    (the_cliques : List clique) (level : components) (skip : Int) :
    ∀ (fuel b : Nat) (s s' : SearchState),
      recursive_search fuel isf b q t the_cliques level skip s = .ok s' →
      ∃ F, s'.cliques_found = s.cliques_found ++ F ∧ F.Nodup ∧
        (∀ l ∈ F, l < the_cliques.length ∧
          s.assigned_branches.done (isf.power_up + l) = false ∧
          s'.assigned_branches.done (isf.power_up + l) = true) ∧
        ∀ x, s.assigned_branches.done x = true → s'.assigned_branches.done x = true := by
  intro fuel
  induction fuel with
  | zero => intro b s s' h; simp [recursive_search] at h
  | succ fuel ih =>
    intro b s s' h
    have hmono := (recursive_search_mono isf q t the_cliques level skip (fuel + 1) b s).1 s' h
    unfold recursive_search at h
    dsimp only at h
    by_cases h1 : s.assigned_branches.assigned_branches.getD b false = false
    swap
    · rw [if_pos h1] at h
      simp at h
    rw [if_neg (not_not.2 h1)] at h
    by_cases h2 : b ≥ isf.power_up
    · rw [if_pos h2] at h
      by_cases h3 : b - isf.power_up ≥ the_cliques.length
      · rw [if_pos h3] at h
        simp only [Except.ok.injEq] at h
        rw [← h]
        exact ⟨[], by simp, List.nodup_nil, by simp, fun x hx => hx⟩
      rw [if_neg h3] at h
      cases hc : level.my_component_id (b - isf.power_up) with
      | error e => rw [hc] at h; simp at h
      | ok id =>
        rw [hc] at h
        dsimp only at h
        split_ifs at h with h4 h5 h6 h7
        · cases hm : s.assigned_branches.mark_as_done b with
          | error e => rw [hm] at h; simp at h
          | ok r =>
            obtain ⟨k, ab'⟩ := r
            rw [hm] at h
            simp only [Except.ok.injEq] at h
            refine ⟨[b - isf.power_up], by rw [← h], List.nodup_singleton _, ?_, hmono⟩
            intro l hl
            have hle : l = b - isf.power_up := by simpa using hl
            have hb : isf.power_up + l = b := by omega
            rw [hb]
            refine ⟨by omega, h1, ?_⟩
            rw [← h]
            exact mark_as_done_rec_done _ _ _ _ _ hm
        · simp only [Except.ok.injEq] at h
          rw [← h]
          exact ⟨[], by simp, List.nodup_nil, by simp, fun x hx => hx⟩
    · rw [if_neg h2] at h
      by_cases h3 : b <<< 1 < 2147483648
      swap
      · rw [if_pos h3] at h
        simp at h
      rw [if_neg (not_not.2 h3)] at h
      have key : ∀ (c : Prop) [Decidable c] (b2 : Nat) (s1 s2 : SearchState),
          (if c then recursive_search fuel isf b2 q t the_cliques level skip s1
              else .ok s1) = .ok s2 →
          ∃ F, s2.cliques_found = s1.cliques_found ++ F ∧ F.Nodup ∧
            (∀ l ∈ F, l < the_cliques.length ∧
              s1.assigned_branches.done (isf.power_up + l) = false ∧
              s2.assigned_branches.done (isf.power_up + l) = true) ∧
            ∀ x, s1.assigned_branches.done x = true → s2.assigned_branches.done x = true := by
        intro c _ b2 s1 s2 hc
        by_cases hcc : c
        · rw [if_pos hcc] at hc
          exact ih b2 s1 s2 hc
        · rw [if_neg hcc] at hc
          simp only [Except.ok.injEq] at hc
          rw [← hc]
          exact ⟨[], by simp, List.nodup_nil, by simp, fun x hx => hx⟩
      generalize hal : (if (if s.assigned_branches.assigned_branches.getD (b <<< 1) false
              = true then 0 else isf.overlap_estimate (the_cliques.getD q []) (b <<< 1)) ≥ t
            then recursive_search fuel isf (b <<< 1) q t the_cliques level skip
              { s with searches_performed := s.searches_performed + 2 }
            else .ok { s with searches_performed := s.searches_performed + 2 }) = after_left
        at h
      cases after_left with
      | error e => simp at h
      | ok s2 =>
        dsimp only at h
        obtain ⟨F1, hf1, hn1, hp1, hm1⟩ := key _ _ _ _ hal
        obtain ⟨F2, hf2, hn2, hp2, hm2⟩ := key _ _ _ _ h
        refine ⟨F1 ++ F2, ?_, ?_, ?_, hmono⟩
        · rw [hf2, hf1, List.append_assoc]
        · rw [List.nodup_append]
          refine ⟨hn1, hn2, ?_⟩
          intro l hl1 hl2
          have := (hp1 l hl1).2.2
          rw [(hp2 l hl2).2.1] at this
          exact absurd this (by simp)
        · intro l hl
          rcases List.mem_append.1 hl with hl | hl
          · obtain ⟨a1, a2, a3⟩ := hp1 l hl
            exact ⟨a1, a2, hm2 _ a3⟩
          · obtain ⟨a1, a2, a3⟩ := hp2 l hl
            refine ⟨a1, ?_, a3⟩
            by_contra hc
            have hd : s.assigned_branches.done (isf.power_up + l) = true := by simpa using hc
            have := hm1 _ hd
            rw [a2] at this
            exact absurd this (by simp)

/-- Two calls of `recursive_search` on the same branch with different fuel agree when
the calls on the two children do. -/
theorem recursive_search_congr (isf : intersecting_clique_finder) (q t : Nat)
    (the_cliques : List clique) (level : components) (skip : Int) (f1 f2 b : Nat)
    (hchild : b < isf.power_up → ∀ (c : Nat) (s' : SearchState), c = b <<< 1 ∨ c = b <<< 1 + 1 →
      recursive_search f1 isf c q t the_cliques level skip s'
        = recursive_search f2 isf c q t the_cliques level skip s')
    (s : SearchState) :
    recursive_search (f1 + 1) isf b q t the_cliques level skip s
      = recursive_search (f2 + 1) isf b q t the_cliques level skip s := by
  unfold recursive_search
  dsimp only
  by_cases h2 : b ≥ isf.power_up
  · simp only [if_pos h2]
  · simp only [if_neg h2]
    have hc := hchild (by omega)
    simp only [hc (b <<< 1) _ (Or.inl rfl), hc (b <<< 1 + 1) _ (Or.inr rfl)]

theorem shiftLeft_one_eq (b : Nat) : b <<< 1 = 2 * b := by
  rw [Nat.shiftLeft_eq]
  omega

theorem child_pow (P b n : Nat) (h : P ≤ b * 2 ^ (n + 1)) :
    P ≤ b <<< 1 * 2 ^ n ∧ P ≤ (b <<< 1 + 1) * 2 ^ n := by
  rw [shiftLeft_one_eq]
  have e1 : b * 2 ^ (n + 1) = 2 * b * 2 ^ n := by rw [pow_succ]; ring
  rw [e1] at h
  exact ⟨h, h.trans (Nat.mul_le_mul_right _ (by omega))⟩

/-- The result of `recursive_search` on the branch `b` is the same for every fuel `n + 1`
with `power_up ≤ b * 2^n`: from `b` the search descends at most `n` levels. -/
theorem recursive_search_fuel_eq (isf : intersecting_clique_finder) (q t : Nat)
    (the_cliques : List clique) (level : components) (skip : Int) :
    ∀ (n n' b : Nat) (s : SearchState), isf.power_up ≤ b * 2 ^ n → isf.power_up ≤ b * 2 ^ n' →
      recursive_search (n + 1) isf b q t the_cliques level skip s
        = recursive_search (n' + 1) isf b q t the_cliques level skip s := by
  intro n
  induction n with
  | zero =>
    intro n' b s h1 _
    apply recursive_search_congr
    intro hb
    simp only [pow_zero, Nat.mul_one] at h1
    omega
  | succ n ih =>
    intro n' b s h1 h2
    cases n' with
    | zero =>
      apply recursive_search_congr
      intro hb
      simp only [pow_zero, Nat.mul_one] at h2
      omega
    | succ n' =>
      apply recursive_search_congr
      intro _ c s' hc
      apply ih n' c s'
      · rcases hc with hc | hc <;> rw [hc]
        · exact (child_pow _ _ _ h1).1
        · exact (child_pow _ _ _ h1).2
      · rcases hc with hc | hc <;> rw [hc]
        · exact (child_pow _ _ _ h2).1
        · exact (child_pow _ _ _ h2).2

/-- A search at a leaf does not stop for want of fuel. -/
theorem search_leaf_no_fuel (the_cliques : List clique) (level : components) (skip : Int)
    (q t P b : Nat) (s : SearchState) :
    ∀ e, (if b - P ≥ the_cliques.length then Except.ok s
      else
        match level.my_component_id (b - P) with
        | .error e => .error e
        | .ok component_id_of_leaf =>
          if component_id_of_leaf = skip then .error (.assertion .cp5_cpp 241)
          else
            if ¬ (b - P ≠ q) then .error (.assertion .cp5_cpp 247)
            else if ¬ (actual_overlap (the_cliques.getD (b - P) []) (the_cliques.getD q [])
                < (the_cliques.getD q []).length) then .error (.assertion .cp5_cpp 248)
            else if actual_overlap (the_cliques.getD (b - P) []) (the_cliques.getD q []) ≥ t then
              match s.assigned_branches.mark_as_done b with
              | .error e => .error e
              | .ok (_, ab) =>
                .ok { s with
                  cliques_found := s.cliques_found ++ [b - P]
                  assigned_branches := ab }
            else .ok s) = .error e → e ≠ .fuel := by
  by_cases h3 : b - P ≥ the_cliques.length
  · rw [if_pos h3]
    exact error_of_ok _ _
  rw [if_neg h3]
  cases hc : level.my_component_id (b - P) with
  | error e =>
    dsimp only
    refine error_of_error _ _ ?_
    unfold components.my_component_id at hc
    split_ifs at hc
    simp only [Except.error.injEq] at hc
    rw [← hc]
    simp
  | ok id =>
    dsimp only
    by_cases h4 : id = skip
    · rw [if_pos h4]
      exact error_of_error _ _ (by simp)
    rw [if_neg h4]
    by_cases h5 : b - P ≠ q
    swap
    · rw [if_pos h5]
      exact error_of_error _ _ (by simp)
    rw [if_neg (not_not.2 h5)]
    by_cases h6 : actual_overlap (the_cliques.getD (b - P) []) (the_cliques.getD q [])
        < (the_cliques.getD q []).length
    swap
    · rw [if_pos h6]
      exact error_of_error _ _ (by simp)
    rw [if_neg (not_not.2 h6)]
    by_cases h7 : actual_overlap (the_cliques.getD (b - P) []) (the_cliques.getD q []) ≥ t
    · rw [if_pos h7]
      cases hm : s.assigned_branches.mark_as_done b with
      | error e =>
        dsimp only
        refine error_of_error _ _ ?_
        intro he
        rw [he] at hm
        exact mark_as_done_no_fuel _ _ hm
      | ok r => exact error_of_ok _ _
    · rw [if_neg h7]
      exact error_of_ok _ _

/-- With the fuel `n + 1`, where `power_up ≤ b * 2^n`, the search from the branch `b`
does not run out of fuel. -/
theorem recursive_search_no_fuel (isf : intersecting_clique_finder) (q t : Nat)
    (the_cliques : List clique) (level : components) (skip : Int) :
    ∀ (n b : Nat) (s : SearchState), isf.power_up ≤ b * 2 ^ n →
      ∀ e, recursive_search (n + 1) isf b q t the_cliques level skip s = .error e →
        e ≠ .fuel := by
  intro n
  induction n with
  | zero =>
    intro b s hb
    simp only [pow_zero, Nat.mul_one] at hb
    unfold recursive_search
    dsimp only
    by_cases h1 : s.assigned_branches.assigned_branches.getD b false = false
    swap
    · rw [if_pos h1]
      exact error_of_error _ _ (by simp)
    rw [if_neg (not_not.2 h1), if_pos hb]
    exact search_leaf_no_fuel _ _ _ _ _ _ _ _
  | succ n ih =>
    intro b s hb
    unfold recursive_search
    dsimp only
    by_cases h1 : s.assigned_branches.assigned_branches.getD b false = false
    swap
    · rw [if_pos h1]
      exact error_of_error _ _ (by simp)
    rw [if_neg (not_not.2 h1)]
    by_cases h2 : b ≥ isf.power_up
    · rw [if_pos h2]
      exact search_leaf_no_fuel _ _ _ _ _ _ _ _
    · rw [if_neg h2]
      by_cases h3 : b <<< 1 < 2147483648
      swap
      · rw [if_pos h3]
        exact error_of_error _ _ (by simp)
      rw [if_neg (not_not.2 h3)]
      have hpow := child_pow _ _ _ hb
      have key : ∀ (c : Prop) [Decidable c] (b2 : Nat) (s1 : SearchState),
          isf.power_up ≤ b2 * 2 ^ n →
          ∀ e, (if c then recursive_search (n + 1) isf b2 q t the_cliques level skip s1
              else .ok s1) = .error e → e ≠ .fuel := by
        intro c _ b2 s1 hb2
        by_cases hc : c
        · rw [if_pos hc]
          exact ih b2 s1 hb2
        · rw [if_neg hc]
          exact error_of_ok _ _
      have hleft := key ((if s.assigned_branches.assigned_branches.getD (b <<< 1) false
              = true then 0 else isf.overlap_estimate (the_cliques.getD q []) (b <<< 1)) ≥ t)
        (b <<< 1) { s with searches_performed := s.searches_performed + 2 } hpow.1
      generalize (if (if s.assigned_branches.assigned_branches.getD (b <<< 1) false
              = true then 0 else isf.overlap_estimate (the_cliques.getD q []) (b <<< 1)) ≥ t
            then recursive_search (n + 1) isf (b <<< 1) q t the_cliques level skip
              { s with searches_performed := s.searches_performed + 2 }
            else .ok { s with searches_performed := s.searches_performed + 2 }) = after_left
        at hleft
      cases after_left with
      | error e =>
        dsimp only
        exact error_of_error _ _ (hleft e rfl)
      | ok s2 =>
        dsimp only
        exact key _ (b <<< 1 + 1) s2 hpow.2

/-- The search that `neighbours_of_one_clique` starts at the root with the fuel
`power_up` does not run out of fuel, and what it finds are cliques of the list, each
once, whose leaf was not marked before and is marked after. -/
theorem neighbours_of_one_clique_found (isf : intersecting_clique_finder) (q t : Nat)
    (the_cliques : List clique) (level : components) (skip : Int) (hP : 1 ≤ isf.power_up)
    (s : SearchState) :
    neighbours_of_one_clique the_cliques q level t skip isf s ≠ .error .fuel ∧
      ∀ s', neighbours_of_one_clique the_cliques q level t skip isf s = .ok s' →
        ∃ F, s'.cliques_found = s.cliques_found ++ F ∧ F.Nodup ∧
          (∀ l ∈ F, l < the_cliques.length ∧
            s.assigned_branches.done (isf.power_up + l) = false ∧
            s'.assigned_branches.done (isf.power_up + l) = true) ∧
          ∀ x, s.assigned_branches.done x = true → s'.assigned_branches.done x = true := by
  unfold neighbours_of_one_clique
  cases hc : level.my_component_id q with
  | error e =>
    simp only
    refine ⟨?_, by simp⟩
    unfold components.my_component_id at hc
    split_ifs at hc
    simp only [Except.error.injEq] at hc
    rw [← hc]
    simp
  | ok id =>
    simp only
    split
    · exact ⟨by simp, by simp⟩
    split
    · constructor
      · intro h
        obtain ⟨n, hn⟩ : ∃ n, isf.power_up = n + 1 := ⟨isf.power_up - 1, by omega⟩
        rw [hn] at h
        refine recursive_search_no_fuel isf q t the_cliques level skip n 1 s ?_ _ h rfl
        rw [hn, Nat.one_mul]
        exact Nat.lt_two_pow n
      · intro s' h
        exact recursive_search_found isf q t the_cliques level skip _ _ _ _ h
    · refine ⟨by simp, ?_⟩
      intro s' h
      simp only [Except.ok.injEq] at h
      rw [← h]
      exact ⟨[], by simp, List.nodup_nil, by simp, fun x hx => hx⟩

theorem my_component_id_error (c : components) (n : Nat) (e : Err)
    (h : c.my_component_id n = .error e) : e = .assertion .components_hpp 21 := by
  unfold components.my_component_id at h
  split_ifs at h
  simp only [Except.error.injEq] at h
  exact h.symm

theorem mark_as_done_error_mem (ab : assigned_branches_t) (b : Nat) (e : Err)
    (h : ab.mark_as_done b = .error e) : e ∈ search_errors := by
  rcases mark_as_done_rec_errors _ _ _ _ h with h | h <;> rw [h] <;> simp [search_errors]

/-- A search stops early only at one of its own assertions, at the assertions of
`my_component_id` and `mark_as_done`, or for want of fuel. -/
theorem recursive_search_error_mem (isf : intersecting_clique_finder) (q t : Nat)
    (the_cliques : List clique) (level : components) (skip : Int) :
    ∀ (fuel b : Nat) (s : SearchState) (e : Err),
      recursive_search fuel isf b q t the_cliques level skip s = .error e →
      e ∈ search_errors := by
  intro fuel
  induction fuel with
  | zero =>
    intro b s
    exact error_of_error _ _ (by simp [search_errors])
  | succ fuel ih =>
    intro b s
    unfold recursive_search
    dsimp only
    by_cases h1 : s.assigned_branches.assigned_branches.getD b false = false
    swap
    · rw [if_pos h1]
      exact error_of_error _ _ (by simp [search_errors])
    rw [if_neg (not_not.2 h1)]
    by_cases h2 : b ≥ isf.power_up
    · rw [if_pos h2]
      by_cases h3 : b - isf.power_up ≥ the_cliques.length
      · rw [if_pos h3]
        exact error_of_ok _ _
      rw [if_neg h3]
      cases hc : level.my_component_id (b - isf.power_up) with
      | error e =>
        dsimp only
        refine error_of_error _ _ ?_
        rw [my_component_id_error _ _ _ hc]
        simp [search_errors]
      | ok id =>
        dsimp only
        by_cases h4 : id = skip
        · rw [if_pos h4]
          exact error_of_error _ _ (by simp [search_errors])
        rw [if_neg h4]
        by_cases h5 : b - isf.power_up ≠ q
        swap
        · rw [if_pos h5]
          exact error_of_error _ _ (by simp [search_errors])
        rw [if_neg (not_not.2 h5)]
        by_cases h6 : actual_overlap (the_cliques.getD (b - isf.power_up) [])
            (the_cliques.getD q []) < (the_cliques.getD q []).length
        swap
        · rw [if_pos h6]
          exact error_of_error _ _ (by simp [search_errors])
        rw [if_neg (not_not.2 h6)]
        by_cases h7 : actual_overlap (the_cliques.getD (b - isf.power_up) [])
            (the_cliques.getD q []) ≥ t
        · rw [if_pos h7]
          cases hm : s.assigned_branches.mark_as_done b with
          | error e =>
            dsimp only
            exact error_of_error _ _ (mark_as_done_error_mem _ _ _ hm)
          | ok r => exact error_of_ok _ _
        · rw [if_neg h7]
          exact error_of_ok _ _
    · rw [if_neg h2]
      by_cases h3 : b <<< 1 < 2147483648
      swap
      · rw [if_pos h3]
        exact error_of_error _ _ (by simp [search_errors])
      rw [if_neg (not_not.2 h3)]
      have key : ∀ (c : Prop) [Decidable c] (b2 : Nat) (s1 : SearchState),
          ∀ e, (if c then recursive_search fuel isf b2 q t the_cliques level skip s1
              else .ok s1) = .error e → e ∈ search_errors := by
        intro c _ b2 s1
        by_cases hc : c
        · rw [if_pos hc]
          exact ih b2 s1
        · rw [if_neg hc]
          exact error_of_ok _ _
      have hleft := key ((if s.assigned_branches.assigned_branches.getD (b <<< 1) false
              = true then 0 else isf.overlap_estimate (the_cliques.getD q []) (b <<< 1)) ≥ t)
        (b <<< 1) { s with searches_performed := s.searches_performed + 2 }
      generalize (if (if s.assigned_branches.assigned_branches.getD (b <<< 1) false
              = true then 0 else isf.overlap_estimate (the_cliques.getD q []) (b <<< 1)) ≥ t
            then recursive_search fuel isf (b <<< 1) q t the_cliques level skip
              { s with searches_performed := s.searches_performed + 2 }
            else .ok { s with searches_performed := s.searches_performed + 2 }) = after_left
        at hleft
      cases after_left with
      | error e =>
        dsimp only
        exact error_of_error _ _ (hleft e rfl)
      | ok s2 =>
        dsimp only
        exact key _ (b <<< 1 + 1) s2

theorem neighbours_error_mem (isf : intersecting_clique_finder) (q t : Nat)
    (the_cliques : List clique) (level : components) (skip : Int) (s : SearchState) (e : Err)
    (h : neighbours_of_one_clique the_cliques q level t skip isf s = .error e) :
    e ∈ search_errors := by
  unfold neighbours_of_one_clique at h
  cases hc : level.my_component_id q with
  | error e2 =>
    rw [hc] at h
    simp only [Except.error.injEq] at h
    rw [← h, my_component_id_error _ _ _ hc]
    simp [search_errors]
  | ok id =>
    rw [hc] at h
    simp only at h
    by_cases h1 : skip = id
    swap
    · rw [if_pos h1] at h
      simp only [Except.error.injEq] at h
      rw [← h]
      simp [search_errors]
    rw [if_neg (not_not.2 h1)] at h
    split_ifs at h
    exact recursive_search_error_mem _ _ _ _ _ _ _ _ _ _ h

theorem pushed_cliques_append (a b : List LevelEvent) :
    pushed_cliques (a ++ b) = pushed_cliques a ++ pushed_cliques b := by
  induction a with
  | nil => rfl
  | cons e a ih =>
    cases e <;> simp [pushed_cliques, ih]

/-- What `move_in` pushes, in every state: the cliques found, in order, up to the one at
which it stops. -/
theorem move_in_traced_universal (src d : Int) :
    ∀ (Fnd F : List Nat) (level : components),
      (∃ rest, Fnd = pushed_cliques (move_in_traced src d Fnd F level).1 ++ rest) ∧
      (∀ e, (move_in_traced src d Fnd F level).2 = .error e →
        e = .assertion .components_hpp 21 ∨ e = .assertion .cp5_cpp 507) ∧
      ∀ F2 level2, (move_in_traced src d Fnd F level).2 = .ok (F2, level2) →
        F2 = Fnd.reverse ++ F ∧ pushed_cliques (move_in_traced src d Fnd F level).1 = Fnd := by
  intro Fnd
  induction Fnd with
  | nil =>
    intro F level
    simp [move_in_traced, pushed_cliques]
  | cons x rest ih =>
    intro F level
    unfold move_in_traced
    cases hc : level.my_component_id x with
    | error e =>
      simp only [pushed_cliques]
      refine ⟨⟨rest, rfl⟩, ?_, by simp⟩
      intro e2 he
      simp only [Except.error.injEq] at he
      rw [← he]
      exact Or.inl (my_component_id_error _ _ _ hc)
    | ok id =>
      simp only
      by_cases h : src = id
      swap
      · rw [if_pos h]
        simp only [pushed_cliques]
        refine ⟨⟨rest, rfl⟩, ?_, by simp⟩
        intro e2 he
        simp only [Except.error.injEq] at he
        exact Or.inr he.symm
      rw [if_neg (not_not.2 h)]
      obtain ⟨⟨r, hr⟩, he, hok⟩ := ih (x :: F) (level.move_node x d)
      rcases hm : move_in_traced src d rest (x :: F) (level.move_node x d) with ⟨ev, res⟩
      rw [hm] at hr he hok
      simp only at hr he hok ⊢
      simp only [pushed_cliques]
      refine ⟨⟨r, by rw [List.cons_append, ← hr]⟩, he, ?_⟩
      intro F2 level2 h2
      obtain ⟨a1, a2⟩ := hok F2 level2 h2
      refine ⟨by rw [a1]; simp, by rw [a2]⟩

theorem not_mem_search_errors_511 : Err.assertion .cp5_cpp 511 ∉ search_errors := by
  decide

/-- The frontier loop in every state. `D` holds the cliques pushed so far, each once:
all have their leaf marked, except for the seed while it is alone on the frontier. The
loop does not run out of fuel and does not stop at the assertion on the size of the
frontier; what it pushes has not been pushed before; and when it returns the leaves of
all cliques pushed are marked. -/
theorem grow_community_traced_universal (t : Nat) (the_cliques : List clique) (P : Nat)
    (isf : intersecting_clique_finder) (hP : isf.power_up = P) (hP1 : 1 ≤ P) (src d : Int) :
    ∀ (fuel : Nat) (F : List Nat) (level : components) (ab : assigned_branches_t)
      (D : List Nat) (ev : List LevelEvent)
      (res : Except Err (components × assigned_branches_t)),
      D.Nodup → (∀ x ∈ D, x < the_cliques.length) → F.Nodup → (∀ x ∈ F, x ∈ D) →
      (∀ x ∈ D, ab.done (P + x) = true ∨ F = [x]) →
      (the_cliques.length - D.length) + F.length + 1 ≤ fuel →
      grow_community_traced t the_cliques P isf src d fuel F level ab = (ev, res) →
      res ≠ .error .fuel ∧ res ≠ .error (.assertion .cp5_cpp 511) ∧
        (D ++ pushed_cliques ev).Nodup ∧ (∀ x ∈ pushed_cliques ev, x < the_cliques.length) ∧
        ∀ level' ab', res = .ok (level', ab') →
          (∀ x, ab.done x = true → ab'.done x = true) ∧
          ∀ x ∈ D ++ pushed_cliques ev, ab'.done (P + x) = true := by
  intro fuel
  induction fuel with
  | zero => intro F level ab D ev res _ _ _ _ _ h; omega
  | succ fuel ih =>
    intro F level ab D ev res hDn hDlt hFn hFD hDdone hfuel hrun
    cases F with
    | nil =>
      simp only [grow_community_traced, Prod.mk.injEq] at hrun
      obtain ⟨h1, h2⟩ := hrun
      subst h1 h2
      refine ⟨by simp, by simp, by simpa [pushed_cliques] using hDn, by simp [pushed_cliques], ?_⟩
      intro level' ab' h
      simp only [Except.ok.injEq, Prod.mk.injEq] at h
      rw [← h.2]
      refine ⟨fun x hx => hx, ?_⟩
      intro x hx
      simp only [pushed_cliques, List.append_nil] at hx
      rcases hDdone x hx with h' | h'
      · exact h'
      · simp at h'
    | cons q tail =>
      unfold grow_community_traced at hrun
      have hqD : q ∈ D := hFD q (by simp)
      have hFlen : tail.length + 1 ≤ D.length := by
        have := length_le_of_nodup_subset_nat (q :: tail) D hFn hFD
        simpa using this
      cases hmark : ab.mark_as_done (P + q) with
      | error e =>
        rw [hmark] at hrun
        simp only [Prod.mk.injEq] at hrun
        obtain ⟨h1, h2⟩ := hrun
        subst h1 h2
        refine ⟨?_, ?_, by simpa [pushed_cliques] using hDn, by simp [pushed_cliques],
          by simp⟩
        · intro h
          simp only [Except.error.injEq] at h
          rw [h] at hmark
          exact mark_as_done_no_fuel _ _ hmark
        · intro h
          simp only [Except.error.injEq] at h
          rw [h] at hmark
          rcases mark_as_done_rec_errors _ _ _ _ hmark with h' | h' <;> simp at h'
      | ok r =>
        obtain ⟨k, ab1⟩ := r
        rw [hmark] at hrun
        simp only at hrun
        have hmono1 := mark_as_done_rec_mono _ _ _ _ _ hmark
        have hdoneq := mark_as_done_rec_done _ _ _ _ _ hmark
        have hDdone1 : ∀ x ∈ D, ab1.done (P + x) = true := by
          intro x hx
          rcases hDdone x hx with h | h
          · exact hmono1 _ h
          · simp only [List.cons.injEq] at h
            rw [← h.1]
            exact hdoneq
        cases hcomp : level.my_component_id q with
        | error e =>
          rw [hcomp] at hrun
          simp only [Prod.mk.injEq] at hrun
          obtain ⟨h1, h2⟩ := hrun
          subst h1 h2
          rw [my_component_id_error _ _ _ hcomp]
          exact ⟨by simp, by simp, by simpa [pushed_cliques] using hDn,
            by simp [pushed_cliques], by simp⟩
        | ok id =>
          rw [hcomp] at hrun
          simp only at hrun
          by_cases hid : id = d
          swap
          · rw [if_pos hid] at hrun
            simp only [Prod.mk.injEq] at hrun
            obtain ⟨h1, h2⟩ := hrun
            subst h1 h2
            exact ⟨by simp, by simp, by simpa [pushed_cliques] using hDn,
              by simp [pushed_cliques], by simp⟩
          rw [if_neg (not_not.2 hid)] at hrun
          obtain ⟨hnf, hnok⟩ := neighbours_of_one_clique_found isf q t the_cliques level d
            (by omega) ⟨0, [], ab1⟩
          cases hn : neighbours_of_one_clique the_cliques q level t d isf ⟨0, [], ab1⟩ with
          | error e =>
            rw [hn] at hrun
            simp only [Prod.mk.injEq] at hrun
            obtain ⟨h1, h2⟩ := hrun
            subst h1 h2
            refine ⟨?_, ?_, by simpa [pushed_cliques] using hDn, by simp [pushed_cliques],
              by simp⟩
            · intro h
              simp only [Except.error.injEq] at h
              rw [h] at hn
              exact hnf hn
            · intro h
              simp only [Except.error.injEq] at h
              rw [h] at hn
              exact not_mem_search_errors_511 (neighbours_error_mem _ _ _ _ _ _ _ _ hn)
          | ok s =>
            rw [hn] at hrun
            simp only at hrun
            obtain ⟨Fnd, hf, hFndn, hprops, hmono2⟩ := hnok s hn
            simp only [List.nil_append] at hf
            rw [hP] at hprops
            have hdisj : ∀ x ∈ D, x ∉ Fnd := by
              intro x hx hx'
              have := hDdone1 x hx
              rw [(hprops x hx').2.1] at this
              exact absurd this (by simp)
            have hD' : (D ++ Fnd).Nodup := by
              rw [List.nodup_append]
              exact ⟨hDn, hFndn, fun x hx hx' => hdisj x hx hx'⟩
            have hD'lt : ∀ x ∈ D ++ Fnd, x < the_cliques.length := by
              intro x hx
              rcases List.mem_append.1 hx with h | h
              · exact hDlt x h
              · exact (hprops x h).1
            have hlen : (D ++ Fnd).length ≤ the_cliques.length := by
              have := length_le_of_nodup_subset_nat (D ++ Fnd) (List.range the_cliques.length)
                hD' (fun x hx => List.mem_range.2 (hD'lt x hx))
              simpa using this
            obtain ⟨⟨rest, hrest⟩, hmerr, hmok⟩ := move_in_traced_universal src d s.cliques_found
              tail level
            rcases hm : move_in_traced src d s.cliques_found tail level with ⟨ev1, r1⟩
            rw [hm] at hrun hrest hmerr hmok
            simp only at hrest hmerr hmok
            rw [hf] at hrest
            cases r1 with
            | error e =>
              simp only [Prod.mk.injEq] at hrun
              obtain ⟨h1, h2⟩ := hrun
              subst h1 h2
              have hsubn : (D ++ pushed_cliques ev1).Nodup := by
                rw [hrest, ← List.append_assoc] at hD'
                exact List.Nodup.of_append_left hD'
              refine ⟨?_, ?_, hsubn, ?_, by simp⟩
              · rcases hmerr e rfl with h | h <;> rw [h] <;> simp
              · rcases hmerr e rfl with h | h <;> rw [h] <;> simp
              · intro x hx
                exact hD'lt x (List.mem_append.2 (Or.inr (by rw [hrest]; simp [hx])))
            | ok r =>
              obtain ⟨F2, level2⟩ := r
              simp only at hrun
              obtain ⟨hF2, hpush⟩ := hmok F2 level2 rfl
              rw [hf] at hF2 hpush
              have hF2len : F2.length < the_cliques.length := by
                rw [hF2]
                simp only [List.length_append, List.length_reverse] at hlen ⊢
                omega
              rw [if_neg (not_not.2 hF2len)] at hrun
              rcases hg : grow_community_traced t the_cliques P isf src d fuel F2 level2
                s.assigned_branches with ⟨ev2, res2⟩
              rw [hg] at hrun
              simp only [Prod.mk.injEq] at hrun
              obtain ⟨h1, h2⟩ := hrun
              subst h1 h2
              have htailD : ∀ x ∈ tail, x ∈ D := fun x hx => hFD x (by simp [hx])
              obtain ⟨g1, g2, g3, g4, g5⟩ := ih F2 level2 s.assigned_branches (D ++ Fnd) ev2
                res2 hD' hD'lt (by
                  rw [hF2, List.nodup_append]
                  refine ⟨List.nodup_reverse.2 hFndn, (List.nodup_cons.1 hFn).2, ?_⟩
                  intro x hx hx'
                  exact hdisj x (htailD x hx') (List.mem_reverse.1 hx))
                (by
                  intro x hx
                  rw [hF2] at hx
                  rcases List.mem_append.1 hx with h | h
                  · exact List.mem_append.2 (Or.inr (List.mem_reverse.1 h))
                  · exact List.mem_append.2 (Or.inl (htailD x h)))
                (by
                  intro x hx
                  left
                  rcases List.mem_append.1 hx with h | h
                  · exact hmono2 _ (hDdone1 x h)
                  · exact (hprops x h).2.2)
                (by
                  rw [hF2]
                  simp only [List.length_append, List.length_reverse, List.length_cons]
                    at hlen hfuel ⊢
                  omega)
                hg
              rw [pushed_cliques_append, hpush]
              refine ⟨g1, g2, by rw [← List.append_assoc]; exact g3, ?_, ?_⟩
              · intro x hx
                rcases List.mem_append.1 hx with h | h
                · exact (hprops x h).1
                · exact g4 x h
              · intro level' ab' hres
                obtain ⟨m1, m2⟩ := g5 level' ab' hres
                refine ⟨fun x hx => m1 _ (hmono2 _ (hmono1 _ hx)), ?_⟩
                intro x hx
                rw [← List.append_assoc] at hx
                exact m2 x hx

theorem get_members_error (c : components) (id : Int) (e : Err)
    (h : c.get_members id = .error e) : e = .assertion .components_hpp 25 := by
  unfold components.get_members at h
  split_ifs at h
  simp only [Except.error.injEq] at h
  exact h.symm

/-- The loop over the communities of one source component in every state. `D` holds
the cliques pushed so far at this level, each once, all with their leaf marked. -/
theorem drain_source_traced_universal (t : Nat) (the_cliques : List clique) (P : Nat)
    (isf : intersecting_clique_finder) (hP : isf.power_up = P) (hP1 : 1 ≤ P) (src : Int) :
    ∀ (fuel : Nat) (found : List Int) (level : components) (ab : assigned_branches_t)
      (D : List Nat) (ev : List LevelEvent)
      (res : Except Err (List Int × components × assigned_branches_t)),
      D.Nodup → (∀ x ∈ D, x < the_cliques.length) → (∀ x ∈ D, ab.done (P + x) = true) →
      (the_cliques.length - D.length) + 1 ≤ fuel →
      drain_source_traced t the_cliques P isf src fuel found level ab = (ev, res) →
      res ≠ .error .fuel ∧ res ≠ .error (.assertion .cp5_cpp 511) ∧
        (D ++ pushed_cliques ev).Nodup ∧ (∀ x ∈ pushed_cliques ev, x < the_cliques.length) ∧
        ∀ found' level' ab', res = .ok (found', level', ab') →
          ∀ x ∈ D ++ pushed_cliques ev, ab'.done (P + x) = true := by
  intro fuel
  induction fuel with
  | zero => intro found level ab D ev res _ _ _ h; omega
  | succ fuel ih =>
    intro found level ab D ev res hDn hDlt hDdone hfuel hrun
    unfold drain_source_traced at hrun
    simp only at hrun
    have hnil : (D ++ pushed_cliques [LevelEvent.between t src found level ab,
        LevelEvent.members src level.N]).Nodup := by
      simpa [pushed_cliques] using hDn
    cases hg : level.get_members src with
    | error e =>
      rw [hg] at hrun
      simp only [Prod.mk.injEq] at hrun
      obtain ⟨h1, h2⟩ := hrun
      subst h1 h2
      rw [get_members_error _ _ _ hg]
      exact ⟨by simp, by simp, hnil, by simp [pushed_cliques], by simp⟩
    | ok members =>
      rw [hg] at hrun
      cases members with
      | nil =>
        simp only [Prod.mk.injEq] at hrun
        obtain ⟨h1, h2⟩ := hrun
        subst h1 h2
        refine ⟨by simp, by simp, hnil, by simp [pushed_cliques], ?_⟩
        intro found' level' ab' h
        simp only [Except.ok.injEq, Prod.mk.injEq] at h
        rw [← h.2.2]
        intro x hx
        simp only [pushed_cliques, List.append_nil] at hx
        exact hDdone x hx
      | cons seed ms =>
        simp only at hrun
        by_cases h480 : ab.assigned_branches.getD (P + seed) false = false
        swap
        · rw [if_pos h480] at hrun
          simp only [Prod.mk.injEq] at hrun
          obtain ⟨h1, h2⟩ := hrun
          subst h1 h2
          exact ⟨by simp, by simp, hnil, by simp [pushed_cliques], by simp⟩
        rw [if_neg (not_not.2 h480)] at hrun
        by_cases h481 : (the_cliques.getD seed []).length > t
        swap
        · rw [if_pos h481] at hrun
          simp only [Prod.mk.injEq] at hrun
          obtain ⟨h1, h2⟩ := hrun
          subst h1 h2
          exact ⟨by simp, by simp, hnil, by simp [pushed_cliques], by simp⟩
        rw [if_neg (not_not.2 h481)] at hrun
        have hseedC : seed < the_cliques.length := by
          by_contra hc
          rw [List.getD_eq_default _ _ (by omega)] at h481
          simp at h481
        have hseedD : seed ∉ D := by
          intro h
          have := hDdone seed h
          unfold assigned_branches_t.done at this
          rw [h480] at this
          exact absurd this (by simp)
        have hD1 : (D ++ [seed]).Nodup := by
          rw [List.nodup_append]
          refine ⟨hDn, List.nodup_singleton _, ?_⟩
          intro x hx hx'
          have : x = seed := by simpa using hx'
          exact hseedD (this ▸ hx)
        have hD1lt : ∀ x ∈ D ++ [seed], x < the_cliques.length := by
          intro x hx
          rcases List.mem_append.1 hx with h | h
          · exact hDlt x h
          · have : x = seed := by simpa using h
            rw [this]; exact hseedC
        have hev1 : pushed_cliques ([LevelEvent.between t src found level ab,
            LevelEvent.members src level.N] ++
            [LevelEvent.pushed seed, LevelEvent.members level.top_empty_component level.N])
            = [seed] := by
          simp [pushed_cliques]
        cases hgd : level.get_members level.top_empty_component with
        | error e =>
          rw [hgd] at hrun
          simp only [Prod.mk.injEq] at hrun
          obtain ⟨h1, h2⟩ := hrun
          subst h1 h2
          rw [get_members_error _ _ _ hgd, hev1]
          exact ⟨by simp, by simp, hD1, fun x hx => hD1lt x (by simp at hx; simp [hx]),
            by simp⟩
        | ok grown =>
          rw [hgd] at hrun
          simp only at hrun
          by_cases h486 : 0 = grown.length
          swap
          · rw [if_pos h486] at hrun
            simp only [Prod.mk.injEq] at hrun
            obtain ⟨h1, h2⟩ := hrun
            subst h1 h2
            rw [hev1]
            exact ⟨by simp, by simp, hD1, fun x hx => hD1lt x (by simp at hx; simp [hx]),
              by simp⟩
          rw [if_neg (not_not.2 h486)] at hrun
          have hD1len : (D ++ [seed]).length ≤ the_cliques.length := by
            have := length_le_of_nodup_subset_nat (D ++ [seed])
              (List.range the_cliques.length) hD1 (fun x hx => List.mem_range.2 (hD1lt x hx))
            simpa using this
          rcases hgr : grow_community_traced t the_cliques P isf src level.top_empty_component
            (the_cliques.length + 1) [seed] (level.move_node seed level.top_empty_component) ab
            with ⟨ev2, r2⟩
          obtain ⟨g1, g2, g3, g4, g5⟩ := grow_community_traced_universal t the_cliques P isf hP
            hP1 src level.top_empty_component (the_cliques.length + 1) [seed]
            (level.move_node seed level.top_empty_component) ab (D ++ [seed]) ev2 r2 hD1 hD1lt
            (List.nodup_singleton _) (by simp) (by
              intro x hx
              rcases List.mem_append.1 hx with h | h
              · exact Or.inl (hDdone x h)
              · right
                have : x = seed := by simpa using h
                rw [this])
            (by
              simp only [List.length_append, List.length_singleton] at hD1len ⊢
              omega)
            hgr
          rw [hgr] at hrun
          cases r2 with
          | error e =>
            simp only [Prod.mk.injEq] at hrun
            obtain ⟨h1, h2⟩ := hrun
            subst h1 h2
            rw [pushed_cliques_append, hev1]
            refine ⟨fun h => g1 (by simpa using h), fun h => g2 (by simpa using h),
              by rw [← List.append_assoc]; exact g3, ?_, by simp⟩
            intro x hx
            rcases List.mem_append.1 hx with h | h
            · have : x = seed := by simpa using h
              rw [this]; exact hseedC
            · exact g4 x h
          | ok r =>
            obtain ⟨level2, ab2⟩ := r
            simp only at hrun
            obtain ⟨_, hdone2⟩ := g5 level2 ab2 rfl
            have hlt2 : ∀ x ∈ (D ++ [seed]) ++ pushed_cliques ev2, x < the_cliques.length := by
              intro x hx
              rcases List.mem_append.1 hx with h | h
              · exact hD1lt x h
              · exact g4 x h
            cases hgd2 : level2.get_members level.top_empty_component with
            | error e =>
              rw [hgd2] at hrun
              simp only [Prod.mk.injEq] at hrun
              obtain ⟨h1, h2⟩ := hrun
              subst h1 h2
              rw [get_members_error _ _ _ hgd2]
              simp only [pushed_cliques_append, hev1]
              have hz : pushed_cliques [LevelEvent.members level.top_empty_component level2.N]
                  = [] := rfl
              rw [hz, List.append_nil]
              refine ⟨by simp, by simp, by rw [← List.append_assoc]; exact g3, ?_, by simp⟩
              intro x hx
              exact hlt2 x (by rw [List.append_assoc]; exact List.mem_append.2 (Or.inr hx))
            | ok _ =>
              rw [hgd2] at hrun
              simp only at hrun
              rcases hd : drain_source_traced t the_cliques P isf src fuel
                (found ++ [level.top_empty_component]) level2 ab2 with ⟨ev3, r3⟩
              rw [hd] at hrun
              simp only [Prod.mk.injEq] at hrun
              obtain ⟨h1, h2⟩ := hrun
              subst h1 h2
              have hlen2 : ((D ++ [seed]) ++ pushed_cliques ev2).length
                  ≤ the_cliques.length := by
                have := length_le_of_nodup_subset_nat ((D ++ [seed]) ++ pushed_cliques ev2)
                  (List.range the_cliques.length) g3
                  (fun x hx => List.mem_range.2 (hlt2 x hx))
                simpa using this
              obtain ⟨d1, d2, d3, d4, d5⟩ := ih (found ++ [level.top_empty_component]) level2 ab2
                ((D ++ [seed]) ++ pushed_cliques ev2) ev3 r3 g3 hlt2 hdone2 (by
                  simp only [List.length_append, List.length_singleton] at hlen2 ⊢
                  omega) hd
              have hpush : pushed_cliques (([LevelEvent.between t src found level ab,
                  LevelEvent.members src level.N] ++
                  [LevelEvent.pushed seed,
                    LevelEvent.members level.top_empty_component level.N]) ++ ev2 ++
                  LevelEvent.members level.top_empty_component level2.N :: ev3)
                  = [seed] ++ pushed_cliques ev2 ++ pushed_cliques ev3 := by
                rw [pushed_cliques_append, pushed_cliques_append, hev1]
                rfl
              rw [hpush]
              have hassoc : D ++ ([seed] ++ pushed_cliques ev2 ++ pushed_cliques ev3)
                  = ((D ++ [seed]) ++ pushed_cliques ev2) ++ pushed_cliques ev3 := by
                simp only [List.append_assoc]
              rw [hassoc]
              refine ⟨d1, d2, d3, ?_, d5⟩
              intro x hx
              rcases List.mem_append.1 hx with h | h
              · exact hlt2 x (by
                  rw [List.append_assoc]
                  exact List.mem_append.2 (Or.inr h))
              · exact d4 x h

/-- The loop over the source components in every state. -/
theorem one_k_sources_traced_universal (t : Nat) (the_cliques : List clique) (P : Nat)
    (isf : intersecting_clique_finder) (hP : isf.power_up = P) (hP1 : 1 ≤ P) :
    ∀ (srcs : List Int) (found : List Int) (level : components) (ab : assigned_branches_t)
      (D : List Nat) (ev : List LevelEvent)
      (res : Except Err (List Int × components × assigned_branches_t)),
      D.Nodup → (∀ x ∈ D, x < the_cliques.length) → (∀ x ∈ D, ab.done (P + x) = true) →
      one_k_sources_traced t the_cliques P isf srcs found level ab = (ev, res) →
      res ≠ .error .fuel ∧ res ≠ .error (.assertion .cp5_cpp 511) ∧
        (D ++ pushed_cliques ev).Nodup := by
  intro srcs
  induction srcs with
  | nil =>
    intro found level ab D ev res hDn _ _ hrun
    simp only [one_k_sources_traced, Prod.mk.injEq] at hrun
    obtain ⟨h1, h2⟩ := hrun
    subst h1 h2
    exact ⟨by simp, by simp, by simpa [pushed_cliques] using hDn⟩
  | cons src rest ih =>
    intro found level ab D ev res hDn hDlt hDdone hrun
    unfold one_k_sources_traced at hrun
    rcases hd : drain_source_traced t the_cliques P isf src (the_cliques.length + 1) found
      level ab with ⟨ev1, r1⟩
    obtain ⟨d1, d2, d3, d4, d5⟩ := drain_source_traced_universal t the_cliques P isf hP hP1 src
      (the_cliques.length + 1) found level ab D ev1 r1 hDn hDlt hDdone (by omega) hd
    rw [hd] at hrun
    cases r1 with
    | error e =>
      simp only [Prod.mk.injEq] at hrun
      obtain ⟨h1, h2⟩ := hrun
      subst h1 h2
      exact ⟨d1, d2, d3⟩
    | ok r =>
      obtain ⟨found1, level1, ab1⟩ := r
      simp only at hrun
      rcases hs : one_k_sources_traced t the_cliques P isf rest found1 level1 ab1
        with ⟨ev2, r2⟩
      rw [hs] at hrun
      simp only [Prod.mk.injEq] at hrun
      obtain ⟨h1, h2⟩ := hrun
      subst h1 h2
      obtain ⟨s1, s2, s3⟩ := ih found1 level1 ab1 (D ++ pushed_cliques ev1) ev2 r2 d3
        (by
          intro x hx
          rcases List.mem_append.1 hx with h | h
          · exact hDlt x h
          · exact d4 x h)
        (d5 found1 level1 ab1 rfl) hs
      rw [pushed_cliques_append, ← List.append_assoc]
      exact ⟨s1, s2, s3⟩

theorem premark_invalid_error :
    ∀ (leaves : List Nat) (ab : assigned_branches_t) (n : Nat) (e : Err),
      premark_invalid leaves ab n = .error e → e = .assertion .cp5_cpp 182 := by
  intro leaves
  induction leaves with
  | nil => intro ab n e h; simp [premark_invalid] at h
  | cons b rest ih =>
    intro ab n e h
    unfold premark_invalid at h
    cases hm : ab.mark_as_done b with
    | error e2 =>
      rw [hm] at h
      simp only [Except.error.injEq] at h
      rw [← h]
      rcases mark_as_done_rec_errors _ _ _ _ hm with h' | h'
      · rw [h'] at hm
        exact absurd hm (mark_as_done_no_fuel _ _)
      · exact h'
    | ok r =>
      obtain ⟨k, ab1⟩ := r
      rw [hm] at h
      exact ih _ _ _ h

theorem premark_small_error (the_cliques : List clique) (t P : Nat) :
    ∀ (cs : List Nat) (ab : assigned_branches_t) (e : Err),
      premark_small the_cliques t P cs ab = .error e → e = .assertion .cp5_cpp 182 := by
  intro cs
  induction cs with
  | nil => intro ab e h; simp [premark_small] at h
  | cons c rest ih =>
    intro ab e h
    unfold premark_small at h
    simp only at h
    split_ifs at h
    · cases hm : ab.mark_as_done (P + c) with
      | error e2 =>
        rw [hm] at h
        simp only [Except.error.injEq] at h
        rw [← h]
        rcases mark_as_done_rec_errors _ _ _ _ hm with h' | h'
        · rw [h'] at hm
          exact absurd hm (mark_as_done_no_fuel _ _)
        · exact h'
      | ok r =>
        obtain ⟨k, ab1⟩ := r
        rw [hm] at h
        exact ih _ _ h
    · exact ih _ _ h

theorem create_error (P C : Nat) (e : Err) (h : assigned_branches_t.create P C = .error e) :
    e = .length_error ∨ e = .assertion .cp5_cpp 182 := by
  unfold assigned_branches_t.create at h
  split_ifs at h
  · simp only [Except.error.injEq] at h
    exact Or.inl h.symm
  · simp only [Except.error.injEq] at h
    exact Or.inr h.symm
  · simp only at h
    cases hp : premark_invalid (List.range' (P + C) (2 * P - (P + C)))
        ⟨P, C, List.replicate (2 * P) false⟩ 0 with
    | error e2 =>
      rw [hp] at h
      simp only [Except.error.injEq] at h
      rw [← h]
      exact Or.inr (premark_invalid_error _ _ _ _ hp)
    | ok r =>
      rw [hp] at h
      simp at h

/-- One level in every state: `one_k` does not run out of fuel, does not stop at the
assertion on the size of the frontier, and pushes no clique twice. -/
theorem one_k_traced_universal (found cands : List Int) (level : components) (t : Nat)
    (the_cliques : List clique) (P C : Nat) (isf : intersecting_clique_finder)
    (hP : isf.power_up = P) (hP1 : 1 ≤ P) :
    (one_k_traced found cands level t the_cliques P C isf).2 ≠ .error .fuel ∧
      (one_k_traced found cands level t the_cliques P C isf).2
        ≠ .error (.assertion .cp5_cpp 511) ∧
      (pushed_cliques (one_k_traced found cands level t the_cliques P C isf).1).Nodup := by
  unfold one_k_traced
  split
  · exact ⟨by simp, by simp, by simp [pushed_cliques]⟩
  cases hc : assigned_branches_t.create P C with
  | error e =>
    simp only
    rcases create_error _ _ _ hc with h | h <;> rw [h] <;>
      exact ⟨by simp, by simp, by simp [pushed_cliques]⟩
  | ok ab0 =>
    simp only
    cases hp : premark_small the_cliques t P (List.range C) ab0 with
    | error e =>
      simp only
      rw [premark_small_error _ _ _ _ _ _ hp]
      exact ⟨by simp, by simp, by simp [pushed_cliques]⟩
    | ok ab =>
      simp only
      rcases hs : one_k_sources_traced t the_cliques P isf cands.reverse found level ab
        with ⟨ev, r⟩
      obtain ⟨s1, s2, s3⟩ := one_k_sources_traced_universal t the_cliques P isf hP hP1
        cands.reverse found level ab [] ev r List.nodup_nil (by simp) (by simp) hs
      simp only [List.nil_append] at s3
      cases r with
      | error e =>
        simp only
        exact ⟨fun h => s1 (by simpa using h), fun h => s2 (by simpa using h), s3⟩
      | ok r =>
        obtain ⟨f, lv, ab'⟩ := r
        simp only
        exact ⟨by simp, by simp, s3⟩

/-! ## The growth of the communities terminates -/

/-- C24 (community growth terminates): for every clique list, every threshold `t` (so
for every `t ≥ 2`), every list of source components and every state of the Components,
over a tree of `power_up ≥ 1` leaves, `one_k` ends: the recursions of the embedding
never use up their fuel. In the record of the level, which without the record is the
run of `one_k`, no clique is pushed onto the frontier twice; a search appends only
cliques whose leaf was not marked before it and is marked after it, and takes no
mark away, so a later search does not return them; the assertion that the frontier
holds fewer than `C` cliques never fails; and for `power_up ≤ 2^n` the search from
the root gives with `n + 1` nested calls what it gives with the fuel `power_up` of the
embedding, which is not a lack of fuel: it descends at most `n` levels. -/
theorem community_growth_terminates (found cands : List Int) (level : components) (t : Nat)
    (the_cliques : List clique) (power_up : Nat) (isf : intersecting_clique_finder)
    (hP : isf.power_up = power_up) (hP1 : 1 ≤ power_up) :
    one_k found cands level t the_cliques power_up the_cliques.length isf ≠ .error .fuel ∧
      (one_k_traced found cands level t the_cliques power_up the_cliques.length isf).2
        = one_k found cands level t the_cliques power_up the_cliques.length isf ∧
      (pushed_cliques
        (one_k_traced found cands level t the_cliques power_up the_cliques.length isf).1).Nodup ∧
      (∀ (fuel b q : Nat) (comps : components) (skip : Int) (s s' : SearchState),
        recursive_search fuel isf b q t the_cliques comps skip s = .ok s' →
        ∃ F, s'.cliques_found = s.cliques_found ++ F ∧ F.Nodup ∧
          (∀ l ∈ F, l < the_cliques.length ∧
            s.assigned_branches.done (power_up + l) = false ∧
            s'.assigned_branches.done (power_up + l) = true) ∧
          ∀ x, s.assigned_branches.done x = true → s'.assigned_branches.done x = true) ∧
      one_k found cands level t the_cliques power_up the_cliques.length isf
        ≠ .error (.assertion .cp5_cpp 511) ∧
      ∀ n : Nat, power_up ≤ 2 ^ n →
        ∀ (q : Nat) (comps : components) (skip : Int) (s : SearchState),
          recursive_search (n + 1) isf 1 q t the_cliques comps skip s
            = recursive_search power_up isf 1 q t the_cliques comps skip s ∧
          recursive_search power_up isf 1 q t the_cliques comps skip s ≠ .error .fuel := by
  obtain ⟨u1, u2, u3⟩ := one_k_traced_universal found cands level t the_cliques power_up
    the_cliques.length isf hP hP1
  have hsnd := one_k_traced_snd found cands level t the_cliques power_up the_cliques.length isf
  rw [hsnd] at u1 u2
  refine ⟨u1, hsnd, u3, ?_, u2, ?_⟩
  · intro fuel b q comps skip s s' h
    have := recursive_search_found isf q t the_cliques comps skip fuel b s s' h
    rw [hP] at this
    exact this
  · intro n hn q comps skip s
    obtain ⟨m, hm⟩ : ∃ m, power_up = m + 1 := ⟨power_up - 1, by omega⟩
    have hroot : isf.power_up ≤ 1 * 2 ^ m := by
      rw [hP, hm, Nat.one_mul]
      exact Nat.lt_two_pow m
    constructor
    · rw [hm]
      exact recursive_search_fuel_eq isf q t the_cliques comps skip n m 1 s
        (by rw [hP, Nat.one_mul]; exact hn) hroot
    · intro h
      rw [hm] at h
      exact recursive_search_no_fuel isf q t the_cliques comps skip m 1 s hroot _ h rfl

set_option maxRecDepth 100000 in
/-- C24 at level 4 of the four cliques in two pairs: two communities of two cliques
each are grown, and every clique is pushed once. -/
theorem community_growth_terminates_witness :
    (index_two_pairs.power_up = 4 ∧ 1 ≤ 4 ∧
        pushed_cliques
          (one_k_traced [] [0, 1] two_sources 3 cliques_two_pairs 4 cliques_two_pairs.length
            index_two_pairs).1 = [2, 3, 0, 1]) ∧
      (one_k [] [0, 1] two_sources 3 cliques_two_pairs 4 cliques_two_pairs.length
          index_two_pairs ≠ .error .fuel ∧
        (one_k_traced [] [0, 1] two_sources 3 cliques_two_pairs 4 cliques_two_pairs.length
            index_two_pairs).2
          = one_k [] [0, 1] two_sources 3 cliques_two_pairs 4 cliques_two_pairs.length
              index_two_pairs ∧
        (pushed_cliques
          (one_k_traced [] [0, 1] two_sources 3 cliques_two_pairs 4 cliques_two_pairs.length
            index_two_pairs).1).Nodup ∧
        (∀ (fuel b q : Nat) (comps : components) (skip : Int) (s s' : SearchState),
          recursive_search fuel index_two_pairs b q 3 cliques_two_pairs comps skip s = .ok s' →
          ∃ F, s'.cliques_found = s.cliques_found ++ F ∧ F.Nodup ∧
            (∀ l ∈ F, l < cliques_two_pairs.length ∧
              s.assigned_branches.done (4 + l) = false ∧
              s'.assigned_branches.done (4 + l) = true) ∧
            ∀ x, s.assigned_branches.done x = true → s'.assigned_branches.done x = true) ∧
        one_k [] [0, 1] two_sources 3 cliques_two_pairs 4 cliques_two_pairs.length
            index_two_pairs ≠ .error (.assertion .cp5_cpp 511) ∧
        ∀ n : Nat, 4 ≤ 2 ^ n →
          ∀ (q : Nat) (comps : components) (skip : Int) (s : SearchState),
            recursive_search (n + 1) index_two_pairs 1 q 3 cliques_two_pairs comps skip s
              = recursive_search 4 index_two_pairs 1 q 3 cliques_two_pairs comps skip s ∧
            recursive_search 4 index_two_pairs 1 q 3 cliques_two_pairs comps skip s
              ≠ .error .fuel) :=
  ⟨⟨by decide, by decide, by decide⟩,
    community_growth_terminates [] [0, 1] two_sources 3 cliques_two_pairs 4 index_two_pairs
      (by decide) (by decide)⟩

/-! ## The errors at which a run of the percolation can stop -/

theorem power_up_loop_error (C : Int) :
    ∀ (fuel : Nat) (p : Int) (e : Err), power_up_loop fuel p C = .error e → e = .fuel := by
  intro fuel
  induction fuel with
  | zero =>
    intro p e hpe
    simp only [power_up_loop, Except.error.injEq] at hpe
    exact hpe.symm
  | succ fuel ih =>
    intro p e hpe
    unfold power_up_loop at hpe
    split_ifs at hpe
    exact ih _ _ hpe

/-- A run of the percolation from `min_k ≥ 2` on distinct maximal cliques ends normally
or stops at one of a few places: the guard on the number of cliques, the assertion on
`min_k` and `max_k`, the loop on `power_up` that does not end, the exception of
`resize`, the assertion of `get_members`, or the assertion that the leaf of the seed
is not done. -/
theorem percolation_error_cases (l : Nat) (h : Int → Nat) (min_k max_k : Nat)
    (the_cliques : List clique) (hl : 0 < l) (hdm : DistinctMaximal the_cliques)
    (hk : 2 ≤ min_k) :
    (do_clique_percolation_variant_5b l h min_k max_k the_cliques).2 = none ∨
      ∃ e, (do_clique_percolation_variant_5b l h min_k max_k the_cliques).2 = some e ∧
        e ∈ [Err.too_many_cliques_exception, .assertion .cp5_cpp 344, .fuel,
          .assertion .cp5_cpp 349, .length_error, .assertion .components_hpp 25,
          .assertion .cp5_cpp 480] := by
  unfold do_clique_percolation_variant_5b
  by_cases h1 : the_cliques.length > 2147483647
  · rw [if_pos h1]
    exact Or.inr ⟨_, rfl, by simp⟩
  rw [if_neg h1]
  dsimp only
  by_cases hC1 : the_cliques.length = 1
  · rw [if_pos hC1]
    exact Or.inl rfl
  rw [if_neg hC1]
  by_cases h344 : min_k > 0 ∧ min_k ≤ max_k ∧ the_cliques.length > 1
  swap
  · rw [if_pos h344]
    exact Or.inr ⟨_, rfl, by simp⟩
  rw [if_neg (not_not.2 h344)]
  have hC : 2 ≤ the_cliques.length := by omega
  cases hp : power_up_loop 64 1 (the_cliques.length : Int) with
  | error e =>
    dsimp only
    rw [power_up_loop_error _ _ _ _ hp]
    exact Or.inr ⟨_, rfl, by simp⟩
  | ok power_up =>
    dsimp only
    by_cases h349 : power_up > 0
    swap
    · rw [if_pos h349]
      exact Or.inr ⟨_, rfl, by simp⟩
    rw [if_neg (not_not.2 h349)]
    obtain ⟨hP1, hP3, hP2⟩ := power_up_positive the_cliques.length power_up hp h349
    rcases hP2 with hP2 | hP2
    swap
    · have hn : max_k + 1 - min_k = (max_k - min_k) + 1 := by omega
      rw [hn, List.range'_succ]
      unfold percolation_levels
      dsimp only
      have hone : ∀ (srcs : List Int) (level : components) (isf : intersecting_clique_finder),
          one_k [] srcs level (min_k - 1) the_cliques power_up.toNat the_cliques.length isf
            = .error .length_error := by
        intro srcs level isf
        have hbig : 2 * power_up.toNat > 2147483647 := by omega
        unfold one_k assigned_branches_t.create
        simp [hbig]
      rw [hone]
      exact Or.inr ⟨_, rfl, by simp⟩
    obtain ⟨hwf0, hN0, hcomp0⟩ := lowest_level_spec the_cliques.length
    have hmem0 : ((List.range the_cliques.length).foldl
        (fun level c => level.move_node c
          (components.empty.setN the_cliques.length).top_empty_component)
        (components.empty.setN the_cliques.length)).members_of 0 ≠ [] := by
      intro hemp
      have := (hwf0.mem_iff 0 0 (le_refl 0)).2 ⟨by rw [hN0]; omega, hcomp0 0 (by omega)⟩
      rw [hemp] at this
      exact absurd this (by simp)
    have entry : OneKEntry the_cliques (min_k - 1) [0] ((List.range the_cliques.length).foldl
        (fun level c => level.move_node c
          (components.empty.setN the_cliques.length).top_empty_component)
        (components.empty.setN the_cliques.length)) := by
      refine ⟨hwf0, hN0, List.nodup_singleton 0, ?_, ?_, ?_⟩
      · intro s hs
        have : s = 0 := by simpa using hs
        rw [this]
        exact ⟨le_refl 0, hmem0⟩
      · intro c hc _
        rw [hcomp0 c hc]
        simp
      · intro a ha b hb _ _ hne
        rw [hcomp0 a ha, hcomp0 b hb] at hne
        exact absurd rfl hne
    have := (percolation_levels_spec l h the_cliques power_up.toNat max_k hl hdm hP1 hP2 hP3
      (max_k + 1 - min_k) min_k [0] _ [] hk entry List.chain'_nil (by simp)).2
    rcases this with h2 | h2 | h2
    · exact Or.inl h2
    · exact Or.inr ⟨_, h2, by simp⟩
    · exact Or.inr ⟨_, h2, by simp⟩

/-! ## The assertions of the search -/

/-- C28 (the assertions of the search are unreachable): no run of
`do_clique_percolation_variant_5b` from `min_k ≥ 3`, so with every threshold `t ≥ 2`,
on a list of distinct maximal cliques stops at the assertion at the head of
`recursive_search` that the branch is not marked done, at the assertion that the
clique of a leaf is not in `component_to_skip`, or at the assertion that it is not
the query clique: the search is never entered on a done branch and never reaches
such a leaf. -/
theorem search_assertions_hold (l : Nat) (h : Int → Nat) (min_k max_k : Nat)
    (the_cliques : List clique) (hl : 0 < l) (hdm : DistinctMaximal the_cliques)
    (hk : 3 ≤ min_k) :
    (do_clique_percolation_variant_5b l h min_k max_k the_cliques).2
        ≠ some (.assertion .cp5_cpp 228) ∧
      (do_clique_percolation_variant_5b l h min_k max_k the_cliques).2
        ≠ some (.assertion .cp5_cpp 241) ∧
      (do_clique_percolation_variant_5b l h min_k max_k the_cliques).2
        ≠ some (.assertion .cp5_cpp 247) := by
  rcases percolation_error_cases l h min_k max_k the_cliques hl hdm (by omega) with
    h0 | ⟨e, he, hmem⟩
  · rw [h0]
    exact ⟨by simp, by simp, by simp⟩
  · rw [he]
    simp only [List.mem_cons, List.mem_singleton, List.not_mem_nil, or_false] at hmem
    rcases hmem with h | h | h | h | h | h | h <;> rw [h] <;> exact ⟨by simp, by simp, by simp⟩

set_option maxRecDepth 100000 in
/-- C28 on two cliques of four vertices that share three and a triangle apart, from
`k = 3` to `k = 4`: the run completes both levels. -/
theorem search_assertions_hold_witness :
    (0 < 10000000000 ∧ DistinctMaximal cliques_two_levels ∧ 3 ≤ 3 ∧
        ((do_clique_percolation_variant_5b 10000000000 identity_hash 3 4
          cliques_two_levels).1.map Level.k = [3, 4])) ∧
      ((do_clique_percolation_variant_5b 10000000000 identity_hash 3 4 cliques_two_levels).2
          ≠ some (.assertion .cp5_cpp 228) ∧
        (do_clique_percolation_variant_5b 10000000000 identity_hash 3 4 cliques_two_levels).2
          ≠ some (.assertion .cp5_cpp 241) ∧
        (do_clique_percolation_variant_5b 10000000000 identity_hash 3 4 cliques_two_levels).2
          ≠ some (.assertion .cp5_cpp 247)) :=
  ⟨⟨by decide, by decide, by decide, by decide⟩,
    search_assertions_hold 10000000000 identity_hash 3 4 cliques_two_levels (by decide)
      (by decide) (by decide)⟩

/-! ## The seed of a community -/

/-- Between two constructions of a community a leaf is done exactly when its clique is
small or in a community found. -/
theorem between_good (the_cliques : List clique) (t P : Nat) (orig : Nat → Int)
    (S0 srcs found : List Int) (level : components) (ab : assigned_branches_t)
    (inv : OneKInv the_cliques t P orig S0 srcs found level ab)
    (hsrc : ∀ l, l < the_cliques.length → t < (the_cliques.getD l []).length → orig l ∈ S0)
    (src : Int) :
    (LevelEvent.between t src found level ab).SeedInvariant the_cliques P := by
  intro c hc
  constructor
  · intro hd
    by_cases hsm : (the_cliques.getD c []).length ≤ t
    · exact Or.inl hsm
    right
    rcases inv.placed c hc (hsrc c hc (by omega)) with h | h
    · rcases inv.src_free c hc h with h' | h'
      · rw [hd] at h'
        exact absurd h' (by simp)
      · exact absurd h' hsm
    · exact h
  · rintro (h | h)
    · by_contra hd
      have := inv.big c hc (by simpa using hd)
      omega
    · by_contra hd
      have := inv.free c hc (by simpa using hd)
      exact (inv.found_disj _ h).1 this

theorem move_in_traced_pushes (src d : Int) :
    ∀ (Fnd F : List Nat) (level : components),
      ∀ e ∈ (move_in_traced src d Fnd F level).1, ∃ c, e = .pushed c := by
  intro Fnd
  induction Fnd with
  | nil => intro F level; simp [move_in_traced]
  | cons x rest ih =>
    intro F level
    unfold move_in_traced
    cases level.my_component_id x with
    | error e => simp
    | ok id =>
      simp only
      split
      · simp
      · intro e he
        rcases List.mem_cons.1 he with h | h
        · exact ⟨x, h⟩
        · exact ih _ _ e h

theorem grow_community_traced_pushes (t : Nat) (the_cliques : List clique) (P : Nat)
    (isf : intersecting_clique_finder) (src d : Int) :
    ∀ (fuel : Nat) (F : List Nat) (level : components) (ab : assigned_branches_t),
      ∀ e ∈ (grow_community_traced t the_cliques P isf src d fuel F level ab).1,
        ∃ c, e = .pushed c := by
  intro fuel
  induction fuel with
  | zero => intro F level ab; simp [grow_community_traced]
  | succ fuel ih =>
    intro F level ab
    cases F with
    | nil => simp [grow_community_traced]
    | cons q tail =>
      unfold grow_community_traced
      cases ab.mark_as_done (P + q) with
      | error e => simp
      | ok r =>
        obtain ⟨k, ab1⟩ := r
        simp only
        cases level.my_component_id q with
        | error e => simp
        | ok id =>
          simp only
          split
          · simp
          cases neighbours_of_one_clique the_cliques q level t d isf ⟨0, [], ab1⟩ with
          | error e => simp
          | ok s =>
            simp only
            have hm := move_in_traced_pushes src d s.cliques_found tail level
            rcases hc : move_in_traced src d s.cliques_found tail level with ⟨ev1, r1⟩
            rw [hc] at hm
            simp only at hm
            cases r1 with
            | error e => exact hm
            | ok r =>
              obtain ⟨F2, level2⟩ := r
              simp only
              split
              · exact hm
              · intro e he
                rcases List.mem_append.1 he with h | h
                · exact hm e h
                · exact ih _ _ _ e h

theorem pushed_seedInvariant (the_cliques : List clique) (P : Nat) (e : LevelEvent)
    (h : ∃ c, e = .pushed c) : e.SeedInvariant the_cliques P := by
  obtain ⟨c, hc⟩ := h
  rw [hc]
  trivial

/-- The loop over the communities of one source component, entered in a state of
`one_k` in which every clique of a source component has more than `t` vertices: it
does not stop at an assertion on the seed, and what holds between two constructions
holds at every test of the loop. -/
theorem drain_source_traced_spec (the_cliques : List clique) (t P : Nat)
    (isf : intersecting_clique_finder) (hset : LevelSetting the_cliques t P isf)
    (orig : Nat → Int) (S0 : List Int) (cur : Int) (rest : List Int)
    (hbig : ∀ l, l < the_cliques.length → orig l ∈ S0 → t < (the_cliques.getD l []).length)
    (hsrc : ∀ l, l < the_cliques.length → t < (the_cliques.getD l []).length → orig l ∈ S0) :
    ∀ (fuel : Nat) (found : List Int) (level : components) (ab : assigned_branches_t),
      OneKInv the_cliques t P orig S0 (cur :: rest) found level ab →
      (level.members_of cur).length + 1 ≤ fuel →
      (∀ ev ∈ (drain_source_traced t the_cliques P isf cur fuel found level ab).1,
        ev.SeedInvariant the_cliques P) ∧
      ((drain_source_traced t the_cliques P isf cur fuel found level ab).2
          = .error (.assertion .components_hpp 25) ∨
        ∃ found' level' ab',
          (drain_source_traced t the_cliques P isf cur fuel found level ab).2
            = .ok (found', level', ab') ∧
          OneKInv the_cliques t P orig S0 (cur :: rest) found' level' ab' ∧
          level'.members_of cur = []) := by
  intro fuel
  induction fuel with
  | zero => intro found level ab _ h; omega
  | succ fuel ih =>
    intro found level ab inv hfuel
    obtain ⟨_, hcur0⟩ := inv.src_sub cur (by simp)
    have hhere := between_good the_cliques t P orig S0 (cur :: rest) found level ab inv hsrc cur
    have hev0 : ∀ ev ∈ [LevelEvent.between t cur found level ab,
        LevelEvent.members cur level.N], ev.SeedInvariant the_cliques P := by
      intro ev hev
      rcases List.mem_cons.1 hev with h | h
      · rw [h]; exact hhere
      · have : ev = LevelEvent.members cur level.N := by simpa using h
        rw [this]
        trivial
    unfold drain_source_traced
    simp only
    rcases get_members_eq level cur with herr | ⟨_, hcurN, hok⟩
    · rw [herr]
      exact ⟨hev0, Or.inl rfl⟩
    rw [hok]
    cases hmem : level.members_of cur with
    | nil =>
      simp only
      exact ⟨hev0, Or.inr ⟨found, level, ab, rfl, inv, hmem⟩⟩
    | cons seed ms =>
      simp only
      have hseed : seed ∈ level.members_of cur := by rw [hmem]; simp
      obtain ⟨hseedN, hseedcur⟩ := (inv.wf.mem_iff cur seed hcur0).1 hseed
      have hseedC : seed < the_cliques.length := by rw [← inv.N_eq]; exact hseedN
      have hseedS : level.component_of seed ∈ cur :: rest := by rw [hseedcur]; simp
      have h481 : (the_cliques.getD seed []).length > t := by
        apply hbig seed hseedC
        rw [← inv.src_orig seed hseedC hseedS, hseedcur]
        exact (inv.src_sub cur (by simp)).1
      have h480 : ab.assigned_branches.getD (P + seed) false = false := by
        rcases inv.src_free seed hseedC hseedS with hfr | hsm
        · exact hfr
        · omega
      simp only [h480, not_true_eq_false, if_false, h481]
      have hev1 : ∀ ev ∈ [LevelEvent.between t cur found level ab,
          LevelEvent.members cur level.N] ++ [LevelEvent.pushed seed,
          LevelEvent.members level.top_empty_component level.N],
          ev.SeedInvariant the_cliques P := by
        intro ev hev
        rcases List.mem_append.1 hev with h | h
        · exact hev0 ev h
        · rcases List.mem_cons.1 h with h | h
          · rw [h]; trivial
          · have : ev = LevelEvent.members level.top_empty_component level.N := by
              simpa using h
            rw [this]
            trivial
      obtain ⟨hg0, hgemp⟩ := top_empty_component_spec level
      rcases get_members_eq level level.top_empty_component with herr | ⟨_, hgN, hgok⟩
      · rw [herr]
        exact ⟨hev1, Or.inl rfl⟩
      rw [hgok, hgemp]
      simp only [List.length_nil, not_true_eq_false, if_false]
      obtain ⟨level2, ab2, hrun, inv2, hshrink⟩ := one_community_spec the_cliques t P isf hset
        orig S0 cur rest found level ab inv seed hseed
      have hsnd := grow_community_traced_snd t the_cliques P isf cur level.top_empty_component
        (the_cliques.length + 1) [seed] (level.move_node seed level.top_empty_component) ab
      have hpush := grow_community_traced_pushes t the_cliques P isf cur
        level.top_empty_component (the_cliques.length + 1) [seed]
        (level.move_node seed level.top_empty_component) ab
      rcases hg : grow_community_traced t the_cliques P isf cur level.top_empty_component
        (the_cliques.length + 1) [seed] (level.move_node seed level.top_empty_component) ab
        with ⟨ev2, r2⟩
      rw [hg] at hsnd hpush
      simp only at hsnd hpush
      rw [hrun] at hsnd
      rw [hsnd]
      simp only
      have hgN2 : level.top_empty_component < (level2.N : Int) := by
        rw [inv2.N_eq, ← inv.N_eq]; exact hgN
      rw [get_members_ok level2 _ hg0 hgN2]
      simp only
      obtain ⟨hev3, hres3⟩ := ih (found ++ [level.top_empty_component]) level2 ab2 inv2 (by
        have hsub : ∀ x ∈ seed :: level2.members_of cur, x ∈ level.members_of cur := by
          intro x hx
          rcases List.mem_cons.1 hx with h | h
          · rw [h]; exact hseed
          · exact (hshrink x h).1
        have hnd : (seed :: level2.members_of cur).Nodup :=
          List.nodup_cons.2 ⟨fun h => (hshrink seed h).2 rfl, inv2.wf.nodup cur⟩
        have := length_le_of_nodup_subset_nat _ _ hnd hsub
        simp only [List.length_cons] at this
        rw [hmem] at this
        simp only [List.length_cons] at this ⊢
        rw [hmem] at hfuel
        simp only [List.length_cons] at hfuel
        omega)
      rcases hd : drain_source_traced t the_cliques P isf cur fuel
        (found ++ [level.top_empty_component]) level2 ab2 with ⟨ev3, r3⟩
      rw [hd] at hev3 hres3
      simp only at hev3 hres3 ⊢
      refine ⟨?_, hres3⟩
      intro ev hev
      rcases List.mem_append.1 hev with h | h
      · rcases List.mem_append.1 h with h | h
        · exact hev1 ev h
        · exact pushed_seedInvariant _ _ _ (hpush ev h)
      · rcases List.mem_cons.1 h with h | h
        · rw [h]; trivial
        · exact hev3 ev h

/-! ## The seed at every level -/

/-- When the current source component is empty, the state of `one_k` is a state for
the source components that remain. -/
theorem OneKInv.next_source {the_cliques : List clique} {t P : Nat} {orig : Nat → Int}
    {S0 : List Int} {cur : Int} {rest found1 : List Int} {level1 : components}
    {ab1 : assigned_branches_t}
    (inv1 : OneKInv the_cliques t P orig S0 (cur :: rest) found1 level1 ab1)
    (hemp : level1.members_of cur = []) :
    OneKInv the_cliques t P orig S0 rest found1 level1 ab1 := by
  obtain ⟨_, hcur0⟩ := inv1.src_sub cur (by simp)
  have hnocur : ∀ l, l < the_cliques.length → level1.component_of l ≠ cur :=
    fun l hl => component_ne_of_empty level1 inv1.wf cur hcur0 hemp l (by
      rw [inv1.N_eq]; exact hl)
  have hmem : ∀ l, l < the_cliques.length →
      (level1.component_of l ∈ cur :: rest ↔ level1.component_of l ∈ rest) := by
    intro l hl
    simp only [List.mem_cons]
    constructor
    · rintro (h | h)
      · exact absurd h (hnocur l hl)
      · exact h
    · exact fun h => Or.inr h
  refine ⟨inv1.wf, inv1.N_eq, inv1.tree, ?_, ?_, inv1.big, ?_,
    fun s hs => inv1.src_sub s (by simp [hs]), (List.nodup_cons.1 inv1.src_nodup).2, ?_, ?_,
    inv1.found_nodup, inv1.found_orig, ?_, ?_, inv1.closed_found, inv1.sep, inv1.frame⟩
  · intro l hl hdl
    exact (hmem l hl).1 (inv1.free l hl hdl)
  · intro l hl hls
    exact inv1.src_free l hl ((hmem l hl).2 hls)
  · intro l hl hls
    exact inv1.src_orig l hl ((hmem l hl).2 hls)
  · intro s hs
    exact inv1.src_nonempty s (by
      simp only [List.tail_cons]
      exact List.mem_of_mem_tail hs)
  · intro f hf
    obtain ⟨h1, h2, h3⟩ := inv1.found_disj f hf
    exact ⟨fun h => h1 (by simp [h]), h2, h3⟩
  · intro l hl ho
    rcases inv1.placed l hl ho with h | h
    · exact Or.inl ((hmem l hl).1 h)
    · exact Or.inr h
  · intro a ha b hb haf hbs
    exact inv1.closed_free a ha b hb haf ((hmem b hb).2 hbs)

/-- The loop over the source components: what holds between two constructions holds
at every test of the inner loop. -/
theorem one_k_sources_traced_events (the_cliques : List clique) (t P : Nat)
    (isf : intersecting_clique_finder) (hset : LevelSetting the_cliques t P isf)
    (orig : Nat → Int) (S0 : List Int)
    (hbig : ∀ l, l < the_cliques.length → orig l ∈ S0 → t < (the_cliques.getD l []).length)
    (hsrc : ∀ l, l < the_cliques.length → t < (the_cliques.getD l []).length → orig l ∈ S0) :
    ∀ (srcs found : List Int) (level : components) (ab : assigned_branches_t),
      OneKInv the_cliques t P orig S0 srcs found level ab →
      ∀ ev ∈ (one_k_sources_traced t the_cliques P isf srcs found level ab).1,
        ev.SeedInvariant the_cliques P := by
  intro srcs
  induction srcs with
  | nil =>
    intro found level ab _ ev hev
    simp [one_k_sources_traced] at hev
  | cons cur rest ih =>
    intro found level ab inv
    obtain ⟨_, hcur0⟩ := inv.src_sub cur (by simp)
    have hlen := members_length_le level inv.wf cur hcur0
    rw [inv.N_eq] at hlen
    obtain ⟨hev1, hres1⟩ := drain_source_traced_spec the_cliques t P isf hset orig S0 cur rest
      hbig hsrc (the_cliques.length + 1) found level ab inv (by omega)
    unfold one_k_sources_traced
    rcases hd : drain_source_traced t the_cliques P isf cur (the_cliques.length + 1) found
      level ab with ⟨ev1, r1⟩
    rw [hd] at hev1 hres1
    simp only at hev1 hres1
    rcases hres1 with herr | ⟨found1, level1, ab1, hok, inv1, hemp⟩
    · rw [herr]
      exact hev1
    rw [hok]
    simp only
    have := ih found1 level1 ab1 (inv1.next_source hemp)
    intro ev hev
    rcases List.mem_append.1 hev with h | h
    · exact hev1 ev h
    · exact this ev h

/-- The state in which the loop of `one_k` over the source components starts. -/
theorem one_k_initial_inv (the_cliques : List clique) (t P : Nat)
    (candidate_components : List Int) (level : components)
    (entry : OneKEntry the_cliques t candidate_components level) (ab : assigned_branches_t)
    (htree : TreeInvariant P ab)
    (hdone : ∀ l, l < the_cliques.length →
      (ab.done (P + l) = true ↔ (the_cliques.getD l []).length ≤ t)) :
    OneKInv the_cliques t P level.component_of candidate_components.reverse
      candidate_components.reverse [] level ab := by
  have hbig : ∀ l, l < the_cliques.length → ab.done (P + l) = false →
      t < (the_cliques.getD l []).length := by
    intro l hl h
    by_contra hc
    rw [(hdone l hl).2 (by omega)] at h
    exact absurd h (by simp)
  refine ⟨entry.wf, entry.N_eq, htree, ?_, ?_, hbig, fun _ _ _ => rfl, ?_,
    List.nodup_reverse.2 entry.src_nodup, ?_, by simp, List.nodup_nil, by simp, ?_, by simp,
    by simp, ?_, fun _ _ => Or.inl rfl⟩
  · intro l hl hd
    exact List.mem_reverse.2 (entry.src_big l hl (hbig l hl hd))
  · intro l hl _
    by_cases hd : ab.done (P + l) = false
    · exact Or.inl hd
    · right
      have := (hdone l hl).1 (by simpa using hd)
      omega
  · intro s hs
    exact ⟨hs, (entry.src_nonempty s (List.mem_reverse.1 hs)).1⟩
  · intro s hs
    exact (entry.src_nonempty s (List.mem_reverse.1 (List.mem_of_mem_tail hs))).2
  · intro l _ ho
    exact Or.inl ho
  · intro a ha b hb hao hbo hne
    exact entry.sep a ha b hb (List.mem_reverse.1 hao) (List.mem_reverse.1 hbo) hne

/-- One level, entered with source components that hold exactly the cliques of more
than `t` vertices: what holds between two constructions holds at every test of the
inner loop. -/
theorem one_k_traced_events (the_cliques : List clique) (t P : Nat)
    (isf : intersecting_clique_finder) (hset : LevelSetting the_cliques t P isf)
    (candidate_components : List Int) (level : components)
    (entry : OneKEntry the_cliques t candidate_components level)
    (hbig : ∀ l, l < the_cliques.length → level.component_of l ∈ candidate_components →
      t < (the_cliques.getD l []).length) :
    ∀ ev ∈ (one_k_traced [] candidate_components level t the_cliques P the_cliques.length
        isf).1, ev.SeedInvariant the_cliques P := by
  obtain ⟨ab0, ab, hcreate, hpremark, htree, hdone⟩ :=
    one_k_prelude_spec the_cliques t P hset.P_pos hset.C_le hset.P_le
  unfold one_k_traced
  simp only [List.isEmpty_nil, not_true_eq_false, if_false, hcreate, hpremark]
  have inv := one_k_initial_inv the_cliques t P candidate_components level entry ab htree hdone
  have := one_k_sources_traced_events the_cliques t P isf hset level.component_of
    candidate_components.reverse
    (fun l hl h => hbig l hl (List.mem_reverse.1 h))
    (fun l hl h => List.mem_reverse.2 (entry.src_big l hl h))
    candidate_components.reverse [] level ab inv
  rcases hd : one_k_sources_traced t the_cliques P isf candidate_components.reverse [] level ab
    with ⟨ev1, r1⟩
  rw [hd] at this
  simp only at this
  cases r1 with
  | error e => exact this
  | ok r =>
    obtain ⟨f, lv, _⟩ := r
    exact this

/-- The loop over the levels, entered at `k ≥ 2` with source components that hold
exactly the cliques of at least `k` vertices: the assertions on the seed hold, and
what holds between two constructions holds at every test of the inner loop. -/
theorem percolation_levels_traced_events (l : Nat) (h : Int → Nat) (the_cliques : List clique)
    (P max_k : Nat) (hl : 0 < l) (hdm : DistinctMaximal the_cliques) (hP1 : 1 ≤ P)
    (hP2 : 2 * P ≤ 2147483647) (hC : the_cliques.length ≤ P) :
    ∀ (n k : Nat) (srcs : List Int) (level : components) (completed : List Level),
      2 ≤ k →
      OneKEntry the_cliques (k - 1) srcs level →
      (∀ c, c < the_cliques.length → level.component_of c ∈ srcs →
        k ≤ (the_cliques.getD c []).length) →
      (∀ ev ∈ (percolation_levels_traced l h the_cliques P the_cliques.length max_k
          (List.range' k n) srcs level completed).1, ev.SeedInvariant the_cliques P) ∧
        ((percolation_levels_traced l h the_cliques P the_cliques.length max_k
            (List.range' k n) srcs level completed).2.2 = none ∨
          (percolation_levels_traced l h the_cliques P the_cliques.length max_k
            (List.range' k n) srcs level completed).2.2
              = some (.assertion .components_hpp 25)) := by
  intro n
  induction n with
  | zero =>
    intro k srcs level completed _ _ _
    exact ⟨by simp [percolation_levels_traced], Or.inl rfl⟩
  | succ n ih =>
    intro k srcs level completed hk entry hbig
    rw [List.range'_succ]
    unfold percolation_levels_traced
    simp only
    have hset := level_setting l h the_cliques (k - 1) P hl hdm (by omega) hP1 hP2 hC
    have hev := one_k_traced_events the_cliques (k - 1) P _ hset srcs level entry
      (fun c hc hs => by have := hbig c hc hs; omega)
    have hsnd := one_k_traced_snd [] srcs level (k - 1) the_cliques P the_cliques.length
      (populate the_cliques (k - 1) P (List.range the_cliques.length)
        (intersecting_clique_finder.create l h P))
    rcases hd : one_k_traced [] srcs level (k - 1) the_cliques P the_cliques.length
      (populate the_cliques (k - 1) P (List.range the_cliques.length)
        (intersecting_clique_finder.create l h P)) with ⟨ev1, r1⟩
    rw [hd] at hev hsnd
    simp only at hev hsnd
    rcases one_k_spec the_cliques (k - 1) P _ hset srcs level entry with
      herr | ⟨_, c, hc, hcs, hsmall⟩ | ⟨found, level1, hok, post⟩
    · rw [herr] at hsnd
      rw [hsnd]
      exact ⟨hev, Or.inr rfl⟩
    · have := hbig c hc hcs
      omega
    rw [hok] at hsnd
    rw [hsnd]
    simp only
    rcases write_all_communities_spec level1 the_cliques post.wf post.N_eq found with
      herr | ⟨lines, hlines⟩
    · rw [herr]
      exact ⟨hev, Or.inr rfl⟩
    rw [hlines]
    simp only
    by_cases hmax : k + 1 > max_k
    · rw [if_pos hmax]
      exact ⟨hev, Or.inl rfl⟩
    rw [if_neg hmax]
    rcases next_sources_spec the_cliques (k + 1) level1 post.wf post.N_eq found [] []
      (components.empty.setN the_cliques.length) (by simpa using post.found_nodup)
      (nextInv_init the_cliques (k + 1) level1) with herr | ⟨srcs1, nl1, hrun, inv⟩
    · rw [herr]
      exact ⟨hev, Or.inr rfl⟩
    rw [hrun]
    simp only
    have inv1 : NextInv the_cliques (k + 1) level1 found srcs1 nl1 := by simpa using inv
    obtain ⟨entry1, _⟩ := next_entry the_cliques k srcs found srcs1 level level1 nl1 entry
      post inv1
    obtain ⟨hev2, hres2⟩ := ih (k + 1) srcs1 nl1 (completed ++ [⟨k, found, level1, lines⟩])
      (by omega) entry1 (by
        intro c hc hs
        exact ((inv1.moved_iff c hc).1 (inv1.src_nonempty _ hs).1).2)
    refine ⟨?_, hres2⟩
    intro ev hev'
    rcases List.mem_append.1 hev' with h | h
    · exact hev ev h
    · exact hev2 ev h

theorem search_errors_not_seed (e : Err) (h : e ∈ search_errors) :
    e ≠ .assertion .cp5_cpp 480 ∧ e ≠ .assertion .cp5_cpp 481 := by
  constructor
  · rintro rfl
    revert h
    decide
  · rintro rfl
    revert h
    decide

/-- The growth of a community does not stop at an assertion on the seed. -/
theorem grow_community_error_not_seed (t : Nat) (the_cliques : List clique) (P : Nat)
    (isf : intersecting_clique_finder) (src d : Int) :
    ∀ (fuel : Nat) (F : List Nat) (level : components) (ab : assigned_branches_t) (e : Err),
      grow_community t the_cliques P isf src d fuel F level ab = .error e →
      e ≠ .assertion .cp5_cpp 480 ∧ e ≠ .assertion .cp5_cpp 481 := by
  intro fuel
  induction fuel with
  | zero =>
    intro F level ab e h
    simp only [grow_community, Except.error.injEq] at h
    rw [← h]
    exact ⟨by simp, by simp⟩
  | succ fuel ih =>
    intro F level ab e h
    cases F with
    | nil => simp [grow_community] at h
    | cons q tail =>
      unfold grow_community at h
      cases hm : ab.mark_as_done (P + q) with
      | error e1 =>
        rw [hm] at h
        simp only [Except.error.injEq] at h
        rw [← h]
        exact search_errors_not_seed e1 (mark_as_done_error_mem ab _ e1 hm)
      | ok r =>
        obtain ⟨k, ab1⟩ := r
        rw [hm] at h
        simp only at h
        cases hc : level.my_component_id q with
        | error e1 =>
          rw [hc] at h
          simp only [Except.error.injEq] at h
          rw [← h, my_component_id_error level q e1 hc]
          exact ⟨by simp, by simp⟩
        | ok id =>
          rw [hc] at h
          simp only at h
          by_cases h500 : id = d
          swap
          · rw [if_pos h500] at h
            simp only [Except.error.injEq] at h
            rw [← h]
            exact ⟨by simp, by simp⟩
          rw [if_neg (not_not.2 h500)] at h
          cases hn : neighbours_of_one_clique the_cliques q level t d isf ⟨0, [], ab1⟩ with
          | error e1 =>
            rw [hn] at h
            simp only [Except.error.injEq] at h
            rw [← h]
            exact search_errors_not_seed e1 (neighbours_error_mem isf q t the_cliques level d _
              e1 hn)
          | ok s =>
            rw [hn] at h
            simp only at h
            cases hmv : move_in src d s.cliques_found tail level with
            | error e1 =>
              rw [hmv] at h
              simp only [Except.error.injEq] at h
              rw [← h]
              have := (move_in_traced_universal src d s.cliques_found tail level).2.1 e1 (by
                rw [move_in_traced_snd]; exact hmv)
              rcases this with h1 | h1
              · rw [h1]; exact ⟨by simp, by simp⟩
              · rw [h1]; exact ⟨by simp, by simp⟩
            | ok r2 =>
              obtain ⟨F2, level2⟩ := r2
              rw [hmv] at h
              simp only at h
              by_cases h511 : F2.length < the_cliques.length
              swap
              · rw [if_pos h511] at h
                simp only [Except.error.injEq] at h
                rw [← h]
                exact ⟨by simp, by simp⟩
              rw [if_neg (not_not.2 h511)] at h
              exact ih _ _ _ e h

/-- With the threshold `0` and at least two cliques, none of them empty, `one_k` stops
at an assertion that is not one of the two assertions on the seed, and what holds
between two constructions holds at the one test of the inner loop that is made. -/
theorem one_k_traced_zero (the_cliques : List clique) (P : Nat)
    (isf : intersecting_clique_finder)
    (hisf : isf.power_up = P) (hP : the_cliques.length ≤ P) (hP2 : 2 * P ≤ 2147483647)
    (hC : 2 ≤ the_cliques.length)
    (hsize : ∀ c, c < the_cliques.length → 0 < (the_cliques.getD c []).length)
    (cur : Int) (level : components) (hwf : level.WellFormed)
    (hN : level.N = the_cliques.length) (hcur : 0 ≤ cur) :
    (∀ ev ∈ (one_k_traced [] [cur] level 0 the_cliques P the_cliques.length isf).1,
        ev.SeedInvariant the_cliques P) ∧
      ∀ e, (one_k_traced [] [cur] level 0 the_cliques P the_cliques.length isf).2 = .error e →
        e ≠ .assertion .cp5_cpp 480 ∧ e ≠ .assertion .cp5_cpp 481 := by
  obtain ⟨ab0, ab, hcreate, hpremark, htree, hdone⟩ :=
    one_k_prelude_spec the_cliques 0 P (by omega) hP hP2
  have hfree : ∀ c, c < the_cliques.length → ab.done (P + c) = false := by
    intro c hc
    by_contra hd
    have := (hdone c hc).1 (by simpa using hd)
    have := hsize c hc
    omega
  have hhere : (LevelEvent.between 0 cur [] level ab).SeedInvariant the_cliques P := by
    intro c hc
    rw [hfree c hc]
    have := hsize c hc
    constructor
    · intro h
      exact absurd h (by simp)
    · rintro (h | h)
      · omega
      · exact absurd h (by simp)
  have hev0 : ∀ ev ∈ [LevelEvent.between 0 cur [] level ab,
      LevelEvent.members cur level.N], ev.SeedInvariant the_cliques P := by
    intro ev hev
    rcases List.mem_cons.1 hev with h | h
    · rw [h]; exact hhere
    · have : ev = LevelEvent.members cur level.N := by simpa using h
      rw [this]
      trivial
  unfold one_k_traced
  simp only [List.isEmpty_nil, not_true_eq_false, if_false, hcreate, hpremark,
    List.reverse_cons, List.reverse_nil, List.nil_append]
  unfold one_k_sources_traced drain_source_traced
  simp only
  rcases get_members_eq level cur with herr | ⟨_, _, hok⟩
  · rw [herr]
    simp only
    exact ⟨hev0, fun e he => by
      simp only [Except.error.injEq] at he
      rw [← he]
      exact ⟨by simp, by simp⟩⟩
  rw [hok]
  cases hm : level.members_of cur with
  | nil =>
    simp only [one_k_sources_traced, List.append_nil]
    exact ⟨hev0, fun e he => by simp at he⟩
  | cons seed ms =>
    simp only
    have hseed : seed ∈ level.members_of cur := by rw [hm]; simp
    obtain ⟨hseedN, _⟩ := (hwf.mem_iff cur seed hcur).1 hseed
    have hseedC : seed < the_cliques.length := by rw [← hN]; exact hseedN
    have h480 : ab.assigned_branches.getD (P + seed) false = false := hfree seed hseedC
    have h481 : (the_cliques.getD seed []).length > 0 := hsize seed hseedC
    simp only [h480, not_true_eq_false, if_false, h481]
    have hev1 : ∀ ev ∈ [LevelEvent.between 0 cur [] level ab,
        LevelEvent.members cur level.N] ++ [LevelEvent.pushed seed,
        LevelEvent.members level.top_empty_component level.N],
        ev.SeedInvariant the_cliques P := by
      intro ev hev
      rcases List.mem_append.1 hev with h | h
      · exact hev0 ev h
      · rcases List.mem_cons.1 h with h | h
        · rw [h]; trivial
        · have : ev = LevelEvent.members level.top_empty_component level.N := by
            simpa using h
          rw [this]
          trivial
    rcases get_members_eq level level.top_empty_component with herr | ⟨hg0, _, hgok⟩
    · rw [herr]
      simp only
      exact ⟨hev1, fun e he => by
        simp only [Except.error.injEq] at he
        rw [← he]
        exact ⟨by simp, by simp⟩⟩
    rw [hgok]
    simp only
    by_cases h486 : 0 = (level.members_of level.top_empty_component).length
    swap
    · rw [if_pos h486]
      simp only
      exact ⟨hev1, fun e he => by
        simp only [Except.error.injEq] at he
        rw [← he]
        exact ⟨by simp, by simp⟩⟩
    rw [if_neg (not_not.2 h486)]
    obtain ⟨_, hN1, _, _, _⟩ := move_node_spec level seed level.top_empty_component hwf hseedN hg0
    have hother : ∃ other, other < the_cliques.length ∧ other ≠ seed := by
      by_cases h0 : seed = 0
      · exact ⟨1, by omega, by omega⟩
      · exact ⟨0, by omega, fun e => h0 e.symm⟩
    obtain ⟨other, hoC, hone⟩ := hother
    obtain ⟨e, he, _⟩ := grow_community_zero the_cliques P isf hisf hP cur
      level.top_empty_component seed other (level.move_node seed level.top_empty_component) ab
      (by rw [hN1, hN]) hseedC hoC hone (hfree other hoC) htree (the_cliques.length + 1)
    have hnot := grow_community_error_not_seed 0 the_cliques P isf cur level.top_empty_component
      _ _ _ _ e he
    have hsnd := grow_community_traced_snd 0 the_cliques P isf cur level.top_empty_component
      (the_cliques.length + 1) [seed] (level.move_node seed level.top_empty_component) ab
    have hpush := grow_community_traced_pushes 0 the_cliques P isf cur
      level.top_empty_component (the_cliques.length + 1) [seed]
      (level.move_node seed level.top_empty_component) ab
    rcases hg : grow_community_traced 0 the_cliques P isf cur level.top_empty_component
      (the_cliques.length + 1) [seed] (level.move_node seed level.top_empty_component) ab
      with ⟨ev2, r2⟩
    rw [hg] at hsnd hpush
    simp only at hsnd hpush
    rw [he] at hsnd
    rw [hsnd]
    simp only
    refine ⟨?_, ?_⟩
    · intro ev hev
      rcases List.mem_append.1 hev with h | h
      · exact hev1 ev h
      · exact pushed_seedInvariant _ _ _ (hpush ev h)
    · intro e' he'
      simp only [Except.error.injEq] at he'
      rw [← he']
      exact hnot

/-- The whole run on at least two distinct maximal cliques of at least `min_k`
vertices each: it does not stop at an assertion on the seed, and what holds between
two constructions holds at every test of the inner loop of `one_k`. -/
theorem percolation_traced_seed (l : Nat) (h : Int → Nat) (min_k max_k : Nat)
    (the_cliques : List clique) (hl : 0 < l) (hC : 2 ≤ the_cliques.length)
    (hdm : DistinctMaximal the_cliques)
    (hbig : ∀ c, c < the_cliques.length → min_k ≤ (the_cliques.getD c []).length) :
    ((do_clique_percolation_variant_5b_traced l h min_k max_k the_cliques).2.2
        ≠ some (.assertion .cp5_cpp 480) ∧
      (do_clique_percolation_variant_5b_traced l h min_k max_k the_cliques).2.2
        ≠ some (.assertion .cp5_cpp 481)) ∧
      ∀ P : Int, power_up_loop 64 1 (the_cliques.length : Int) = .ok P →
        ∀ ev ∈ (do_clique_percolation_variant_5b_traced l h min_k max_k the_cliques).1,
          ev.SeedInvariant the_cliques P.toNat := by
  unfold do_clique_percolation_variant_5b_traced
  by_cases h1 : the_cliques.length > 2147483647
  · rw [if_pos h1]
    exact ⟨⟨by simp, by simp⟩, fun P _ ev hev => by simp at hev⟩
  rw [if_neg h1]
  dsimp only
  rw [if_neg (by omega)]
  by_cases h344 : min_k > 0 ∧ min_k ≤ max_k ∧ the_cliques.length > 1
  swap
  · rw [if_pos h344]
    exact ⟨⟨by simp, by simp⟩, fun P _ ev hev => by simp at hev⟩
  rw [if_neg (not_not.2 h344)]
  cases hp : power_up_loop 64 1 (the_cliques.length : Int) with
  | error e =>
    dsimp only
    have := power_up_loop_error (the_cliques.length : Int) 64 1 e hp
    rw [this]
    exact ⟨⟨by simp, by simp⟩, fun P hP => by simp at hP⟩
  | ok power_up =>
    dsimp only
    by_cases h349 : power_up > 0
    swap
    · rw [if_pos h349]
      exact ⟨⟨by simp, by simp⟩, fun P _ ev hev => by simp at hev⟩
    rw [if_neg (not_not.2 h349)]
    obtain ⟨hP1, hP3, hP2⟩ := power_up_positive the_cliques.length power_up hp h349
    have hn : max_k + 1 - min_k = (max_k - min_k) + 1 := by omega
    rcases hP2 with hP2 | hP2
    swap
    · -- the tree of `2^31` branches does not fit 32 bits
      rw [hn, List.range'_succ]
      unfold percolation_levels_traced
      dsimp only
      have hone : ∀ (srcs : List Int) (level : components) (isf : intersecting_clique_finder),
          one_k_traced [] srcs level (min_k - 1) the_cliques power_up.toNat the_cliques.length
            isf = ([], .error .length_error) := by
        intro srcs level isf
        have hbig : 2 * power_up.toNat > 2147483647 := by omega
        unfold one_k_traced assigned_branches_t.create
        simp [hbig]
      rw [hone]
      exact ⟨⟨by simp, by simp⟩, fun P _ ev hev => by simp at hev⟩
    obtain ⟨hwf0, hN0, hcomp0⟩ := lowest_level_spec the_cliques.length
    have htop : (components.empty.setN the_cliques.length).top_empty_component = 0 := rfl
    have hmem0 : ((List.range the_cliques.length).foldl
        (fun level c => level.move_node c
          (components.empty.setN the_cliques.length).top_empty_component)
        (components.empty.setN the_cliques.length)).members_of 0 ≠ [] := by
      intro hemp
      have := (hwf0.mem_iff 0 0 (le_refl 0)).2 ⟨by rw [hN0]; omega, hcomp0 0 (by omega)⟩
      rw [hemp] at this
      exact absurd this (by simp)
    by_cases hk : 2 ≤ min_k
    · have entry : OneKEntry the_cliques (min_k - 1) [0] ((List.range the_cliques.length).foldl
          (fun level c => level.move_node c
            (components.empty.setN the_cliques.length).top_empty_component)
          (components.empty.setN the_cliques.length)) := by
        refine ⟨hwf0, hN0, List.nodup_singleton 0, ?_, ?_, ?_⟩
        · intro s hs
          have : s = 0 := by simpa using hs
          rw [this]
          exact ⟨le_refl 0, hmem0⟩
        · intro c hc _
          rw [hcomp0 c hc]
          simp
        · intro a ha b hb _ _ hne
          rw [hcomp0 a ha, hcomp0 b hb] at hne
          exact absurd rfl hne
      have := percolation_levels_traced_events l h the_cliques power_up.toNat max_k hl hdm hP1
        hP2 hP3 (max_k + 1 - min_k) min_k [0] _ [] hk entry (fun c hc _ => hbig c hc)
      refine ⟨⟨?_, ?_⟩, ?_⟩
      · intro hc
        rcases this.2 with h2 | h2
        · have := hc.symm.trans h2
          simp at this
        · have := hc.symm.trans h2
          simp at this
      · intro hc
        rcases this.2 with h2 | h2
        · have := hc.symm.trans h2
          simp at this
        · have := hc.symm.trans h2
          simp at this
      · intro P hP
        have hPe : P = power_up := by
          simp only [Except.ok.injEq] at hP
          exact hP.symm
        rw [hPe]
        exact this.1
    · -- the first level has the threshold `0`
      have hmin : min_k = 1 := by omega
      have hn : max_k + 1 - min_k = (max_k - 1) + 1 := by omega
      rw [hmin] at hn ⊢
      rw [hn, List.range'_succ]
      unfold percolation_levels_traced
      dsimp only
      obtain ⟨_, hisf, _, _⟩ := populate_spec the_cliques 0 power_up.toNat
        (List.range the_cliques.length)
        (intersecting_clique_finder.create l h power_up.toNat)
        (create_wellFormed l h power_up.toNat hl)
      obtain ⟨hev, herr⟩ := one_k_traced_zero the_cliques power_up.toNat _ hisf hP3 hP2 hC
        (distinct_maximal_nonempty the_cliques hdm hC) 0 _ hwf0 hN0 (le_refl 0)
      obtain ⟨e, he, _⟩ := one_k_zero the_cliques power_up.toNat _ hisf hP3 hP2 hC
        (distinct_maximal_nonempty the_cliques hdm hC) 0 _ hwf0 hN0 (le_refl 0) hmem0
      rw [← one_k_traced_snd] at he
      have hnot := herr e he
      rcases hd : one_k_traced [] [0]
          ((List.range the_cliques.length).foldl
            (fun level c => level.move_node c
              (components.empty.setN the_cliques.length).top_empty_component)
            (components.empty.setN the_cliques.length)) 0 the_cliques power_up.toNat
          the_cliques.length (populate the_cliques 0 power_up.toNat
            (List.range the_cliques.length)
            (intersecting_clique_finder.create l h power_up.toNat)) with ⟨ev1, r1⟩
      rw [hd] at hev he
      simp only at hev he
      have hd2 : one_k_traced [] [(components.empty.setN the_cliques.length).top_empty_component]
          ((List.range the_cliques.length).foldl
            (fun level c => level.move_node c
              (components.empty.setN the_cliques.length).top_empty_component)
            (components.empty.setN the_cliques.length)) (1 - 1) the_cliques power_up.toNat
          the_cliques.length (populate the_cliques (1 - 1) power_up.toNat
            (List.range the_cliques.length)
            (intersecting_clique_finder.create l h power_up.toNat)) = (ev1, r1) := hd
      rw [hd2, he]
      dsimp only
      refine ⟨⟨?_, ?_⟩, ?_⟩
      · intro hc
        simp only [Option.some.injEq] at hc
        exact hnot.1 hc
      · intro hc
        simp only [Option.some.injEq] at hc
        exact hnot.2 hc
      · intro P hP
        have hPe : P = power_up := by
          simp only [Except.ok.injEq] at hP
          exact hP.symm
        rw [hPe]
        exact hev

/-! ## C27: the seed of a community -/

set_option maxRecDepth 100000 in
/-- C27, as stated, fails on a clique list with a clique smaller than `min_k`: on the
three distinct maximal cliques `{1,2}`, `{2,3,4}`, `{3,4,5}` with `min_k = max_k = 3`
the leaf of the first clique is marked done before the first level starts, the clique
is the front of the one source component, and the run stops at the assertion of
`cp5.cpp` line 480 that the leaf of the seed is not done. -/
theorem seed_leaf_is_done_for_a_small_clique :
    DistinctMaximal cliques_with_an_edge ∧ 2 ≤ cliques_with_an_edge.length ∧
      (do_clique_percolation_variant_5b 10000000000 identity_hash 3 3
        cliques_with_an_edge).2 = some (.assertion .cp5_cpp 480) :=
  ⟨by decide, by decide, by decide⟩

/-- C27, amended: in every run of `do_clique_percolation_variant_5b` on at least two
distinct maximal cliques, each of at least `min_k` vertices, the two assertions on the
seed in `one_k` (lines 480 and 481 of `cp5.cpp`: the leaf of the seed is not done, the
seed has more than `t` vertices) do not fail; and at every test of the loop that pulls
communities out of a source component, at every level, the leaf of a clique is marked
done if and only if the clique has at most `t` vertices or is in a community found at
this level. The record of these tests is that of the traced run, which returns what
the run returns. -/
theorem seed_assertions_hold (l : Nat) (h : Int → Nat) (min_k max_k : Nat)
    (the_cliques : List clique) (hl : 0 < l) (hC : 2 ≤ the_cliques.length)
    (hdm : DistinctMaximal the_cliques)
    (hbig : ∀ c, c < the_cliques.length → min_k ≤ (the_cliques.getD c []).length) :
    (do_clique_percolation_variant_5b l h min_k max_k the_cliques).2
        ≠ some (.assertion .cp5_cpp 480) ∧
      (do_clique_percolation_variant_5b l h min_k max_k the_cliques).2
        ≠ some (.assertion .cp5_cpp 481) ∧
      (do_clique_percolation_variant_5b_traced l h min_k max_k the_cliques).2
        = do_clique_percolation_variant_5b l h min_k max_k the_cliques ∧
      ∀ power_up : Int, power_up_loop 64 1 (the_cliques.length : Int) = .ok power_up →
        ∀ (t : Nat) (source_component : Int) (found_communities : List Int)
          (current_percolation_level : components) (assigned_branches : assigned_branches_t),
          LevelEvent.between t source_component found_communities current_percolation_level
              assigned_branches
            ∈ (do_clique_percolation_variant_5b_traced l h min_k max_k the_cliques).1 →
          ∀ c, c < the_cliques.length →
            (assigned_branches.done (power_up.toNat + c) = true ↔
              (the_cliques.getD c []).length ≤ t ∨
                current_percolation_level.component_of c ∈ found_communities) := by
  obtain ⟨⟨h480, h481⟩, hev⟩ := percolation_traced_seed l h min_k max_k the_cliques hl hC hdm hbig
  rw [percolation_traced_snd] at h480 h481
  refine ⟨h480, h481, percolation_traced_snd l h min_k max_k the_cliques, ?_⟩
  intro power_up hp t src found level ab hmem
  exact hev power_up hp _ hmem

set_option maxRecDepth 100000 in
/-- C27 on two cliques of four vertices that share three and a triangle apart, from
`k = 3` to `k = 4`: the run completes, and one of the tests recorded at `t = 2` is made
when the community `1` of the two cliques of four vertices has been found, with their
leaves `4` and `5` done and the leaf `6` of the triangle not done. -/
theorem seed_assertions_hold_witness :
    (0 < 10000000000 ∧ 2 ≤ cliques_two_levels.length ∧ DistinctMaximal cliques_two_levels ∧
        (∀ c, c < cliques_two_levels.length → 3 ≤ (cliques_two_levels.getD c []).length) ∧
        (do_clique_percolation_variant_5b 10000000000 identity_hash 3 4
          cliques_two_levels).2 = none ∧
        power_up_loop 64 1 (cliques_two_levels.length : Int) = .ok 4 ∧
        LevelEvent.between 2 0 [1] ⟨3, [[2], [0, 1]], [1, 1, 0]⟩
            ⟨4, 3, [false, false, true, false, true, true, false, true]⟩
          ∈ (do_clique_percolation_variant_5b_traced 10000000000 identity_hash 3 4
              cliques_two_levels).1) ∧
      ((do_clique_percolation_variant_5b 10000000000 identity_hash 3 4 cliques_two_levels).2
          ≠ some (.assertion .cp5_cpp 480) ∧
        (do_clique_percolation_variant_5b 10000000000 identity_hash 3 4 cliques_two_levels).2
          ≠ some (.assertion .cp5_cpp 481) ∧
        (do_clique_percolation_variant_5b_traced 10000000000 identity_hash 3 4
            cliques_two_levels).2
          = do_clique_percolation_variant_5b 10000000000 identity_hash 3 4
              cliques_two_levels ∧
        ∀ power_up : Int, power_up_loop 64 1 (cliques_two_levels.length : Int) = .ok power_up →
          ∀ (t : Nat) (source_component : Int) (found_communities : List Int)
            (current_percolation_level : components)
            (assigned_branches : assigned_branches_t),
            LevelEvent.between t source_component found_communities current_percolation_level
                assigned_branches
              ∈ (do_clique_percolation_variant_5b_traced 10000000000 identity_hash 3 4
                  cliques_two_levels).1 →
            ∀ c, c < cliques_two_levels.length →
              (assigned_branches.done (power_up.toNat + c) = true ↔
                (cliques_two_levels.getD c []).length ≤ t ∨
                  current_percolation_level.component_of c ∈ found_communities)) :=
  ⟨⟨by decide, by decide, by decide, by decide, by decide, rfl, by decide⟩,
    seed_assertions_hold 10000000000 identity_hash 3 4 cliques_two_levels (by decide)
      (by decide) (by decide) (by decide)⟩

/-! ## The search with and without the branch cut -/

/-- A search without the branch cut below a branch whose leaves that are not done all
overlap the clique `q` in fewer than `t` vertices appends nothing and marks nothing. -/
theorem search_without_branch_cut_unchanged (P q t : Nat) (the_cliques : List clique)
    (level : components) (skip : Int) :
    ∀ (fuel b : Nat) (u r : SearchState),
      (∀ l, l < the_cliques.length → below b (P + l) →
        u.assigned_branches.done (P + l) = false →
        actual_overlap (the_cliques.getD l []) (the_cliques.getD q []) < t) →
      search_without_branch_cut fuel P b q t the_cliques level skip u = .ok r →
      r.cliques_found = u.cliques_found ∧ r.assigned_branches = u.assigned_branches := by
  intro fuel
  induction fuel with
  | zero => intro b u r _ h; simp [search_without_branch_cut] at h
  | succ fuel ih =>
    intro b u r hsmall h
    unfold search_without_branch_cut at h
    dsimp only at h
    by_cases h1 : u.assigned_branches.assigned_branches.getD b false = false
    swap
    · rw [if_pos h1] at h
      simp at h
    rw [if_neg (not_not.2 h1)] at h
    by_cases h2 : b ≥ P
    · rw [if_pos h2] at h
      by_cases h3 : b - P ≥ the_cliques.length
      · rw [if_pos h3] at h
        simp only [Except.ok.injEq] at h
        rw [← h]
        exact ⟨rfl, rfl⟩
      rw [if_neg h3] at h
      cases hc : level.my_component_id (b - P) with
      | error e => rw [hc] at h; simp at h
      | ok id =>
        rw [hc] at h
        dsimp only at h
        split_ifs at h with h4 h5 h6 h7
        · exfalso
          have := hsmall (b - P) (by omega) (by
            rw [show P + (b - P) = b by omega]; exact below_refl b) (by
            rw [show P + (b - P) = b by omega]; exact h1)
          omega
        · simp only [Except.ok.injEq] at h
          rw [← h]
          exact ⟨rfl, rfl⟩
    · rw [if_neg h2] at h
      by_cases h3 : b <<< 1 < 2147483648
      swap
      · rw [if_pos h3] at h
        simp at h
      rw [if_neg (not_not.2 h3)] at h
      have hshift : b <<< 1 = 2 * b := shiftLeft_one_eq b
      have key : ∀ (c : Prop) [Decidable c] (b2 : Nat) (s1 s2 : SearchState),
          (if c then search_without_branch_cut fuel P b2 q t the_cliques level skip s1
              else .ok s1) = .ok s2 →
          (b2 = 2 * b ∨ b2 = 2 * b + 1) →
          s1.assigned_branches = u.assigned_branches →
          s2.cliques_found = s1.cliques_found ∧ s2.assigned_branches = s1.assigned_branches := by
        intro c _ b2 s1 s2 hc hb2 hab
        by_cases hcc : c
        · rw [if_pos hcc] at hc
          refine ih b2 s1 s2 ?_ hc
          intro l hl hbl hdl
          rw [hab] at hdl
          refine hsmall l hl (below_of_below_child b _ ?_) hdl
          rcases hb2 with e | e
          · exact Or.inl (e ▸ hbl)
          · exact Or.inr (e ▸ hbl)
        · rw [if_neg hcc] at hc
          simp only [Except.ok.injEq] at hc
          rw [← hc]
          exact ⟨rfl, rfl⟩
      generalize hal : (if u.assigned_branches.assigned_branches.getD (b <<< 1) false = false
            then search_without_branch_cut fuel P (b <<< 1) q t the_cliques level skip
              { u with searches_performed := u.searches_performed + 2 }
            else .ok { u with searches_performed := u.searches_performed + 2 }) = after_left
        at h
      cases after_left with
      | error e => simp at h
      | ok s2 =>
        dsimp only at h
        obtain ⟨f1, a1⟩ := key _ _ _ _ hal (Or.inl hshift) rfl
        obtain ⟨f2, a2⟩ := key _ _ _ _ h (Or.inr (by rw [hshift])) a1
        exact ⟨by rw [f2, f1], by rw [a2, a1]⟩

/-- A search that appends nothing marks nothing. -/
theorem recursive_search_unchanged (isf : intersecting_clique_finder) (q t : Nat)
    (the_cliques : List clique) (level : components) (skip : Int) :
    ∀ (fuel b : Nat) (s s' : SearchState),
      recursive_search fuel isf b q t the_cliques level skip s = .ok s' →
      ∃ F, s'.cliques_found = s.cliques_found ++ F ∧
        (F = [] → s'.assigned_branches = s.assigned_branches) := by
  intro fuel
  induction fuel with
  | zero => intro b s s' h; simp [recursive_search] at h
  | succ fuel ih =>
    intro b s s' h
    unfold recursive_search at h
    dsimp only at h
    by_cases h1 : s.assigned_branches.assigned_branches.getD b false = false
    swap
    · rw [if_pos h1] at h
      simp at h
    rw [if_neg (not_not.2 h1)] at h
    by_cases h2 : b ≥ isf.power_up
    · rw [if_pos h2] at h
      by_cases h3 : b - isf.power_up ≥ the_cliques.length
      · rw [if_pos h3] at h
        simp only [Except.ok.injEq] at h
        rw [← h]
        exact ⟨[], by simp, fun _ => rfl⟩
      rw [if_neg h3] at h
      cases hc : level.my_component_id (b - isf.power_up) with
      | error e => rw [hc] at h; simp at h
      | ok id =>
        rw [hc] at h
        dsimp only at h
        split_ifs at h with h4 h5 h6 h7
        · cases hm : s.assigned_branches.mark_as_done b with
          | error e => rw [hm] at h; simp at h
          | ok r =>
            obtain ⟨k, ab'⟩ := r
            rw [hm] at h
            simp only [Except.ok.injEq] at h
            exact ⟨[b - isf.power_up], by rw [← h], fun e => by simp at e⟩
        · simp only [Except.ok.injEq] at h
          rw [← h]
          exact ⟨[], by simp, fun _ => rfl⟩
    · rw [if_neg h2] at h
      by_cases h3 : b <<< 1 < 2147483648
      swap
      · rw [if_pos h3] at h
        simp at h
      rw [if_neg (not_not.2 h3)] at h
      have key : ∀ (c : Prop) [Decidable c] (b2 : Nat) (s1 s2 : SearchState),
          (if c then recursive_search fuel isf b2 q t the_cliques level skip s1
              else .ok s1) = .ok s2 →
          ∃ F, s2.cliques_found = s1.cliques_found ++ F ∧
            (F = [] → s2.assigned_branches = s1.assigned_branches) := by
        intro c _ b2 s1 s2 hc
        by_cases hcc : c
        · rw [if_pos hcc] at hc
          exact ih b2 s1 s2 hc
        · rw [if_neg hcc] at hc
          simp only [Except.ok.injEq] at hc
          rw [← hc]
          exact ⟨[], by simp, fun _ => rfl⟩
      generalize hal : (if (if s.assigned_branches.assigned_branches.getD (b <<< 1) false
              = true then 0 else isf.overlap_estimate (the_cliques.getD q []) (b <<< 1)) ≥ t
            then recursive_search fuel isf (b <<< 1) q t the_cliques level skip
              { s with searches_performed := s.searches_performed + 2 }
            else .ok { s with searches_performed := s.searches_performed + 2 }) = after_left
        at h
      cases after_left with
      | error e => simp at h
      | ok s2 =>
        dsimp only at h
        obtain ⟨F1, hf1, ha1⟩ := key _ _ _ _ hal
        obtain ⟨F2, hf2, ha2⟩ := key _ _ _ _ h
        refine ⟨F1 ++ F2, by rw [hf2, hf1, List.append_assoc], ?_⟩
        intro he
        obtain ⟨e1, e2⟩ := List.append_eq_nil.1 he
        rw [ha2 e2, ha1 e1]

/-- The branch cut loses nothing: with a threshold of at least `1` and a bloom index
that contains every clique whose leaf is not done, whenever the search without the
branch cut returns, `recursive_search` returns too, with the same cliques found, in
the same order, and the same assigned branches. -/
theorem recursive_search_of_without_branch_cut (isf : intersecting_clique_finder) (q t : Nat)
    (ht : 1 ≤ t) (the_cliques : List clique) (level : components) (skip : Int) :
    ∀ (fuel b : Nat) (s u r : SearchState),
      search_without_branch_cut fuel isf.power_up b q t the_cliques level skip u = .ok r →
      s.cliques_found = u.cliques_found → s.assigned_branches = u.assigned_branches →
      (∀ l, l < the_cliques.length → u.assigned_branches.done (isf.power_up + l) = false →
        Contains isf (the_cliques.getD l []) (isf.power_up + l)) →
      1 ≤ b →
      ∃ r', recursive_search fuel isf b q t the_cliques level skip s = .ok r' ∧
        r'.cliques_found = r.cliques_found ∧ r'.assigned_branches = r.assigned_branches := by
  intro fuel
  induction fuel with
  | zero => intro b s u r h; simp [search_without_branch_cut] at h
  | succ fuel ih =>
    intro b s u r h hf ha hcont hb
    unfold search_without_branch_cut at h
    unfold recursive_search
    dsimp only at h ⊢
    simp only [ha, hf]
    by_cases h1 : u.assigned_branches.assigned_branches.getD b false = false
    swap
    · rw [if_pos h1] at h
      simp at h
    rw [if_neg (not_not.2 h1)] at h ⊢
    by_cases h2 : b ≥ isf.power_up
    · rw [if_pos h2] at h ⊢
      by_cases h3 : b - isf.power_up ≥ the_cliques.length
      · rw [if_pos h3] at h ⊢
        simp only [Except.ok.injEq] at h
        rw [← h]
        exact ⟨s, rfl, hf, ha⟩
      rw [if_neg h3] at h ⊢
      cases hc : level.my_component_id (b - isf.power_up) with
      | error e => rw [hc] at h; simp at h
      | ok id =>
        rw [hc] at h
        dsimp only at h ⊢
        by_cases h4 : id = skip
        · rw [if_pos h4] at h
          simp at h
        rw [if_neg h4] at h ⊢
        by_cases h5 : b - isf.power_up ≠ q
        swap
        · rw [if_pos h5] at h
          simp at h
        rw [if_neg (not_not.2 h5)] at h ⊢
        by_cases h6 : actual_overlap (the_cliques.getD (b - isf.power_up) [])
            (the_cliques.getD q []) < (the_cliques.getD q []).length
        swap
        · rw [if_pos h6] at h
          simp at h
        rw [if_neg (not_not.2 h6)] at h ⊢
        by_cases h7 : actual_overlap (the_cliques.getD (b - isf.power_up) [])
            (the_cliques.getD q []) ≥ t
        · rw [if_pos h7] at h ⊢
          cases hm : u.assigned_branches.mark_as_done b with
          | error e => rw [hm] at h; simp at h
          | ok r1 =>
            obtain ⟨k, ab'⟩ := r1
            rw [hm] at h
            simp only [Except.ok.injEq] at h
            rw [← h]
            exact ⟨_, rfl, rfl, rfl⟩
        · rw [if_neg h7] at h ⊢
          simp only [Except.ok.injEq] at h
          rw [← h]
          exact ⟨s, rfl, hf, ha⟩
    · rw [if_neg h2] at h ⊢
      by_cases h3 : b <<< 1 < 2147483648
      swap
      · rw [if_pos h3] at h
        simp at h
      rw [if_neg (not_not.2 h3)] at h ⊢
      have hshift : b <<< 1 = 2 * b := shiftLeft_one_eq b
      have key : ∀ (flag : Bool) (b2 : Nat) (s1 u1 u2 : SearchState),
          (if flag = false then
              search_without_branch_cut fuel isf.power_up b2 q t the_cliques level skip u1
            else .ok u1) = .ok u2 →
          1 ≤ b2 → s1.cliques_found = u1.cliques_found →
          s1.assigned_branches = u1.assigned_branches →
          (∀ l, l < the_cliques.length →
            u1.assigned_branches.done (isf.power_up + l) = false →
            Contains isf (the_cliques.getD l []) (isf.power_up + l)) →
          ∃ r2, (if (if flag = true then 0
                  else isf.overlap_estimate (the_cliques.getD q []) b2) ≥ t
                then recursive_search fuel isf b2 q t the_cliques level skip s1
                else .ok s1) = .ok r2 ∧
            r2.cliques_found = u2.cliques_found ∧
            r2.assigned_branches = u2.assigned_branches ∧
            ∀ x, u1.assigned_branches.done x = true → u2.assigned_branches.done x = true := by
        intro flag b2 s1 u1 u2 hu hb2 hf1 ha1 hc1
        cases flag with
        | true =>
          simp only [Bool.true_eq_false, if_false, Except.ok.injEq] at hu
          have : ¬ (0 ≥ t) := by omega
          simp only [if_true, this, if_false]
          rw [← hu]
          exact ⟨s1, rfl, hf1, ha1, fun x hx => hx⟩
        | false =>
          simp only [if_true] at hu
          simp only [Bool.false_eq_true, if_false]
          by_cases hest : isf.overlap_estimate (the_cliques.getD q []) b2 ≥ t
          · rw [if_pos hest]
            obtain ⟨r2, hr2, hrf, hra⟩ := ih b2 s1 u1 u2 hu hf1 ha1 hc1 hb2
            refine ⟨r2, hr2, hrf, hra, ?_⟩
            intro x hx
            rw [← hra]
            rw [← ha1] at hx
            exact (recursive_search_mono isf q t the_cliques level skip fuel b2 s1).1 r2 hr2 x hx
          · rw [if_neg hest]
            obtain ⟨e1, e2⟩ := search_without_branch_cut_unchanged isf.power_up q t the_cliques
              level skip fuel b2 u1 u2 (by
                intro l hl hbl hdl
                have := overlap_le_estimate isf (the_cliques.getD l []) (the_cliques.getD q [])
                  (isf.power_up + l) b2 (hc1 l hl hdl) hb2 hbl
                omega) hu
            refine ⟨s1, rfl, by rw [e1]; exact hf1, by rw [e2]; exact ha1, ?_⟩
            intro x hx
            rw [e2]
            exact hx
      generalize hal : (if u.assigned_branches.assigned_branches.getD (b <<< 1) false = false
            then search_without_branch_cut fuel isf.power_up (b <<< 1) q t the_cliques level skip
              { u with searches_performed := u.searches_performed + 2 }
            else .ok { u with searches_performed := u.searches_performed + 2 }) = after_left
        at h
      cases after_left with
      | error e => simp at h
      | ok um =>
        dsimp only at h
        obtain ⟨m, hm, hmf, hma, hmono⟩ := key _ (b <<< 1)
          ⟨s.searches_performed + 2, u.cliques_found, u.assigned_branches⟩ _ um hal
          (by omega) rfl rfl hcont
        rw [hm]
        dsimp only
        obtain ⟨r', hr', hrf, hra, _⟩ := key _ (b <<< 1 + 1) m um r h (by omega) hmf hma (by
          intro l hl hdl
          apply hcont l hl
          by_contra hd
          have := hmono _ (by simpa using hd)
          rw [this] at hdl
          exact absurd hdl (by simp))
        exact ⟨r', hr', hrf, hra⟩

/-- In a state of the search in which `recursive_search` meets no assertion, the search
without the branch cut returns what `recursive_search` returns: the same cliques
found, in the same order, and the same assigned branches. -/
theorem search_without_branch_cut_of_recursive_search (isf : intersecting_clique_finder)
    (q t : Nat) (the_cliques : List clique) (comps : components) (skip : Int)
    (ht : 1 ≤ t) (hP30 : isf.power_up ≤ 1073741824)
    (hC : the_cliques.length ≤ isf.power_up) (hN : the_cliques.length ≤ comps.N) :
    ∀ (fuel b : Nat) (s u r : SearchState),
      recursive_search fuel isf b q t the_cliques comps skip s = .ok r →
      isf.power_up - b + 1 ≤ fuel → 1 ≤ b → b < 2 * isf.power_up →
      TreeInvariant isf.power_up s.assigned_branches → s.assigned_branches.done b = false →
      Searchable isf the_cliques comps skip q isf.power_up s.assigned_branches →
      u.cliques_found = s.cliques_found → u.assigned_branches = s.assigned_branches →
      ∃ ur, search_without_branch_cut fuel isf.power_up b q t the_cliques comps skip u
          = .ok ur ∧
        ur.cliques_found = r.cliques_found ∧ ur.assigned_branches = r.assigned_branches := by
  intro fuel
  induction fuel with
  | zero => intro b s u r h; simp [recursive_search] at h
  | succ fuel ih =>
    intro b s u r h hfuel hb1 hb2 hinv hnd hsrch hf ha
    unfold recursive_search at h
    unfold search_without_branch_cut
    dsimp only at h ⊢
    simp only [ha, hf]
    have h1 : s.assigned_branches.assigned_branches.getD b false = false := hnd
    rw [if_neg (not_not.2 h1)] at h ⊢
    by_cases h2 : b ≥ isf.power_up
    · rw [if_pos h2] at h ⊢
      by_cases h3 : b - isf.power_up ≥ the_cliques.length
      · rw [if_pos h3] at h ⊢
        simp only [Except.ok.injEq] at h
        rw [← h]
        exact ⟨u, rfl, hf, ha⟩
      rw [if_neg h3] at h ⊢
      cases hc : comps.my_component_id (b - isf.power_up) with
      | error e => rw [hc] at h; simp at h
      | ok id =>
        rw [hc] at h
        dsimp only at h ⊢
        by_cases h4 : id = skip
        · rw [if_pos h4] at h
          simp at h
        rw [if_neg h4] at h ⊢
        by_cases h5 : b - isf.power_up ≠ q
        swap
        · rw [if_pos h5] at h
          simp at h
        rw [if_neg (not_not.2 h5)] at h ⊢
        by_cases h6 : actual_overlap (the_cliques.getD (b - isf.power_up) [])
            (the_cliques.getD q []) < (the_cliques.getD q []).length
        swap
        · rw [if_pos h6] at h
          simp at h
        rw [if_neg (not_not.2 h6)] at h ⊢
        by_cases h7 : actual_overlap (the_cliques.getD (b - isf.power_up) [])
            (the_cliques.getD q []) ≥ t
        · rw [if_pos h7] at h ⊢
          cases hm : s.assigned_branches.mark_as_done b with
          | error e => rw [hm] at h; simp at h
          | ok r1 =>
            obtain ⟨k, ab'⟩ := r1
            rw [hm] at h
            simp only [Except.ok.injEq] at h
            rw [← h]
            exact ⟨_, rfl, rfl, rfl⟩
        · rw [if_neg h7] at h ⊢
          simp only [Except.ok.injEq] at h
          rw [← h]
          exact ⟨u, rfl, hf, ha⟩
    · rw [if_neg h2] at h ⊢
      have hshift : b <<< 1 = 2 * b := shiftLeft_one_eq b
      have h3 : b <<< 1 < 2147483648 := by omega
      rw [if_neg (not_not.2 h3)] at h ⊢
      have key : ∀ (flag : Bool) (b2 : Nat) (s1 u1 r2 : SearchState),
          (if (if flag = true then 0
                  else isf.overlap_estimate (the_cliques.getD q []) b2) ≥ t
                then recursive_search fuel isf b2 q t the_cliques comps skip s1
                else .ok s1) = .ok r2 →
          (b2 = 2 * b ∨ b2 = 2 * b + 1) →
          TreeInvariant isf.power_up s1.assigned_branches →
          Searchable isf the_cliques comps skip q isf.power_up s1.assigned_branches →
          (flag = false → s1.assigned_branches.done b2 = false) →
          u1.cliques_found = s1.cliques_found → u1.assigned_branches = s1.assigned_branches →
          ∃ u2, (if flag = false then
                search_without_branch_cut fuel isf.power_up b2 q t the_cliques comps skip u1
              else .ok u1) = .ok u2 ∧
            u2.cliques_found = r2.cliques_found ∧
            u2.assigned_branches = r2.assigned_branches ∧
            TreeInvariant isf.power_up r2.assigned_branches ∧
            (∀ x, s1.assigned_branches.done x = true → r2.assigned_branches.done x = true) ∧
            ∀ x, r2.assigned_branches.done x = true → s1.assigned_branches.done x = true ∨
              ∃ l, below b2 (isf.power_up + l) ∧ below x (isf.power_up + l) := by
        intro flag b2 s1 u1 r2 hr hb2' hinv1 hsrch1 hnd1 hf1 ha1
        cases flag with
        | true =>
          have : ¬ (0 ≥ t) := by omega
          simp only [if_true, this, if_false, Except.ok.injEq] at hr
          simp only [Bool.true_eq_false, if_false]
          rw [← hr]
          exact ⟨u1, rfl, hf1, ha1, hinv1, fun x hx => hx, fun x hx => Or.inl hx⟩
        | false =>
          simp only [Bool.false_eq_true, if_false] at hr
          simp only [if_true]
          obtain ⟨rL, FL, hrL, post⟩ := recursive_search_spec isf q t the_cliques comps skip
            isf.power_up rfl ht hP30 hC hN fuel b2 s1 (by omega) (by omega) (by omega) hinv1
            (hnd1 rfl) hsrch1
          obtain ⟨uL, huL, hLf, hLa⟩ := ih b2 s1 u1 rL hrL (by omega) (by omega) (by omega)
            hinv1 (hnd1 rfl) hsrch1 hf1 ha1
          by_cases hest : isf.overlap_estimate (the_cliques.getD q []) b2 ≥ t
          · rw [if_pos hest, hrL] at hr
            simp only [Except.ok.injEq] at hr
            rw [← hr]
            refine ⟨uL, huL, hLf, hLa, post.inv, post.mono, ?_⟩
            intro x hx
            rcases post.frame x hx with h' | ⟨l, hl, hbl⟩
            · exact Or.inl h'
            · exact Or.inr ⟨l, ((post.mem l).1 hl).2.1, hbl⟩
          · rw [if_neg hest] at hr
            simp only [Except.ok.injEq] at hr
            rw [← hr]
            have hnil : FL = [] := by
              apply List.eq_nil_iff_forall_not_mem.2
              intro l hl
              obtain ⟨g1, g2, g3, g4⟩ := (post.mem l).1 hl
              have := overlap_le_estimate isf (the_cliques.getD l []) (the_cliques.getD q [])
                (isf.power_up + l) b2 (hsrch1 l g1 g3).1 (by omega) g2
              omega
            obtain ⟨F', hF', hab'⟩ := recursive_search_unchanged isf q t the_cliques comps skip
              fuel b2 s1 rL hrL
            have hFF : F' = FL := by
              have := post.found
              rw [hF'] at this
              exact List.append_cancel_left this
            rw [hnil] at hFF
            refine ⟨uL, huL, ?_, ?_, hinv1, fun x hx => hx, fun x hx => Or.inl hx⟩
            · rw [hLf, hF', hFF, List.append_nil]
            · rw [hLa, hab' hFF]
      generalize hal : (if (if s.assigned_branches.assigned_branches.getD (b <<< 1) false
              = true then 0 else isf.overlap_estimate (the_cliques.getD q []) (b <<< 1)) ≥ t
            then recursive_search fuel isf (b <<< 1) q t the_cliques comps skip
              { s with searches_performed := s.searches_performed + 2 }
            else .ok { s with searches_performed := s.searches_performed + 2 }) = after_left
        at h
      cases after_left with
      | error e => simp at h
      | ok m =>
        dsimp only at h
        obtain ⟨um, hum, hmf, hma, hminv, hmmono, hmframe⟩ := key _ (b <<< 1) _
          ⟨u.searches_performed + 2, s.cliques_found, s.assigned_branches⟩ m hal
          (Or.inl hshift) hinv hsrch (fun hfl => hfl) rfl rfl
        rw [hum]
        dsimp only
        obtain ⟨ur, hur, hrf, hra, _⟩ := key _ (b <<< 1 + 1) m um r h
          (Or.inr (by rw [hshift])) hminv
          (hsrch.mono isf the_cliques comps skip q isf.power_up _ _ hmmono) (by
            intro hfl
            by_contra hd
            rcases hmframe (b <<< 1 + 1) (by simpa using hd) with h' | ⟨l, hl1, hl2⟩
            · have h'' : s.assigned_branches.assigned_branches.getD (b <<< 1 + 1) false
                  = true := h'
              rw [hfl] at h''
              exact absurd h'' (by simp)
            · rw [hshift] at hl1 hl2
              exact not_below_both b _ hb1 hl1 hl2) hmf hma
        exact ⟨ur, hur, hrf, hra⟩

/-! ## The bloom index does not change what is found -/

/-- Two bloom indexes over the same tree that both contain every clique whose leaf is
not done give the same search. -/
theorem recursive_search_independent (isf1 isf2 : intersecting_clique_finder) (q t : Nat)
    (the_cliques : List clique) (comps : components) (skip : Int) (P : Nat)
    (hP1 : isf1.power_up = P) (hP2 : isf2.power_up = P) (ht : 1 ≤ t)
    (hP30 : P ≤ 1073741824) (hC : the_cliques.length ≤ P) (hN : the_cliques.length ≤ comps.N)
    (fuel b : Nat) (s : SearchState) (hfuel : P - b + 1 ≤ fuel) (hb1 : 1 ≤ b)
    (hb2 : b < 2 * P) (hinv : TreeInvariant P s.assigned_branches)
    (hnd : s.assigned_branches.done b = false)
    (hsrch1 : Searchable isf1 the_cliques comps skip q P s.assigned_branches)
    (hsrch2 : Searchable isf2 the_cliques comps skip q P s.assigned_branches) :
    ∃ r1 r2 F, recursive_search fuel isf1 b q t the_cliques comps skip s = .ok r1 ∧
      SearchPost the_cliques q t P b s r1 F ∧
      recursive_search fuel isf2 b q t the_cliques comps skip s = .ok r2 ∧
      r2.cliques_found = r1.cliques_found ∧ r2.assigned_branches = r1.assigned_branches := by
  subst hP1
  obtain ⟨r1, F, hr1, post⟩ := recursive_search_spec isf1 q t the_cliques comps skip
    isf1.power_up rfl ht hP30 hC hN fuel b s hfuel hb1 hb2 hinv hnd hsrch1
  obtain ⟨ur, hur, huf, hua⟩ := search_without_branch_cut_of_recursive_search isf1 q t
    the_cliques comps skip ht hP30 hC hN fuel b s s r1 hr1 hfuel hb1 hb2 hinv hnd hsrch1 rfl rfl
  rw [← hP2] at hur
  obtain ⟨r2, hr2, h2f, h2a⟩ := recursive_search_of_without_branch_cut isf2 q t ht the_cliques
    comps skip fuel b s s ur hur rfl rfl (by
      intro l hl hdl
      rw [hP2] at hdl ⊢
      exact (hsrch2 l hl hdl).1) hb1
  exact ⟨r1, r2, F, hr1, post, hr2, by rw [h2f, huf], by rw [h2a, hua]⟩

/-- Two bloom indexes over the same tree that both contain every clique whose leaf is
not done give the same neighbours of a clique. -/
theorem neighbours_independent (isf1 isf2 : intersecting_clique_finder) (q t : Nat)
    (the_cliques : List clique) (comps : components) (skip : Int) (P : Nat)
    (hP1 : isf1.power_up = P) (hP2 : isf2.power_up = P) (ht : 1 ≤ t) (hP : 1 ≤ P)
    (hP30 : P ≤ 1073741824) (hC : the_cliques.length ≤ P) (hN : the_cliques.length ≤ comps.N)
    (hq : q < the_cliques.length) (hskip : comps.my_component.getD q (-1) = skip)
    (s : SearchState) (hinv : TreeInvariant P s.assigned_branches)
    (hsrch1 : Searchable isf1 the_cliques comps skip q P s.assigned_branches)
    (hsrch2 : Searchable isf2 the_cliques comps skip q P s.assigned_branches) :
    ∃ r1 r2, neighbours_of_one_clique the_cliques q comps t skip isf1 s = .ok r1 ∧
      neighbours_of_one_clique the_cliques q comps t skip isf2 s = .ok r2 ∧
      r2.cliques_found = r1.cliques_found ∧ r2.assigned_branches = r1.assigned_branches := by
  unfold neighbours_of_one_clique
  have hcomp : comps.my_component_id q = .ok (comps.my_component.getD q (-1)) := by
    unfold components.my_component_id
    have : (0 : Int) ≤ (q : Int) ∧ q < comps.N := ⟨by omega, by omega⟩
    simp only [this, and_self, not_true_eq_false, if_false]
  rw [hcomp]
  simp only [hskip, not_true_eq_false, if_false]
  by_cases hroot : s.assigned_branches.assigned_branches.getD 1 false = false
  · simp only [if_pos hroot, hP1, hP2]
    obtain ⟨r1, r2, F, h1, _, h2, hf, ha⟩ := recursive_search_independent isf1 isf2 q t
      the_cliques comps skip P hP1 hP2 ht hP30 hC hN P 1 s (by omega) (le_refl 1) (by omega)
      hinv hroot hsrch1 hsrch2
    exact ⟨r1, r2, h1, h2, hf, ha⟩
  · simp only [if_neg hroot]
    exact ⟨s, s, rfl, rfl, rfl, rfl⟩

/-- Two bloom indexes of the same level give the same growth of a community. -/
theorem grow_community_independent (the_cliques : List clique) (t P : Nat)
    (isf isf2 : intersecting_clique_finder) (hset : LevelSetting the_cliques t P isf)
    (hset2 : LevelSetting the_cliques t P isf2)
    (orig : Nat → Int) (S0 : List Int) (cur : Int) (rest : List Int) (d : Int) (seed : Nat)
    (level0 : components) (ab0 : assigned_branches_t)
    (hd0 : 0 ≤ d) (hdsrc : d ∉ cur :: rest) (hcur : cur ∈ S0)
    (hd_empty : ∀ l, l < the_cliques.length → level0.component_of l ≠ d)
    (hsrc_orig : ∀ l, l < the_cliques.length → level0.component_of l ∈ cur :: rest →
      level0.component_of l = orig l ∧ orig l ∈ S0)
    (hsep : ∀ a, a < the_cliques.length → ∀ b, b < the_cliques.length →
      orig a ∈ S0 → orig b ∈ S0 → orig a ≠ orig b → overlap_of the_cliques a b < t) :
    ∀ (fuel : Nat) (F : List Nat) (level : components) (ab : assigned_branches_t),
      GrowInv the_cliques t P cur rest d seed level0 ab0 F level ab →
      (the_cliques.length - (level.members_of d).length) + F.length + 1 ≤ fuel →
      grow_community t the_cliques P isf cur d fuel F level ab
        = grow_community t the_cliques P isf2 cur d fuel F level ab := by
  intro fuel
  induction fuel with
  | zero => intro F level ab _ h; omega
  | succ fuel ih =>
    intro F level ab inv hfuel
    cases F with
    | nil => rfl
    | cons q tail =>
      obtain ⟨hqC, hqd⟩ := inv.F_mem q (by simp)
      have hC := hset.C_le
      have hP := hset.P_pos
      have hqtail : q ∉ tail := (List.nodup_cons.1 inv.F_nodup).1
      have hdcur : d ≠ cur := fun e => hdsrc (by rw [e]; simp)
      -- a member of `d` came out of the current source component
      have hmember : ∀ l, l < the_cliques.length → level.component_of l = d →
          level0.component_of l = cur ∧ orig l = cur := by
        intro l hl hld
        rcases inv.frame l hl with h | h
        · exact absurd (by rw [← h]; exact hld) (hd_empty l hl)
        · exact ⟨h.1, by rw [← (hsrc_orig l hl (by rw [h.1]; simp)).1, h.1]⟩
      -- a clique in a source component has not moved
      have hunmoved : ∀ l, l < the_cliques.length → level.component_of l ∈ cur :: rest →
          level.component_of l = orig l ∧ orig l ∈ S0 := by
        intro l hl hls
        rcases inv.frame l hl with h | h
        · rw [h] at hls ⊢
          exact hsrc_orig l hl hls
        · rw [h.2] at hls
          exact absurd hls hdsrc
      -- the leaf of the popped clique is marked
      obtain ⟨k, ab1, hmark, hinv1, hmono1, hiff1⟩ :=
        mark_leaf_iff P ab (P + q) (by omega) (by omega) (by omega) inv.tree
      have hdone1 : ∀ l, l < the_cliques.length →
          (ab1.done (P + l) = false ↔ ab.done (P + l) = false ∧ l ≠ q) := by
        intro l hl
        have := hiff1 (P + l) (by omega) (by omega)
        constructor
        · intro h
          constructor
          · by_contra hc
            have hc' : ab.done (P + l) = true := by simpa using hc
            rw [this.2 (Or.inl hc')] at h
            exact absurd h (by simp)
          · intro e
            rw [this.2 (Or.inr (by rw [e]))] at h
            exact absurd h (by simp)
        · rintro ⟨h1, h2⟩
          by_contra hc
          have hc' : ab1.done (P + l) = true := by simpa using hc
          rcases this.1 hc' with h | h
          · rw [h] at h1; exact absurd h1 (by simp)
          · exact h2 (by omega)
      -- a clique whose leaf is not done is in a source component
      have hfree1 : ∀ l, l < the_cliques.length → ab1.done (P + l) = false →
          level.component_of l ∈ cur :: rest := by
        intro l hl hdl
        obtain ⟨h1, h2⟩ := (hdone1 l hl).1 hdl
        rcases inv.free l hl h1 with h | h
        · exact h
        · have := inv.d_done l hl h h1
          simp only [List.cons.injEq] at this
          exact absurd this.1.symm h2
      -- the search
      have hsrch : Searchable isf the_cliques level d q P ab1 := by
        intro l hl hdl
        obtain ⟨h1, h2⟩ := (hdone1 l hl).1 hdl
        refine ⟨hset.contains l hl (le_of_lt (inv.big l hl h1)), ?_, ?_, h2⟩
        · intro e
          exact hdsrc (by rw [← e]; exact hfree1 l hl hdl)
        · exact actual_overlap_lt _ _ (hset.cliques.1 l hl) (hset.cliques.1 q hqC)
            (hset.cliques.2 l hl q hqC h2)
      have hsrch2 : Searchable isf2 the_cliques level d q P ab1 := by
        intro l hl hdl
        obtain ⟨h1, h2⟩ := (hdone1 l hl).1 hdl
        exact ⟨hset2.contains l hl (le_of_lt (inv.big l hl h1)), (hsrch l hl hdl).2⟩
      obtain ⟨r1, r2, hsearch1, hsearch2, hr2f, hr2a⟩ := neighbours_independent isf isf2 q t
        the_cliques level d P hset.isf_P hset2.isf_P hset.t_pos hP
        (by have := hset.P_le; omega) hC (by rw [inv.N_eq]) hqC hqd ⟨0, [], ab1⟩ hinv1 hsrch
        hsrch2
      obtain ⟨s', Fnd, hsearch, post⟩ := neighbours_of_one_clique_spec isf q t the_cliques
        level d P hset.isf_P hset.t_pos hP (by have := hset.P_le; omega) hC (by rw [inv.N_eq]) hqC hqd
        ⟨0, [], ab1⟩ hinv1 hsrch
      have hFnd : ∀ l, l ∈ Fnd ↔ l < the_cliques.length ∧ ab1.done (P + l) = false ∧
          t ≤ overlap_of the_cliques l q := by
        intro l
        rw [post.mem]
        constructor
        · rintro ⟨h1, _, h3, h4⟩
          exact ⟨h1, h3, h4⟩
        · rintro ⟨h1, h3, h4⟩
          exact ⟨h1, below_one _ (by omega), h3, h4⟩
      have hdone' : ∀ l, l < the_cliques.length →
          (s'.assigned_branches.done (P + l) = false ↔
            ab1.done (P + l) = false ∧ l ∉ Fnd) := by
        intro l hl
        constructor
        · intro h
          constructor
          · by_contra hc
            have := post.mono (P + l) (by simpa using hc)
            rw [this] at h
            exact absurd h (by simp)
          · intro hm
            rw [post.marked l hm] at h
            exact absurd h (by simp)
        · rintro ⟨h1, h2⟩
          by_contra hc
          rcases post.frame (P + l) (by simpa using hc) with h | ⟨l', hl', hb⟩
          · simp only at h
            rw [h] at h1
            exact absurd h1 (by simp)
          · have hl'C := ((hFnd l').1 hl').1
            have := below_leaf_eq P (P + l) (P + l') (by omega) (by omega) hb
            have : l' = l := by omega
            rw [this] at hl'
            exact h2 hl'
      -- the cliques found are in the current source component
      have hFnd_cur : ∀ x ∈ Fnd, x < the_cliques.length ∧ level.component_of x = cur := by
        intro x hx
        obtain ⟨hxC, hxd, hxov⟩ := (hFnd x).1 hx
        refine ⟨hxC, ?_⟩
        have hxs := hfree1 x hxC hxd
        obtain ⟨h1, h2⟩ := hunmoved x hxC hxs
        rw [h1]
        by_contra hne
        have := hsep x hxC q hqC h2 (by rw [(hmember q hqC hqd).2]; exact hcur)
          (by rw [(hmember q hqC hqd).2]; exact hne)
        omega
      obtain ⟨level', hmove, hwf', hN', hcomp', hlen'⟩ := move_in_spec the_cliques.length cur d
        hd0 hdcur Fnd tail level inv.wf inv.N_eq post.nodup hFnd_cur
      -- the frontier stays below the number of cliques
      have htail_sub : ∀ x ∈ q :: tail, x ∈ level.members_of d := by
        intro x hx
        obtain ⟨h1, h2⟩ := inv.F_mem x hx
        exact (inv.wf.mem_iff d x hd0).2 ⟨by rw [inv.N_eq]; exact h1, h2⟩
      have hlen_tail : tail.length + 1 ≤ (level.members_of d).length := by
        have := length_le_of_nodup_subset_nat (q :: tail) (level.members_of d) inv.F_nodup htail_sub
        simpa using this
      have hlen_d' : (level'.members_of d).length ≤ the_cliques.length := by
        have := members_length_le level' hwf' d hd0
        rw [hN'] at this
        exact this
      have hfront : (Fnd.reverse ++ tail).length < the_cliques.length := by
        simp only [List.length_append, List.length_reverse]
        omega
      -- the state of the next round
      have inv' : GrowInv the_cliques t P cur rest d seed level0 ab0 (Fnd.reverse ++ tail) level'
          s'.assigned_branches := by
        refine ⟨hwf', hN', post.inv, ?_, ?_, ⟨inv.seeded.1, ?_⟩, ?_, ?_, ?_,
          fun l hl hdl => inv.big l hl ((hdone1 l hl).1 ((hdone' l hl).1 hdl).1).1, ?_, ?_, ?_⟩
        · rw [List.nodup_append]
          refine ⟨List.nodup_reverse.2 post.nodup, (List.nodup_cons.1 inv.F_nodup).2, ?_⟩
          intro x hx hx'
          have h1 := (hFnd_cur x (List.mem_reverse.1 hx)).2
          have h2 := (inv.F_mem x (by simp [hx'])).2
          rw [h1] at h2
          exact hdcur h2.symm
        · intro l hl
          rw [hcomp']
          rcases List.mem_append.1 hl with h | h
          · have hm := List.mem_reverse.1 h
            exact ⟨(hFnd_cur l hm).1, by rw [if_pos hm]⟩
          · obtain ⟨h1, h2⟩ := inv.F_mem l (by simp [h])
            refine ⟨h1, ?_⟩
            split
            · rfl
            · exact h2
        · rw [hcomp']
          split
          · rfl
          · exact inv.seeded.2
        · intro l hl hld hdl
          exfalso
          obtain ⟨h1, h2⟩ := (hdone' l hl).1 hdl
          rw [hcomp', if_neg h2] at hld
          exact hdsrc (by rw [← hld]; exact hfree1 l hl h1)
        · intro l hl hdl
          obtain ⟨h1, h2⟩ := (hdone' l hl).1 hdl
          rw [hcomp', if_neg h2]
          exact Or.inl (hfree1 l hl h1)
        · intro l hl hls
          rw [hcomp'] at hls
          by_cases hm : l ∈ Fnd
          · rw [if_pos hm] at hls
            exact absurd hls hdsrc
          · rw [if_neg hm] at hls
            rcases inv.src_free l hl hls with hfr | hsm
            · left
              rw [hdone' l hl]
              refine ⟨?_, hm⟩
              rw [hdone1 l hl]
              refine ⟨hfr, ?_⟩
              intro e
              rw [e, hqd] at hls
              exact hdsrc hls
            · exact Or.inr hsm
        · intro l hl
          rw [hcomp']
          by_cases hm : l ∈ Fnd
          · rw [if_pos hm]
            right
            refine ⟨?_, rfl⟩
            rcases inv.frame l hl with h | h
            · rw [← h]; exact (hFnd_cur l hm).2
            · exact h.1
          · rw [if_neg hm]
            exact inv.frame l hl
        · intro a haC b hbC had hanF hbs
          rw [hcomp'] at had hbs
          have hbm : b ∉ Fnd := by
            intro hm
            rw [if_pos hm] at hbs
            exact hdsrc hbs
          rw [if_neg hbm] at hbs
          have ham : a ∉ Fnd := fun hm => hanF (List.mem_append.2 (Or.inl (List.mem_reverse.2 hm)))
          rw [if_neg ham] at had
          by_cases haq : a = q
          · rw [haq]
            have hbq : b ≠ q := by
              intro e
              rw [e, hqd] at hbs
              exact hdsrc hbs
            rcases inv.src_free b hbC hbs with hfr | hsm
            · by_contra hov
              apply hbm
              rw [hFnd]
              refine ⟨hbC, ?_, by omega⟩
              rw [hdone1 b hbC]
              exact ⟨hfr, hbq⟩
            · have := small_overlap_lt the_cliques hset.cliques b q hbC hqC hbq
              omega
          · apply inv.searched a haC b hbC had _ hbs
            intro hm
            rcases List.mem_cons.1 hm with h | h
            · exact haq h
            · exact hanF (List.mem_append.2 (Or.inr h))
        · intro x hx
          exact post.mono x (hmono1 x (inv.mono x hx))
      have hrec := ih (Fnd.reverse ++ tail) level' s'.assigned_branches inv' (by
        simp only [List.length_append, List.length_reverse, List.length_cons] at hfuel ⊢
        omega)
      have hs1 : r1 = s' := by
        rw [hsearch] at hsearch1
        simp only [Except.ok.injEq] at hsearch1
        exact hsearch1.symm
      rw [hs1] at hr2f hr2a
      have hfound : s'.cliques_found = Fnd := by
        rw [post.found]; rfl
      simp only [grow_community, hmark, my_component_id_eq level q (by rw [inv.N_eq]; exact hqC),
        hqd, not_true_eq_false, if_false, hsearch, hsearch2, hr2f, hr2a, hfound, hmove, hfront]
      exact hrec

/-- Two bloom indexes of the same level give the same community out of a seed. -/
theorem one_community_independent (the_cliques : List clique) (t P : Nat)
    (isf isf2 : intersecting_clique_finder) (hset : LevelSetting the_cliques t P isf)
    (hset2 : LevelSetting the_cliques t P isf2)
    (orig : Nat → Int) (S0 : List Int) (cur : Int) (rest found : List Int)
    (level : components) (ab : assigned_branches_t)
    (inv : OneKInv the_cliques t P orig S0 (cur :: rest) found level ab)
    (seed : Nat) (hseed : seed ∈ level.members_of cur) :
    grow_community t the_cliques P isf cur level.top_empty_component
        (the_cliques.length + 1) [seed]
        (level.move_node seed level.top_empty_component) ab
      = grow_community t the_cliques P isf2 cur level.top_empty_component
        (the_cliques.length + 1) [seed]
        (level.move_node seed level.top_empty_component) ab := by
  obtain ⟨hcur_S0, hcur0⟩ := inv.src_sub cur (by simp)
  obtain ⟨hg0, hgemp⟩ := top_empty_component_spec level
  generalize hgrow : level.top_empty_component = grow at hg0 hgemp ⊢
  obtain ⟨hseedN, hseedcur⟩ := (inv.wf.mem_iff cur seed hcur0).1 hseed
  have hseedC : seed < the_cliques.length := by rw [← inv.N_eq]; exact hseedN
  have hC1 : 1 ≤ the_cliques.length := by omega
  -- the new component is none of the components in use
  have hd_empty : ∀ l, l < the_cliques.length → level.component_of l ≠ grow :=
    fun l hl => component_ne_of_empty level inv.wf grow hg0 hgemp l (by rw [inv.N_eq]; exact hl)
  have hgsrc : grow ∉ cur :: rest := by
    intro hm
    rcases List.mem_cons.1 hm with h | h
    · rw [h] at hgemp
      rw [hgemp] at hseed
      exact absurd hseed (by simp)
    · exact inv.src_nonempty grow h hgemp
  have hgfound : grow ∉ found := fun hm => (inv.found_disj grow hm).2.2 hgemp
  have hcur_rest : cur ∉ rest := (List.nodup_cons.1 inv.src_nodup).1
  -- the seed is moved
  obtain ⟨hwf1, hN1, hcomp1, hmd1, _⟩ := move_node_spec level seed grow inv.wf hseedN hg0
  have ginv : GrowInv the_cliques t P cur rest grow seed level ab [seed]
      (level.move_node seed grow) ab := by
    refine ⟨hwf1, by rw [hN1, inv.N_eq], inv.tree, List.nodup_singleton seed, ?_,
      ⟨hseedC, by rw [hcomp1]; simp⟩, ?_, ?_, ?_, inv.big, ?_, ?_, fun x hx => hx⟩
    · intro l hl
      have : l = seed := by simpa using hl
      rw [this, hcomp1]
      exact ⟨hseedC, by simp⟩
    · intro l hl hld _
      rw [hcomp1] at hld
      by_cases hls : l = seed
      · rw [hls]
      · rw [if_neg hls] at hld
        exact absurd hld (hd_empty l hl)
    · intro l hl hdl
      rw [hcomp1]
      by_cases hls : l = seed
      · rw [if_pos hls]; exact Or.inr rfl
      · rw [if_neg hls]; exact Or.inl (inv.free l hl hdl)
    · intro l hl hls
      rw [hcomp1] at hls
      by_cases hlseed : l = seed
      · rw [if_pos hlseed] at hls
        exact absurd hls hgsrc
      · rw [if_neg hlseed] at hls
        exact inv.src_free l hl hls
    · intro l hl
      rw [hcomp1]
      by_cases hls : l = seed
      · rw [if_pos hls, hls]
        exact Or.inr ⟨hseedcur, rfl⟩
      · rw [if_neg hls]
        exact Or.inl rfl
    · intro a ha b _ had haF _
      rw [hcomp1] at had
      have has : a ≠ seed := by simpa using haF
      rw [if_neg has] at had
      exact absurd had (hd_empty a ha)
  have hfuel : (the_cliques.length - ((level.move_node seed grow).members_of grow).length)
      + [seed].length + 1 ≤ the_cliques.length + 1 := by
    rw [hmd1, hgemp]
    simp only [List.erase_nil, List.nil_append, List.length_singleton]
    omega
  exact grow_community_independent the_cliques t P isf isf2 hset hset2 orig S0 cur rest
    grow seed level ab hg0 hgsrc hcur_S0 hd_empty
    (fun l hl hls => ⟨inv.src_orig l hl hls, by
      rw [← inv.src_orig l hl hls]; exact (inv.src_sub _ hls).1⟩)
    inv.sep (the_cliques.length + 1) [seed] (level.move_node seed grow) ab ginv hfuel

/-- Two bloom indexes of the same level give the same communities out of one source
component. -/
theorem drain_source_independent (the_cliques : List clique) (t P : Nat)
    (isf isf2 : intersecting_clique_finder) (hset : LevelSetting the_cliques t P isf)
    (hset2 : LevelSetting the_cliques t P isf2)
    (orig : Nat → Int) (S0 : List Int) (cur : Int) (rest : List Int) :
    ∀ (fuel : Nat) (found : List Int) (level : components) (ab : assigned_branches_t),
      OneKInv the_cliques t P orig S0 (cur :: rest) found level ab →
      (level.members_of cur).length + 1 ≤ fuel →
      drain_source t the_cliques P isf cur fuel found level ab
        = drain_source t the_cliques P isf2 cur fuel found level ab := by
  intro fuel
  induction fuel with
  | zero => intro found level ab _ h; omega
  | succ fuel ih =>
    intro found level ab inv hfuel
    obtain ⟨_, hcur0⟩ := inv.src_sub cur (by simp)
    unfold drain_source
    rcases get_members_eq level cur with herr | ⟨_, hcurN, hok⟩
    · rw [herr]
    rw [hok]
    cases hmem : level.members_of cur with
    | nil => rfl
    | cons seed ms =>
      simp only
      have hseed : seed ∈ level.members_of cur := by rw [hmem]; simp
      by_cases h480 : ab.assigned_branches.getD (P + seed) false = false
      swap
      · simp only [if_pos h480]
      by_cases h481 : (the_cliques.getD seed []).length > t
      swap
      · simp only [if_neg (not_not.2 h480), if_pos h481]
      simp only [if_neg (not_not.2 h480), if_neg (not_not.2 h481)]
      obtain ⟨hg0, hgemp⟩ := top_empty_component_spec level
      rcases get_members_eq level level.top_empty_component with herr | ⟨_, hgN, hgok⟩
      · rw [herr]
      rw [hgok, hgemp]
      simp only [List.length_nil, not_true_eq_false, if_false]
      rw [one_community_independent the_cliques t P isf isf2 hset hset2 orig S0 cur rest found
        level ab inv seed hseed]
      obtain ⟨level2, ab2, hrun, inv2, hshrink⟩ := one_community_spec the_cliques t P isf2 hset2
        orig S0 cur rest found level ab inv seed hseed
      rw [hrun]
      simp only
      have hgN2 : level.top_empty_component < (level2.N : Int) := by
        rw [inv2.N_eq, ← inv.N_eq]; exact hgN
      rw [get_members_ok level2 _ hg0 hgN2]
      simp only
      exact ih (found ++ [level.top_empty_component]) level2 ab2 inv2 (by
        have hsub : ∀ x ∈ seed :: level2.members_of cur, x ∈ level.members_of cur := by
          intro x hx
          rcases List.mem_cons.1 hx with h | h
          · rw [h]; exact hseed
          · exact (hshrink x h).1
        have hnd : (seed :: level2.members_of cur).Nodup :=
          List.nodup_cons.2 ⟨fun h => (hshrink seed h).2 rfl, inv2.wf.nodup cur⟩
        have := length_le_of_nodup_subset_nat _ _ hnd hsub
        simp only [List.length_cons] at this
        rw [hmem] at this
        simp only [List.length_cons] at this ⊢
        rw [hmem] at hfuel
        simp only [List.length_cons] at hfuel
        omega)

/-- Two bloom indexes of the same level give the same communities out of the source
components. -/
theorem one_k_sources_independent (the_cliques : List clique) (t P : Nat)
    (isf isf2 : intersecting_clique_finder) (hset : LevelSetting the_cliques t P isf)
    (hset2 : LevelSetting the_cliques t P isf2) (orig : Nat → Int) (S0 : List Int) :
    ∀ (srcs found : List Int) (level : components) (ab : assigned_branches_t),
      OneKInv the_cliques t P orig S0 srcs found level ab →
      one_k_sources t the_cliques P isf srcs found level ab
        = one_k_sources t the_cliques P isf2 srcs found level ab := by
  intro srcs
  induction srcs with
  | nil => intro found level ab _; rfl
  | cons cur rest ih =>
    intro found level ab inv
    obtain ⟨_, hcur0⟩ := inv.src_sub cur (by simp)
    have hlen := members_length_le level inv.wf cur hcur0
    rw [inv.N_eq] at hlen
    unfold one_k_sources
    rw [drain_source_independent the_cliques t P isf isf2 hset hset2 orig S0 cur rest
      (the_cliques.length + 1) found level ab inv (by omega)]
    rcases drain_source_spec the_cliques t P isf2 hset2 orig S0 cur rest (the_cliques.length + 1)
      found level ab inv (by omega) with
      herr | ⟨herr, _⟩ | ⟨found1, level1, ab1, hok, inv1, hemp⟩
    · rw [herr]
    · rw [herr]
    rw [hok]
    simp only
    exact ih found1 level1 ab1 (inv1.next_source hemp)

/-- Two bloom indexes of the same level give the same communities of the level. -/
theorem one_k_independent (the_cliques : List clique) (t P : Nat)
    (isf isf2 : intersecting_clique_finder) (hset : LevelSetting the_cliques t P isf)
    (hset2 : LevelSetting the_cliques t P isf2)
    (candidate_components : List Int) (level : components)
    (entry : OneKEntry the_cliques t candidate_components level) :
    one_k [] candidate_components level t the_cliques P the_cliques.length isf
      = one_k [] candidate_components level t the_cliques P the_cliques.length isf2 := by
  obtain ⟨ab0, ab, hcreate, hpremark, htree, hdone⟩ :=
    one_k_prelude_spec the_cliques t P hset.P_pos hset.C_le hset.P_le
  unfold one_k
  simp only [List.isEmpty_nil, not_true_eq_false, if_false, hcreate, hpremark]
  rw [one_k_sources_independent the_cliques t P isf isf2 hset hset2 level.component_of
    candidate_components.reverse candidate_components.reverse [] level ab
    (one_k_initial_inv the_cliques t P candidate_components level entry ab htree hdone)]

/-- The levels from `k ≥ 2` on do not depend on the length of the bit array nor on the
hash function of the bloom filter. -/
theorem percolation_levels_independent (l l2 : Nat) (h h2 : Int → Nat)
    (the_cliques : List clique) (P max_k : Nat) (hl : 0 < l) (hl2 : 0 < l2)
    (hdm : DistinctMaximal the_cliques) (hP1 : 1 ≤ P)
    (hP2 : 2 * P ≤ 2147483647) (hC : the_cliques.length ≤ P) :
    ∀ (n k : Nat) (srcs : List Int) (level : components) (completed : List Level),
      2 ≤ k →
      OneKEntry the_cliques (k - 1) srcs level →
      percolation_levels l h the_cliques P the_cliques.length max_k
          (List.range' k n) srcs level completed
        = percolation_levels l2 h2 the_cliques P the_cliques.length max_k
          (List.range' k n) srcs level completed := by
  intro n
  induction n with
  | zero => intro k srcs level completed _ _; rfl
  | succ n ih =>
    intro k srcs level completed hk entry
    rw [List.range'_succ]
    unfold percolation_levels
    simp only
    have hset := level_setting l h the_cliques (k - 1) P hl hdm (by omega) hP1 hP2 hC
    have hset2 := level_setting l2 h2 the_cliques (k - 1) P hl2 hdm (by omega) hP1 hP2 hC
    rw [one_k_independent the_cliques (k - 1) P _ _ hset hset2 srcs level entry]
    rcases one_k_spec the_cliques (k - 1) P _ hset2 srcs level entry with
      herr | ⟨herr, _⟩ | ⟨found, level1, hok, post⟩
    · rw [herr]
    · rw [herr]
    rw [hok]
    simp only
    rcases write_all_communities_spec level1 the_cliques post.wf post.N_eq found with
      herr | ⟨lines, hlines⟩
    · rw [herr]
    rw [hlines]
    simp only
    by_cases hmax : k + 1 > max_k
    · simp only [if_pos hmax]
    simp only [if_neg hmax]
    rcases next_sources_spec the_cliques (k + 1) level1 post.wf post.N_eq found [] []
      (components.empty.setN the_cliques.length) (by simpa using post.found_nodup)
      (nextInv_init the_cliques (k + 1) level1) with herr | ⟨srcs1, nl1, hrun, inv⟩
    · rw [herr]
    rw [hrun]
    simp only
    obtain ⟨entry1, _⟩ := next_entry the_cliques k srcs found srcs1 level level1 nl1 entry
      post (by simpa using inv)
    exact ih (k + 1) srcs1 nl1 _ (by omega) entry1

/-! ## The threshold `0` -/

/-- With the threshold `0` no branch is cut: the search does not depend on the bloom
index. -/
theorem recursive_search_zero_independent (isf1 isf2 : intersecting_clique_finder)
    (hP : isf1.power_up = isf2.power_up) (q : Nat) (the_cliques : List clique)
    (level : components) (skip : Int) :
    ∀ (fuel b : Nat) (s : SearchState),
      recursive_search fuel isf1 b q 0 the_cliques level skip s
        = recursive_search fuel isf2 b q 0 the_cliques level skip s := by
  intro fuel
  induction fuel with
  | zero => intro b s; rfl
  | succ fuel ih =>
    intro b s
    unfold recursive_search
    simp only [ge_iff_le, Nat.zero_le, if_true, hP, ih]

theorem neighbours_zero_independent (isf1 isf2 : intersecting_clique_finder)
    (hP : isf1.power_up = isf2.power_up) (the_cliques : List clique) (q : Nat)
    (level : components) (skip : Int) (s : SearchState) :
    neighbours_of_one_clique the_cliques q level 0 skip isf1 s
      = neighbours_of_one_clique the_cliques q level 0 skip isf2 s := by
  unfold neighbours_of_one_clique
  simp only [hP, recursive_search_zero_independent isf1 isf2 hP]

theorem grow_community_zero_independent (isf1 isf2 : intersecting_clique_finder)
    (hP : isf1.power_up = isf2.power_up) (the_cliques : List clique) (P : Nat) (src d : Int) :
    ∀ (fuel : Nat) (F : List Nat) (level : components) (ab : assigned_branches_t),
      grow_community 0 the_cliques P isf1 src d fuel F level ab
        = grow_community 0 the_cliques P isf2 src d fuel F level ab := by
  intro fuel
  induction fuel with
  | zero => intro F level ab; rfl
  | succ fuel ih =>
    intro F level ab
    cases F with
    | nil => rfl
    | cons q tail =>
      unfold grow_community
      simp only [neighbours_zero_independent isf1 isf2 hP, ih]

theorem drain_source_zero_independent (isf1 isf2 : intersecting_clique_finder)
    (hP : isf1.power_up = isf2.power_up) (the_cliques : List clique) (P : Nat) (src : Int) :
    ∀ (fuel : Nat) (found : List Int) (level : components) (ab : assigned_branches_t),
      drain_source 0 the_cliques P isf1 src fuel found level ab
        = drain_source 0 the_cliques P isf2 src fuel found level ab := by
  intro fuel
  induction fuel with
  | zero => intro found level ab; rfl
  | succ fuel ih =>
    intro found level ab
    unfold drain_source
    simp only [grow_community_zero_independent isf1 isf2 hP, ih]

theorem one_k_sources_zero_independent (isf1 isf2 : intersecting_clique_finder)
    (hP : isf1.power_up = isf2.power_up) (the_cliques : List clique) (P : Nat) :
    ∀ (srcs found : List Int) (level : components) (ab : assigned_branches_t),
      one_k_sources 0 the_cliques P isf1 srcs found level ab
        = one_k_sources 0 the_cliques P isf2 srcs found level ab := by
  intro srcs
  induction srcs with
  | nil => intro found level ab; rfl
  | cons cur rest ih =>
    intro found level ab
    unfold one_k_sources
    simp only [drain_source_zero_independent isf1 isf2 hP, ih]

theorem one_k_zero_independent (isf1 isf2 : intersecting_clique_finder)
    (hP : isf1.power_up = isf2.power_up) (the_cliques : List clique) (P C : Nat)
    (found srcs : List Int) (level : components) :
    one_k found srcs level 0 the_cliques P C isf1
      = one_k found srcs level 0 the_cliques P C isf2 := by
  unfold one_k
  simp only [one_k_sources_zero_independent isf1 isf2 hP]

/-! ## The whole run -/

/-- The run on distinct maximal cliques does not depend on the length of the bit array
nor on the hash function of the bloom filter. -/
theorem percolation_independent (l l2 : Nat) (h h2 : Int → Nat) (min_k max_k : Nat)
    (the_cliques : List clique) (hl : 0 < l) (hl2 : 0 < l2)
    (hdm : DistinctMaximal the_cliques) :
    do_clique_percolation_variant_5b l h min_k max_k the_cliques
      = do_clique_percolation_variant_5b l2 h2 min_k max_k the_cliques := by
  unfold do_clique_percolation_variant_5b
  by_cases h1 : the_cliques.length > 2147483647
  · simp only [if_pos h1]
  simp only [if_neg h1]
  by_cases hone : the_cliques.length = 1
  · simp only [if_pos hone]
  simp only [if_neg hone]
  by_cases h344 : min_k > 0 ∧ min_k ≤ max_k ∧ the_cliques.length > 1
  swap
  · simp only [if_pos h344]
  simp only [if_neg (not_not.2 h344)]
  cases hp : power_up_loop 64 1 (the_cliques.length : Int) with
  | error e => rfl
  | ok power_up =>
    dsimp only
    by_cases h349 : power_up > 0
    swap
    · simp only [if_pos h349]
    simp only [if_neg (not_not.2 h349)]
    obtain ⟨hP1, hP3, hP2⟩ := power_up_positive the_cliques.length power_up hp h349
    have hn : max_k + 1 - min_k = (max_k - min_k) + 1 := by omega
    rcases hP2 with hP2 | hP2
    swap
    · -- the tree of `2^31` branches does not fit 32 bits
      rw [hn, List.range'_succ]
      unfold percolation_levels
      dsimp only
      have hone : ∀ (srcs : List Int) (level : components) (isf : intersecting_clique_finder),
          one_k [] srcs level (min_k - 1) the_cliques power_up.toNat the_cliques.length isf
            = .error .length_error := by
        intro srcs level isf
        have hbig : 2 * power_up.toNat > 2147483647 := by omega
        unfold one_k assigned_branches_t.create
        simp [hbig]
      simp only [hone]
    obtain ⟨hwf0, hN0, hcomp0⟩ := lowest_level_spec the_cliques.length
    have hmem0 : ((List.range the_cliques.length).foldl
        (fun level c => level.move_node c
          (components.empty.setN the_cliques.length).top_empty_component)
        (components.empty.setN the_cliques.length)).members_of 0 ≠ [] := by
      intro hemp
      have := (hwf0.mem_iff 0 0 (le_refl 0)).2 ⟨by rw [hN0]; omega, hcomp0 0 (by omega)⟩
      rw [hemp] at this
      exact absurd this (by simp)
    by_cases hk : 2 ≤ min_k
    · have entry : OneKEntry the_cliques (min_k - 1) [0] ((List.range the_cliques.length).foldl
          (fun level c => level.move_node c
            (components.empty.setN the_cliques.length).top_empty_component)
          (components.empty.setN the_cliques.length)) := by
        refine ⟨hwf0, hN0, List.nodup_singleton 0, ?_, ?_, ?_⟩
        · intro s hs
          have : s = 0 := by simpa using hs
          rw [this]
          exact ⟨le_refl 0, hmem0⟩
        · intro c hc _
          rw [hcomp0 c hc]
          simp
        · intro a ha b hb _ _ hne
          rw [hcomp0 a ha, hcomp0 b hb] at hne
          exact absurd rfl hne
      exact percolation_levels_independent l l2 h h2 the_cliques power_up.toNat max_k hl hl2 hdm
        hP1 hP2 hP3 (max_k + 1 - min_k) min_k [0] _ [] hk entry
    · -- the first level has the threshold `0`
      have hmin : min_k = 1 := by omega
      have hn : max_k + 1 - min_k = (max_k - 1) + 1 := by omega
      rw [hmin] at hn ⊢
      rw [hn, List.range'_succ]
      unfold percolation_levels
      dsimp only
      obtain ⟨_, hisf, _, _⟩ := populate_spec the_cliques 0 power_up.toNat
        (List.range the_cliques.length)
        (intersecting_clique_finder.create l h power_up.toNat)
        (create_wellFormed l h power_up.toNat hl)
      obtain ⟨_, hisf2, _, _⟩ := populate_spec the_cliques 0 power_up.toNat
        (List.range the_cliques.length)
        (intersecting_clique_finder.create l2 h2 power_up.toNat)
        (create_wellFormed l2 h2 power_up.toNat hl2)
      obtain ⟨e, he, _⟩ := one_k_zero the_cliques power_up.toNat _ hisf2 hP3 hP2 (by omega)
        (distinct_maximal_nonempty the_cliques hdm (by omega)) 0 _ hwf0 hN0 (le_refl 0) hmem0
      have he2 : one_k [] [(components.empty.setN the_cliques.length).top_empty_component]
          ((List.range the_cliques.length).foldl
            (fun level c => level.move_node c
              (components.empty.setN the_cliques.length).top_empty_component)
            (components.empty.setN the_cliques.length)) (1 - 1) the_cliques power_up.toNat
          the_cliques.length (populate the_cliques (1 - 1) power_up.toNat
            (List.range the_cliques.length)
            (intersecting_clique_finder.create l2 h2 power_up.toNat)) = .error e := he
      have he1 : one_k [] [(components.empty.setN the_cliques.length).top_empty_component]
          ((List.range the_cliques.length).foldl
            (fun level c => level.move_node c
              (components.empty.setN the_cliques.length).top_empty_component)
            (components.empty.setN the_cliques.length)) (1 - 1) the_cliques power_up.toNat
          the_cliques.length (populate the_cliques (1 - 1) power_up.toNat
            (List.range the_cliques.length)
            (intersecting_clique_finder.create l h power_up.toNat)) = .error e := by
        rw [← he2]
        exact one_k_zero_independent _ _ (by
          have e1 : (populate the_cliques 0 power_up.toNat (List.range the_cliques.length)
            (intersecting_clique_finder.create l h power_up.toNat)).power_up
              = power_up.toNat := hisf
          have e2 : (populate the_cliques 0 power_up.toNat (List.range the_cliques.length)
            (intersecting_clique_finder.create l2 h2 power_up.toNat)).power_up
              = power_up.toNat := hisf2
          exact e1.trans e2.symm) the_cliques power_up.toNat the_cliques.length [] _ _
      rw [he1, he2]

/-! ## C25: the branch cut -/

/-- C25, as stated, fails at the threshold `0`: over the two triangles `{1,2,3}` and
`{2,3,4}`, in the state in which the leaf 2 of the query clique `0` is done (the tree
invariant holds, the bloom index contains the clique whose leaf is not done), the
search that visits every child not marked done appends the clique `1`, while
`recursive_search` takes the estimate `0` of the done child for at least `t = 0`,
enters it and stops at the assertion of `cp5.cpp` line 228. -/
theorem branch_cut_enters_done_child_at_threshold_zero :
    TreeInvariant 2 first_leaf_done ∧
      (∀ l, l < cliques_sharing_edge.length → first_leaf_done.done (2 + l) = false →
        Contains index_sharing_edge (cliques_sharing_edge.getD l []) (2 + l)) ∧
      index_sharing_edge.power_up = 2 ∧
      search_without_branch_cut 2 2 1 0 0 cliques_sharing_edge in_two_components 1
          ⟨0, [], first_leaf_done⟩
        = .ok ⟨2, [1], ⟨2, 2, [false, true, true, true]⟩⟩ ∧
      recursive_search 2 index_sharing_edge 1 0 0 cliques_sharing_edge in_two_components 1
          ⟨0, [], first_leaf_done⟩
        = .error (.assertion .cp5_cpp 228) :=
  ⟨first_leaf_done_invariant, index_sharing_edge_contains, by decide, rfl, rfl⟩

/-- C25, amended: for every clique list, every threshold `t ≥ 1`, every state of the
assigned branches and every bloom index that contains every clique whose leaf is not
done, whenever the search that visits every child not marked done returns,
`recursive_search` with the branch cut returns too and has appended the same clique
ids in the same order (and marked the same branches); in a state in which moreover
the tree invariant holds and no clique whose leaf is not done is the query clique, is in
the component to skip or overlaps the query clique completely, both searches return.
Consequently the run of `do_clique_percolation_variant_5b` on distinct maximal cliques,
with the found communities of every level, does not depend on the length of the bit
array nor on the hash function. -/
theorem branch_cut_keeps_what_is_found (the_cliques : List clique) :
    (∀ (isf : intersecting_clique_finder) (current_percolation_level : components)
        (component_to_skip : Int) (q t fuel b : Nat) (s r : SearchState),
        1 ≤ t → 1 ≤ b →
        (∀ l, l < the_cliques.length →
          s.assigned_branches.done (isf.power_up + l) = false →
          Contains isf (the_cliques.getD l []) (isf.power_up + l)) →
        search_without_branch_cut fuel isf.power_up b q t the_cliques
            current_percolation_level component_to_skip s = .ok r →
        ∃ r', recursive_search fuel isf b q t the_cliques current_percolation_level
            component_to_skip s = .ok r' ∧
          r'.cliques_found = r.cliques_found ∧
          r'.assigned_branches = r.assigned_branches) ∧
      (∀ (isf : intersecting_clique_finder) (current_percolation_level : components)
        (component_to_skip : Int) (P q t fuel b : Nat) (s : SearchState),
        isf.power_up = P → 1 ≤ t → P ≤ 1073741824 → the_cliques.length ≤ P →
        the_cliques.length ≤ current_percolation_level.N →
        P - b + 1 ≤ fuel → 1 ≤ b → b < 2 * P →
        TreeInvariant P s.assigned_branches → s.assigned_branches.done b = false →
        Searchable isf the_cliques current_percolation_level component_to_skip q P
          s.assigned_branches →
        ∃ r r', search_without_branch_cut fuel P b q t the_cliques
              current_percolation_level component_to_skip s = .ok r ∧
          recursive_search fuel isf b q t the_cliques current_percolation_level
            component_to_skip s = .ok r' ∧
          r'.cliques_found = r.cliques_found ∧
          r'.assigned_branches = r.assigned_branches) ∧
      ∀ (l l2 : Nat) (h h2 : Int → Nat) (min_k max_k : Nat),
        0 < l → 0 < l2 → DistinctMaximal the_cliques →
        do_clique_percolation_variant_5b l h min_k max_k the_cliques
          = do_clique_percolation_variant_5b l2 h2 min_k max_k the_cliques := by
  refine ⟨?_, ?_, ?_⟩
  · intro isf level skip q t fuel b s r ht hb hcont hr
    exact recursive_search_of_without_branch_cut isf q t ht the_cliques level skip fuel b s s r
      hr rfl rfl hcont hb
  · intro isf level skip P q t fuel b s hP ht hP30 hC hN hfuel hb1 hb2 hinv hnd hsrch
    subst hP
    obtain ⟨r', F, hr', _⟩ := recursive_search_spec isf q t the_cliques level skip
      isf.power_up rfl ht hP30 hC hN fuel b s hfuel hb1 hb2 hinv hnd hsrch
    obtain ⟨r, hr, hf, ha⟩ := search_without_branch_cut_of_recursive_search isf q t
      the_cliques level skip ht hP30 hC hN fuel b s s r' hr' hfuel hb1 hb2 hinv hnd hsrch
      rfl rfl
    exact ⟨r, r', hr, hr', hf.symm, ha.symm⟩
  · intro l l2 h h2 min_k max_k hl hl2 hdm
    exact percolation_independent l l2 h h2 min_k max_k the_cliques hl hl2 hdm

set_option maxRecDepth 100000 in
/-- C25 on the two triangles `{1,2,3}` and `{2,3,4}`: at the threshold `2`, in the state
in which the leaf of the query clique `0` is done, the search without the branch cut
appends the clique `1` and so does `recursive_search`; and the run at `k = 3` with a
bit array of one bit and a constant hash function is the run with `10^10` bits and the
identity, which gives the one community of the two triangles. -/
theorem branch_cut_keeps_what_is_found_witness :
    ((1 ≤ 2 ∧ 1 ≤ 1 ∧
        (∀ l, l < cliques_sharing_edge.length →
          first_leaf_done.done (index_sharing_edge.power_up + l) = false →
          Contains index_sharing_edge (cliques_sharing_edge.getD l [])
            (index_sharing_edge.power_up + l)) ∧
        search_without_branch_cut 2 index_sharing_edge.power_up 1 0 2 cliques_sharing_edge
            in_two_components 1 ⟨0, [], first_leaf_done⟩
          = .ok ⟨2, [1], ⟨2, 2, [false, true, true, true]⟩⟩) ∧
      ∃ r', recursive_search 2 index_sharing_edge 1 0 2 cliques_sharing_edge
          in_two_components 1 ⟨0, [], first_leaf_done⟩ = .ok r' ∧
        r'.cliques_found = [1] ∧
        r'.assigned_branches = ⟨2, 2, [false, true, true, true]⟩) ∧
      ((index_sharing_edge.power_up = 2 ∧ 2 ≤ 1073741824 ∧ cliques_sharing_edge.length ≤ 2 ∧
        cliques_sharing_edge.length ≤ in_two_components.N ∧ 2 - 1 + 1 ≤ 2 ∧ 1 < 2 * 2 ∧
        TreeInvariant 2 first_leaf_done ∧ first_leaf_done.done 1 = false ∧
        Searchable index_sharing_edge cliques_sharing_edge in_two_components 1 0 2
          first_leaf_done) ∧
      ∃ r r', search_without_branch_cut 2 2 1 0 2 cliques_sharing_edge in_two_components 1
            ⟨0, [], first_leaf_done⟩ = .ok r ∧
        recursive_search 2 index_sharing_edge 1 0 2 cliques_sharing_edge in_two_components 1
          ⟨0, [], first_leaf_done⟩ = .ok r' ∧
        r'.cliques_found = r.cliques_found ∧
        r'.assigned_branches = r.assigned_branches) ∧
      ((0 < 10000000000 ∧ 0 < 1 ∧ DistinctMaximal cliques_sharing_edge ∧
        (do_clique_percolation_variant_5b 10000000000 identity_hash 3 3
          cliques_sharing_edge).1.map Level.found_communities = [[1]]) ∧
      do_clique_percolation_variant_5b 10000000000 identity_hash 3 3 cliques_sharing_edge
        = do_clique_percolation_variant_5b 1 (fun _ => 0) 3 3 cliques_sharing_edge) :=
  have hcont : ∀ l, l < cliques_sharing_edge.length →
      first_leaf_done.done (index_sharing_edge.power_up + l) = false →
      Contains index_sharing_edge (cliques_sharing_edge.getD l [])
        (index_sharing_edge.power_up + l) := index_sharing_edge_contains
  have hsrch : Searchable index_sharing_edge cliques_sharing_edge in_two_components 1 0 2
      first_leaf_done := by
    intro l hl hd
    rw [second_leaf_only l hl hd]
    exact ⟨index_sharing_edge_contains 1 (by decide) (by decide), by decide, by decide,
      by decide⟩
  ⟨⟨⟨by decide, by decide, hcont, rfl⟩,
      (branch_cut_keeps_what_is_found cliques_sharing_edge).1 index_sharing_edge
        in_two_components 1 0 2 2 1 ⟨0, [], first_leaf_done⟩
        ⟨2, [1], ⟨2, 2, [false, true, true, true]⟩⟩ (by decide) (by decide) hcont rfl⟩,
    ⟨⟨by decide, by decide, by decide, by decide, by decide, by decide,
        first_leaf_done_invariant, by decide, hsrch⟩,
      (branch_cut_keeps_what_is_found cliques_sharing_edge).2.1 index_sharing_edge
        in_two_components 1 2 0 2 2 1 ⟨0, [], first_leaf_done⟩ (by decide) (by decide)
        (by decide) (by decide) (by decide) (by decide) (by decide) (by decide)
        first_leaf_done_invariant (by decide) hsrch⟩,
    ⟨⟨by decide, by decide, by decide, by decide⟩,
      (branch_cut_keeps_what_is_found cliques_sharing_edge).2.2 10000000000 1 identity_hash
        (fun _ => 0) 3 3 (by decide) (by decide) (by decide)⟩⟩

/-! ## One level, for every clique list and every bloom index -/

theorem my_component_id_ok (c : components) (n : Nat) (id : Int)
    (h : c.my_component_id n = .ok id) : n < c.N ∧ id = c.component_of n := by
  by_cases hn : n < c.N
  · rw [my_component_id_eq c n hn] at h
    simp only [Except.ok.injEq] at h
    exact ⟨hn, h.symm⟩
  · unfold components.my_component_id at h
    rw [if_pos (fun hc => hn hc.2)] at h
    simp at h

theorem get_members_ok_iff (c : components) (id : Int) (ms : List Nat)
    (h : c.get_members id = .ok ms) : 0 ≤ id ∧ id < (c.N : Int) ∧ ms = c.members_of id := by
  rcases get_members_eq c id with herr | ⟨h0, h1, hok⟩
  · rw [herr] at h
    simp at h
  · rw [hok] at h
    simp only [Except.ok.injEq] at h
    exact ⟨h0, h1, h.symm⟩

/-- When the loop that moves the cliques found into the growing community returns, it
has moved every one of them out of the source component, and nothing else has
changed. -/
theorem move_in_ok (cur d : Int) (hd : 0 ≤ d) (hne : d ≠ cur) :
    ∀ (Fnd F : List Nat) (level : components) (F2 : List Nat) (level2 : components),
      level.WellFormed → move_in cur d Fnd F level = .ok (F2, level2) →
      level2.WellFormed ∧ level2.N = level.N ∧ F2 = Fnd.reverse ++ F ∧
        (∀ x, level2.component_of x = if x ∈ Fnd then d else level.component_of x) ∧
        ∀ x ∈ Fnd, x < level.N ∧ level.component_of x = cur := by
  intro Fnd
  induction Fnd with
  | nil =>
    intro F level F2 level2 hwf h
    simp only [move_in, Except.ok.injEq, Prod.mk.injEq] at h
    rw [← h.1, ← h.2]
    exact ⟨hwf, rfl, by simp, by simp, by simp⟩
  | cons x rest ih =>
    intro F level F2 level2 hwf h
    unfold move_in at h
    cases hc : level.my_component_id x with
    | error e => rw [hc] at h; simp at h
    | ok id =>
      rw [hc] at h
      simp only at h
      obtain ⟨hxN, hid⟩ := my_component_id_ok level x id hc
      by_cases h507 : cur = id
      swap
      · rw [if_pos h507] at h
        simp at h
      rw [if_neg (not_not.2 h507)] at h
      obtain ⟨hwf1, hN1, hcomp1, _, _⟩ := move_node_spec level x d hwf hxN hd
      obtain ⟨g1, g2, g3, g4, g5⟩ := ih (x :: F) (level.move_node x d) F2 level2 hwf1 h
      refine ⟨g1, by rw [g2, hN1], by rw [g3]; simp, ?_, ?_⟩
      · intro y
        rw [g4 y, hcomp1 y]
        by_cases h1 : y ∈ rest
        · simp [h1]
        · by_cases h2 : y = x
          · simp [h2]
          · simp [h1, h2]
      · intro y hy
        rcases List.mem_cons.1 hy with e | hyr
        · rw [e]
          exact ⟨hxN, by rw [← hid, ← h507]⟩
        · obtain ⟨a1, a2⟩ := g5 y hyr
          rw [hN1] at a1
          refine ⟨a1, ?_⟩
          rw [hcomp1 y] at a2
          by_cases h2 : y = x
          · rw [if_pos h2] at a2
            exact absurd a2 hne
          · rw [if_neg h2] at a2
            exact a2

/-- When the growth of a community returns, for any clique list and any bloom index:
the Components are well formed, no mark has been taken away, the leaf of every clique
of the community is done, and a clique has changed its component only by moving from
the source component into the community. -/
theorem grow_community_frame (t : Nat) (the_cliques : List clique) (P : Nat)
    (isf : intersecting_clique_finder) (hP : isf.power_up = P) (hP1 : 1 ≤ P)
    (cur d : Int) (hd : 0 ≤ d) (hne : d ≠ cur) :
    ∀ (fuel : Nat) (F : List Nat) (level : components) (ab : assigned_branches_t)
      (level' : components) (ab' : assigned_branches_t),
      level.WellFormed →
      (∀ x, x < level.N → level.component_of x = d → ab.done (P + x) = true ∨ x ∈ F) →
      grow_community t the_cliques P isf cur d fuel F level ab = .ok (level', ab') →
      level'.WellFormed ∧ level'.N = level.N ∧
        (∀ x, ab.done x = true → ab'.done x = true) ∧
        (∀ x, x < level.N → level'.component_of x = d → ab'.done (P + x) = true) ∧
        ∀ x, level'.component_of x = level.component_of x ∨
          (level.component_of x = cur ∧ level'.component_of x = d) := by
  intro fuel
  induction fuel with
  | zero => intro F level ab level' ab' _ _ h; simp [grow_community] at h
  | succ fuel ih =>
    intro F level ab level' ab' hwf hdone h
    cases F with
    | nil =>
      simp only [grow_community, Except.ok.injEq, Prod.mk.injEq] at h
      rw [← h.1, ← h.2]
      refine ⟨hwf, rfl, fun x hx => hx, ?_, fun x => Or.inl rfl⟩
      intro x hx hxd
      rcases hdone x hx hxd with h1 | h1
      · exact h1
      · exact absurd h1 (by simp)
    | cons q tail =>
      unfold grow_community at h
      cases hm : ab.mark_as_done (P + q) with
      | error e => rw [hm] at h; simp at h
      | ok r =>
        obtain ⟨k, ab1⟩ := r
        rw [hm] at h
        simp only at h
        have hq1 : ab1.done (P + q) = true := mark_as_done_rec_done _ _ _ _ _ hm
        have hmono1 : ∀ x, ab.done x = true → ab1.done x = true :=
          mark_as_done_rec_mono _ _ _ _ _ hm
        cases hc : level.my_component_id q with
        | error e => rw [hc] at h; simp at h
        | ok id =>
          rw [hc] at h
          simp only at h
          by_cases h500 : id = d
          swap
          · rw [if_pos h500] at h
            simp at h
          rw [if_neg (not_not.2 h500)] at h
          cases hn : neighbours_of_one_clique the_cliques q level t d isf ⟨0, [], ab1⟩ with
          | error e => rw [hn] at h; simp at h
          | ok s =>
            rw [hn] at h
            simp only at h
            obtain ⟨Fnd, hFnd, _, hFdone, hmono2⟩ := (neighbours_of_one_clique_found isf q t
              the_cliques level d (by rw [hP]; exact hP1) ⟨0, [], ab1⟩).2 s hn
            simp only [List.nil_append] at hFnd
            rw [hP] at hFdone
            cases hmv : move_in cur d s.cliques_found tail level with
            | error e => rw [hmv] at h; simp at h
            | ok r2 =>
              obtain ⟨F2, level2⟩ := r2
              rw [hmv] at h
              simp only at h
              by_cases h511 : F2.length < the_cliques.length
              swap
              · rw [if_pos h511] at h
                simp at h
              rw [if_neg (not_not.2 h511)] at h
              obtain ⟨hwf2, hN2, hF2, hcomp2, hFcur⟩ :=
                move_in_ok cur d hd hne s.cliques_found tail level F2 level2 hwf hmv
              obtain ⟨g1, g2, g3, g4, g5⟩ := ih F2 level2 s.assigned_branches level' ab' hwf2
                (by
                  intro x hx hxd
                  rw [hN2] at hx
                  rw [hcomp2 x] at hxd
                  by_cases hxF : x ∈ s.cliques_found
                  · left
                    rw [hFnd] at hxF
                    exact (hFdone x hxF).2.2
                  · rw [if_neg hxF] at hxd
                    rcases hdone x hx hxd with h1 | h1
                    · exact Or.inl (hmono2 _ (hmono1 _ h1))
                    · rcases List.mem_cons.1 h1 with e | e
                      · left
                        rw [e]
                        exact hmono2 _ hq1
                      · right
                        rw [hF2]
                        exact List.mem_append.2 (Or.inr e)) h
              refine ⟨g1, by rw [g2, hN2], fun x hx => g3 x (hmono2 x (hmono1 x hx)), ?_, ?_⟩
              · intro x hx hxd
                exact g4 x (by rw [hN2]; exact hx) hxd
              · intro x
                rcases g5 x with e | ⟨e1, e2⟩
                · by_cases hxF : x ∈ s.cliques_found
                  · exact Or.inr ⟨(hFcur x hxF).2, by rw [e, hcomp2 x, if_pos hxF]⟩
                  · exact Or.inl (by rw [e, hcomp2 x, if_neg hxF])
                · rw [hcomp2 x] at e1
                  by_cases hxF : x ∈ s.cliques_found
                  · exact Or.inr ⟨(hFcur x hxF).2, e2⟩
                  · rw [if_neg hxF] at e1
                    exact Or.inr ⟨e1, e2⟩

theorem PartStep.refl (found : List Int) (level : components) (ab : assigned_branches_t) :
    PartStep found level ab found level ab :=
  ⟨rfl, fun _ h => h, fun _ _ _ => rfl, fun _ h => h⟩

theorem PartStep.trans {found found1 found2 : List Int} {level level1 level2 : components}
    {ab ab1 ab2 : assigned_branches_t} (h1 : PartStep found level ab found1 level1 ab1)
    (h2 : PartStep found1 level1 ab1 found2 level2 ab2) :
    PartStep found level ab found2 level2 ab2 := by
  refine ⟨by rw [h2.N_eq, h1.N_eq], fun f hf => h2.found_sub f (h1.found_sub f hf), ?_,
    fun x hx => h2.mono x (h1.mono x hx)⟩
  intro x hx hxf
  have e1 := h1.keep x hx hxf
  have e2 := h2.keep x (by rw [h1.N_eq]; exact hx) (by rw [e1]; exact h1.found_sub _ hxf)
  rw [e2, e1]

/-- One community, for any clique list and any bloom index: when the growth out of the
seed returns, the state between two communities holds again, with the new community
found. -/
theorem one_community_part (t : Nat) (the_cliques : List clique) (P : Nat)
    (isf : intersecting_clique_finder) (hP : isf.power_up = P) (hP1 : 1 ≤ P)
    (srcs : List Int) (level0 : components) (cur : Int) (hcur : cur ∈ srcs) (hcur0 : 0 ≤ cur)
    (found : List Int) (level : components) (ab : assigned_branches_t)
    (inv : PartInv P srcs level0 found level ab)
    (seed : Nat) (hseed : seed ∈ level.members_of cur) (h480 : ab.done (P + seed) = false)
    (fuel : Nat) (level2 : components) (ab2 : assigned_branches_t)
    (hgrow : grow_community t the_cliques P isf cur level.top_empty_component fuel [seed]
      (level.move_node seed level.top_empty_component) ab = .ok (level2, ab2)) :
    PartInv P srcs level0 (found ++ [level.top_empty_component]) level2 ab2 ∧
      PartStep found level ab (found ++ [level.top_empty_component]) level2 ab2 := by
  obtain ⟨hd0, hdemp⟩ := top_empty_component_spec level
  generalize level.top_empty_component = d at hd0 hdemp hgrow ⊢
  obtain ⟨hseedN, hseedcur⟩ := (inv.wf.mem_iff cur seed hcur0).1 hseed
  have hcur_nf : cur ∉ found := by
    intro hc
    have := inv.found_done seed hseedN (by rw [hseedcur]; exact hc)
    rw [this] at h480
    exact absurd h480 (by simp)
  have hdne : d ≠ cur := by
    intro e
    rw [e] at hdemp
    rw [hdemp] at hseed
    exact absurd hseed (by simp)
  have hdnf : d ∉ found := fun hc => (inv.found_ok d hc).2 hdemp
  have hd_empty : ∀ x, x < level.N → level.component_of x ≠ d :=
    fun x hx => component_ne_of_empty level inv.wf d hd0 hdemp x hx
  obtain ⟨hwf1, hN1, hcomp1, _, _⟩ := move_node_spec level seed d inv.wf hseedN hd0
  obtain ⟨hwf2, hN2, hmono, hdone_d, hframe⟩ := grow_community_frame t the_cliques P isf hP hP1
    cur d hd0 hdne fuel [seed] (level.move_node seed d) ab level2 ab2 hwf1 (by
      intro x hx hxd
      right
      rw [hcomp1 x] at hxd
      by_cases hxs : x = seed
      · simp [hxs]
      · rw [if_neg hxs] at hxd
        rw [hN1] at hx
        exact absurd hxd (hd_empty x hx)) hgrow
  have hNN : level2.N = level.N := by rw [hN2, hN1]
  have k1 : ∀ x, x < level.N → level2.component_of x ≠ d →
      level2.component_of x = level.component_of x := by
    intro x _ hxd
    rcases hframe x with e | ⟨_, e⟩
    · rw [hcomp1 x] at e
      by_cases hxs : x = seed
      · rw [if_pos hxs] at e
        exact absurd e hxd
      · rw [if_neg hxs] at e
        exact e
    · exact absurd e hxd
  have k2 : ∀ x, x < level.N → level2.component_of x = d → level.component_of x = cur := by
    intro x hx hxd
    rcases hframe x with e | ⟨e, _⟩
    · rw [hxd, hcomp1 x] at e
      by_cases hxs : x = seed
      · rw [hxs]; exact hseedcur
      · rw [if_neg hxs] at e
        exact absurd e.symm (hd_empty x hx)
    · rw [hcomp1 x] at e
      by_cases hxs : x = seed
      · rw [if_pos hxs] at e
        exact absurd e hdne
      · rw [if_neg hxs] at e
        exact e
  have k3 : level2.component_of seed = d := by
    rcases hframe seed with e | ⟨_, e⟩
    · rw [e, hcomp1 seed, if_pos rfl]
    · exact e
  have k4 : ∀ x, x < level.N → level.component_of x ≠ cur →
      level2.component_of x = level.component_of x :=
    fun x hx hne => k1 x hx (fun e => hne (k2 x hx e))
  have hstep : PartStep found level ab (found ++ [d]) level2 ab2 := by
    refine ⟨hNN, fun f hf => List.mem_append.2 (Or.inl hf), ?_, hmono⟩
    intro x hx hxf
    exact k4 x hx (fun e => hcur_nf (by rw [← e]; exact hxf))
  refine ⟨⟨hwf2, by rw [hNN, inv.N_eq], ?_, ?_, ?_, ?_, ?_⟩, hstep⟩
  · rw [List.nodup_append]
    refine ⟨inv.found_nodup, List.nodup_singleton d, ?_⟩
    intro f hf hf'
    have : f = d := by simpa using hf'
    rw [this] at hf
    exact hdnf hf
  · intro f hf
    rcases List.mem_append.1 hf with h | h
    · obtain ⟨hf0, hfne⟩ := inv.found_ok f h
      refine ⟨hf0, ?_⟩
      obtain ⟨x, hxN, hxf⟩ := exists_member level inv.wf f hf0 hfne
      have := k4 x hxN (by rw [hxf]; exact fun e => hcur_nf (by rw [← e]; exact h))
      intro hemp
      have hx2 := (hwf2.mem_iff f x hf0).2 ⟨by rw [hNN]; exact hxN, by rw [this]; exact hxf⟩
      rw [hemp] at hx2
      exact absurd hx2 (by simp)
    · have hfd : f = d := by simpa using h
      rw [hfd]
      refine ⟨hd0, ?_⟩
      intro hemp
      have hx2 := (hwf2.mem_iff d seed hd0).2 ⟨by rw [hNN]; exact hseedN, k3⟩
      rw [hemp] at hx2
      exact absurd hx2 (by simp)
  · intro x hx hxf
    rw [hNN] at hx
    by_cases hxd : level2.component_of x = d
    · exact hdone_d x (by rw [hN1]; exact hx) hxd
    · rw [k1 x hx hxd] at hxf
      rcases List.mem_append.1 hxf with h | h
      · exact hmono _ (inv.found_done x hx h)
      · have : level.component_of x = d := by simpa using h
        exact absurd this (hd_empty x hx)
  · intro x hx hxf
    rw [hNN] at hx
    by_cases hxd : level2.component_of x = d
    · have hxc := k2 x hx hxd
      have := inv.unmoved x hx (by rw [hxc]; exact hcur_nf)
      rw [← this, hxc]
      exact ⟨hcur, hcur0⟩
    · rw [k1 x hx hxd] at hxf
      rcases List.mem_append.1 hxf with h | h
      · exact inv.moved x hx h
      · have : level.component_of x = d := by simpa using h
        exact absurd this (hd_empty x hx)
  · intro x hx hxf
    rw [hNN] at hx
    have hxd : level2.component_of x ≠ d := fun e => hxf (by rw [e]; simp)
    rw [k1 x hx hxd] at hxf ⊢
    exact inv.unmoved x hx (fun h => hxf (List.mem_append.2 (Or.inl h)))

/-- The loop over the communities of one source component, for any clique list and
any bloom index: when it returns, the source component is empty. -/
theorem drain_source_part (t : Nat) (the_cliques : List clique) (P : Nat)
    (isf : intersecting_clique_finder) (hP : isf.power_up = P) (hP1 : 1 ≤ P)
    (srcs : List Int) (level0 : components) (cur : Int) (hcur : cur ∈ srcs) :
    ∀ (fuel : Nat) (found : List Int) (level : components) (ab : assigned_branches_t)
      (found' : List Int) (level' : components) (ab' : assigned_branches_t),
      PartInv P srcs level0 found level ab →
      drain_source t the_cliques P isf cur fuel found level ab = .ok (found', level', ab') →
      PartInv P srcs level0 found' level' ab' ∧ PartStep found level ab found' level' ab' ∧
        level'.members_of cur = [] ∧ 0 ≤ cur ∧ cur < (level.N : Int) := by
  intro fuel
  induction fuel with
  | zero => intro found level ab found' level' ab' _ h; simp [drain_source] at h
  | succ fuel ih =>
    intro found level ab found' level' ab' inv h
    unfold drain_source at h
    cases hg : level.get_members cur with
    | error e => rw [hg] at h; simp at h
    | ok ms =>
      rw [hg] at h
      obtain ⟨hcur0, hcurN, hms⟩ := get_members_ok_iff level cur ms hg
      cases ms with
      | nil =>
        simp only [Except.ok.injEq, Prod.mk.injEq] at h
        obtain ⟨e1, e2, e3⟩ := h
        rw [← e1, ← e2, ← e3]
        exact ⟨inv, PartStep.refl _ _ _, hms.symm, hcur0, hcurN⟩
      | cons seed rest =>
        simp only at h
        have hseed : seed ∈ level.members_of cur := by rw [← hms]; simp
        by_cases h480 : ab.assigned_branches.getD (P + seed) false = false
        swap
        · rw [if_pos h480] at h
          simp at h
        rw [if_neg (not_not.2 h480)] at h
        by_cases h481 : (the_cliques.getD seed []).length > t
        swap
        · rw [if_pos h481] at h
          simp at h
        rw [if_neg (not_not.2 h481)] at h
        cases hg2 : level.get_members level.top_empty_component with
        | error e => rw [hg2] at h; simp at h
        | ok grown =>
          rw [hg2] at h
          simp only at h
          by_cases h486 : 0 = grown.length
          swap
          · rw [if_pos h486] at h
            simp at h
          rw [if_neg (not_not.2 h486)] at h
          cases hgr : grow_community t the_cliques P isf cur level.top_empty_component
              (the_cliques.length + 1) [seed]
              (level.move_node seed level.top_empty_component) ab with
          | error e => rw [hgr] at h; simp at h
          | ok r =>
            obtain ⟨level2, ab2⟩ := r
            rw [hgr] at h
            simp only at h
            obtain ⟨inv2, step2⟩ := one_community_part t the_cliques P isf hP hP1 srcs level0
              cur hcur hcur0 found level ab inv seed hseed h480 _ level2 ab2 hgr
            cases hg3 : level2.get_members level.top_empty_component with
            | error e => rw [hg3] at h; simp at h
            | ok ms3 =>
              rw [hg3] at h
              simp only at h
              obtain ⟨inv', step', hemp, _, _⟩ := ih _ level2 ab2 found' level' ab' inv2 h
              exact ⟨inv', step2.trans step', hemp, hcur0, hcurN⟩

/-- The loop over the source components, for any clique list and any bloom index: when
it returns, a source component whose id is not the id of a found community is
empty. -/
theorem one_k_sources_part (t : Nat) (the_cliques : List clique) (P : Nat)
    (isf : intersecting_clique_finder) (hP : isf.power_up = P) (hP1 : 1 ≤ P)
    (srcs : List Int) (level0 : components) :
    ∀ (rem : List Int) (found : List Int) (level : components) (ab : assigned_branches_t)
      (found' : List Int) (level' : components) (ab' : assigned_branches_t),
      (∀ s ∈ rem, s ∈ srcs) →
      PartInv P srcs level0 found level ab →
      one_k_sources t the_cliques P isf rem found level ab = .ok (found', level', ab') →
      PartInv P srcs level0 found' level' ab' ∧ PartStep found level ab found' level' ab' ∧
        ∀ s ∈ rem, 0 ≤ s ∧ s < (level.N : Int) ∧ (s ∉ found' → level'.members_of s = []) := by
  intro rem
  induction rem with
  | nil =>
    intro found level ab found' level' ab' _ inv h
    simp only [one_k_sources, Except.ok.injEq, Prod.mk.injEq] at h
    obtain ⟨e1, e2, e3⟩ := h
    rw [← e1, ← e2, ← e3]
    exact ⟨inv, PartStep.refl _ _ _, by simp⟩
  | cons cur rest ih =>
    intro found level ab found' level' ab' hsub inv h
    unfold one_k_sources at h
    cases hd : drain_source t the_cliques P isf cur (the_cliques.length + 1) found level ab with
    | error e => rw [hd] at h; simp at h
    | ok r =>
      obtain ⟨found1, level1, ab1⟩ := r
      rw [hd] at h
      simp only at h
      obtain ⟨inv1, step1, hemp1, hcur0, hcurN⟩ := drain_source_part t the_cliques P isf hP hP1
        srcs level0 cur (hsub cur (by simp)) _ found level ab found1 level1 ab1 inv hd
      obtain ⟨inv', step', hrest⟩ := ih found1 level1 ab1 found' level' ab'
        (fun s hs => hsub s (by simp [hs])) inv1 h
      refine ⟨inv', step1.trans step', ?_⟩
      intro s hs
      rcases List.mem_cons.1 hs with e | hsr
      · rw [e]
        refine ⟨hcur0, hcurN, ?_⟩
        intro hnf
        by_contra hne
        obtain ⟨x, hxN, hxc⟩ := exists_member level' inv'.wf cur hcur0 hne
        have hx0 := inv'.unmoved x hxN (by rw [hxc]; exact hnf)
        have hxN1 : x < level1.N := by rw [← step'.N_eq]; exact hxN
        by_cases hx1 : level1.component_of x ∈ found1
        · have := step'.keep x hxN1 hx1
          rw [hxc] at this
          rw [← this] at hx1
          exact hnf (step'.found_sub _ hx1)
        · have := inv1.unmoved x hxN1 hx1
          rw [← hx0, hxc] at this
          have hm := (inv1.wf.mem_iff cur x hcur0).2 ⟨hxN1, this⟩
          rw [hemp1] at hm
          exact absurd hm (by simp)
      · obtain ⟨a1, a2, a3⟩ := hrest s hsr
        exact ⟨a1, by rw [← step1.N_eq]; exact a2, a3⟩

/-- The function `one_k` on well-formed Components, for any clique list, any bloom
index over a tree of `P ≥ 1` leaves and any source components: when it returns, the
found communities are distinct and not empty, a source component whose id is not the
id of a found community is empty, and the found communities hold exactly the cliques
that the source components held on entry. -/
theorem one_k_part (t : Nat) (the_cliques : List clique) (P C : Nat)
    (isf : intersecting_clique_finder) (hP : isf.power_up = P) (hP1 : 1 ≤ P)
    (srcs : List Int) (level : components) (hwf : level.WellFormed)
    (found : List Int) (level' : components)
    (h : one_k [] srcs level t the_cliques P C isf = .ok (found, level')) :
    level'.WellFormed ∧ level'.N = level.N ∧ found.Nodup ∧
      (∀ f ∈ found, 0 ≤ f ∧ level'.members_of f ≠ []) ∧
      (∀ s ∈ srcs, 0 ≤ s ∧ s < (level.N : Int) ∧ (s ∉ found → level'.members_of s = [])) ∧
      ∀ c, (∃ f ∈ found, c ∈ level'.members_of f) ↔ ∃ s ∈ srcs, c ∈ level.members_of s := by
  unfold one_k at h
  simp only [List.isEmpty_nil, not_true_eq_false, if_false] at h
  cases hc : assigned_branches_t.create P C with
  | error e => rw [hc] at h; simp at h
  | ok ab0 =>
    rw [hc] at h
    simp only at h
    cases hpm : premark_small the_cliques t P (List.range C) ab0 with
    | error e => rw [hpm] at h; simp at h
    | ok ab =>
      rw [hpm] at h
      simp only at h
      cases hs : one_k_sources t the_cliques P isf srcs.reverse [] level ab with
      | error e => rw [hs] at h; simp at h
      | ok r =>
        obtain ⟨found1, level1, ab1⟩ := r
        rw [hs] at h
        simp only [Except.ok.injEq, Prod.mk.injEq] at h
        obtain ⟨e1, e2⟩ := h
        subst e1
        subst e2
        have inv0 : PartInv P srcs level [] level ab :=
          ⟨hwf, rfl, List.nodup_nil, by simp, by simp, by simp, fun _ _ _ => rfl⟩
        obtain ⟨inv, step, hsrc⟩ := one_k_sources_part t the_cliques P isf hP hP1 srcs level
          srcs.reverse [] level ab found1 level1 ab1 (fun s hs => List.mem_reverse.1 hs) inv0 hs
        refine ⟨inv.wf, inv.N_eq, inv.found_nodup, inv.found_ok,
          fun s hs => hsrc s (List.mem_reverse.2 hs), ?_⟩
        intro c
        constructor
        · rintro ⟨f, hf, hcf⟩
          obtain ⟨hcN, hcc⟩ := (inv.wf.mem_iff f c (inv.found_ok f hf).1).1 hcf
          obtain ⟨m1, m2⟩ := inv.moved c hcN (by rw [hcc]; exact hf)
          exact ⟨_, m1, (hwf.mem_iff _ c m2).2 ⟨by rw [← inv.N_eq]; exact hcN, rfl⟩⟩
        · rintro ⟨s, hs, hcs⟩
          obtain ⟨hs0, _, hsemp⟩ := hsrc s (List.mem_reverse.2 hs)
          obtain ⟨hcN, hcc⟩ := (hwf.mem_iff s c hs0).1 hcs
          have hcN1 : c < level1.N := by rw [inv.N_eq]; exact hcN
          by_cases hcf : level1.component_of c ∈ found1
          · exact ⟨_, hcf, (inv.wf.mem_iff _ c (inv.found_ok _ hcf).1).2 ⟨hcN1, rfl⟩⟩
          · exfalso
            have e := inv.unmoved c hcN1 hcf
            rw [hcc] at e
            have hsf : s ∉ found1 := by rw [← e]; exact hcf
            have hm := (inv.wf.mem_iff s c hs0).2 ⟨hcN1, e⟩
            rw [hsemp hsf] at hm
            exact absurd hm (by simp)

/-! ## C19: the communities of one level partition the source components -/

set_option maxRecDepth 100000 in
/-- C19, as stated, fails: at level 4 of `cliques_two_pairs`, whose two source
components hold only cliques of more than three vertices, `one_k` first empties the
source component 1; `top_empty_component`, which returns the smallest id with an empty
member list, then hands the id 1 to the community grown out of the source component
0, so that on return the source component 1 is not empty. -/
theorem emptied_source_id_is_reused :
    (∀ s ∈ [(0 : Int), 1], ∀ c ∈ two_sources.members_of s,
        3 < (cliques_two_pairs.getD c []).length) ∧
      (one_k [] [0, 1] two_sources 3 cliques_two_pairs 4 4 index_two_pairs).toOption
        = some ([2, 1], two_communities) ∧
      two_communities.members_of 1 = [0, 1] := by
  decide

/-- C19, amended: for every call of `one_k` at the threshold `t` whose source
components hold only cliques of more than `t` vertices (well-formed Components, any
clique list, any bloom index over the tree of `power_up ≥ 1` leaves that `one_k` is
given), on return every found community is non-empty, the found communities are
pairwise disjoint, their union is exactly the set of cliques that were members of the
source components on entry, and every source component is empty unless its id has
been given to a found community. -/
theorem one_k_partitions_the_sources (the_cliques : List clique) (t power_up C : Nat)
    (isf : intersecting_clique_finder) (hP : isf.power_up = power_up) (hP1 : 1 ≤ power_up)
    (candidate_components : List Int) (level : components) (hwf : level.WellFormed)
    (_hbig : ∀ s ∈ candidate_components, ∀ c ∈ level.members_of s,
      t < (the_cliques.getD c []).length)
    (found : List Int) (level' : components)
    (hret : one_k [] candidate_components level t the_cliques power_up C isf
      = .ok (found, level')) :
    (∀ s ∈ candidate_components, s ∉ found → level'.members_of s = []) ∧
      (∀ f ∈ found, level'.members_of f ≠ []) ∧
      found.Nodup ∧
      (∀ f ∈ found, ∀ f2 ∈ found, f ≠ f2 →
        ∀ c ∈ level'.members_of f, c ∉ level'.members_of f2) ∧
      ∀ c, (∃ f ∈ found, c ∈ level'.members_of f) ↔
        ∃ s ∈ candidate_components, c ∈ level.members_of s := by
  obtain ⟨hwf', _, hnd, hok, hsrc, hunion⟩ := one_k_part t the_cliques power_up C isf hP hP1
    candidate_components level hwf found level' hret
  refine ⟨fun s hs => (hsrc s hs).2.2, fun f hf => (hok f hf).2, hnd, ?_, hunion⟩
  intro f hf f2 hf2 hne c hc hc2
  have h1 := ((hwf'.mem_iff f c (hok f hf).1).1 hc).2
  have h2 := ((hwf'.mem_iff f2 c (hok f2 hf2).1).1 hc2).2
  exact hne (h1.symm.trans h2)

set_option maxRecDepth 100000 in
/-- C19, amended, at level 4 of `cliques_two_pairs`: the call returns the communities
`2` and `1`, and the source component `0` is empty. -/
theorem one_k_partitions_the_sources_witness :
    (index_two_pairs.power_up = 4 ∧ 1 ≤ 4 ∧ two_sources.WellFormed ∧
        (∀ s ∈ [(0 : Int), 1], ∀ c ∈ two_sources.members_of s,
          3 < (cliques_two_pairs.getD c []).length) ∧
        one_k [] [0, 1] two_sources 3 cliques_two_pairs 4 4 index_two_pairs
          = .ok ([2, 1], two_communities)) ∧
      ((∀ s ∈ [(0 : Int), 1], s ∉ [(2 : Int), 1] → two_communities.members_of s = []) ∧
        (∀ f ∈ [(2 : Int), 1], two_communities.members_of f ≠ []) ∧
        [(2 : Int), 1].Nodup ∧
        (∀ f ∈ [(2 : Int), 1], ∀ f2 ∈ [(2 : Int), 1], f ≠ f2 →
          ∀ c ∈ two_communities.members_of f, c ∉ two_communities.members_of f2) ∧
        ∀ c, (∃ f ∈ [(2 : Int), 1], c ∈ two_communities.members_of f) ↔
          ∃ s ∈ [(0 : Int), 1], c ∈ two_sources.members_of s) :=
  ⟨⟨by decide, by decide, two_sources_wellFormed.1, by decide, rfl⟩,
    one_k_partitions_the_sources cliques_two_pairs 3 4 4 index_two_pairs (by decide)
      (by decide) [0, 1] two_sources two_sources_wellFormed.1 (by decide) [2, 1]
      two_communities rfl⟩

/-! ## The component ids of a run, for any clique list -/

theorem headD_mem_of_ne_nil (l : List Nat) (h : l ≠ []) : l.headD 0 ∈ l := by
  cases l with
  | nil => exact absurd rfl h
  | cons a t => simp

/-- The id that `top_empty_component` returns on well-formed Components is at most the
number of atoms; it is less when an atom `a` is different from every member. -/
theorem first_empty_le_of_excluded (c : components) (hwf : c.WellFormed) (excl : List Nat)
    (hex : ∀ a ∈ excl, c.component_of a < 0) (hnd : excl.Nodup) (hlt : ∀ a ∈ excl, a < c.N) :
    first_empty c.members + excl.length ≤ c.N := by
  have hne := (first_empty_spec c.members).2
  have hmem : ∀ j, j < first_empty c.members →
      (c.members.getD j []).headD 0 < c.N ∧
        c.component_of ((c.members.getD j []).headD 0) = (j : Int) := by
    intro j hj
    have h1 := headD_mem_of_ne_nil _ (hne j hj)
    have h2 : (c.members.getD j []).headD 0 ∈ c.members_of (j : Int) := by
      unfold components.members_of
      simpa using h1
    exact (hwf.mem_iff (j : Int) _ (by omega)).1 h2
  have hnd1 : ((List.range (first_empty c.members)).map
      (fun j => (c.members.getD j []).headD 0)).Nodup := by
    apply List.Nodup.map_on
    · intro x hx y hy hxy
      have hx1 := (hmem x (List.mem_range.1 hx)).2
      have hy1 := (hmem y (List.mem_range.1 hy)).2
      simp only at hxy
      rw [hxy, hy1] at hx1
      omega
    · exact List.nodup_range _
  have hdis : ∀ x ∈ (List.range (first_empty c.members)).map
      (fun j => (c.members.getD j []).headD 0), x ∉ excl := by
    intro x hx hxe
    obtain ⟨j, hj, hjx⟩ := List.mem_map.1 hx
    have := (hmem j (List.mem_range.1 hj)).2
    rw [hjx] at this
    have := hex x hxe
    omega
  have hall : (((List.range (first_empty c.members)).map
      (fun j => (c.members.getD j []).headD 0)) ++ excl).Nodup := by
    rw [List.nodup_append]
    exact ⟨hnd1, hnd, fun x hx hxe => hdis x hx hxe⟩
  have := length_le_of_nodup_subset_nat _ (List.range c.N) hall (by
    intro x hx
    rw [List.mem_range]
    rcases List.mem_append.1 hx with h | h
    · obtain ⟨j, hj, hjx⟩ := List.mem_map.1 h
      have := (hmem j (List.mem_range.1 hj)).1
      rw [hjx] at this
      exact this
    · exact hlt x h)
  simpa using this

theorem top_empty_component_le (c : components) (hwf : c.WellFormed) :
    c.top_empty_component ≤ (c.N : Int) := by
  have := first_empty_le_of_excluded c hwf [] (by simp) List.nodup_nil (by simp)
  unfold components.top_empty_component
  simp only [List.length_nil, Nat.add_zero] at this
  omega

theorem top_empty_component_lt (c : components) (hwf : c.WellFormed) (a : Nat) (ha : a < c.N)
    (hneg : c.component_of a < 0) : c.top_empty_component < (c.N : Int) := by
  have := first_empty_le_of_excluded c hwf [a] (by simpa using hneg) (List.nodup_singleton a)
    (by simpa using ha)
  unfold components.top_empty_component
  simp only [List.length_singleton] at this
  omega

theorem set_branch_power_up (c : clique) (b : Nat) :
    ∀ isf : intersecting_clique_finder, (set_branch isf c b).power_up = isf.power_up := by
  unfold set_branch
  induction c with
  | nil => intro isf; rfl
  | cons x rest ih =>
    intro isf
    rw [List.foldl_cons, ih]

theorem add_clique_to_bloom_loop_power_up (c : clique) :
    ∀ (fuel : Nat) (isf : intersecting_clique_finder) (b : Nat),
      (add_clique_to_bloom_loop fuel isf c b).power_up = isf.power_up := by
  intro fuel
  induction fuel with
  | zero => intro isf b; rfl
  | succ fuel ih =>
    intro isf b
    unfold add_clique_to_bloom_loop
    by_cases hb : b ≠ 0
    · rw [if_pos hb, ih, set_branch_power_up]
    · rw [if_neg hb]

/-- The number of leaves that a bloom index records is not changed when the index is
filled. -/
theorem populate_power_up (the_cliques : List clique) (t P : Nat) :
    ∀ (cs : List Nat) (isf : intersecting_clique_finder),
      (populate the_cliques t P cs isf).power_up = isf.power_up := by
  intro cs
  induction cs with
  | nil => intro isf; rfl
  | cons c rest ih =>
    intro isf
    simp only [populate]
    by_cases hsize : (the_cliques.getD c []).length ≥ t
    · rw [if_pos hsize, ih]
      unfold intersecting_clique_finder.add_clique_to_bloom
      exact add_clique_to_bloom_loop_power_up _ _ _ _
    · rw [if_neg hsize, ih]
/-- The source components that `next_sources` collects have ids below the number of
cliques: a new source component takes a clique that was in no component of the new
level, so that fewer components than cliques were in use. -/
theorem next_sources_bound (the_cliques : List clique) (new_k : Nat) (level : components)
    (hwf : level.WellFormed) (hN : level.N = the_cliques.length) :
    ∀ (rest seen srcs : List Int) (nl : components), (seen ++ rest).Nodup →
      NextInv the_cliques new_k level seen srcs nl →
      (∀ s ∈ srcs, s < (the_cliques.length : Int)) →
      ∀ (srcs' : List Int) (nl' : components),
        next_sources the_cliques new_k level rest srcs nl = .ok (srcs', nl') →
        ∀ s ∈ srcs', s < (the_cliques.length : Int) := by
  intro rest
  induction rest with
  | nil =>
    intro seen srcs nl _ _ hb srcs' nl' h
    simp only [next_sources, Except.ok.injEq, Prod.mk.injEq] at h
    rw [← h.1]
    exact hb
  | cons f rest ih =>
    intro seen srcs nl hnd inv hb srcs' nl' h
    have hnd1 : (seen ++ [f]).Nodup := by
      have : ((seen ++ [f]) ++ rest).Nodup := by simpa using hnd
      exact (List.nodup_append.1 this).1
    have hnd' : ((seen ++ [f]) ++ rest).Nodup := by simpa using hnd
    have hfseen : f ∉ seen := by
      intro hc
      exact (List.nodup_append.1 hnd1).2.2 hc (by simp)
    have hsingle := next_sources_spec the_cliques new_k level hwf hN [f] seen srcs nl hnd1 inv
    unfold next_sources at h
    cases hg : level.get_members f with
    | error e => rw [hg] at h; simp at h
    | ok ms =>
      rw [hg] at h
      simp only at h
      obtain ⟨hf0, _, hms⟩ := get_members_ok_iff level f ms hg
      rcases hsingle with herr | ⟨s1, n1, hrun, inv1⟩
      · simp [next_sources, hg] at herr
        split at herr <;> simp at herr
      by_cases hc : nl.top_empty_component
          = (move_big_enough the_cliques new_k nl.top_empty_component ms nl).top_empty_component
      · rw [if_pos hc] at h
        simp only [next_sources, hg, if_pos hc, Except.ok.injEq, Prod.mk.injEq] at hrun
        rw [← hrun.1, ← hrun.2] at inv1
        exact ih (seen ++ [f]) srcs _ hnd' inv1 hb srcs' nl' h
      · rw [if_neg hc] at h
        simp only [next_sources, hg, if_neg hc, Except.ok.injEq, Prod.mk.injEq] at hrun
        rw [← hrun.1, ← hrun.2] at inv1
        refine ih (seen ++ [f]) (srcs ++ [nl.top_empty_component]) _ hnd' inv1 ?_ srcs' nl' h
        intro s hs
        rcases List.mem_append.1 hs with hs1 | hs1
        · exact hb s hs1
        have hs2 : s = nl.top_empty_component := by simpa using hs1
        rw [hs2]
        obtain ⟨hc0, hcemp⟩ := top_empty_component_spec nl
        obtain ⟨_, hne⟩ := inv1.src_nonempty nl.top_empty_component (by simp)
        obtain ⟨x, hxN, hxc⟩ := exists_member _ inv1.wf _ hc0 hne
        have hxC : x < the_cliques.length := by rw [← inv1.N_eq]; exact hxN
        obtain ⟨_, _, hcomp1⟩ := move_big_enough_spec the_cliques new_k nl.top_empty_component
          hc0 ms nl inv.wf (by
            intro y hy
            rw [hms] at hy
            rw [inv.N_eq, ← hN]
            exact ((hwf.mem_iff f y hf0).1 hy).1)
        rw [hcomp1 x] at hxc
        by_cases hm : x ∈ ms ∧ new_k ≤ (the_cliques.getD x []).length
        · have hxf : level.component_of x = f := by
            have := hm.1
            rw [hms] at this
            exact ((hwf.mem_iff f x hf0).1 this).2
          have hneg : nl.component_of x < 0 := by
            by_contra hge
            have := ((inv.moved_iff x hxC).1 (by omega)).1
            rw [hxf] at this
            exact hfseen this
          have := top_empty_component_lt nl inv.wf x (by rw [inv.N_eq]; exact hxC) hneg
          rw [inv.N_eq] at this
          exact this
        · rw [if_neg hm] at hxc
          exact absurd hxc (component_ne_of_empty nl inv.wf _ hc0 hcemp x
            (by rw [inv.N_eq]; exact hxC))
theorem pushed_idsInRange (C : Nat) (e : LevelEvent) (h : ∃ c, e = .pushed c) :
    e.IdsInRange C := by
  obtain ⟨c, hc⟩ := h
  rw [hc]
  trivial

/-- The loop over the communities of one source component, for any clique list and
any bloom index: the ids at its tests and the ids it passes to `get_members` are in
range, and the Components it returns are well formed. -/
theorem drain_source_traced_ids (t : Nat) (the_cliques : List clique) (P : Nat)
    (isf : intersecting_clique_finder) (hP : isf.power_up = P) (hP1 : 1 ≤ P) (C : Nat)
    (cur : Int) (hcur0 : 0 ≤ cur) (hcurC : cur < (C : Int)) :
    ∀ (fuel : Nat) (found : List Int) (level : components) (ab : assigned_branches_t),
      level.WellFormed → level.N = C →
      (∀ ev ∈ (drain_source_traced t the_cliques P isf cur fuel found level ab).1,
        ev.IdsInRange C) ∧
      ∀ (found' : List Int) (level' : components) (ab' : assigned_branches_t),
        (drain_source_traced t the_cliques P isf cur fuel found level ab).2
          = .ok (found', level', ab') → level'.WellFormed ∧ level'.N = C := by
  intro fuel
  induction fuel with
  | zero =>
    intro found level ab _ _
    simp [drain_source_traced]
  | succ fuel ih =>
    intro found level ab hwf hN
    have hev0 : ∀ ev ∈ [LevelEvent.between t cur found level ab,
        LevelEvent.members cur level.N], ev.IdsInRange C := by
      intro ev hev
      rcases List.mem_cons.1 hev with h | h
      · rw [h]; exact ⟨hN, hcur0, hcurC⟩
      · have : ev = LevelEvent.members cur level.N := by simpa using h
        rw [this]
        exact ⟨hN, hcur0, by rw [hN]; omega⟩
    unfold drain_source_traced
    simp only
    rcases get_members_eq level cur with herr | ⟨_, _, hok⟩
    · rw [herr]
      exact ⟨hev0, by simp⟩
    rw [hok]
    cases hmem : level.members_of cur with
    | nil =>
      simp only
      refine ⟨hev0, ?_⟩
      intro found' level' ab' h
      simp only [Except.ok.injEq, Prod.mk.injEq] at h
      rw [← h.2.1]
      exact ⟨hwf, hN⟩
    | cons seed ms =>
      simp only
      have hseed : seed ∈ level.members_of cur := by rw [hmem]; simp
      obtain ⟨hseedN, hseedcur⟩ := (hwf.mem_iff cur seed hcur0).1 hseed
      by_cases h480 : ab.assigned_branches.getD (P + seed) false = false
      swap
      · rw [if_pos h480]
        exact ⟨hev0, by simp⟩
      rw [if_neg (not_not.2 h480)]
      by_cases h481 : (the_cliques.getD seed []).length > t
      swap
      · rw [if_pos h481]
        exact ⟨hev0, by simp⟩
      rw [if_neg (not_not.2 h481)]
      obtain ⟨hg0, hgemp⟩ := top_empty_component_spec level
      have hgle := top_empty_component_le level hwf
      have hev1 : ∀ ev ∈ [LevelEvent.between t cur found level ab,
          LevelEvent.members cur level.N] ++ [LevelEvent.pushed seed,
          LevelEvent.members level.top_empty_component level.N], ev.IdsInRange C := by
        intro ev hev
        rcases List.mem_append.1 hev with h | h
        · exact hev0 ev h
        · rcases List.mem_cons.1 h with h | h
          · rw [h]; trivial
          · have : ev = LevelEvent.members level.top_empty_component level.N := by
              simpa using h
            rw [this]
            exact ⟨hN, hg0, hgle⟩
      rcases get_members_eq level level.top_empty_component with herr | ⟨_, hgN, hgok⟩
      · rw [herr]
        exact ⟨hev1, by simp⟩
      rw [hgok, hgemp]
      simp only [List.length_nil, not_true_eq_false, if_false]
      have hdne : level.top_empty_component ≠ cur := by
        intro e
        rw [e] at hgemp
        rw [hgemp] at hseed
        exact absurd hseed (by simp)
      obtain ⟨hwf1, hN1, hcomp1, _, _⟩ :=
        move_node_spec level seed level.top_empty_component hwf hseedN hg0
      have hsnd := grow_community_traced_snd t the_cliques P isf cur level.top_empty_component
        (the_cliques.length + 1) [seed] (level.move_node seed level.top_empty_component) ab
      have hpush := grow_community_traced_pushes t the_cliques P isf cur
        level.top_empty_component (the_cliques.length + 1) [seed]
        (level.move_node seed level.top_empty_component) ab
      rcases hg : grow_community_traced t the_cliques P isf cur level.top_empty_component
        (the_cliques.length + 1) [seed] (level.move_node seed level.top_empty_component) ab
        with ⟨ev2, r2⟩
      rw [hg] at hsnd hpush
      simp only at hsnd hpush
      have hev2 : ∀ ev ∈ ([LevelEvent.between t cur found level ab,
          LevelEvent.members cur level.N] ++ [LevelEvent.pushed seed,
          LevelEvent.members level.top_empty_component level.N]) ++ ev2,
          ev.IdsInRange C := by
        intro ev hev
        rcases List.mem_append.1 hev with h | h
        · exact hev1 ev h
        · exact pushed_idsInRange C ev (hpush ev h)
      cases r2 with
      | error e =>
        simp only
        exact ⟨hev2, by simp⟩
      | ok r =>
        obtain ⟨level2, ab2⟩ := r
        simp only
        obtain ⟨hwf2, hN2, _, _, _⟩ := grow_community_frame t the_cliques P isf hP hP1 cur
          level.top_empty_component hg0 hdne (the_cliques.length + 1) [seed]
          (level.move_node seed level.top_empty_component) ab level2 ab2 hwf1 (by
            intro x hx hxd
            right
            rw [hcomp1 x] at hxd
            by_cases hxs : x = seed
            · simp [hxs]
            · rw [if_neg hxs] at hxd
              rw [hN1] at hx
              exact absurd hxd (component_ne_of_empty level hwf _ hg0 hgemp x hx))
          hsnd.symm
        have hNC : level2.N = C := by rw [hN2, hN1, hN]
        have hev3 : ∀ ev ∈ (([LevelEvent.between t cur found level ab,
            LevelEvent.members cur level.N] ++ [LevelEvent.pushed seed,
            LevelEvent.members level.top_empty_component level.N]) ++ ev2) ++
            [LevelEvent.members level.top_empty_component level2.N], ev.IdsInRange C := by
          intro ev hev
          rcases List.mem_append.1 hev with h | h
          · exact hev2 ev h
          · have : ev = LevelEvent.members level.top_empty_component level2.N := by
              simpa using h
            rw [this]
            exact ⟨hNC, hg0, by rw [hNC, ← hN]; exact hgle⟩
        cases hg3 : level2.get_members level.top_empty_component with
        | error e =>
          simp only
          exact ⟨hev3, by simp⟩
        | ok ms3 =>
          simp only
          obtain ⟨hev4, hres4⟩ := ih (found ++ [level.top_empty_component]) level2 ab2 hwf2 hNC
          rcases hd : drain_source_traced t the_cliques P isf cur fuel
            (found ++ [level.top_empty_component]) level2 ab2 with ⟨ev3, r3⟩
          rw [hd] at hev4 hres4
          simp only at hev4 hres4 ⊢
          refine ⟨?_, hres4⟩
          intro ev hev
          rcases List.mem_append.1 hev with h | h
          · exact hev2 ev h
          · rcases List.mem_cons.1 h with h | h
            · rw [h]
              exact ⟨hNC, hg0, by rw [hNC, ← hN]; exact hgle⟩
            · exact hev4 ev h

/-- The loop over the source components, for any clique list and any bloom index. -/
theorem one_k_sources_traced_ids (t : Nat) (the_cliques : List clique) (P : Nat)
    (isf : intersecting_clique_finder) (hP : isf.power_up = P) (hP1 : 1 ≤ P) (C : Nat) :
    ∀ (srcs found : List Int) (level : components) (ab : assigned_branches_t),
      (∀ s ∈ srcs, 0 ≤ s ∧ s < (C : Int)) → level.WellFormed → level.N = C →
      ∀ ev ∈ (one_k_sources_traced t the_cliques P isf srcs found level ab).1,
        ev.IdsInRange C := by
  intro srcs
  induction srcs with
  | nil =>
    intro found level ab _ _ _ ev hev
    simp [one_k_sources_traced] at hev
  | cons cur rest ih =>
    intro found level ab hb hwf hN
    obtain ⟨hev1, hres1⟩ := drain_source_traced_ids t the_cliques P isf hP hP1 C cur
      (hb cur (by simp)).1 (hb cur (by simp)).2 (the_cliques.length + 1) found level ab hwf hN
    unfold one_k_sources_traced
    rcases hd : drain_source_traced t the_cliques P isf cur (the_cliques.length + 1) found
      level ab with ⟨ev1, r1⟩
    rw [hd] at hev1 hres1
    simp only at hev1 hres1
    cases r1 with
    | error e => exact hev1
    | ok r =>
      obtain ⟨found1, level1, ab1⟩ := r
      simp only
      obtain ⟨hwf1, hN1⟩ := hres1 found1 level1 ab1 rfl
      have := ih found1 level1 ab1 (fun s hs => hb s (by simp [hs])) hwf1 hN1
      intro ev hev
      rcases List.mem_append.1 hev with h | h
      · exact hev1 ev h
      · exact this ev h

/-- One level, for any clique list and any bloom index. -/
theorem one_k_traced_ids (t : Nat) (the_cliques : List clique) (P C0 C : Nat)
    (isf : intersecting_clique_finder) (hP : isf.power_up = P) (hP1 : 1 ≤ P)
    (srcs : List Int) (level : components) (hb : ∀ s ∈ srcs, 0 ≤ s ∧ s < (C : Int))
    (hwf : level.WellFormed) (hN : level.N = C) :
    ∀ ev ∈ (one_k_traced [] srcs level t the_cliques P C0 isf).1, ev.IdsInRange C := by
  unfold one_k_traced
  simp only [List.isEmpty_nil, not_true_eq_false, if_false]
  cases assigned_branches_t.create P C0 with
  | error e => simp
  | ok ab0 =>
    simp only
    cases premark_small the_cliques t P (List.range C0) ab0 with
    | error e => simp
    | ok ab =>
      simp only
      have := one_k_sources_traced_ids t the_cliques P isf hP hP1 C srcs.reverse [] level ab
        (fun s hs => hb s (List.mem_reverse.1 hs)) hwf hN
      rcases hd : one_k_sources_traced t the_cliques P isf srcs.reverse [] level ab
        with ⟨ev1, r1⟩
      rw [hd] at this
      simp only at this
      cases r1 with
      | error e => exact this
      | ok r =>
        obtain ⟨f, lv, _⟩ := r
        exact this
/-- The loop over the levels, for any clique list: the ids at the tests of `one_k`
and the ids that `one_k` passes to `get_members` are in range. -/
theorem percolation_levels_traced_ids (l : Nat) (h : Int → Nat) (the_cliques : List clique)
    (P max_k : Nat) (hP1 : 1 ≤ P) :
    ∀ (ks : List Nat) (srcs : List Int) (level : components) (completed : List Level),
      (∀ s ∈ srcs, 0 ≤ s ∧ s < (the_cliques.length : Int)) → level.WellFormed →
      level.N = the_cliques.length →
      ∀ ev ∈ (percolation_levels_traced l h the_cliques P the_cliques.length max_k ks srcs
          level completed).1, ev.IdsInRange the_cliques.length := by
  intro ks
  induction ks with
  | nil =>
    intro srcs level completed _ _ _ ev hev
    simp [percolation_levels_traced] at hev
  | cons k ks ih =>
    intro srcs level completed hb hwf hN
    unfold percolation_levels_traced
    simp only
    have hP : (populate the_cliques (k - 1) P (List.range the_cliques.length)
        (intersecting_clique_finder.create l h P)).power_up = P := by
      rw [populate_power_up]
      rfl
    have hev := one_k_traced_ids (k - 1) the_cliques P the_cliques.length the_cliques.length
      _ hP hP1 srcs level hb hwf hN
    have hsnd := one_k_traced_snd [] srcs level (k - 1) the_cliques P the_cliques.length
      (populate the_cliques (k - 1) P (List.range the_cliques.length)
        (intersecting_clique_finder.create l h P))
    rcases hd : one_k_traced [] srcs level (k - 1) the_cliques P the_cliques.length
      (populate the_cliques (k - 1) P (List.range the_cliques.length)
        (intersecting_clique_finder.create l h P)) with ⟨ev1, r1⟩
    rw [hd] at hev hsnd
    simp only at hev hsnd
    cases r1 with
    | error e => exact hev
    | ok r =>
      obtain ⟨found, level1⟩ := r
      simp only
      obtain ⟨hwf1, hN1, hfnd, _, _, _⟩ := one_k_part (k - 1) the_cliques P the_cliques.length
        _ hP hP1 srcs level hwf found level1 hsnd.symm
      have hN1C : level1.N = the_cliques.length := by rw [hN1, hN]
      cases write_all_communities_for_this_k level1 the_cliques found with
      | error e => exact hev
      | ok lines =>
        simp only
        by_cases hmax : k + 1 > max_k
        · rw [if_pos hmax]
          exact hev
        rw [if_neg hmax]
        cases hns : next_sources the_cliques (k + 1) level1 found []
            (components.empty.setN the_cliques.length) with
        | error e => exact hev
        | ok r2 =>
          obtain ⟨srcs1, nl1⟩ := r2
          simp only
          have hbound := next_sources_bound the_cliques (k + 1) level1 hwf1 hN1C found [] []
            (components.empty.setN the_cliques.length) (by simpa using hfnd)
            (nextInv_init the_cliques (k + 1) level1) (by simp) srcs1 nl1 hns
          rcases next_sources_spec the_cliques (k + 1) level1 hwf1 hN1C found [] []
            (components.empty.setN the_cliques.length) (by simpa using hfnd)
            (nextInv_init the_cliques (k + 1) level1) with herr | ⟨s2, n2, hrun, inv⟩
          · rw [herr] at hns
            simp at hns
          rw [hrun] at hns
          simp only [Except.ok.injEq, Prod.mk.injEq] at hns
          rw [hns.1, hns.2] at inv
          have := ih srcs1 nl1 (completed ++ [⟨k, found, level1, lines⟩])
            (fun s hs => ⟨(inv.src_nonempty s hs).1, hbound s hs⟩) inv.wf inv.N_eq
          intro ev hev'
          rcases List.mem_append.1 hev' with h1 | h1
          · exact hev ev h1
          · exact this ev h1

/-- The run, for any clique list: the ids at the tests of `one_k` and the ids that
`one_k` passes to `get_members` are in range. -/
theorem percolation_traced_ids (l : Nat) (h : Int → Nat) (min_k max_k : Nat)
    (the_cliques : List clique) :
    ∀ ev ∈ (do_clique_percolation_variant_5b_traced l h min_k max_k the_cliques).1,
      ev.IdsInRange the_cliques.length := by
  unfold do_clique_percolation_variant_5b_traced
  by_cases h1 : the_cliques.length > 2147483647
  · rw [if_pos h1]; simp
  rw [if_neg h1]
  simp only
  by_cases h2 : the_cliques.length = 1
  · rw [if_pos h2]; simp
  rw [if_neg h2]
  by_cases h3 : min_k > 0 ∧ min_k ≤ max_k ∧ the_cliques.length > 1
  swap
  · rw [if_pos h3]; simp
  rw [if_neg (not_not.2 h3)]
  cases hp : power_up_loop 64 1 (the_cliques.length : Int) with
  | error e => simp
  | ok power_up =>
    simp only
    by_cases h4 : power_up > 0
    swap
    · rw [if_pos h4]; simp
    rw [if_neg (not_not.2 h4)]
    obtain ⟨hP1, _, _⟩ := power_up_positive the_cliques.length power_up hp h4
    obtain ⟨hwf, hN, _⟩ := lowest_level_spec the_cliques.length
    have htop : (components.empty.setN the_cliques.length).top_empty_component = 0 := rfl
    exact percolation_levels_traced_ids l h the_cliques power_up.toNat max_k hP1 _ _ _ _
      (by
        intro s hs
        rw [htop] at hs
        have : s = 0 := by simpa using hs
        rw [this]
        omega) hwf hN

/-! ## C30: the component ids passed to `get_members` -/

/-- What a search appends overlaps with the query clique in at least `t` vertices. -/
theorem recursive_search_overlap (isf : intersecting_clique_finder) (q t : Nat)
    (the_cliques : List clique) (level : components) (skip : Int) :
    ∀ (fuel b : Nat) (s s' : SearchState),
      recursive_search fuel isf b q t the_cliques level skip s = .ok s' →
      ∀ l ∈ s'.cliques_found, l ∈ s.cliques_found ∨
        t ≤ actual_overlap (the_cliques.getD l []) (the_cliques.getD q []) := by
  intro fuel
  induction fuel with
  | zero => intro b s s' h; simp [recursive_search] at h
  | succ fuel ih =>
    intro b s s' h
    unfold recursive_search at h
    dsimp only at h
    by_cases h1 : s.assigned_branches.assigned_branches.getD b false = false
    swap
    · rw [if_pos h1] at h
      simp at h
    rw [if_neg (not_not.2 h1)] at h
    by_cases h2 : b ≥ isf.power_up
    · rw [if_pos h2] at h
      by_cases h3 : b - isf.power_up ≥ the_cliques.length
      · rw [if_pos h3] at h
        simp only [Except.ok.injEq] at h
        rw [← h]
        exact fun l hl => Or.inl hl
      rw [if_neg h3] at h
      cases hc : level.my_component_id (b - isf.power_up) with
      | error e => rw [hc] at h; simp at h
      | ok id =>
        rw [hc] at h
        dsimp only at h
        split_ifs at h with h4 h5 h6 h7
        · cases hm : s.assigned_branches.mark_as_done b with
          | error e => rw [hm] at h; simp at h
          | ok r =>
            obtain ⟨k, ab'⟩ := r
            rw [hm] at h
            simp only [Except.ok.injEq] at h
            rw [← h]
            intro l hl
            rcases List.mem_append.1 hl with hl | hl
            · exact Or.inl hl
            · have hle : l = b - isf.power_up := by simpa using hl
              rw [hle]
              exact Or.inr h7
        · simp only [Except.ok.injEq] at h
          rw [← h]
          exact fun l hl => Or.inl hl
    · rw [if_neg h2] at h
      by_cases h3 : b <<< 1 < 2147483648
      swap
      · rw [if_pos h3] at h
        simp at h
      rw [if_neg (not_not.2 h3)] at h
      have key : ∀ (c : Prop) [Decidable c] (b2 : Nat) (s1 s2 : SearchState),
          (if c then recursive_search fuel isf b2 q t the_cliques level skip s1
              else .ok s1) = .ok s2 →
          ∀ l ∈ s2.cliques_found, l ∈ s1.cliques_found ∨
            t ≤ actual_overlap (the_cliques.getD l []) (the_cliques.getD q []) := by
        intro c _ b2 s1 s2 hc
        by_cases hcc : c
        · rw [if_pos hcc] at hc
          exact ih b2 s1 s2 hc
        · rw [if_neg hcc] at hc
          simp only [Except.ok.injEq] at hc
          rw [← hc]
          exact fun l hl => Or.inl hl
      generalize hal : (if (if s.assigned_branches.assigned_branches.getD (b <<< 1) false
              = true then 0 else isf.overlap_estimate (the_cliques.getD q []) (b <<< 1)) ≥ t
            then recursive_search fuel isf (b <<< 1) q t the_cliques level skip
              { s with searches_performed := s.searches_performed + 2 }
            else .ok { s with searches_performed := s.searches_performed + 2 }) = after_left
        at h
      cases after_left with
      | error e => simp at h
      | ok s2 =>
        dsimp only at h
        have k1 := key _ _ _ _ hal
        have k2 := key _ _ _ _ h
        intro l hl
        rcases k2 l hl with h' | h'
        · exact k1 l h'
        · exact Or.inr h'

theorem neighbours_of_one_clique_overlap (isf : intersecting_clique_finder) (q t : Nat)
    (the_cliques : List clique) (level : components) (skip : Int) (s s' : SearchState)
    (h : neighbours_of_one_clique the_cliques q level t skip isf s = .ok s') :
    ∀ l ∈ s'.cliques_found, l ∈ s.cliques_found ∨
      t ≤ actual_overlap (the_cliques.getD l []) (the_cliques.getD q []) := by
  unfold neighbours_of_one_clique at h
  cases hc : level.my_component_id q with
  | error e => rw [hc] at h; simp at h
  | ok id =>
    rw [hc] at h
    simp only at h
    split at h
    · simp at h
    split at h
    · exact recursive_search_overlap isf q t the_cliques level skip _ _ _ _ h
    · simp only [Except.ok.injEq] at h
      rw [← h]
      exact fun l hl => Or.inl hl

/-- The edges of the overlap graph go both ways. -/
theorem overlap_edge_symm (the_cliques : List clique) (hdm : DistinctMaximal the_cliques)
    (k a b : Nat) (h : overlap_edge the_cliques k a b) : overlap_edge the_cliques k b a := by
  obtain ⟨ha, hb, hka, hkb, hov⟩ := h
  refine ⟨hb, ha, hkb, hka, ?_⟩
  rw [← actual_overlap_eq_filter _ _ (hdm.1 a ha) (hdm.1 b hb)] at hov
  rw [← actual_overlap_eq_filter _ _ (hdm.1 b hb) (hdm.1 a ha),
    actual_overlap_comm _ _ (hdm.1 b hb) (hdm.1 a ha)]
  exact hov

theorem joined_symm (the_cliques : List clique) (hdm : DistinctMaximal the_cliques)
    (k a b : Nat) (h : Joined the_cliques k a b) : Joined the_cliques k b a := by
  unfold Joined at h ⊢
  induction h with
  | refl => exact Relation.ReflTransGen.refl
  | tail _ hbc ih =>
    exact Relation.ReflTransGen.head (overlap_edge_symm the_cliques hdm k _ _ hbc) ih
/-- When the growth of a community out of the clique `seed` returns, every clique of
the community has more than `t` vertices and is joined to `seed` by a path of the
overlap graph of the level `t + 1`. -/
theorem grow_community_joined (t : Nat) (the_cliques : List clique)
    (hdm : DistinctMaximal the_cliques) (P : Nat)
    (isf : intersecting_clique_finder) (hP : isf.power_up = P) (hP1 : 1 ≤ P)
    (cur d : Int) (hd : 0 ≤ d) (hne : d ≠ cur) (seed : Nat) :
    ∀ (fuel : Nat) (F : List Nat) (level : components) (ab : assigned_branches_t)
      (level' : components) (ab' : assigned_branches_t),
      level.WellFormed → level.N = the_cliques.length →
      (∀ x, x < the_cliques.length → ab.done (P + x) = false →
        t < (the_cliques.getD x []).length) →
      (∀ x, x < the_cliques.length → level.component_of x = d →
        t < (the_cliques.getD x []).length ∧ Joined the_cliques (t + 1) seed x) →
      grow_community t the_cliques P isf cur d fuel F level ab = .ok (level', ab') →
      ∀ x, x < the_cliques.length → level'.component_of x = d →
        t < (the_cliques.getD x []).length ∧ Joined the_cliques (t + 1) seed x := by
  intro fuel
  induction fuel with
  | zero => intro F level ab level' ab' _ _ _ _ h; simp [grow_community] at h
  | succ fuel ih =>
    intro F level ab level' ab' hwf hN hbig hconn h
    cases F with
    | nil =>
      simp only [grow_community, Except.ok.injEq, Prod.mk.injEq] at h
      rw [← h.1]
      exact hconn
    | cons q tail =>
      unfold grow_community at h
      cases hm : ab.mark_as_done (P + q) with
      | error e => rw [hm] at h; simp at h
      | ok r =>
        obtain ⟨k, ab1⟩ := r
        rw [hm] at h
        simp only at h
        have hmono1 : ∀ x, ab.done x = true → ab1.done x = true :=
          mark_as_done_rec_mono _ _ _ _ _ hm
        cases hc : level.my_component_id q with
        | error e => rw [hc] at h; simp at h
        | ok id =>
          rw [hc] at h
          simp only at h
          obtain ⟨hqN, hqid⟩ := my_component_id_ok level q id hc
          by_cases h500 : id = d
          swap
          · rw [if_pos h500] at h
            simp at h
          rw [if_neg (not_not.2 h500)] at h
          have hqC : q < the_cliques.length := by rw [← hN]; exact hqN
          obtain ⟨hqbig, hqj⟩ := hconn q hqC (by rw [← hqid]; exact h500)
          cases hn : neighbours_of_one_clique the_cliques q level t d isf ⟨0, [], ab1⟩ with
          | error e => rw [hn] at h; simp at h
          | ok s =>
            rw [hn] at h
            simp only at h
            obtain ⟨Fnd, hFnd, _, hFdone, hmono2⟩ := (neighbours_of_one_clique_found isf q t
              the_cliques level d (by rw [hP]; exact hP1) ⟨0, [], ab1⟩).2 s hn
            simp only [List.nil_append] at hFnd
            rw [hP] at hFdone
            have hov := neighbours_of_one_clique_overlap isf q t the_cliques level d _ s hn
            cases hmv : move_in cur d s.cliques_found tail level with
            | error e => rw [hmv] at h; simp at h
            | ok r2 =>
              obtain ⟨F2, level2⟩ := r2
              rw [hmv] at h
              simp only at h
              by_cases h511 : F2.length < the_cliques.length
              swap
              · rw [if_pos h511] at h
                simp at h
              rw [if_neg (not_not.2 h511)] at h
              obtain ⟨hwf2, hN2, _, hcomp2, _⟩ :=
                move_in_ok cur d hd hne s.cliques_found tail level F2 level2 hwf hmv
              refine ih F2 level2 s.assigned_branches level' ab' hwf2 (by rw [hN2, hN]) ?_ ?_ h
              · intro x hx hxd
                apply hbig x hx
                by_contra hc2
                have h1 : ab.done (P + x) = true := by simpa using hc2
                have := hmono2 _ (hmono1 _ h1)
                rw [hxd] at this
                exact absurd this (by simp)
              · intro x hx hxd
                rw [hcomp2 x] at hxd
                by_cases hxF : x ∈ s.cliques_found
                · have hxF' := hxF
                  rw [hFnd] at hxF'
                  obtain ⟨_, hx1, _⟩ := hFdone x hxF'
                  have hxbig : t < (the_cliques.getD x []).length := by
                    apply hbig x hx
                    by_contra hc2
                    have h1 : ab.done (P + x) = true := by simpa using hc2
                    have := hmono1 _ h1
                    rw [hx1] at this
                    exact absurd this (by simp)
                  refine ⟨hxbig, ?_⟩
                  have hxo : t ≤ actual_overlap (the_cliques.getD x []) (the_cliques.getD q []) := by
                    rcases hov x hxF with h' | h'
                    · exact absurd h' (by simp)
                    · exact h'
                  refine Relation.ReflTransGen.tail hqj ⟨hqC, hx, by omega, by omega, ?_⟩
                  rw [← actual_overlap_eq_filter _ _ (hdm.1 q hqC) (hdm.1 x hx),
                    actual_overlap_comm _ _ (hdm.1 q hqC) (hdm.1 x hx)]
                  simpa using hxo
                · rw [if_neg hxF] at hxd
                  exact hconn x hx hxd
/-- The loop over the communities of one source component keeps every found community
joined. -/
theorem drain_source_joined (t : Nat) (the_cliques : List clique)
    (hdm : DistinctMaximal the_cliques) (P : Nat)
    (isf : intersecting_clique_finder) (hP : isf.power_up = P) (hP1 : 1 ≤ P)
    (srcs : List Int) (level0 : components) (hN0 : level0.N = the_cliques.length)
    (cur : Int) (hcur : cur ∈ srcs) :
    ∀ (fuel : Nat) (found : List Int) (level : components) (ab : assigned_branches_t)
      (found' : List Int) (level' : components) (ab' : assigned_branches_t),
      PartInv P srcs level0 found level ab →
      JoinedInv the_cliques t P found level ab →
      drain_source t the_cliques P isf cur fuel found level ab = .ok (found', level', ab') →
      JoinedInv the_cliques t P found' level' ab' := by
  intro fuel
  induction fuel with
  | zero => intro found level ab found' level' ab' _ _ h; simp [drain_source] at h
  | succ fuel ih =>
    intro found level ab found' level' ab' inv hj h
    have hN : level.N = the_cliques.length := by rw [inv.N_eq, hN0]
    unfold drain_source at h
    cases hg : level.get_members cur with
    | error e => rw [hg] at h; simp at h
    | ok ms =>
      rw [hg] at h
      obtain ⟨hcur0, hcurN, hms⟩ := get_members_ok_iff level cur ms hg
      cases ms with
      | nil =>
        simp only [Except.ok.injEq, Prod.mk.injEq] at h
        obtain ⟨e1, e2, e3⟩ := h
        rw [← e1, ← e2, ← e3]
        exact hj
      | cons seed rest =>
        simp only at h
        have hseed : seed ∈ level.members_of cur := by rw [← hms]; simp
        by_cases h480 : ab.assigned_branches.getD (P + seed) false = false
        swap
        · rw [if_pos h480] at h
          simp at h
        rw [if_neg (not_not.2 h480)] at h
        by_cases h481 : (the_cliques.getD seed []).length > t
        swap
        · rw [if_pos h481] at h
          simp at h
        rw [if_neg (not_not.2 h481)] at h
        cases hg2 : level.get_members level.top_empty_component with
        | error e => rw [hg2] at h; simp at h
        | ok grown =>
          rw [hg2] at h
          simp only at h
          by_cases h486 : 0 = grown.length
          swap
          · rw [if_pos h486] at h
            simp at h
          rw [if_neg (not_not.2 h486)] at h
          cases hgr : grow_community t the_cliques P isf cur level.top_empty_component
              (the_cliques.length + 1) [seed]
              (level.move_node seed level.top_empty_component) ab with
          | error e => rw [hgr] at h; simp at h
          | ok r =>
            obtain ⟨level2, ab2⟩ := r
            rw [hgr] at h
            simp only at h
            obtain ⟨inv2, step2⟩ := one_community_part t the_cliques P isf hP hP1 srcs level0
              cur hcur hcur0 found level ab inv seed hseed h480 _ level2 ab2 hgr
            cases hg3 : level2.get_members level.top_empty_component with
            | error e => rw [hg3] at h; simp at h
            | ok ms3 =>
              rw [hg3] at h
              simp only at h
              refine ih _ level2 ab2 found' level' ab' inv2 ?_ h
              obtain ⟨hd0, hdemp⟩ := top_empty_component_spec level
              obtain ⟨hseedN, hseedcur⟩ := (inv.wf.mem_iff cur seed hcur0).1 hseed
              have hdne : level.top_empty_component ≠ cur := by
                intro e
                rw [e] at hdemp
                rw [hdemp] at hseed
                exact absurd hseed (by simp)
              have hdnf : level.top_empty_component ∉ found :=
                fun hc => (inv.found_ok _ hc).2 hdemp
              obtain ⟨hwf1, hN1, hcomp1, _, _⟩ :=
                move_node_spec level seed level.top_empty_component inv.wf hseedN hd0
              have hinit : ∀ x, x < the_cliques.length →
                  (level.move_node seed level.top_empty_component).component_of x
                    = level.top_empty_component → x = seed := by
                intro x hx hxd
                rw [hcomp1 x] at hxd
                by_contra hxs
                rw [if_neg hxs] at hxd
                exact component_ne_of_empty level inv.wf _ hd0 hdemp x (by rw [hN]; exact hx) hxd
              obtain ⟨_, _, _, _, hframe⟩ := grow_community_frame t the_cliques P isf hP hP1
                cur level.top_empty_component hd0 hdne (the_cliques.length + 1) [seed]
                (level.move_node seed level.top_empty_component) ab level2 ab2 hwf1 (by
                  intro x hx hxd
                  right
                  rw [hN1, hN] at hx
                  rw [hinit x hx hxd]
                  simp) hgr
              have hconn := grow_community_joined t the_cliques hdm P isf hP hP1 cur
                level.top_empty_component hd0 hdne seed (the_cliques.length + 1) [seed]
                (level.move_node seed level.top_empty_component) ab level2 ab2 hwf1
                (by rw [hN1, hN]) hj.1 (by
                  intro x hx hxd
                  rw [hinit x hx hxd]
                  exact ⟨h481, Relation.ReflTransGen.refl⟩) hgr
              refine ⟨?_, ?_⟩
              · intro x hx hxd
                apply hj.1 x hx
                by_contra hc2
                have h1 : ab.done (P + x) = true := by simpa using hc2
                have := step2.mono _ h1
                rw [hxd] at this
                exact absurd this (by simp)
              · intro f hf
                rcases List.mem_append.1 hf with hf1 | hf1
                · obtain ⟨sd, hsd⟩ := hj.2 f hf1
                  refine ⟨sd, ?_⟩
                  intro x hx hxf
                  apply hsd x hx
                  have hfd : f ≠ level.top_empty_component := fun e => hdnf (by rw [← e]; exact hf1)
                  rcases hframe x with e | ⟨_, e⟩
                  · rw [hxf, hcomp1 x] at e
                    by_cases hxs : x = seed
                    · rw [if_pos hxs] at e
                      exact absurd e hfd
                    · rw [if_neg hxs] at e
                      exact e.symm
                  · rw [hxf] at e
                    exact absurd e hfd
                · have hfd : f = level.top_empty_component := by simpa using hf1
                  rw [hfd]
                  exact ⟨seed, fun x hx hxd => (hconn x hx hxd).2⟩

/-- The loop over the source components keeps every found community joined. -/
theorem one_k_sources_joined (t : Nat) (the_cliques : List clique)
    (hdm : DistinctMaximal the_cliques) (P : Nat)
    (isf : intersecting_clique_finder) (hP : isf.power_up = P) (hP1 : 1 ≤ P)
    (srcs : List Int) (level0 : components) (hN0 : level0.N = the_cliques.length) :
    ∀ (rem : List Int) (found : List Int) (level : components) (ab : assigned_branches_t)
      (found' : List Int) (level' : components) (ab' : assigned_branches_t),
      (∀ s ∈ rem, s ∈ srcs) →
      PartInv P srcs level0 found level ab →
      JoinedInv the_cliques t P found level ab →
      one_k_sources t the_cliques P isf rem found level ab = .ok (found', level', ab') →
      JoinedInv the_cliques t P found' level' ab' := by
  intro rem
  induction rem with
  | nil =>
    intro found level ab found' level' ab' _ _ hj h
    simp only [one_k_sources, Except.ok.injEq, Prod.mk.injEq] at h
    obtain ⟨e1, e2, e3⟩ := h
    rw [← e1, ← e2, ← e3]
    exact hj
  | cons cur rest ih =>
    intro found level ab found' level' ab' hsub inv hj h
    unfold one_k_sources at h
    cases hd : drain_source t the_cliques P isf cur (the_cliques.length + 1) found level ab with
    | error e => rw [hd] at h; simp at h
    | ok r =>
      obtain ⟨found1, level1, ab1⟩ := r
      rw [hd] at h
      simp only at h
      obtain ⟨inv1, _, _, _, _⟩ := drain_source_part t the_cliques P isf hP hP1
        srcs level0 cur (hsub cur (by simp)) _ found level ab found1 level1 ab1 inv hd
      have hj1 := drain_source_joined t the_cliques hdm P isf hP hP1 srcs level0 hN0 cur
        (hsub cur (by simp)) _ found level ab found1 level1 ab1 inv hj hd
      exact ih found1 level1 ab1 found' level' ab' (fun s hs => hsub s (by simp [hs])) inv1 hj1 h

/-- What `one_k` returns at the threshold `t`, on a tree that holds the leaves of all
cliques: every found community holds a clique to which each of its cliques is joined by
a path of the overlap graph of the level `t + 1`. -/
theorem one_k_joined (t : Nat) (the_cliques : List clique)
    (hdm : DistinctMaximal the_cliques) (P : Nat)
    (isf : intersecting_clique_finder) (hP : isf.power_up = P) (hP1 : 1 ≤ P)
    (hC : the_cliques.length ≤ P) (hP2 : 2 * P ≤ 2147483647)
    (srcs : List Int) (level : components) (hwf : level.WellFormed)
    (hN : level.N = the_cliques.length) (found : List Int) (level' : components)
    (h : one_k [] srcs level t the_cliques P the_cliques.length isf = .ok (found, level')) :
    ∀ f ∈ found, ∃ seed, ∀ x, x < the_cliques.length → level'.component_of x = f →
      Joined the_cliques (t + 1) seed x := by
  obtain ⟨ab0, ab, hcreate, hpremark, _, hdone⟩ := one_k_prelude_spec the_cliques t P hP1 hC hP2
  unfold one_k at h
  simp only [List.isEmpty_nil, not_true_eq_false, if_false, hcreate, hpremark] at h
  cases hs : one_k_sources t the_cliques P isf srcs.reverse [] level ab with
  | error e => rw [hs] at h; simp at h
  | ok r =>
    obtain ⟨found1, level1, ab1⟩ := r
    rw [hs] at h
    simp only [Except.ok.injEq, Prod.mk.injEq] at h
    obtain ⟨e1, e2⟩ := h
    subst e1
    subst e2
    have inv0 : PartInv P srcs level [] level ab :=
      ⟨hwf, rfl, List.nodup_nil, by simp, by simp, by simp, fun _ _ _ => rfl⟩
    have hj0 : JoinedInv the_cliques t P [] level ab := by
      refine ⟨?_, by simp⟩
      intro x hx hxd
      by_contra hc
      have := (hdone x hx).2 (by omega)
      rw [hxd] at this
      exact absurd this (by simp)
    exact (one_k_sources_joined t the_cliques hdm P isf hP hP1 srcs level hN srcs.reverse []
      level ab found1 level1 ab1 (fun s hs => List.mem_reverse.1 hs) inv0 hj0 hs).2
/-- One level, entered at `k ≥ 2` with source components that hold exactly the cliques
of at least `k` vertices: when `one_k` returns, the found communities are the connected
components of the overlap graph. -/
theorem level_percolated (the_cliques : List clique) (k P : Nat) (hk : 2 ≤ k)
    (isf : intersecting_clique_finder) (hset : LevelSetting the_cliques (k - 1) P isf)
    (srcs : List Int) (level : components) (entry : OneKEntry the_cliques (k - 1) srcs level)
    (found : List Int) (level1 : components)
    (hok : one_k [] srcs level (k - 1) the_cliques P the_cliques.length isf
      = .ok (found, level1))
    (post : OneKPost the_cliques (k - 1) srcs level found level1) (lines : List (List Int)) :
    Level.Percolated the_cliques ⟨k, found, level1, lines⟩ := by
  have hdm := hset.cliques
  have hjoin := one_k_joined (k - 1) the_cliques hdm P isf hset.isf_P hset.P_pos hset.C_le
    hset.P_le srcs level entry.wf entry.N_eq found level1 hok
  have hk1 : k - 1 + 1 = k := by omega
  rw [hk1] at hjoin
  have hplaced : ∀ c, c < the_cliques.length → k ≤ (the_cliques.getD c []).length →
      level1.component_of c ∈ found :=
    fun c hc hsz => post.placed c hc (entry.src_big c hc (by omega))
  intro a b ha hb hka hkb
  simp only
  constructor
  · rintro ⟨f, hf, haf, hbf⟩
    obtain ⟨hf0, _⟩ := post.found_nonempty f hf
    obtain ⟨seed, hseed⟩ := hjoin f hf
    have h1 := hseed a ha ((post.wf.mem_iff f a hf0).1 haf).2
    have h2 := hseed b hb ((post.wf.mem_iff f b hf0).1 hbf).2
    exact Relation.ReflTransGen.trans (joined_symm the_cliques hdm k _ _ h1) h2
  · intro hj
    have hsame : ∀ b', Relation.ReflTransGen (overlap_edge the_cliques k) a b' →
        level1.component_of b' = level1.component_of a := by
      intro b' hj'
      induction hj' with
      | refl => rfl
      | @tail c d _ hcd ih =>
        obtain ⟨hc, hd', hkc, hkd, hov⟩ := hcd
        rw [← ih]
        by_contra hne
        have := post.closed c hc d hd' (hplaced c hc hkc) (hplaced d hd' hkd)
          (fun e => hne e.symm)
        unfold overlap_of at this
        rw [actual_overlap_eq_filter _ _ (hdm.1 c hc) (hdm.1 d hd')] at this
        omega
    have hfa := hplaced a ha hka
    obtain ⟨hf0, _⟩ := post.found_nonempty _ hfa
    refine ⟨level1.component_of a, hfa, ?_, ?_⟩
    · exact (post.wf.mem_iff _ a hf0).2 ⟨by rw [post.N_eq]; exact ha, rfl⟩
    · exact (post.wf.mem_iff _ b hf0).2 ⟨by rw [post.N_eq]; exact hb, hsame b hj⟩

/-- The loop over the levels, entered at `k ≥ 2` with source components that hold
exactly the cliques of at least `k` vertices: what holds of every level at which `one_k`
returns and the lines are written holds of every level that is completed. -/
theorem percolation_levels_forall (Q : Level → Prop) (l : Nat) (h : Int → Nat)
    (the_cliques : List clique)
    (P max_k : Nat) (hl : 0 < l) (hdm : DistinctMaximal the_cliques) (hP1 : 1 ≤ P)
    (hP2 : 2 * P ≤ 2147483647) (hC : the_cliques.length ≤ P)
    (hQ : ∀ (k : Nat) (isf : intersecting_clique_finder) (srcs : List Int)
      (level : components) (found : List Int) (level1 : components) (lines : List (List Int)),
      2 ≤ k → LevelSetting the_cliques (k - 1) P isf →
      OneKEntry the_cliques (k - 1) srcs level →
      one_k [] srcs level (k - 1) the_cliques P the_cliques.length isf = .ok (found, level1) →
      OneKPost the_cliques (k - 1) srcs level found level1 →
      write_all_communities_for_this_k level1 the_cliques found = .ok lines →
      Q ⟨k, found, level1, lines⟩) :
    ∀ (n k : Nat) (srcs : List Int) (level : components) (completed : List Level),
      2 ≤ k →
      OneKEntry the_cliques (k - 1) srcs level →
      (∀ L ∈ completed, Q L) →
      ∀ L ∈ (percolation_levels l h the_cliques P the_cliques.length max_k
          (List.range' k n) srcs level completed).1, Q L := by
  intro n
  induction n with
  | zero =>
    intro k srcs level completed _ _ hall
    exact hall
  | succ n ih =>
    intro k srcs level completed hk entry hall
    rw [List.range'_succ]
    unfold percolation_levels
    simp only
    have hset := level_setting l h the_cliques (k - 1) P hl hdm (by omega) hP1 hP2 hC
    rcases one_k_spec the_cliques (k - 1) P _ hset srcs level entry with
      herr | ⟨herr, _⟩ | ⟨found, level1, hok, post⟩
    · rw [herr]
      exact hall
    · rw [herr]
      exact hall
    rw [hok]
    simp only
    rcases write_all_communities_spec level1 the_cliques post.wf post.N_eq found with
      herr | ⟨lines, hlines⟩
    · rw [herr]
      exact hall
    rw [hlines]
    simp only
    have hall1 : ∀ L ∈ completed ++ [(⟨k, found, level1, lines⟩ : Level)], Q L := by
      intro L hL
      rcases List.mem_append.1 hL with h1 | h1
      · exact hall L h1
      · have hLe : L = ⟨k, found, level1, lines⟩ := by simpa using h1
        rw [hLe]
        exact hQ k _ srcs level found level1 lines hk hset entry hok post hlines
    by_cases hmax : k + 1 > max_k
    · rw [if_pos hmax]
      exact hall1
    rw [if_neg hmax]
    rcases next_sources_spec the_cliques (k + 1) level1 post.wf post.N_eq found [] []
      (components.empty.setN the_cliques.length) (by simpa using post.found_nodup)
      (nextInv_init the_cliques (k + 1) level1) with herr | ⟨srcs1, nl1, hrun, inv⟩
    · rw [herr]
      exact hall1
    rw [hrun]
    simp only
    obtain ⟨entry1, _⟩ := next_entry the_cliques k srcs found srcs1 level level1 nl1 entry
      post (by simpa using inv)
    exact ih (k + 1) srcs1 nl1 _ (by omega) entry1 hall1

/-- The loop over the levels that ends without an error has completed every level. -/
theorem percolation_levels_complete (l : Nat) (h : Int → Nat) (the_cliques : List clique)
    (P C max_k : Nat) :
    ∀ (n k : Nat) (srcs : List Int) (level : components) (completed : List Level),
      k + n ≤ max_k + 1 →
      (percolation_levels l h the_cliques P C max_k (List.range' k n) srcs level
        completed).2 = none →
      (percolation_levels l h the_cliques P C max_k (List.range' k n) srcs level
        completed).1.length = completed.length + n := by
  intro n
  induction n with
  | zero =>
    intro k srcs level completed _ _
    rfl
  | succ n ih =>
    intro k srcs level completed hkn
    rw [List.range'_succ]
    unfold percolation_levels
    dsimp only
    cases h1 : one_k [] srcs level (k - 1) the_cliques P C
        (populate the_cliques (k - 1) P (List.range C)
          (intersecting_clique_finder.create l h P)) with
    | error e => simp
    | ok r1 =>
      obtain ⟨found, level1⟩ := r1
      dsimp only
      cases h2 : write_all_communities_for_this_k level1 the_cliques found with
      | error e => simp
      | ok lines =>
        dsimp only
        by_cases hmax : k + 1 > max_k
        · rw [if_pos hmax]
          intro _
          have : n = 0 := by omega
          rw [this]
          simp
        rw [if_neg hmax]
        cases h3 : next_sources the_cliques (k + 1) level1 found []
            (components.empty.setN C) with
        | error e => simp
        | ok r3 =>
          obtain ⟨srcs1, nl1⟩ := r3
          dsimp only
          intro hnone
          rw [ih (k + 1) srcs1 nl1 _ (by omega) hnone, List.length_append,
            List.length_singleton]
          omega
/-- The whole run on at least two distinct maximal cliques: what holds of every level
at which `one_k` returns and the lines are written holds of every level that is
completed. -/
theorem percolation_forall (Q : Level → Prop) (l : Nat) (h : Int → Nat) (min_k max_k : Nat)
    (the_cliques : List clique) (hl : 0 < l) (hC : 2 ≤ the_cliques.length)
    (hdm : DistinctMaximal the_cliques)
    (hQ : ∀ (P k : Nat) (isf : intersecting_clique_finder) (srcs : List Int)
      (level : components) (found : List Int) (level1 : components) (lines : List (List Int)),
      2 ≤ k → LevelSetting the_cliques (k - 1) P isf →
      OneKEntry the_cliques (k - 1) srcs level →
      one_k [] srcs level (k - 1) the_cliques P the_cliques.length isf = .ok (found, level1) →
      OneKPost the_cliques (k - 1) srcs level found level1 →
      write_all_communities_for_this_k level1 the_cliques found = .ok lines →
      Q ⟨k, found, level1, lines⟩) :
    ∀ L ∈ (do_clique_percolation_variant_5b l h min_k max_k the_cliques).1, Q L := by
  unfold do_clique_percolation_variant_5b
  by_cases h1 : the_cliques.length > 2147483647
  · rw [if_pos h1]
    simp
  rw [if_neg h1]
  dsimp only
  rw [if_neg (by omega)]
  by_cases h344 : min_k > 0 ∧ min_k ≤ max_k ∧ the_cliques.length > 1
  swap
  · rw [if_pos h344]
    simp
  rw [if_neg (not_not.2 h344)]
  cases hp : power_up_loop 64 1 (the_cliques.length : Int) with
  | error e =>
    dsimp only
    simp
  | ok power_up =>
    dsimp only
    by_cases h349 : power_up > 0
    swap
    · rw [if_pos h349]
      simp
    rw [if_neg (not_not.2 h349)]
    obtain ⟨hP1, hP3, hP2⟩ := power_up_positive the_cliques.length power_up hp h349
    rcases hP2 with hP2 | hP2
    swap
    · -- the tree of `2^31` branches does not fit 32 bits
      have hn : max_k + 1 - min_k = (max_k - min_k) + 1 := by omega
      rw [hn, List.range'_succ]
      unfold percolation_levels
      dsimp only
      have hone : ∀ (srcs : List Int) (level : components) (isf : intersecting_clique_finder),
          one_k [] srcs level (min_k - 1) the_cliques power_up.toNat the_cliques.length isf
            = .error .length_error := by
        intro srcs level isf
        have hbig : 2 * power_up.toNat > 2147483647 := by omega
        unfold one_k assigned_branches_t.create
        simp [hbig]
      rw [hone]
      simp
    obtain ⟨hwf0, hN0, hcomp0⟩ := lowest_level_spec the_cliques.length
    have htop : (components.empty.setN the_cliques.length).top_empty_component = 0 := rfl
    have hmem0 : ((List.range the_cliques.length).foldl
        (fun level c => level.move_node c
          (components.empty.setN the_cliques.length).top_empty_component)
        (components.empty.setN the_cliques.length)).members_of 0 ≠ [] := by
      intro hemp
      have := (hwf0.mem_iff 0 0 (le_refl 0)).2 ⟨by rw [hN0]; omega, hcomp0 0 (by omega)⟩
      rw [hemp] at this
      exact absurd this (by simp)
    by_cases hk : 2 ≤ min_k
    · have entry : OneKEntry the_cliques (min_k - 1) [0] ((List.range the_cliques.length).foldl
          (fun level c => level.move_node c
            (components.empty.setN the_cliques.length).top_empty_component)
          (components.empty.setN the_cliques.length)) := by
        refine ⟨hwf0, hN0, List.nodup_singleton 0, ?_, ?_, ?_⟩
        · intro s hs
          have : s = 0 := by simpa using hs
          rw [this]
          exact ⟨le_refl 0, hmem0⟩
        · intro c hc _
          rw [hcomp0 c hc]
          simp
        · intro a ha b hb _ _ hne
          rw [hcomp0 a ha, hcomp0 b hb] at hne
          exact absurd rfl hne
      exact percolation_levels_forall Q l h the_cliques power_up.toNat max_k hl hdm hP1
        hP2 hP3 (hQ power_up.toNat) (max_k + 1 - min_k) min_k [0] _ [] hk entry (by simp)
    · -- the first level has the threshold `0`
      have hmin : min_k = 1 := by omega
      have hn : max_k + 1 - min_k = (max_k - 1) + 1 := by omega
      rw [hmin] at hn ⊢
      rw [hn, List.range'_succ]
      unfold percolation_levels
      dsimp only
      obtain ⟨_, hisf, _, _⟩ := populate_spec the_cliques 0 power_up.toNat
        (List.range the_cliques.length)
        (intersecting_clique_finder.create l h power_up.toNat)
        (create_wellFormed l h power_up.toNat hl)
      obtain ⟨e, he, hne⟩ := one_k_zero the_cliques power_up.toNat _ hisf hP3 hP2 hC
        (distinct_maximal_nonempty the_cliques hdm hC) 0 _ hwf0 hN0 (le_refl 0) hmem0
      have he2 : one_k [] [(components.empty.setN the_cliques.length).top_empty_component]
          ((List.range the_cliques.length).foldl
            (fun level c => level.move_node c
              (components.empty.setN the_cliques.length).top_empty_component)
            (components.empty.setN the_cliques.length)) (1 - 1) the_cliques power_up.toNat
          the_cliques.length (populate the_cliques (1 - 1) power_up.toNat
            (List.range the_cliques.length)
            (intersecting_clique_finder.create l h power_up.toNat)) = .error e := he
      rw [he2]
      dsimp only
      simp

/-- The whole run on at least two distinct maximal cliques: in every level that is
completed the found communities are the connected components of the overlap graph. -/
theorem percolation_percolated (l : Nat) (h : Int → Nat) (min_k max_k : Nat)
    (the_cliques : List clique) (hl : 0 < l) (hC : 2 ≤ the_cliques.length)
    (hdm : DistinctMaximal the_cliques) :
    ∀ L ∈ (do_clique_percolation_variant_5b l h min_k max_k the_cliques).1,
      L.Percolated the_cliques :=
  percolation_forall (fun L => L.Percolated the_cliques) l h min_k max_k the_cliques hl hC hdm
    (fun P k isf srcs level found level1 lines hk hset entry hok post _ =>
      level_percolated the_cliques k P hk isf hset srcs level entry found level1 hok post lines)

/-- A run on at least two cliques that ends without an error has completed the levels
from `min_k` to `max_k`. -/
theorem percolation_complete (l : Nat) (h : Int → Nat) (min_k max_k : Nat)
    (the_cliques : List clique) (hC : 2 ≤ the_cliques.length)
    (hnone : (do_clique_percolation_variant_5b l h min_k max_k the_cliques).2 = none) :
    (do_clique_percolation_variant_5b l h min_k max_k the_cliques).1.length
      = max_k + 1 - min_k := by
  unfold do_clique_percolation_variant_5b at hnone ⊢
  by_cases h1 : the_cliques.length > 2147483647
  · rw [if_pos h1] at hnone
    simp at hnone
  rw [if_neg h1] at hnone ⊢
  dsimp only at hnone ⊢
  rw [if_neg (by omega)] at hnone ⊢
  by_cases h344 : min_k > 0 ∧ min_k ≤ max_k ∧ the_cliques.length > 1
  swap
  · rw [if_pos h344] at hnone
    simp at hnone
  rw [if_neg (not_not.2 h344)] at hnone ⊢
  cases hp : power_up_loop 64 1 (the_cliques.length : Int) with
  | error e =>
    rw [hp] at hnone
    simp at hnone
  | ok power_up =>
    rw [hp] at hnone
    dsimp only at hnone ⊢
    by_cases h349 : power_up > 0
    swap
    · rw [if_pos h349] at hnone
      simp at hnone
    rw [if_neg (not_not.2 h349)] at hnone ⊢
    have := percolation_levels_complete l h the_cliques power_up.toNat the_cliques.length max_k
      (max_k + 1 - min_k) min_k _ _ [] (by omega) hnone
    rw [this]
    simp

/-! ## C4: the communities of a level and the overlap graph -/

/-- Every line that `write_all_communities_for_this_k` writes holds vertices of the
cliques of one found community only. -/
theorem write_all_communities_ok_lines (level : components) (the_cliques : List clique) :
    ∀ (found : List Int) (lines : List (List Int)),
      write_all_communities_for_this_k level the_cliques found = .ok lines →
      ∀ line ∈ lines, ∃ f ∈ found, ∀ v ∈ line,
        ∃ c ∈ level.members_of f, v ∈ the_cliques.getD c [] := by
  intro found
  induction found with
  | nil =>
    intro lines h
    simp only [write_all_communities_for_this_k, Except.ok.injEq] at h
    rw [← h]
    simp
  | cons f rest ih =>
    intro lines h
    unfold write_all_communities_for_this_k at h
    cases hg : level.get_members f with
    | error e => rw [hg] at h; simp at h
    | ok ms =>
      rw [hg] at h
      dsimp only at h
      obtain ⟨_, _, hms⟩ := get_members_ok_iff level f ms hg
      split_ifs at h with hall
      cases hw : write_all_communities_for_this_k level the_cliques rest with
      | error e => rw [hw] at h; simp at h
      | ok lines1 =>
        rw [hw] at h
        simp only [Except.ok.injEq] at h
        rw [← h]
        intro line hline
        rcases List.mem_cons.1 hline with e | hl1
        · refine ⟨f, by simp, ?_⟩
          intro v hv
          rw [e] at hv
          obtain ⟨_, h2⟩ := nodes_of_members_spec the_cliques ms [] List.nodup_nil
          rcases (h2 v).1 hv with h3 | ⟨c, hc, hvc⟩
          · exact absurd h3 (by simp)
          · exact ⟨c, by rw [← hms]; exact hc, hvc⟩
        · obtain ⟨f1, hf1, hv1⟩ := ih lines1 hw line hl1
          exact ⟨f1, by simp [hf1], hv1⟩

/-- Two vertices of a clique of the graph are reached from each other. -/
theorem clique_reachable (g : SimpleIntGraph) (K : List Int) (hK : IsClique g K)
    (u v : Int) (hu : u ∈ K) (hv : v ∈ K) : Reachable g u v := by
  by_cases e : u = v
  · rw [e]
    exact Relation.ReflTransGen.refl
  · exact Relation.ReflTransGen.single (hK u hu v hv e)

/-- Along a path of the overlap graph of a level `k ≥ 2`, whose cliques are cliques of
the graph, every vertex of the last clique is reached from every vertex of the
first. -/
theorem joined_reachable (g : SimpleIntGraph) (the_cliques : List clique)
    (hcl : ∀ c, c < the_cliques.length → IsClique g (the_cliques.getD c []))
    (k : Nat) (hk : 2 ≤ k) (a b : Nat) (hj : Joined the_cliques k a b) :
    ∀ u ∈ the_cliques.getD a [], ∀ v ∈ the_cliques.getD b [], Reachable g u v := by
  unfold Joined at hj
  induction hj with
  | refl =>
    intro u hu v hv
    by_cases ha : a < the_cliques.length
    · exact clique_reachable g _ (hcl a ha) u v hu hv
    · rw [List.getD_eq_default _ _ (by omega)] at hu
      exact absurd hu (by simp)
  | @tail c d _ hcd ih =>
    intro u hu v hv
    obtain ⟨_, hd, _, _, hov⟩ := hcd
    have hne : (the_cliques.getD c []).filter (fun x => decide (x ∈ the_cliques.getD d []))
        ≠ [] := by
      intro e
      rw [e] at hov
      simp only [List.length_nil] at hov
      omega
    obtain ⟨w, hw⟩ := List.exists_mem_of_ne_nil _ hne
    rw [List.mem_filter] at hw
    have hwd : w ∈ the_cliques.getD d [] := by simpa using hw.2
    exact Relation.ReflTransGen.trans (ih u hu w hw.1)
      (clique_reachable g _ (hcl d hd) w v hwd hv)

/-- The whole run on at least two distinct maximal cliques: every level that is
completed has `k ≥ 2`, its lines are those of its found communities, and every found
community holds a clique to which each of its cliques is joined by a path. -/
theorem percolation_seedJoined (l : Nat) (h : Int → Nat) (min_k max_k : Nat)
    (the_cliques : List clique) (hl : 0 < l) (hC : 2 ≤ the_cliques.length)
    (hdm : DistinctMaximal the_cliques) :
    ∀ L ∈ (do_clique_percolation_variant_5b l h min_k max_k the_cliques).1,
      L.SeedJoined the_cliques :=
  percolation_forall (fun L => L.SeedJoined the_cliques) l h min_k max_k the_cliques hl hC hdm
    (fun P k isf srcs level found level1 lines hk hset entry hok post hlines => by
      have hjoin := one_k_joined (k - 1) the_cliques hdm P isf hset.isf_P hset.P_pos hset.C_le
        hset.P_le srcs level entry.wf entry.N_eq found level1 hok
      have hk1 : k - 1 + 1 = k := by omega
      rw [hk1] at hjoin
      exact ⟨hk, post.wf, post.N_eq, fun f hf => (post.found_nonempty f hf).1, hlines, hjoin⟩)

/-- A completed level on cliques of the graph: the vertices of a line are reached from
each other. -/
theorem level_connected (g : SimpleIntGraph) (the_cliques : List clique)
    (hdm : DistinctMaximal the_cliques)
    (hcl : ∀ c, c < the_cliques.length → IsClique g (the_cliques.getD c []))
    (L : Level) (hL : L.SeedJoined the_cliques) :
    ∀ line ∈ L.written, ∀ u ∈ line, ∀ v ∈ line, Reachable g u v := by
  obtain ⟨hk, hwf, hN, hf0, hw, hj⟩ := hL
  intro line hline u hu v hv
  obtain ⟨f, hf, hall⟩ := write_all_communities_ok_lines _ the_cliques _ _ hw line hline
  obtain ⟨a, ha, hua⟩ := hall u hu
  obtain ⟨b, hb, hvb⟩ := hall v hv
  obtain ⟨haN, haf⟩ := (hwf.mem_iff f a (hf0 f hf)).1 ha
  obtain ⟨hbN, hbf⟩ := (hwf.mem_iff f b (hf0 f hf)).1 hb
  obtain ⟨seed, hseed⟩ := hj f hf
  have h1 := hseed a (by rw [← hN]; exact haN) haf
  have h2 := hseed b (by rw [← hN]; exact hbN) hbf
  exact joined_reachable g the_cliques hcl L.k hk a b
    (Relation.ReflTransGen.trans (joined_symm the_cliques hdm L.k _ _ h1) h2) u hua v hvb

/-- The run on distinct maximal cliques that are cliques of the graph: in every level
that is completed, the vertices of a line are reached from each other. -/
theorem percolation_connected (g : SimpleIntGraph) (l : Nat) (h : Int → Nat)
    (min_k max_k : Nat) (the_cliques : List clique) (hl : 0 < l)
    (hdm : DistinctMaximal the_cliques)
    (hcl : ∀ c, c < the_cliques.length → IsClique g (the_cliques.getD c [])) :
    ∀ L ∈ (do_clique_percolation_variant_5b l h min_k max_k the_cliques).1,
      ∀ line ∈ L.written, ∀ u ∈ line, ∀ v ∈ line, Reachable g u v := by
  by_cases hC : 2 ≤ the_cliques.length
  · intro L hL
    exact level_connected g the_cliques hdm hcl L
      (percolation_seedJoined l h min_k max_k the_cliques hl hC hdm L hL)
  · have : (do_clique_percolation_variant_5b l h min_k max_k the_cliques).1 = [] := by
      unfold do_clique_percolation_variant_5b
      rw [if_neg (by omega)]
      dsimp only
      by_cases h2 : the_cliques.length = 1
      · rw [if_pos h2]
      · rw [if_neg h2, if_pos (by omega)]
    rw [this]
    simp

/-- The cliques that the enumeration delivers are cliques of the graph. -/
theorem cliquesToVector_cliques (g : SimpleIntGraph) (hG : GraphInvariants g) (m : Nat)
    (hm : 3 ≤ m) :
    ∀ c, c < (cliquesToVector g m []).1.length →
      IsClique g ((cliquesToVector g m []).1.getD c []) := by
  rw [cliquesToVector_eq g hG m hm]
  simp only [List.nil_append]
  intro c hc
  have hmem : (deliveries g m (List.range (numNodes g))).getD c []
      ∈ deliveries g m (List.range (numNodes g)) := by
    rw [List.getD_eq_getElem _ _ hc]
    exact List.getElem_mem hc
  obtain ⟨v, _, S, hcS, _, _, hmax, _⟩ :=
    deliveries_sound g hG m _ (fun v hv => List.mem_range.1 hv) _ hmem
  rw [hcS]
  intro x hx y hy hxy
  rw [mem_insertionSort] at hx hy
  exact hmax.2.1 x hx y hy hxy

/-! ## C18: communities and the connected components of the graph -/

end MaximalCliques
